import Mathlib

/-!
# Boolean retrieval engine: shallow embedding

Data model.  A `std::string` is the list of its bytes (`Str`), a
`std::vector<int>` is a `List Int`, a `std::u16string` is a list of code
units.  A C++ loop over a vector with a cursor is a recursion over the part of
the vector that the cursor has not passed yet; where the recursion is not
structural the loop carries a fuel that bounds its iterations.
-/

namespace InfSearch

/-- Bytes of a `std::string`. -/
abbrev Str := List Nat

/-! ## b_srch.cpp: set algebra on posting lists -/

/-- Loop of `BooleanSearch::opAnd`: `a` and `b` are the parts of the two
vectors from the cursors `i` and `j` on; each iteration advances a cursor. -/
def opAndLoop : Nat → List Int → List Int → List Int
  | 0, _, _ => []
  | _ + 1, [], _ => []
  | _ + 1, _ :: _, [] => []
  | n + 1, x :: xs, y :: ys =>
    if x = y then x :: opAndLoop n xs ys
    else if x < y then opAndLoop n xs (y :: ys)
    else opAndLoop n (x :: xs) ys

/-- Source function `BooleanSearch::opAnd`. -/
def opAnd (a b : List Int) : List Int := opAndLoop (a.length + b.length) a b

/-- Loop of `BooleanSearch::opOr`. -/
def opOrLoop : Nat → List Int → List Int → List Int
  | 0, _, _ => []
  | _ + 1, [], [] => []
  | n + 1, x :: xs, [] => x :: opOrLoop n xs []
  | n + 1, [], y :: ys => y :: opOrLoop n [] ys
  | n + 1, x :: xs, y :: ys =>
    if x < y then x :: opOrLoop n xs (y :: ys)
    else if y < x then y :: opOrLoop n (x :: xs) ys
    else x :: opOrLoop n xs ys

/-- Source function `BooleanSearch::opOr`. -/
def opOr (a b : List Int) : List Int := opOrLoop (a.length + b.length) a b

/-- Loop of `BooleanSearch::opNot`. -/
def opNotLoop : Nat → List Int → List Int → List Int
  | 0, _, _ => []
  | _ + 1, [], _ => []
  | n + 1, x :: xs, [] => x :: opNotLoop n xs []
  | n + 1, x :: xs, y :: ys =>
    if x < y then x :: opNotLoop n xs (y :: ys)
    else if x = y then opNotLoop n xs ys
    else opNotLoop n (x :: xs) ys

/-- Source function `BooleanSearch::opNot`. -/
def opNot (u b : List Int) : List Int := opNotLoop (u.length + b.length) u b

end InfSearch

namespace InfSearch

/-! ## Text literals and the C library -/

/-- UTF-8 bytes of one character (the encoding of the source files' string
literals). -/
def utf8Char (c : Char) : Str :=
  let n := c.toNat
  if n < 0x80 then [n]
  else if n < 0x800 then [0xC0 + n / 64, 0x80 + n % 64]
  else if n < 0x10000 then [0xE0 + n / 4096, 0x80 + n / 64 % 64, 0x80 + n % 64]
  else [0xF0 + n / 262144, 0x80 + n / 4096 % 64, 0x80 + n / 64 % 64, 0x80 + n % 64]

/-- Bytes of a string literal. -/
def bytes (s : String) : Str := s.toList.flatMap utf8Char

/-- Code units of a `u"..."` literal of characters below U+10000. -/
def u16 (s : String) : List Nat := s.toList.map Char.toNat

/-- Function `std::isspace` of the C library, in the "C" locale (the program
never sets another): space and the five controls `\t \n \v \f \r`. -/
def isspace (c : Nat) : Bool := c == 32 || (9 ≤ c && c ≤ 13)

/-- Function `std::isdigit` of the C library, in the "C" locale. -/
def isdigit (c : Nat) : Bool := 48 ≤ c && c ≤ 57

/-- Function `std::isalpha` of the C library, in the "C" locale. -/
def isalpha (c : Nat) : Bool := (65 ≤ c && c ≤ 90) || (97 ≤ c && c ≤ 122)

/-- Function `std::isalnum` of the C library, in the "C" locale. -/
def isalnum (c : Nat) : Bool := isalpha c || isdigit c

/-- Function `std::tolower` of the C library, in the "C" locale. -/
def tolower (c : Nat) : Nat := if 65 ≤ c ∧ c ≤ 90 then c + 32 else c

/-- Function `std::toupper` of the C library, in the "C" locale. -/
def toupper (c : Nat) : Nat := if 97 ≤ c ∧ c ≤ 122 then c - 32 else c

/-! ## tokenizer.cpp

A position `i` in the input is the part of the input from `i` on. -/

namespace Tokenizer

/-- Source function `Tokenizer::asciiLower`. -/
def asciiLower (c : Nat) : Nat := tolower c

/-- Source function `Tokenizer::isAsciiWord`. -/
def isAsciiWord (c : Nat) : Bool := isalnum c

/-- Source function `Tokenizer::startsWith(s, i, lit)`; `s` is the input from `i` on. -/
def startsWith : Str → Str → Bool
  | _, [] => true
  | [], _ :: _ => false
  | c :: s, l :: lit => if c ≠ l then false else startsWith s lit

/-- Source function `Tokenizer::isUrlStart`. -/
def isUrlStart (s : Str) : Bool :=
  startsWith s (bytes "http://") || startsWith s (bytes "https://") || startsWith s (bytes "www.")

/-- Source function `Tokenizer::isEmailStartOrInside`; called with `i < s.size()` only. -/
def isEmailStartOrInside : Str → Bool
  | [] => false
  | c :: _ => c == 64

/-- Source function `Tokenizer::skipUntilWhitespace`: the input from the returned position on. -/
def skipUntilWhitespace : Str → Str
  | [] => []
  | c :: s => if isspace c then c :: s else skipUntilWhitespace s

/-- Source function `Tokenizer::normalizeCyr2`: `some (nLead, nTrail)` when it returns true. -/
def normalizeCyr2 (lead trail : Nat) : Option (Nat × Nat) :=
  if lead = 0xD0 ∧ trail = 0x81 then some (0xD0, 0xB5)
  else if lead = 0xD1 ∧ trail = 0x91 then some (0xD0, 0xB5)
  else if lead = 0xD0 ∧ trail ≥ 0x90 ∧ trail ≤ 0xAF then some (0xD0, (trail + 0x20) % 256)
  else if lead = 0xD0 ∧ trail ≥ 0xB0 ∧ trail ≤ 0xBF then some (lead, trail)
  else if lead = 0xD1 ∧ trail ≥ 0x80 ∧ trail ≤ 0x8F then some (lead, trail)
  else none

/-- Source type `Tokenizer::CpType`. -/
inductive CpType where
  | Word
  | Joiner
  | Other
  deriving DecidableEq, Repr

/-- Source type `Tokenizer::Cp`, the fields that the tokenizer reads (`isDigit`,
`isLetter`, `isJoinerHyphen`, `isJoinerApos` are written and never read). -/
structure Cp where
  type : CpType
  b1 : Nat
  b2 : Nat
  bytes : Nat
  chars : Nat
  deriving DecidableEq, Repr

/-- The three-byte joiners of `Tokenizer::readCp` (`c == 0xE2 && i + 2 < s.size()`);
`none` when control leaves that block without a return. -/
def readCpE2 (c : Nat) (rest : Str) : Option Cp :=
  match rest with
  | c2 :: c3 :: _ =>
    if c = 0xE2 then
      if c2 = 0x80 ∧ (c3 = 0x93 ∨ c3 = 0x94) then some ⟨CpType.Joiner, 45, 0, 3, 1⟩
      else if c2 = 0x80 ∧ c3 = 0x99 then some ⟨CpType.Joiner, 39, 0, 3, 1⟩
      else none
    else none
  | _ => none

/-- The two-byte Cyrillic case of `Tokenizer::readCp`
(`(c == 0xD0 || c == 0xD1) && i + 1 < s.size()`). -/
def readCpCyr (c : Nat) (rest : Str) : Option Cp :=
  match rest with
  | c2 :: _ =>
    if c = 0xD0 ∨ c = 0xD1 then
      match normalizeCyr2 c c2 with
      | some (n1, n2) => some ⟨CpType.Word, n1, n2, 2, 1⟩
      | none => some ⟨CpType.Other, 0, 0, 2, 0⟩
    else none
  | [] => none

/-- Source function `Tokenizer::readCp(s, i)`, called with `i < s.size()` only. -/
def readCp : Str → Cp
  | [] => ⟨CpType.Other, 0, 0, 1, 0⟩
  | c :: rest =>
    if c < 128 then
      if c = 45 then ⟨CpType.Joiner, 45, 0, 1, 1⟩
      else if c = 39 then ⟨CpType.Joiner, 39, 0, 1, 1⟩
      else if isAsciiWord c then ⟨CpType.Word, asciiLower c, 0, 1, 1⟩
      else ⟨CpType.Other, 0, 0, 1, 0⟩
    else
      match readCpE2 c rest with
      | some cp => cp
      | none =>
        match readCpCyr c rest with
        | some cp => cp
        | none => ⟨CpType.Other, 0, 0, 1, 0⟩

/-- Local variables of `Tokenizer::tokenize`. -/
structure TState where
  out : List Str
  token : Str
  tokenFlat : Str
  parts : List Str
  part : Str
  tokenChars : Nat
  partChars : Nat
  tooLong : Bool
  hasAny : Bool
  deriving DecidableEq, Repr

/-- The lambda `flushPart` of `Tokenizer::tokenize`. -/
def flushPart (st : TState) : TState :=
  { st with
    parts := if st.partChars ≥ 2 ∧ st.partChars ≤ 50 then st.parts ++ [st.part] else st.parts
    part := []
    partChars := 0 }

/-- The lambda `flushToken` of `Tokenizer::tokenize`. -/
def flushToken (st : TState) : TState :=
  if !st.hasAny then st
  else
    let st1 := flushPart st
    let out1 :=
      if !st1.tooLong ∧ st1.tokenChars ≥ 2 ∧ st1.tokenChars ≤ 50 then st1.out ++ [st1.token]
      else st1.out
    let out2 :=
      if !st1.tooLong ∧ st1.tokenFlat ≠ st1.token ∧ st1.tokenFlat.length > 0 then
        if st1.tokenFlat.length ≥ 2 then out1 ++ [st1.tokenFlat] else out1
      else out1
    { out := out2 ++ st1.parts
      token := []
      tokenFlat := []
      parts := []
      part := st1.part
      tokenChars := 0
      partChars := st1.partChars
      tooLong := false
      hasAny := false }

/-- Bytes that a Word code point appends: `b1`, and `b2` when `bytes == 2`. -/
def cpBytes (cp : Cp) : Str := if cp.bytes = 2 then [cp.b1, cp.b2] else [cp.b1]

/-- Body of the main loop of `Tokenizer::tokenize` for a Word code point. -/
def stepWord (cp : Cp) (st : TState) : TState :=
  { st with
    hasAny := true
    token := if !st.tooLong then st.token ++ cpBytes cp else st.token
    tokenFlat := if !st.tooLong then st.tokenFlat ++ cpBytes cp else st.tokenFlat
    part := st.part ++ cpBytes cp
    tokenChars := st.tokenChars + 1
    partChars := st.partChars + 1
    tooLong := if st.tokenChars + 1 > 50 then true else st.tooLong }

/-- Body of the main loop of `Tokenizer::tokenize` for a Joiner code point;
`after` is the input from `j = i + cp.bytes` on. -/
def stepJoiner (cp : Cp) (after : Str) (st : TState) : TState :=
  let nextIsWord : Bool :=
    match after with
    | [] => false
    | _ :: _ =>
      if !isUrlStart after && !isEmailStartOrInside after then
        (readCp after).type == CpType.Word
      else false
  if st.hasAny ∧ st.partChars > 0 ∧ nextIsWord then
    let st1 := { st with token := if !st.tooLong then st.token ++ [cp.b1] else st.token }
    let st2 := flushPart st1
    { st2 with
      tokenChars := st2.tokenChars + 1
      tooLong := if st2.tokenChars + 1 > 50 then true else st2.tooLong }
  else flushToken st

/-- Main loop of `Tokenizer::tokenize`; every iteration moves the position
forward, so the length of the input bounds the number of iterations. -/
def tokenizeLoop : Nat → Str → TState → TState
  | 0, _, st => st
  | _ + 1, [], st => st
  | n + 1, c :: rest, st =>
    let s := c :: rest
    if isUrlStart s then tokenizeLoop n (skipUntilWhitespace s) (flushToken st)
    else if isEmailStartOrInside s then tokenizeLoop n (skipUntilWhitespace s) (flushToken st)
    else
      let cp := readCp s
      if cp.type = CpType.Word then tokenizeLoop n (s.drop cp.bytes) (stepWord cp st)
      else if cp.type = CpType.Joiner then
        tokenizeLoop n (s.drop cp.bytes) (stepJoiner cp (s.drop cp.bytes) st)
      else tokenizeLoop n (s.drop cp.bytes) (flushToken st)

/-- Final pass of `Tokenizer::tokenize`; `seen` holds exactly the strings of
`uniq`. -/
def dedupPass : List Str → List Str → List Str
  | [], uniq => uniq
  | t :: out, uniq =>
    if t.length < 2 then dedupPass out uniq
    else if t.length > 200 then dedupPass out uniq
    else if t ∈ uniq then dedupPass out uniq
    else dedupPass out (uniq ++ [t])

/-- Source function `Tokenizer::tokenize`. -/
def tokenize (utf8 : Str) : List Str :=
  let st0 : TState := ⟨[], [], [], [], [], 0, 0, false, false⟩
  let st := flushToken (tokenizeLoop utf8.length utf8 st0)
  dedupPass st.out []

end Tokenizer

end InfSearch

namespace InfSearch

/-! ## stemmer.cpp

A `std::u16string` is the list of its code units.  A function that edits `w`
in place and returns `bool` returns `some` of the new `w` for `true` and
`none` (with `w` untouched) for `false`. -/

namespace Stemmer

/-- Constant `RU_A`. -/
def RU_A : Nat := 0x430

/-- Constant `RU_YA`. -/
def RU_YA : Nat := 0x44F

/-- Source function `Stemmer::hasCyrillic`. -/
def hasCyrillic (s : Str) : Bool := s.any fun c => c == 0xD0 || c == 0xD1

/-- Source function `Stemmer::toU16`. -/
def toU16 : Str → List Nat
  | [] => []
  | [c] => if c < 0x80 then [c] else []
  | c :: c2 :: rest =>
    if c < 0x80 then c :: toU16 (c2 :: rest)
    else if c &&& 0xE0 = 0xC0 ∧ c2 &&& 0xC0 = 0x80 then
      ((((c &&& 0x1F) <<< 6) ||| (c2 &&& 0x3F)) % 65536) :: toU16 rest
    else toU16 (c2 :: rest)

/-- Source function `Stemmer::fromU16`. -/
def fromU16 : List Nat → Str
  | [] => []
  | cp :: s =>
    if cp < 0x80 then cp :: fromU16 s
    else ((0xC0 ||| (cp >>> 6)) % 256) :: ((0x80 ||| (cp &&& 0x3F)) % 256) :: fromU16 s

/-- Source function `Stemmer::isVowel`. -/
def isVowel (ch : Nat) : Bool :=
  ch == 0x430 || ch == 0x435 || ch == 0x438 || ch == 0x43E || ch == 0x443 ||
  ch == 0x44B || ch == 0x44D || ch == 0x44E || ch == 0x44F

/-- Loop of `Stemmer::findRV` from index `i` on (`w` is the word from `i` on). -/
def findRVLoop : List Nat → Nat → Option Nat
  | [], _ => none
  | ch :: w, i => if isVowel ch then some (i + 1) else findRVLoop w (i + 1)

/-- Source function `Stemmer::findRV`. -/
def findRV (w : List Nat) : Nat := (findRVLoop w 0).getD w.length

/-- Loop of `Stemmer::findR1` from index `i` on. -/
def findR1Loop : List Nat → Nat → Bool → Option Nat
  | [], _, _ => none
  | ch :: w, i, seenVowel =>
    if isVowel ch then findR1Loop w (i + 1) true
    else if seenVowel then some (i + 1)
    else findR1Loop w (i + 1) seenVowel

/-- Source function `Stemmer::findR1`. -/
def findR1 (w : List Nat) (start : Nat) : Nat :=
  (findR1Loop (w.drop start) start false).getD w.length

/-- Source function `Stemmer::findR2`. -/
def findR2 (w : List Nat) : Nat := findR1 w (findR1 w 0)

/-- Source function `Stemmer::endsWith`. -/
def endsWith (w suf : List Nat) : Bool :=
  if w.length < suf.length then false
  else w.drop (w.length - suf.length) == suf

/-- Source function `Stemmer::removeSuffixInRegion`. -/
def removeSuffixInRegion (w : List Nat) (region : Nat) (suf : List Nat) : Option (List Nat) :=
  if w.length < suf.length then none
  else if w.length - suf.length < region then none
  else if !endsWith w suf then none
  else some (w.take (w.length - suf.length))

/-- Source function `Stemmer::removeAnySuffixInRegion`. -/
def removeAnySuffixInRegion (w : List Nat) (region : Nat) : List (List Nat) → Option (List Nat)
  | [] => none
  | suf :: sufs =>
    match removeSuffixInRegion w region suf with
    | some w1 => some w1
    | none => removeAnySuffixInRegion w region sufs

/-- Source function `Stemmer::removeIfPrecededByAY`. -/
def removeIfPrecededByAY (w : List Nat) (region : Nat) (suf : List Nat) : Option (List Nat) :=
  if !endsWith w suf then none
  else if w.length - suf.length < region then none
  else if w.length ≤ suf.length then none
  else
    let prev := w.getD (w.length - suf.length - 1) 0
    if prev ≠ RU_A ∧ prev ≠ RU_YA then none
    else some (w.take (w.length - suf.length))

/-- The loops `for (suf : ...) if (removeIfPrecededByAY(w, rv, suf)) break` of
`Stemmer::stemRu`. -/
def removeAnyIfPrecededByAY (w : List Nat) (region : Nat) : List (List Nat) → Option (List Nat)
  | [] => none
  | suf :: sufs =>
    match removeIfPrecededByAY w region suf with
    | some w1 => some w1
    | none => removeAnyIfPrecededByAY w region sufs

/-- Table `PG1`. -/
def PG1 : List (List Nat) := ["ив", "ивши", "ившись", "ыв", "ывши", "ывшись"].map u16

/-- Table `PG2`. -/
def PG2 : List (List Nat) := ["в", "вши", "вшись"].map u16

/-- Table `REF`. -/
def REF : List (List Nat) := ["ся", "сь"].map u16

/-- Table `ADJ`. -/
def ADJ : List (List Nat) :=
  ["ее", "ие", "ое", "ые", "ими", "ыми", "ей", "ий", "ой", "ый",
   "ем", "им", "ым", "его", "ого", "ему", "ому", "их", "ых", "ую", "юю", "ая", "яя", "ою",
   "ею"].map u16

/-- Table `PART1`. -/
def PART1 : List (List Nat) := ["ем", "нн", "вш", "ющ", "щ"].map u16

/-- Table `PART2`. -/
def PART2 : List (List Nat) := ["ивш", "ывш", "ующ"].map u16

/-- Table `VERB1`. -/
def VERB1 : List (List Nat) :=
  ["ла", "на", "ете", "йте", "ли", "й", "л", "ем", "н", "ло", "но", "ет", "ют", "ны", "ть",
   "ешь", "нно"].map u16

/-- Table `VERB2`. -/
def VERB2 : List (List Nat) :=
  ["ила", "ыла", "ена", "ейте", "уйте", "ите", "или", "ыли", "ей", "уй", "ил", "ыл", "им",
   "ым", "ен", "ило", "ыло", "ено", "ят", "ует", "уют", "ит", "ыт", "ены", "ить", "ыть",
   "ишь", "ую", "ю"].map u16

/-- Table `NOUN`. -/
def NOUN : List (List Nat) :=
  ["а", "ев", "ов", "ие", "ье", "е", "иями", "ями", "ами", "еи", "ии", "и", "ией", "ей",
   "ой", "ий", "й", "иям", "ям", "ием", "ем", "ам", "ом", "о", "у", "ах", "иях", "ях", "ы",
   "ь", "ию", "ью", "ю", "ия", "я"].map u16

/-- Table `SUPER`. -/
def SUPER : List (List Nat) := ["ейше", "ейш"].map u16

/-- The perfective gerund block of `Stemmer::stemRu`: `some` when `removed`
is true after it. -/
def stepGerund (w : List Nat) (rv : Nat) : Option (List Nat) :=
  match removeAnySuffixInRegion w rv PG1 with
  | some w1 => some w1
  | none => removeAnyIfPrecededByAY w rv PG2

/-- The block `if (adjRemoved) ... else ...` of `Stemmer::stemRu`, entered
after the reflexive ending has been tried. -/
def stepAdjVerbNoun (w : List Nat) (rv : Nat) : List Nat :=
  match removeAnySuffixInRegion w rv ADJ with
  | some w1 =>
    match removeAnySuffixInRegion w1 rv PART2 with
    | some w2 => w2
    | none => (removeAnyIfPrecededByAY w1 rv PART1).getD w1
  | none =>
    match removeAnySuffixInRegion w rv VERB2 with
    | some w1 => w1
    | none =>
      match removeAnyIfPrecededByAY w rv VERB1 with
      | some w1 => w1
      | none => (removeAnySuffixInRegion w rv NOUN).getD w

/-- The block `if (!removed) ...` of `Stemmer::stemRu`. -/
def stepMain (w : List Nat) (rv : Nat) : List Nat :=
  match stepGerund w rv with
  | some w1 => w1
  | none =>
    let w1 := (removeAnySuffixInRegion w rv REF).getD w
    stepAdjVerbNoun w1 rv

/-- The statement `if (endsWith(w, u"нн")) w.erase(w.size() - 1)`. -/
def dropDoubleN (w : List Nat) : List Nat :=
  if endsWith w (u16 "нн") then w.take (w.length - 1) else w

/-- The tail of `Stemmer::stemRu` from `removeSuffixInRegion(w, rv, u"и")` on. -/
def stepTail (w : List Nat) (rv r2 : Nat) : List Nat :=
  let w1 := (removeSuffixInRegion w rv (u16 "и")).getD w
  let w2 := (removeSuffixInRegion w1 r2 (u16 "ость")).getD w1
  let w3 :=
    match removeAnySuffixInRegion w2 rv SUPER with
    | some w3 => dropDoubleN w3
    | none => w2
  match removeSuffixInRegion w3 rv (u16 "ь") with
  | some w4 => w4
  | none => dropDoubleN w3

/-- Source function `Stemmer::stemRu`. -/
def stemRu (token : Str) : Str :=
  if !hasCyrillic token then token
  else
    let w := toU16 token
    if w.length < 2 then token
    else
      let rv := findRV w
      let r2 := findR2 w
      if rv ≥ w.length then token
      else fromU16 (stepTail (stepMain w rv) rv r2)

/-- Loop of `Stemmer::stemHyphenAposAware` over the bytes of the token, with
the locals `out` and `part`; at the end the last part is flushed. -/
def stemParts : Str → Str → Str → Str
  | [], out, part => if part ≠ [] then out ++ stemRu part else out
  | c :: token, out, part =>
    if c = 45 ∨ c = 39 then
      stemParts token ((if part ≠ [] then out ++ stemRu part else out) ++ [c]) []
    else stemParts token out (part ++ [c])

/-- Source function `Stemmer::stemHyphenAposAware`. -/
def stemHyphenAposAware (token : Str) : Str :=
  if !(token.any fun c => c == 45 || c == 39) then stemRu token
  else stemParts token [] []

/-- Source function `Stemmer::stem`. -/
def stem (token : Str) : Str := stemHyphenAposAware token

end Stemmer

end InfSearch

namespace InfSearch

/-! ## The C++ standard library: `std::sort`, `std::unique` -/

/-- Insert `x` before the first element that is not below it. -/
def sortInsert {α : Type} (lt : α → α → Bool) (x : α) : List α → List α
  | [] => [x]
  | y :: l => if lt y x then y :: sortInsert lt x l else x :: y :: l

/-- Function `std::sort(first, last)` of the C++ library: the range rearranged
into ascending order.  On `int` and on `std::string` elements that compare
equal are identical, so the result does not depend on the algorithm; this one
sorts by insertion. -/
def stdSort {α : Type} (lt : α → α → Bool) (l : List α) : List α :=
  l.foldr (sortInsert lt) []

/-- Idiom `v.erase(std::unique(v.begin(), v.end()), v.end())` of the C++
library: of every run of equal neighbours the first is kept. -/
def stdUnique {α : Type} [DecidableEq α] : List α → List α
  | [] => []
  | [x] => [x]
  | x :: y :: l => if x = y then stdUnique (y :: l) else x :: stdUnique (y :: l)

/-- Order `operator<` of `std::string`: lexicographic on the bytes. -/
def strLt : Str → Str → Bool
  | _, [] => false
  | [], _ :: _ => true
  | a :: s, b :: t => if a < b then true else if b < a then false else strLt s t

/-- Order `operator<` of `int`. -/
def intLt (a b : Int) : Bool := decide (a < b)

/-! ## hashtable.cpp

The vector `entries_` is the function from a slot number to the entry in that
slot, together with the length `cap` of the vector; slots from `cap` on are
never read.  `probeIndex` and `find` loop until they meet an empty slot or the
key: the loops carry `mask_ + 1` units of fuel, after which the cursor, which
only takes values up to `mask_`, has repeated a slot, so that `none` stands
for a loop that does not end. -/

/-- Source type `HashTable::State`. -/
inductive State where
  | EMPTY
  | FILLED
  deriving DecidableEq, Repr

/-- Source type `HashTable::Entry`. -/
structure Entry where
  state : State
  key : Str
  value : List Int
  deriving DecidableEq, Repr

/-- The value `Entry{}`. -/
def Entry.empty : Entry := ⟨State.EMPTY, [], []⟩

/-- Source type `HashTable`; `maxLoad_` is the constant 0.70. -/
structure HashTable where
  entries_ : Nat → Entry
  cap : Nat
  size_ : Nat
  mask_ : Nat

/-- Assignment to `entries_[idx]`. -/
def setEntry (entries : Nat → Entry) (idx : Nat) (e : Entry) : Nat → Entry :=
  fun i => if i = idx then e else entries i

/-- Loop of `nextPow2` on `size_t`; 64 doublings turn `p` into 0. -/
def nextPow2Loop : Nat → Nat → Nat → Nat
  | 0, p, _ => p
  | n + 1, p, x => if p < x then nextPow2Loop n ((p <<< 1) % 2 ^ 64) x else p

/-- Source function `nextPow2`, for `x` up to `2 ^ 63` (above that the loop of
the source does not end). -/
def nextPow2 (x : Nat) : Nat := nextPow2Loop 64 1 x

/-- Source function `HashTable::hash64` (FNV-1a on `uint64_t`). -/
def hash64 (s : Str) : Nat :=
  s.foldl (fun h c => ((h ^^^ c) * 1099511628211) % 2 ^ 64) 1469598103934665603

namespace HashTable

/-- Constructor `HashTable::HashTable(initialCapPow2)`. -/
def new (initialCapPow2 : Nat) : HashTable :=
  let cap := nextPow2 (max 8 initialCapPow2)
  { entries_ := fun _ => Entry.empty, cap := cap, size_ := 0, mask_ := cap - 1 }

/-- Loop of `HashTable::probeIndex`. -/
def probeLoop (t : HashTable) (key : Str) : Nat → Nat → Option Nat
  | 0, _ => none
  | fuel + 1, idx =>
    let e := t.entries_ idx
    if e.state = State.EMPTY then some idx
    else if e.key = key then some idx
    else probeLoop t key fuel ((idx + 1) &&& t.mask_)

/-- Source function `HashTable::probeIndex`. -/
def probeIndex (t : HashTable) (key : Str) : Option Nat :=
  probeLoop t key (t.mask_ + 1) (hash64 key &&& t.mask_)

/-- Body of the loop of `HashTable::rehash` for the old entry `e`. -/
def rehashStep (t : HashTable) (e : Entry) : Option HashTable :=
  if e.state ≠ State.FILLED then some t
  else
    match probeIndex t e.key with
    | none => none
    | some idx =>
      some { t with
        entries_ := setEntry t.entries_ idx ⟨State.FILLED, e.key, e.value⟩
        size_ := t.size_ + 1 }

/-- Loop of `HashTable::rehash` over the old slots `i, i + 1, ...` (`n` of
them). -/
def rehashLoop (old : Nat → Entry) : Nat → Nat → HashTable → Option HashTable
  | 0, _, t => some t
  | n + 1, i, t =>
    match rehashStep t (old i) with
    | none => none
    | some t1 => rehashLoop old n (i + 1) t1

/-- Source function `HashTable::rehash`. -/
def rehash (t : HashTable) (newCapPow2 : Nat) : Option HashTable :=
  rehashLoop t.entries_ t.cap 0
    { entries_ := fun _ => Entry.empty, cap := newCapPow2, size_ := 0, mask_ := newCapPow2 - 1 }

/-- Source function `HashTable::getOrInsert`: the table afterwards and the slot
of the returned reference.  The test `(double)(size_ + 1) /
(double)entries_.size() > maxLoad_` is `10 * (size_ + 1) > 7 * cap`: for a
capacity `2 ^ k` with `k ≤ 53` the quotient is exact, and no fraction with
that denominator lies between the `double` nearest to 0.70 and 7/10. -/
def getOrInsert (t : HashTable) (key : Str) : Option (HashTable × Nat) :=
  match (if 10 * (t.size_ + 1) > 7 * t.cap then rehash t (t.cap * 2) else some t) with
  | none => none
  | some t1 =>
    match probeIndex t1 key with
    | none => none
    | some idx =>
      if (t1.entries_ idx).state = State.EMPTY then
        some ({ t1 with
                entries_ := setEntry t1.entries_ idx ⟨State.FILLED, key, []⟩
                size_ := t1.size_ + 1 }, idx)
      else some (t1, idx)

/-- The call `push_back(v)` on the reference to the value in slot `idx`. -/
def pushBack (t : HashTable) (idx : Nat) (v : Int) : HashTable :=
  { t with
    entries_ := setEntry t.entries_ idx
      { t.entries_ idx with value := (t.entries_ idx).value ++ [v] } }

/-- Loop of `HashTable::find`: `some none` is `nullptr`, `some (some v)` a
pointer to the value `v`. -/
def findLoop (t : HashTable) (key : Str) : Nat → Nat → Option (Option (List Int))
  | 0, _ => none
  | fuel + 1, idx =>
    let e := t.entries_ idx
    if e.state = State.EMPTY then some none
    else if e.key = key then some (some e.value)
    else findLoop t key fuel ((idx + 1) &&& t.mask_)

/-- Source function `HashTable::find`. -/
def find (t : HashTable) (key : Str) : Option (Option (List Int)) :=
  findLoop t key (t.mask_ + 1) (hash64 key &&& t.mask_)

/-- Source function `HashTable::size`. -/
def size (t : HashTable) : Nat := t.size_

/-- Source function `HashTable::forEach`, for an `f` that only assigns to the
list it is given. -/
def forEach (t : HashTable) (f : Str → List Int → List Int) : HashTable :=
  { t with
    entries_ := fun i =>
      let e := t.entries_ i
      if i < t.cap ∧ e.state = State.FILLED then { e with value := f e.key e.value } else e }

end HashTable

/-! ## b_idx.cpp -/

/-- Source type `Document`. -/
structure Document where
  id : Int
  key : Str
  text : Str
  deriving DecidableEq, Repr

/-- Source type `BooleanIndex`. -/
structure BooleanIndex where
  docs_count_ : Nat
  all_docs_ : List Int
  table_ : HashTable

namespace BooleanIndex

/-- Constructor `BooleanIndex() = default`; the table has the default initial
capacity `1 << 20`. -/
def new : BooleanIndex :=
  { docs_count_ := 0, all_docs_ := [], table_ := HashTable.new (1 <<< 20) }

/-- The vector `terms` of `BooleanIndex::addDocument` before it is sorted. -/
def docTermsRaw (text : Str) : List Str :=
  (Tokenizer.tokenize text).filterMap fun t =>
    let term := Stemmer.stem t
    if term.length < 2 then none else some term

/-- The vector `terms` of `BooleanIndex::addDocument` after `std::sort` and
`std::unique`. -/
def docTerms (text : Str) : List Str := stdUnique (stdSort strLt (docTermsRaw text))

/-- Last loop of `BooleanIndex::addDocument`. -/
def addTerms (id : Int) : List Str → HashTable → Option HashTable
  | [], t => some t
  | term :: terms, t =>
    match HashTable.getOrInsert t term with
    | none => none
    | some (t1, idx) => addTerms id terms (HashTable.pushBack t1 idx id)

/-- Source function `BooleanIndex::addDocument`; `none` when a probe of the
table does not end. -/
def addDocument (idx : BooleanIndex) (doc : Document) : Option BooleanIndex :=
  match addTerms doc.id (docTerms doc.text) idx.table_ with
  | none => none
  | some t =>
    some { docs_count_ := max idx.docs_count_ (((doc.id + 1) % 2 ^ 64).toNat)
           all_docs_ := idx.all_docs_ ++ [doc.id]
           table_ := t }

/-- Source function `BooleanIndex::finalize`. -/
def finalize (idx : BooleanIndex) : BooleanIndex :=
  { idx with
    all_docs_ := stdUnique (stdSort intLt idx.all_docs_)
    table_ := HashTable.forEach idx.table_ fun _ lst => stdUnique (stdSort intLt lst) }

/-- Source function `BooleanIndex::postings`; `some none` is the `nullptr` for
which the shared empty list is returned.  On the tables that an index reaches
`find` returns (`HashTable.find_isSome`); the last case also covers the `none`
of a `find` that does not. -/
def postings (idx : BooleanIndex) (term : Str) : List Int :=
  match HashTable.find idx.table_ term with
  | some (some p) => p
  | _ => []

/-- Source function `BooleanIndex::allDocs`. -/
def allDocs (idx : BooleanIndex) : List Int := idx.all_docs_

/-- Source function `BooleanIndex::docsCount`. -/
def docsCount (idx : BooleanIndex) : Nat := idx.docs_count_

/-- Source function `BooleanIndex::termsCount`. -/
def termsCount (idx : BooleanIndex) : Nat := idx.table_.size

/-- A sequence of `addDocument` calls on a fresh index. -/
def addAll : List Document → BooleanIndex → Option BooleanIndex
  | [], idx => some idx
  | doc :: docs, idx =>
    match addDocument idx doc with
    | none => none
    | some idx1 => addAll docs idx1

/-- The index that `buildSmallIndex` of the tests makes of a list of documents:
`addDocument` for each of them in turn, then `finalize`. -/
def build (docs : List Document) : Option BooleanIndex :=
  (addAll docs BooleanIndex.new).map finalize

end BooleanIndex

end InfSearch

namespace InfSearch

/-! ## b_srch.cpp: lexer, postfix conversion, evaluation

The stacks `st` of `toRpn` and `evalRpn` are lists whose head is the top
(`st.back()`). -/

namespace BooleanSearch

/-- Source type `BooleanSearch::TokType`. -/
inductive TokType where
  | TERM
  | AND
  | OR
  | NOT
  | LPAREN
  | RPAREN
  deriving DecidableEq, Repr

/-- Source type `BooleanSearch::Tok`. -/
structure Tok where
  type : TokType
  val : Str
  deriving DecidableEq, Repr

/-- Source function `BooleanSearch::isOp`. -/
def isOp (t : TokType) : Bool := t == TokType.AND || t == TokType.OR || t == TokType.NOT

/-- Source function `BooleanSearch::prec`. -/
def prec (t : TokType) : Nat :=
  if t = TokType.NOT then 3 else if t = TokType.AND then 2 else if t = TokType.OR then 1 else 0

/-- Source function `isAsciiWord` of b_srch.cpp. -/
def isAsciiWord (s : Str) : Bool :=
  if s = [] then false else s.all fun c => decide (c < 128) && isalpha c

/-- Source function `upperAscii`. -/
def upperAscii (s : Str) : Str := s.map fun c => if c < 128 then toupper c else c

/-- The lambda `flush` of `BooleanSearch::lex`: the vector `raw` afterwards
(`buf` is empty afterwards in every case). -/
def lexFlush (raw : List Tok) (buf : Str) : List Tok :=
  if buf = [] then raw
  else if isAsciiWord buf ∧ upperAscii buf = bytes "AND" then raw ++ [⟨TokType.AND, []⟩]
  else if isAsciiWord buf ∧ upperAscii buf = bytes "OR" then raw ++ [⟨TokType.OR, []⟩]
  else if isAsciiWord buf ∧ upperAscii buf = bytes "NOT" then raw ++ [⟨TokType.NOT, []⟩]
  else
    raw ++ (Tokenizer.tokenize buf).filterMap fun t =>
      let term := Stemmer.stem t
      if term ≠ [] then some ⟨TokType.TERM, term⟩ else none

/-- First loop of `BooleanSearch::lex` over the bytes of the query, with the
locals `raw` and `buf`, and the last `flush()`. -/
def lexRaw : Str → List Tok → Str → List Tok
  | [], raw, buf => lexFlush raw buf
  | c :: q, raw, buf =>
    if c = 40 then lexRaw q (lexFlush raw buf ++ [⟨TokType.LPAREN, []⟩]) []
    else if c = 41 then lexRaw q (lexFlush raw buf ++ [⟨TokType.RPAREN, []⟩]) []
    else if isspace c then lexRaw q (lexFlush raw buf) []
    else lexRaw q raw (buf ++ [c])

/-- Body of the second loop of `BooleanSearch::lex` (implicit AND) for the
index `i`. -/
def lexNormStep (raw : List Tok) (norm : List Tok) (i : Nat) : List Tok :=
  let dflt : Tok := ⟨TokType.TERM, []⟩
  let norm1 := norm ++ [raw.getD i dflt]
  if i + 1 < raw.length then
    let a := (raw.getD i dflt).type
    let b := (raw.getD (i + 1) dflt).type
    let left := a == TokType.TERM || a == TokType.RPAREN
    let right := b == TokType.TERM || b == TokType.LPAREN || b == TokType.NOT
    if left && right then norm1 ++ [⟨TokType.AND, []⟩] else norm1
  else norm1

/-- Second loop of `BooleanSearch::lex`: `for (i = 0; i < raw.size(); i++)`. -/
def lexNorm (raw : List Tok) : List Tok :=
  (List.range raw.length).foldl (lexNormStep raw) []

/-- Source function `BooleanSearch::lex`. -/
def lex (q : Str) : List Tok := lexNorm (lexRaw q [] [])

/-- The loop of `BooleanSearch::toRpn` that pops operators before the operator
`tk` is pushed. -/
def popOps (tk : Tok) : List Tok → List Tok → List Tok × List Tok
  | out, [] => (out, [])
  | out, top :: st =>
    if isOp top.type ∧
        (prec top.type > prec tk.type ∨ (prec top.type = prec tk.type ∧ tk.type ≠ TokType.NOT))
    then popOps tk (out ++ [top]) st
    else (out, top :: st)

/-- The loop of `BooleanSearch::toRpn` that pops down to the nearest `LPAREN`
at an `RPAREN`. -/
def popToParen : List Tok → List Tok → List Tok × List Tok
  | out, [] => (out, [])
  | out, top :: st =>
    if top.type ≠ TokType.LPAREN then popToParen (out ++ [top]) st else (out, top :: st)

/-- Body of the main loop of `BooleanSearch::toRpn` on the pair `(out, st)`. -/
def toRpnStep (s : List Tok × List Tok) (tk : Tok) : List Tok × List Tok :=
  if tk.type = TokType.TERM then (s.1 ++ [tk], s.2)
  else if isOp tk.type then
    let r := popOps tk s.1 s.2
    (r.1, tk :: r.2)
  else if tk.type = TokType.LPAREN then (s.1, tk :: s.2)
  else if tk.type = TokType.RPAREN then
    let r := popToParen s.1 s.2
    match r.2 with
    | [] => r
    | top :: st => if top.type = TokType.LPAREN then (r.1, st) else r
  else s

/-- Source function `BooleanSearch::toRpn`; the last loop moves the whole
stack, top first, to the output. -/
def toRpn (toks : List Tok) : List Tok :=
  let r := toks.foldl toRpnStep ([], [])
  r.1 ++ r.2

/-- Body of the loop of `BooleanSearch::evalRpn` on the stack `st`. -/
def evalStep (idx : BooleanIndex) (st : List (List Int)) (tk : Tok) : List (List Int) :=
  if tk.type = TokType.TERM then idx.postings tk.val :: st
  else if tk.type = TokType.NOT then
    match st with
    | [] => [opNot idx.allDocs []]
    | a :: rest => opNot idx.allDocs a :: rest
  else if tk.type = TokType.AND then
    match st with
    | b :: a :: rest => opAnd a b :: rest
    | _ => [] :: st
  else if tk.type = TokType.OR then
    match st with
    | b :: a :: rest => opOr a b :: rest
    | _ => [] :: st
  else st

/-- Source function `BooleanSearch::evalRpn`. -/
def evalRpn (idx : BooleanIndex) (rpn : List Tok) : List Int :=
  match rpn.foldl (evalStep idx) [] with
  | [] => []
  | top :: _ => top

/-- Source function `BooleanSearch::search`. -/
def search (idx : BooleanIndex) (query : Str) : List Int :=
  evalRpn idx (toRpn (lex query))

end BooleanSearch

end InfSearch

namespace InfSearch

namespace BooleanSearch

/-! ## Query expressions (the reading of a query that the claims refer to) -/

/-- Abstract syntax of a boolean query. -/
inductive Expr where
  | term (v : Str)
  | not (e : Expr)
  | and (e₁ e₂ : Expr)
  | or (e₁ e₂ : Expr)
  deriving DecidableEq, Repr

/-- Denotation of a query over an index: a term is its posting list, NOT is
the complement in the universe. -/
def denote (idx : BooleanIndex) : Expr → List Int
  | Expr.term v => idx.postings v
  | Expr.not e => opNot idx.allDocs (denote idx e)
  | Expr.and e₁ e₂ => opAnd (denote idx e₁) (denote idx e₂)
  | Expr.or e₁ e₂ => opOr (denote idx e₁) (denote idx e₂)

/-- Token sequences generated by `E ::= TERM | NOT E | E AND E | E OR E | ( E )`. -/
inductive Gen : List Tok → Prop
  | term (tk : Tok) (h : tk.type = TokType.TERM) : Gen [tk]
  | not (tk : Tok) (h : tk.type = TokType.NOT) {s : List Tok} : Gen s → Gen (tk :: s)
  | and (tk : Tok) (h : tk.type = TokType.AND) {s t : List Tok} :
      Gen s → Gen t → Gen (s ++ tk :: t)
  | or (tk : Tok) (h : tk.type = TokType.OR) {s t : List Tok} :
      Gen s → Gen t → Gen (s ++ tk :: t)
  | paren (l r : Tok) (hl : l.type = TokType.LPAREN) (hr : r.type = TokType.RPAREN)
      {s : List Tok} : Gen s → Gen (l :: s ++ [r])

/-- Levels of the precedence grammar: primary, NOT level, AND level, OR level. -/
inductive Lvl where
  | P
  | N
  | A
  | O
  deriving DecidableEq, Repr

/-- Parsing with precedence NOT > AND > OR, AND and OR associating to the left
and NOT to the right:
`O ::= O OR A | A`, `A ::= A AND N | N`, `N ::= NOT N | P`, `P ::= TERM | ( O )`.
`Parses L s e` says that `s` is read at level `L` as the expression `e`. -/
inductive Parses : Lvl → List Tok → Expr → Prop
  | term (tk : Tok) (h : tk.type = TokType.TERM) : Parses Lvl.P [tk] (Expr.term tk.val)
  | paren (l r : Tok) (hl : l.type = TokType.LPAREN) (hr : r.type = TokType.RPAREN)
      {s : List Tok} {e : Expr} : Parses Lvl.O s e → Parses Lvl.P (l :: s ++ [r]) e
  | ofP {s : List Tok} {e : Expr} : Parses Lvl.P s e → Parses Lvl.N s e
  | not (tk : Tok) (h : tk.type = TokType.NOT) {s : List Tok} {e : Expr} :
      Parses Lvl.N s e → Parses Lvl.N (tk :: s) (Expr.not e)
  | ofN {s : List Tok} {e : Expr} : Parses Lvl.N s e → Parses Lvl.A s e
  | and (tk : Tok) (h : tk.type = TokType.AND) {s t : List Tok} {e₁ e₂ : Expr} :
      Parses Lvl.A s e₁ → Parses Lvl.N t e₂ → Parses Lvl.A (s ++ tk :: t) (Expr.and e₁ e₂)
  | ofA {s : List Tok} {e : Expr} : Parses Lvl.A s e → Parses Lvl.O s e
  | or (tk : Tok) (h : tk.type = TokType.OR) {s t : List Tok} {e₁ e₂ : Expr} :
      Parses Lvl.O s e₁ → Parses Lvl.A t e₂ → Parses Lvl.O (s ++ tk :: t) (Expr.or e₁ e₂)

/-- Operators that may lie on top of the stack when a phrase of level `L`
begins: those of precedence below `ctxBound L`. -/
def ctxBound : Lvl → Nat
  | Lvl.P => 4
  | Lvl.N => 4
  | Lvl.A => 2
  | Lvl.O => 1

/-- Least precedence of the operators that a phrase of level `L` leaves on the
stack. -/
def leftBound : Lvl → Nat
  | Lvl.P => 3
  | Lvl.N => 3
  | Lvl.A => 2
  | Lvl.O => 1

/-- The operators on top of the stack, down to the first token that is not an
operator, have precedence below `p`. -/
def Admits (p : Nat) : List Tok → Prop
  | [] => True
  | top :: st => isOp top.type = true → prec top.type < p ∧ Admits p st

end BooleanSearch

end InfSearch

namespace InfSearch

namespace HashTable

/-! ## Invariant of the hash table -/

/-- The probe for `key` ends at slot `i`: the slot is empty or holds the key. -/
def Stops (t : HashTable) (key : Str) (i : Nat) : Prop :=
  (t.entries_ i).state = State.EMPTY ∨ (t.entries_ i).key = key

/-- Number of filled slots among the first `n`. -/
def filledCount (entries : Nat → Entry) : Nat → Nat
  | 0 => 0
  | n + 1 => filledCount entries n + (if (entries n).state = State.FILLED then 1 else 0)

/-- Some slot in the table holds `key` with the value `v`. -/
def Has (t : HashTable) (key : Str) (v : List Int) : Prop :=
  ∃ i, i < t.cap ∧ t.entries_ i = ⟨State.FILLED, key, v⟩

/-- Shape of the table: the capacity is a power of two, at least 2, and `mask_`
is the capacity less one. -/
structure Shape (t : HashTable) : Prop where
  cap_pow : ∃ k, 1 ≤ k ∧ t.cap = 2 ^ k
  mask_eq : t.mask_ = t.cap - 1

/-- Structural invariant: the shape, every filled slot is the slot at which the
probe for its key ends, and `size_` counts the filled slots. -/
structure Inv (t : HashTable) : Prop where
  shape : Shape t
  probe_self : ∀ i, i < t.cap → (t.entries_ i).state = State.FILLED →
    probeIndex t (t.entries_ i).key = some i
  size_eq : t.size_ = filledCount t.entries_ t.cap

/-- Invariant of the table between calls: `Inv`, and the load is at most 0.70. -/
def WF (t : HashTable) : Prop := Inv t ∧ 10 * t.size_ ≤ 7 * t.cap

/-- The table after an empty slot `idx` has been filled with the entry `e`
(the three assignments to `entries_[idx]` and `size_++`). -/
def fillSlot (t : HashTable) (idx : Nat) (e : Entry) : HashTable :=
  { t with entries_ := setEntry t.entries_ idx e, size_ := t.size_ + 1 }

/-- The table as a map: the value that `find` points to, if any. -/
def lookup (t : HashTable) (key : Str) : Option (List Int) :=
  match find t key with
  | some (some v) => some v
  | _ => none

end HashTable

end InfSearch

namespace InfSearch

namespace BooleanSearch

/-! ## Implicit AND, as the specification words it -/

/-- The pair of neighbours between which the specification inserts an AND:
the left one is TERM or RPAREN and the right one TERM, LPAREN or NOT. -/
def needsAnd (a b : Tok) : Bool :=
  (a.type == TokType.TERM || a.type == TokType.RPAREN) &&
    (b.type == TokType.TERM || b.type == TokType.LPAREN || b.type == TokType.NOT)

/-- The token stream with one AND between every such pair of neighbours, and
nothing else added: the tokens stay in their order. -/
def insertImplicitAnd : List Tok → List Tok
  | [] => []
  | [x] => [x]
  | x :: y :: rest =>
    if needsAnd x y then x :: ⟨TokType.AND, []⟩ :: insertImplicitAnd (y :: rest)
    else x :: insertImplicitAnd (y :: rest)

/-- A word of a query that the lexer reads as terms: it has no parenthesis and
no white space in it, and the lexer makes at least one token of it, TERM
tokens only. -/
def IsQueryTerm (t : Str) : Prop :=
  (∀ c, c ∈ t → c ≠ 40 ∧ c ≠ 41 ∧ isspace c = false) ∧
    lexFlush [] t ≠ [] ∧ ∀ tk, tk ∈ lexFlush [] t → tk.type = TokType.TERM

end BooleanSearch

end InfSearch

namespace InfSearch

namespace Stemmer

/-- The word `w` still has its first `rv` code units, `rv` is at least 1, and
the code unit before `rv` is a vowel. -/
def Good (rv : Nat) (w : List Nat) : Prop :=
  1 ≤ rv ∧ rv ≤ w.length ∧ ∃ v, w[rv - 1]? = some v ∧ isVowel v = true

/-- Test `c == '-' || c == '\''` of `stemHyphenAposAware`. -/
def isJoinerByte (c : Nat) : Bool := c == 45 || c == 39

end Stemmer

end InfSearch

namespace InfSearch

/-! ## Notions used in the statements and proofs -/

/-- Strictly ascending list of ids. -/
abbrev Asc (l : List Int) : Prop := l.Sorted (· < ·)

namespace BooleanSearch

/-- Level of a phrase once a NOT is put in front of it. -/
def notLvl : Lvl → Lvl
  | Lvl.P => Lvl.N
  | L => L

end BooleanSearch

namespace HashTable

instance (t : HashTable) (key : Str) (i : Nat) : Decidable (Stops t key i) := by
  unfold Stops; infer_instance

end HashTable

namespace BooleanIndex

/-- Some list in the table under the key `k` contains the id `d`. -/
def Mem (t : HashTable) (k : Str) (d : Int) : Prop :=
  ∃ v, HashTable.lookup t k = some v ∧ d ∈ v

end BooleanIndex

/-- A posting list that the evaluator may hold: strictly ascending and inside
the universe. -/
def GoodList (idx : BooleanIndex) (l : List Int) : Prop :=
  Asc l ∧ ∀ d, d ∈ l → d ∈ idx.allDocs

/-- The corpus of `buildSmallIndex` in the tests. -/
def smallCorpus : List Document :=
  [⟨0, bytes "u0", bytes "нефть и газ европа"⟩,
   ⟨1, bytes "u1", bytes "газ россия"⟩,
   ⟨2, bytes "u2", bytes "нефть санкции европа"⟩,
   ⟨3, bytes "u3", bytes "машины машина мотор"⟩]

end InfSearch

namespace InfSearch

/-- Function `std::to_string` of the C++ library on an `int` that is not
negative: its decimal digits. -/
def to_string (n : Nat) : Str := (Nat.toDigits 10 n).map Char.toNat

namespace HashTable

/-- A sequence of statements `ht.getOrInsert(k).push_back(v)`, as in the tests
of the table. -/
def pushAll : List (Str × Int) → HashTable → Option HashTable
  | [], t => some t
  | op :: ops, t =>
    match getOrInsert t op.1 with
    | none => none
    | some (t1, idx) => pushAll ops (pushBack t1 idx op.2)

/-- A sequence of calls `ht.getOrInsert(k)`. -/
def insertAll : List Str → HashTable → Option HashTable
  | [], t => some t
  | k :: keys, t =>
    match getOrInsert t k with
    | none => none
    | some (t1, _) => insertAll keys t1

/-- The statements of the loop of `test_hashtable_rehash`:
`ht.getOrInsert("k" + std::to_string(i)).push_back(i)` for `i` below `n`. -/
def stressOps (n : Nat) : List (Str × Int) :=
  (List.range n).map fun i => (bytes "k" ++ to_string i, (i : Int))

end HashTable

end InfSearch

namespace InfSearch

namespace HashTable

/-- The table holds exactly the keys of `S`, and `size_` is their number. -/
def HoldsKeys (t : HashTable) (S : Finset Str) : Prop :=
  WF t ∧ (∀ k, (lookup t k).isSome = true ↔ k ∈ S) ∧ t.size_ = S.card

end HashTable

end InfSearch

namespace InfSearch

namespace Tokenizer

/-- The vector `out` of `Tokenizer::tokenize` when the final pass begins: the
strings in the order in which the main loop emitted them. -/
def rawTokens (utf8 : Str) : List Str :=
  (flushToken (tokenizeLoop utf8.length utf8 ⟨[], [], [], [], [], 0, 0, false, false⟩)).out

/-- The byte lengths that the final pass lets through: 2 to 200. -/
def lenOK (t : Str) : Bool := decide (2 ≤ t.length) && decide (t.length ≤ 200)

/-- Every string on its first occurrence, later duplicates removed. -/
def keepFirst : List Str → List Str
  | [] => []
  | x :: l => x :: (keepFirst l).filter fun y => decide (y ≠ x)

end Tokenizer

end InfSearch

namespace InfSearch

namespace Tokenizer

/-- Number of characters of a string that the tokenizer emits: a byte `D0` or
`D1` makes one two-byte letter with the byte after it, every other byte is a
character of its own. -/
def charCount : Str → Nat
  | [] => 0
  | [_] => 1
  | c :: d :: rest =>
    if c = 0xD0 ∨ c = 0xD1 then 1 + charCount rest else 1 + charCount (d :: rest)

/-- The string `s` is a sequence of `n` characters: single bytes other than
`D0` and `D1`, and pairs of bytes that begin with `D0` or `D1`. -/
inductive Chars : Str → Nat → Prop where
  | nil : Chars [] 0
  | one (b : Nat) (s : Str) (n : Nat) : b ≠ 0xD0 → b ≠ 0xD1 → Chars s n → Chars (b :: s) (n + 1)
  | two (b b2 : Nat) (s : Str) (n : Nat) :
      b = 0xD0 ∨ b = 0xD1 → Chars s n → Chars (b :: b2 :: s) (n + 1)

/-- The main loop at the input `s` is about to read a Word code point. -/
def NextWord (s : Str) : Prop :=
  isUrlStart s = false ∧ isEmailStartOrInside s = false ∧ (readCp s).type = CpType.Word

/-- What the main loop of `Tokenizer::tokenize` keeps true of its variables;
`pend` says that the loop is about to read a Word code point, which is so
right after a joiner has been taken into the token. -/
def LoopInv (pend : Prop) (st : TState) : Prop :=
  (∀ x, x ∈ st.out → ∃ n, Chars x n ∧ 2 ≤ n ∧ n ≤ 50) ∧
  (∀ x, x ∈ st.parts → ∃ n, Chars x n ∧ 2 ≤ n ∧ n ≤ 50) ∧
  Chars st.part st.partChars ∧
  (st.tooLong = false →
    Chars st.token st.tokenChars ∧ st.tokenChars ≤ 50 ∧
    ∃ m, Chars st.tokenFlat m ∧ m ≤ st.tokenChars ∧ st.partChars ≤ m ∧
      (st.tokenFlat ≠ st.token → 2 ≤ m ∨ (pend ∧ 1 ≤ m)))

end Tokenizer

end InfSearch

namespace InfSearch

/-- Characters of a string literal, each as its UTF-8 bytes. -/
def chars (s : String) : List Str := s.toList.map utf8Char

namespace Tokenizer

/-- One lowercase Word character, as its bytes in the input: an ASCII lowercase
letter or digit, a letter `а`..`я` (`D0 B0`..`D0 BF`, `D1 80`..`D1 8F`), or `ё`
(`D1 91`). -/
def isLowerWordChar (u : Str) : Bool :=
  match u with
  | [c] => (decide (97 ≤ c) && decide (c ≤ 122)) || (decide (48 ≤ c) && decide (c ≤ 57))
  | [l, t] =>
    (decide (l = 0xD0) && decide (0xB0 ≤ t) && decide (t ≤ 0xBF)) ||
    (decide (l = 0xD1) && ((decide (0x80 ≤ t) && decide (t ≤ 0x8F)) || decide (t = 0x91)))
  | _ => false

/-- The character with `ё` written as `е`. -/
def yoToE (u : Str) : Str := if u = [0xD1, 0x91] then [0xD0, 0xB5] else u

/-- A part of a compound, a list of characters: 2 to 50 lowercase Word
characters. -/
def isPart (p : List Str) : Bool :=
  decide (2 ≤ p.length) && decide (p.length ≤ 50) && p.all isLowerWordChar

/-- Bytes of the compound `p1 j1 p2 ... pn`, given as `p1` and the pairs
`(j1, p2)`, ..., `(j(n-1), pn)`. -/
def compoundBytes (p1 : List Str) (rest : List (Nat × List Str)) : Str :=
  p1.flatten ++ rest.flatMap fun jp => jp.1 :: jp.2.flatten

/-- Bytes of the compound without its joiners. -/
def flatBytes (p1 : List Str) (rest : List (Nat × List Str)) : Str :=
  p1.flatten ++ rest.flatMap fun jp => jp.2.flatten

/-- Number of characters of the compound, joiners included. -/
def compoundChars (p1 : List Str) (rest : List (Nat × List Str)) : Nat :=
  p1.length + (rest.map fun jp => 1 + jp.2.length).sum

/-- A compound: at least two parts, single joiners `-` or `'` between them, at
most 50 characters in all. -/
def isCompound (p1 : List Str) (rest : List (Nat × List Str)) : Bool :=
  !rest.isEmpty && isPart p1 &&
  rest.all (fun jp => (decide (jp.1 = 45) || decide (jp.1 = 39)) && isPart jp.2) &&
  decide (compoundChars p1 rest ≤ 50)

/-- The joined form, the flat form and the parts of a compound, in this
order. -/
def compoundForms (p1 : List Str) (rest : List (Nat × List Str)) : List Str :=
  compoundBytes p1 rest :: flatBytes p1 rest :: p1.flatten :: rest.map fun jp => jp.2.flatten

/-- The pairs of a compound with `ё` written as `е`. -/
def yoToERest (rest : List (Nat × List Str)) : List (Nat × List Str) :=
  rest.map fun jp => (jp.1, jp.2.map yoToE)

/-- No byte of the input is `.`, `:` or `@`. -/
def Plain (s : Str) : Prop := ∀ b, b ∈ s → b ≠ 46 ∧ b ≠ 58 ∧ b ≠ 64

end Tokenizer

end InfSearch

namespace InfSearch

/-- UTF-8 bytes of a sequence of characters. -/
def utf8 (cs : List Char) : Str := cs.flatMap utf8Char

/-- The character with the en dash U+2013 and the em dash U+2014 replaced by
`-` and the right single quote U+2019 by the apostrophe. -/
def asciiJoiner (c : Char) : Char :=
  if c.toNat = 0x2013 ∨ c.toNat = 0x2014 then Char.ofNat 45
  else if c.toNat = 0x2019 then Char.ofNat 39
  else c

namespace Tokenizer

/-- The inputs `s` and `t` from a position of the main loop on: the same
continuation bytes of a character that the loop is passing byte by byte, and
then the encodings of a sequence of characters and of the same sequence with
the Unicode joiners replaced by the ASCII ones. -/
def SameUpToJoiners (s t : Str) : Prop :=
  ∃ (pre : Str) (cs : List Char), (∀ b, b ∈ pre → 0x80 ≤ b ∧ b < 0xC0) ∧
    s = pre ++ utf8 cs ∧ t = pre ++ utf8 (cs.map asciiJoiner)

/-- The main loop cannot tell the inputs `s` and `t` apart by what it reads at
the position: the end of the input, a URL start, an `@`, and the type and the
bytes of the code point. -/
def HeadEq (s t : Str) : Prop :=
  (s = [] ↔ t = []) ∧ isUrlStart s = isUrlStart t ∧
  isEmailStartOrInside s = isEmailStartOrInside t ∧
  (readCp s).type = (readCp t).type ∧ cpBytes (readCp s) = cpBytes (readCp t) ∧
  (readCp s).b1 = (readCp t).b1

/-- The position after one iteration of the main loop at the input `s`. -/
def nextPos (s : Str) : Str :=
  if isUrlStart s || isEmailStartOrInside s then skipUntilWhitespace s
  else s.drop (readCp s).bytes

/-- The variables after one iteration of the main loop at the input `s`. -/
def nextState (s : Str) (st : TState) : TState :=
  if isUrlStart s || isEmailStartOrInside s then flushToken st
  else if (readCp s).type = CpType.Word then stepWord (readCp s) st
  else if (readCp s).type = CpType.Joiner then
    stepJoiner (readCp s) (s.drop (readCp s).bytes) st
  else flushToken st

end Tokenizer

namespace Stemmer

/-- The token `p0 j1 p1 ... jn pn`, given as `p0` and the pairs `(j1, p1)`,
..., `(jn, pn)`, with `s` applied to every part. -/
def joinParts (s : Str → Str) (p0 : Str) (rest : List (Nat × Str)) : Str :=
  s p0 ++ rest.flatMap fun jp => jp.1 :: s jp.2

/-- The stemmer of the parts of a token with joiners: `stemRu` on a part that
is not empty (the lambda `flushPart` of `stemHyphenAposAware`), nothing on an
empty part. -/
def stemPart (p : Str) : Str := if p = [] then [] else stemRu p

/-- The token has neither of the two-byte sequences `C0 AD` and `C0 A7`, the
overlong encodings that `toU16` decodes to `-` and to the apostrophe. -/
def noOverlongJoiner : Str → Bool
  | [] => true
  | c :: rest =>
    (match rest with
      | c2 :: _ => !(c == 0xC0 && (c2 == 0xAD || c2 == 0xA7))
      | [] => true) && noOverlongJoiner rest

/-- The word in Step 4 of `Stemmer::stemRu` after `ость` has been tried. -/
def beforeSuper (w : List Nat) (rv r2 : Nat) : List Nat :=
  let w1 := (removeSuffixInRegion w rv (u16 "и")).getD w
  (removeSuffixInRegion w1 r2 (u16 "ость")).getD w1

/-- The last statement of `Stemmer::stemRu` before the return:
`if (!removeSuffixInRegion(w, rv, u"ь")) { if (endsWith(w, u"нн")) w.erase(w.size() - 1); }`. -/
def softSignStep (w : List Nat) (rv : Nat) : List Nat :=
  match removeSuffixInRegion w rv (u16 "ь") with
  | some w4 => w4
  | none => dropDoubleN w

/-- Step 4 after `ость` in the words of the specification: a superlative suffix
is removed, with the reduction of `нн` attached to it; otherwise a trailing `ь`
in RV is removed, else the final letter of `нн`. -/
def superOrSoftSignSpec (w : List Nat) (rv : Nat) : List Nat :=
  match removeAnySuffixInRegion w rv SUPER with
  | some w3 => dropDoubleN w3
  | none => softSignStep w rv

/-- The Russian procedure with Step 4 in the words of the specification. -/
def stemRuSpec (token : Str) : Str :=
  if !hasCyrillic token then token
  else
    let w := toU16 token
    if w.length < 2 then token
    else
      let rv := findRV w
      let r2 := findR2 w
      if rv ≥ w.length then token
      else fromU16 (superOrSoftSignSpec (beforeSuper (stepMain w rv) rv r2) rv)

end Stemmer

end InfSearch

/-! # Theorems -/

namespace InfSearch

/-! ### opAnd -/

theorem opAndLoop_sublist (n : Nat) (a b : List Int) : (opAndLoop n a b).Sublist a := by
  induction n generalizing a b with
  | zero => simp [opAndLoop]
  | succ n ih =>
    cases a with
    | nil => simp [opAndLoop]
    | cons x xs =>
      cases b with
      | nil => simp [opAndLoop]
      | cons y ys =>
        simp only [opAndLoop]
        split_ifs with h1 h2
        · exact (ih xs ys).cons₂ x
        · exact (ih xs (y :: ys)).cons x
        · exact ih (x :: xs) ys

theorem opAndLoop_mem (n : Nat) (a b : List Int) (hn : a.length + b.length ≤ n)
    (ha : Asc a) (hb : Asc b) (z : Int) :
    z ∈ opAndLoop n a b ↔ z ∈ a ∧ z ∈ b := by
  induction n generalizing a b with
  | zero =>
    have h1 : a = [] := List.length_eq_zero.mp (by omega)
    subst h1; simp [opAndLoop]
  | succ n ih =>
    cases a with
    | nil => simp [opAndLoop]
    | cons x xs =>
      cases b with
      | nil => simp [opAndLoop]
      | cons y ys =>
        have hxs := List.sorted_cons.mp ha
        have hys := List.sorted_cons.mp hb
        simp only [List.length_cons] at hn
        simp only [opAndLoop]
        split_ifs with h1 h2
        · subst h1
          rw [List.mem_cons, ih xs ys (by omega) hxs.2 hys.2]
          simp only [List.mem_cons]
          constructor
          · rintro (h | ⟨h, h'⟩)
            · exact ⟨Or.inl h, Or.inl h⟩
            · exact ⟨Or.inr h, Or.inr h'⟩
          · rintro ⟨h | h, h' | h'⟩
            · exact Or.inl h
            · exact Or.inl h
            · exact Or.inl h'
            · exact Or.inr ⟨h, h'⟩
        · rw [ih xs (y :: ys) (by simp only [List.length_cons]; omega) hxs.2 hb]
          simp only [List.mem_cons]
          constructor
          · rintro ⟨h, h'⟩
            exact ⟨Or.inr h, h'⟩
          · rintro ⟨h | h, h'⟩
            · exfalso
              subst h
              rcases h' with h' | h'
              · omega
              · have := hys.1 z h'; omega
            · exact ⟨h, h'⟩
        · rw [ih (x :: xs) ys (by simp only [List.length_cons]; omega) ha hys.2]
          simp only [List.mem_cons]
          have hlt : y < x := by omega
          constructor
          · rintro ⟨h, h'⟩
            exact ⟨h, Or.inr h'⟩
          · rintro ⟨h, h' | h'⟩
            · exfalso
              subst h'
              rcases h with h | h
              · omega
              · have := hxs.1 z h; omega
            · exact ⟨h, h'⟩

theorem opAnd_asc (a b : List Int) (ha : Asc a) : Asc (opAnd a b) :=
  List.Pairwise.sublist (opAndLoop_sublist _ a b) ha

theorem opAnd_mem (a b : List Int) (ha : Asc a) (hb : Asc b) (z : Int) :
    z ∈ opAnd a b ↔ z ∈ a ∧ z ∈ b :=
  opAndLoop_mem _ a b (le_refl _) ha hb z

/-! ### opOr -/

theorem opOrLoop_mem (n : Nat) (a b : List Int) (hn : a.length + b.length ≤ n) (z : Int) :
    z ∈ opOrLoop n a b ↔ z ∈ a ∨ z ∈ b := by
  induction n generalizing a b with
  | zero =>
    have h1 : a = [] := List.length_eq_zero.mp (by omega)
    have h2 : b = [] := List.length_eq_zero.mp (by omega)
    subst h1; subst h2; simp [opOrLoop]
  | succ n ih =>
    cases a with
    | nil =>
      cases b with
      | nil => simp [opOrLoop]
      | cons y ys =>
        simp only [List.length_cons] at hn
        simp only [opOrLoop, List.mem_cons]
        rw [ih [] ys (by simp only [List.length_nil]; omega)]
        simp
    | cons x xs =>
      cases b with
      | nil =>
        simp only [List.length_cons, List.length_nil] at hn
        simp only [opOrLoop, List.mem_cons]
        rw [ih xs [] (by simp only [List.length_nil]; omega)]
        simp
      | cons y ys =>
        simp only [List.length_cons] at hn
        simp only [opOrLoop]
        split_ifs with h1 h2
        · rw [List.mem_cons, ih xs (y :: ys) (by simp only [List.length_cons]; omega)]
          simp only [List.mem_cons]; tauto
        · rw [List.mem_cons, ih (x :: xs) ys (by simp only [List.length_cons]; omega)]
          simp only [List.mem_cons]; tauto
        · have hxy : x = y := by omega
          subst hxy
          rw [List.mem_cons, ih xs ys (by omega)]
          simp only [List.mem_cons]; tauto

theorem opOrLoop_asc (n : Nat) (a b : List Int) (hn : a.length + b.length ≤ n)
    (ha : Asc a) (hb : Asc b) : Asc (opOrLoop n a b) := by
  induction n generalizing a b with
  | zero => simp [opOrLoop, Asc]
  | succ n ih =>
    cases a with
    | nil =>
      cases b with
      | nil => simp [opOrLoop, Asc]
      | cons y ys =>
        have hys := List.sorted_cons.mp hb
        simp only [List.length_cons] at hn
        simp only [opOrLoop]
        refine List.sorted_cons.mpr ⟨?_, ih [] ys (by simp only [List.length_nil]; omega) ha hys.2⟩
        intro z hz
        rw [opOrLoop_mem n [] ys (by simp only [List.length_nil]; omega)] at hz
        rcases hz with hz | hz
        · simp at hz
        · exact hys.1 z hz
    | cons x xs =>
      have hxs := List.sorted_cons.mp ha
      cases b with
      | nil =>
        simp only [List.length_cons, List.length_nil] at hn
        simp only [opOrLoop]
        refine List.sorted_cons.mpr ⟨?_, ih xs [] (by simp only [List.length_nil]; omega) hxs.2 hb⟩
        intro z hz
        rw [opOrLoop_mem n xs [] (by simp only [List.length_nil]; omega)] at hz
        rcases hz with hz | hz
        · exact hxs.1 z hz
        · simp at hz
      | cons y ys =>
        have hys := List.sorted_cons.mp hb
        simp only [List.length_cons] at hn
        simp only [opOrLoop]
        split_ifs with h1 h2
        · have hl : xs.length + (y :: ys).length ≤ n := by simp only [List.length_cons]; omega
          refine List.sorted_cons.mpr ⟨?_, ih xs (y :: ys) hl hxs.2 hb⟩
          intro z hz
          rw [opOrLoop_mem n _ _ hl] at hz
          rcases hz with hz | hz
          · exact hxs.1 z hz
          · rcases List.mem_cons.mp hz with hz | hz
            · omega
            · have := hys.1 z hz; omega
        · have hl : (x :: xs).length + ys.length ≤ n := by simp only [List.length_cons]; omega
          refine List.sorted_cons.mpr ⟨?_, ih (x :: xs) ys hl ha hys.2⟩
          intro z hz
          rw [opOrLoop_mem n _ _ hl] at hz
          rcases hz with hz | hz
          · rcases List.mem_cons.mp hz with hz | hz
            · omega
            · have := hxs.1 z hz; omega
          · exact hys.1 z hz
        · have hxy : x = y := by omega
          subst hxy
          have hl : xs.length + ys.length ≤ n := by omega
          refine List.sorted_cons.mpr ⟨?_, ih xs ys hl hxs.2 hys.2⟩
          intro z hz
          rw [opOrLoop_mem n _ _ hl] at hz
          rcases hz with hz | hz
          · exact hxs.1 z hz
          · exact hys.1 z hz

theorem opOr_mem (a b : List Int) (z : Int) : z ∈ opOr a b ↔ z ∈ a ∨ z ∈ b :=
  opOrLoop_mem _ a b (le_refl _) z

theorem opOr_asc (a b : List Int) (ha : Asc a) (hb : Asc b) : Asc (opOr a b) :=
  opOrLoop_asc _ a b (le_refl _) ha hb

/-! ### opNot -/

theorem opNotLoop_sublist (n : Nat) (u b : List Int) : (opNotLoop n u b).Sublist u := by
  induction n generalizing u b with
  | zero => simp [opNotLoop]
  | succ n ih =>
    cases u with
    | nil => simp [opNotLoop]
    | cons x xs =>
      cases b with
      | nil =>
        simp only [opNotLoop]
        exact (ih xs []).cons₂ x
      | cons y ys =>
        simp only [opNotLoop]
        split_ifs with h1 h2
        · exact (ih xs (y :: ys)).cons₂ x
        · exact (ih xs ys).cons x
        · exact ih (x :: xs) ys

theorem opNotLoop_mem (n : Nat) (u b : List Int) (hn : u.length + b.length ≤ n)
    (hu : Asc u) (hb : Asc b) (z : Int) :
    z ∈ opNotLoop n u b ↔ z ∈ u ∧ z ∉ b := by
  induction n generalizing u b with
  | zero =>
    have h1 : u = [] := List.length_eq_zero.mp (by omega)
    subst h1; simp [opNotLoop]
  | succ n ih =>
    cases u with
    | nil => simp [opNotLoop]
    | cons x xs =>
      have hxs := List.sorted_cons.mp hu
      cases b with
      | nil =>
        simp only [List.length_cons, List.length_nil] at hn
        simp only [opNotLoop, List.mem_cons]
        rw [ih xs [] (by simp only [List.length_nil]; omega) hxs.2 hb]
        simp
      | cons y ys =>
        have hys := List.sorted_cons.mp hb
        simp only [List.length_cons] at hn
        simp only [opNotLoop]
        split_ifs with h1 h2
        · rw [List.mem_cons, ih xs (y :: ys) (by simp only [List.length_cons]; omega) hxs.2 hb]
          simp only [List.mem_cons]
          constructor
          · rintro (h | ⟨h, h'⟩)
            · refine ⟨Or.inl h, ?_⟩
              subst h
              rintro (h | h)
              · omega
              · have := hys.1 z h; omega
            · exact ⟨Or.inr h, h'⟩
          · rintro ⟨h | h, h'⟩
            · exact Or.inl h
            · exact Or.inr ⟨h, h'⟩
        · subst h2
          rw [ih xs ys (by omega) hxs.2 hys.2]
          simp only [List.mem_cons]
          constructor
          · rintro ⟨h, h'⟩
            refine ⟨Or.inr h, ?_⟩
            rintro (h'' | h'')
            · have := hxs.1 z h; omega
            · exact h' h''
          · rintro ⟨h | h, h'⟩
            · exact absurd (Or.inl h) h'
            · exact ⟨h, fun h'' => h' (Or.inr h'')⟩
        · have hlt : y < x := by omega
          rw [ih (x :: xs) ys (by simp only [List.length_cons]; omega) hu hys.2]
          simp only [List.mem_cons]
          constructor
          · rintro ⟨h, h'⟩
            refine ⟨h, ?_⟩
            rintro (h'' | h'')
            · subst h''
              rcases h with h | h
              · omega
              · have := hxs.1 z h; omega
            · exact h' h''
          · rintro ⟨h, h'⟩
            exact ⟨h, fun h'' => h' (Or.inr h'')⟩

theorem opNot_asc (u b : List Int) (hu : Asc u) : Asc (opNot u b) :=
  List.Pairwise.sublist (opNotLoop_sublist _ u b) hu

theorem opNot_mem (u b : List Int) (hu : Asc u) (hb : Asc b) (z : Int) :
    z ∈ opNot u b ↔ z ∈ u ∧ z ∉ b :=
  opNotLoop_mem _ u b (le_refl _) hu hb z

/-- Two strictly ascending lists with the same elements are equal. -/
theorem asc_ext {l₁ l₂ : List Int} (h₁ : Asc l₁) (h₂ : Asc l₂)
    (h : ∀ z, z ∈ l₁ ↔ z ∈ l₂) : l₁ = l₂ :=
  List.eq_of_perm_of_sorted ((List.perm_ext_iff_of_nodup h₁.nodup h₂.nodup).mpr h) h₁ h₂

end InfSearch

namespace InfSearch

namespace BooleanSearch

theorem prec_le_three (t : TokType) : prec t ≤ 3 := by
  cases t <;> simp [prec]

theorem admits_four (st : List Tok) : Admits 4 st := by
  induction st with
  | nil => trivial
  | cons top st ih =>
    intro _
    exact ⟨Nat.lt_succ_of_le (prec_le_three _), ih⟩

theorem admits_mono {p q : Nat} (h : p ≤ q) (st : List Tok) (ha : Admits p st) : Admits q st := by
  induction st with
  | nil => trivial
  | cons top st ih =>
    intro hop
    obtain ⟨h1, h2⟩ := ha hop
    exact ⟨by omega, ih h2⟩

/-- Popping for a binary operator of precedence `p`: the operators of
precedence at least `p` go to the output, the rest of the stack stays. -/
theorem popOps_spec (tk : Tok) (hne : tk.type ≠ TokType.NOT) (Y st out : List Tok)
    (hY : ∀ y ∈ Y, isOp y.type = true ∧ prec tk.type ≤ prec y.type)
    (hst : Admits (prec tk.type) st) :
    popOps tk out (Y ++ st) = (out ++ Y, st) := by
  induction Y generalizing out with
  | nil =>
    cases st with
    | nil => simp [popOps]
    | cons top st =>
      simp only [List.nil_append, popOps, List.append_nil]
      rw [if_neg]
      rintro ⟨hop, hp⟩
      have := (hst hop).1
      omega
  | cons y Y ih =>
    have hy := hY y (List.mem_cons_self _ _)
    simp only [List.cons_append, popOps, List.append_eq]
    rw [if_pos ⟨hy.1, by
      rcases Nat.lt_or_eq_of_le hy.2 with h | h
      · exact Or.inl h
      · exact Or.inr ⟨h.symm, hne⟩⟩]
    rw [ih (out ++ [y]) (fun z hz => hY z (List.mem_cons_of_mem _ hz))]
    simp

theorem popToParen_spec (Y st out : List Tok) (l : Tok) (hl : l.type = TokType.LPAREN)
    (hY : ∀ y ∈ Y, isOp y.type = true) :
    popToParen out (Y ++ l :: st) = (out ++ Y, l :: st) := by
  induction Y generalizing out with
  | nil => simp [popToParen, hl]
  | cons y Y ih =>
    have hy := hY y (List.mem_cons_self _ _)
    have hne : y.type ≠ TokType.LPAREN := by
      intro h; rw [h] at hy; simp [isOp] at hy
    simp only [List.cons_append, popToParen, List.append_eq]
    rw [if_pos hne, ih (out ++ [y]) (fun z hz => hY z (List.mem_cons_of_mem _ hz))]
    simp

/-- Shunting-yard invariant: a phrase of level `L` read from `(out, st)` adds
`X` to the output and leaves the operators `Y` on the stack, and `X ++ Y` is a
postfix form that evaluates to the denotation of the phrase. -/
theorem toRpn_phrase (idx : BooleanIndex) {L : Lvl} {s : List Tok} {e : Expr}
    (h : Parses L s e) :
    ∀ out st, Admits (ctxBound L) st →
      ∃ X Y, s.foldl toRpnStep (out, st) = (out ++ X, Y ++ st) ∧
        (∀ y ∈ Y, isOp y.type = true ∧ leftBound L ≤ prec y.type) ∧
        ∀ S, (X ++ Y).foldl (evalStep idx) S = denote idx e :: S := by
  induction h with
  | term tk h =>
    intro out st _
    refine ⟨[tk], [], ?_, ?_, ?_⟩
    · simp [toRpnStep, h]
    · simp
    · intro S; simp [evalStep, h, denote]
  | paren l r hl hr _ ih =>
    intro out st _
    obtain ⟨X, Y, h1, h2, h3⟩ := ih out (l :: st) (by
      intro hop; rw [hl] at hop; simp [isOp] at hop)
    refine ⟨X ++ Y, [], ?_, ?_, ?_⟩
    · have hstep : toRpnStep (out, st) l = (out, l :: st) := by
        simp [toRpnStep, hl, isOp]
      simp only [List.foldl_append, List.foldl_cons, List.foldl_nil, hstep, h1]
      simp only [toRpnStep, hr, isOp]
      simp only [reduceCtorEq, if_false, if_true, beq_iff_eq, Bool.or_self, Bool.false_eq_true]
      rw [popToParen_spec Y st (out ++ X) l hl (fun y hy => (h2 y hy).1)]
      simp [hl]
    · simp
    · intro S; simpa using h3 S
  | ofP _ ih =>
    intro out st hst
    exact ih out st hst
  | not tk h _ ih =>
    intro out st _
    obtain ⟨X, Y, h1, h2, h3⟩ := ih out (tk :: st) (admits_four _)
    refine ⟨X, Y ++ [tk], ?_, ?_, ?_⟩
    · rw [List.foldl_cons]
      have hstep : toRpnStep (out, st) tk = (out, tk :: st) := by
        have hpop : popOps tk out st = (out, st) := by
          cases st with
          | nil => simp [popOps]
          | cons top st =>
            simp only [popOps]
            rw [if_neg]
            rintro ⟨_, hp | ⟨_, hp⟩⟩
            · have := prec_le_three top.type
              have h3 : prec tk.type = 3 := by rw [h]; rfl
              omega
            · exact hp h
        simp [toRpnStep, h, isOp, hpop]
      rw [hstep, h1]
      simp
    · intro y hy
      rcases List.mem_append.mp hy with hy | hy
      · exact h2 y hy
      · rw [List.mem_singleton.mp hy, h]
        simp [isOp, prec, leftBound]
    · intro S
      rw [← List.append_assoc, List.foldl_append, h3 S]
      simp [evalStep, h, denote]
  | ofN _ ih =>
    intro out st _
    obtain ⟨X, Y, h1, h2, h3⟩ := ih out st (admits_four _)
    exact ⟨X, Y, h1, fun y hy => ⟨(h2 y hy).1, by have := (h2 y hy).2; simp only [leftBound] at *; omega⟩, h3⟩
  | and tk h _ _ ih₁ ih₂ =>
    intro out st hst
    obtain ⟨X, Y, h1, h2, h3⟩ := ih₁ out st hst
    have hp : prec tk.type = 2 := by rw [h]; simp [prec]
    have hstep : toRpnStep (out ++ X, Y ++ st) tk = (out ++ X ++ Y, tk :: st) := by
      have hpop := popOps_spec tk (by rw [h]; simp) Y st (out ++ X)
        (fun y hy => ⟨(h2 y hy).1, by rw [hp]; exact (h2 y hy).2⟩) (by rw [hp]; exact hst)
      simp [toRpnStep, h, isOp, hpop]
    obtain ⟨X₂, Y₂, k1, k2, k3⟩ := ih₂ (out ++ X ++ Y) (tk :: st) (admits_four _)
    refine ⟨X ++ Y ++ X₂, Y₂ ++ [tk], ?_, ?_, ?_⟩
    · rw [List.foldl_append, h1, List.foldl_cons, hstep, k1]
      simp
    · intro y hy
      rcases List.mem_append.mp hy with hy | hy
      · exact ⟨(k2 y hy).1, by have := (k2 y hy).2; simp only [leftBound] at *; omega⟩
      · rw [List.mem_singleton.mp hy]
        exact ⟨by rw [h]; simp [isOp], by rw [hp]; simp [leftBound]⟩
    · intro S
      have e1 : X ++ Y ++ X₂ ++ (Y₂ ++ [tk]) = (X ++ Y) ++ ((X₂ ++ Y₂) ++ [tk]) := by
        simp
      rw [e1, List.foldl_append, h3 S, List.foldl_append, k3]
      simp [evalStep, h, denote]
  | ofA _ ih =>
    intro out st hst
    obtain ⟨X, Y, h1, h2, h3⟩ := ih out st (admits_mono (by simp [ctxBound]) st hst)
    exact ⟨X, Y, h1, fun y hy => ⟨(h2 y hy).1, by have := (h2 y hy).2; simp only [leftBound] at *; omega⟩, h3⟩
  | or tk h _ _ ih₁ ih₂ =>
    intro out st hst
    obtain ⟨X, Y, h1, h2, h3⟩ := ih₁ out st hst
    have hp : prec tk.type = 1 := by rw [h]; simp [prec]
    have hstep : toRpnStep (out ++ X, Y ++ st) tk = (out ++ X ++ Y, tk :: st) := by
      have hpop := popOps_spec tk (by rw [h]; simp) Y st (out ++ X)
        (fun y hy => ⟨(h2 y hy).1, by rw [hp]; exact (h2 y hy).2⟩) (by rw [hp]; exact hst)
      simp [toRpnStep, h, isOp, hpop]
    obtain ⟨X₂, Y₂, k1, k2, k3⟩ := ih₂ (out ++ X ++ Y) (tk :: st) (by
      intro _
      exact ⟨by rw [hp]; simp [ctxBound], admits_mono (by simp [ctxBound]) st hst⟩)
    refine ⟨X ++ Y ++ X₂, Y₂ ++ [tk], ?_, ?_, ?_⟩
    · rw [List.foldl_append, h1, List.foldl_cons, hstep, k1]
      simp
    · intro y hy
      rcases List.mem_append.mp hy with hy | hy
      · exact ⟨(k2 y hy).1, by have := (k2 y hy).2; simp only [leftBound] at *; omega⟩
      · rw [List.mem_singleton.mp hy]
        exact ⟨by rw [h]; simp [isOp], by rw [hp]; simp [leftBound]⟩
    · intro S
      have e1 : X ++ Y ++ X₂ ++ (Y₂ ++ [tk]) = (X ++ Y) ++ ((X₂ ++ Y₂) ++ [tk]) := by
        simp
      rw [e1, List.foldl_append, h3 S, List.foldl_append, k3]
      simp [evalStep, h, denote]

theorem evalRpn_toRpn_of_parses (idx : BooleanIndex) {s : List Tok} {e : Expr}
    (h : Parses Lvl.O s e) : evalRpn idx (toRpn s) = denote idx e := by
  obtain ⟨X, Y, h1, _, h3⟩ := toRpn_phrase idx h [] [] trivial
  simp only [toRpn, evalRpn, h1, List.nil_append, List.append_nil, h3 []]

end BooleanSearch

end InfSearch

namespace InfSearch

namespace BooleanSearch

/-! ### Every generated sequence has a reading with precedence -/

theorem parses_not (tk : Tok) (h : tk.type = TokType.NOT) {L : Lvl} {s : List Tok} {e : Expr}
    (hp : Parses L s e) : ∃ e', Parses (notLvl L) (tk :: s) e' := by
  induction hp with
  | term t ht => exact ⟨_, Parses.not tk h (Parses.ofP (Parses.term t ht))⟩
  | paren l r hl hr hs _ => exact ⟨_, Parses.not tk h (Parses.ofP (Parses.paren l r hl hr hs))⟩
  | ofP hs _ => exact ⟨_, Parses.not tk h (Parses.ofP hs)⟩
  | not t ht hs _ => exact ⟨_, Parses.not tk h (Parses.not t ht hs)⟩
  | ofN _ ih =>
    obtain ⟨e', he⟩ := ih
    exact ⟨e', Parses.ofN he⟩
  | and t ht _ h₂ ih₁ _ =>
    obtain ⟨e', he⟩ := ih₁
    exact ⟨_, Parses.and t ht he h₂⟩
  | ofA _ ih =>
    obtain ⟨e', he⟩ := ih
    exact ⟨e', Parses.ofA he⟩
  | or t ht _ h₂ ih₁ _ =>
    obtain ⟨e', he⟩ := ih₁
    exact ⟨_, Parses.or t ht he h₂⟩

/-- An AND followed by a NOT-level phrase extends an OR-level phrase. -/
theorem parses_and_N (tk : Tok) (h : tk.type = TokType.AND) {x t : List Tok} {e₁ e₂ : Expr}
    (hx : Parses Lvl.O x e₁) (ht : Parses Lvl.N t e₂) :
    ∃ e, Parses Lvl.O (x ++ tk :: t) e := by
  cases hx with
  | ofA hx => exact ⟨_, Parses.ofA (Parses.and tk h hx ht)⟩
  | or o ho hx₁ hx₂ =>
    have := Parses.or o ho hx₁ (Parses.and tk h hx₂ ht)
    rw [← List.cons_append, ← List.append_assoc] at this
    exact ⟨_, this⟩

theorem parses_and_aux (tk : Tok) (h : tk.type = TokType.AND) {L : Lvl} {s₂ : List Tok}
    {e₂ : Expr} (h₂ : Parses L s₂ e₂) :
    ∀ s₁ e₁, Parses Lvl.O s₁ e₁ → ∃ e, Parses Lvl.O (s₁ ++ tk :: s₂) e := by
  induction h₂ with
  | term t ht =>
    intro s₁ e₁ h₁
    exact parses_and_N tk h h₁ (Parses.ofP (Parses.term t ht))
  | paren l r hl hr hs _ =>
    intro s₁ e₁ h₁
    exact parses_and_N tk h h₁ (Parses.ofP (Parses.paren l r hl hr hs))
  | ofP hs _ =>
    intro s₁ e₁ h₁
    exact parses_and_N tk h h₁ (Parses.ofP hs)
  | not t ht hs _ =>
    intro s₁ e₁ h₁
    exact parses_and_N tk h h₁ (Parses.not t ht hs)
  | ofN _ ih => exact ih
  | and t ht _ hr ih₁ _ =>
    intro s₁ e₁ h₁
    obtain ⟨e, he⟩ := ih₁ s₁ e₁ h₁
    obtain ⟨e', he'⟩ := parses_and_N t ht he hr
    refine ⟨e', ?_⟩
    rw [List.append_assoc, List.cons_append] at he'
    exact he'
  | ofA _ ih => exact ih
  | or t ht _ hr ih₁ _ =>
    intro s₁ e₁ h₁
    obtain ⟨e, he⟩ := ih₁ s₁ e₁ h₁
    have := Parses.or t ht he hr
    rw [List.append_assoc, List.cons_append] at this
    exact ⟨_, this⟩

theorem parses_or_aux (tk : Tok) (h : tk.type = TokType.OR) {s₂ : List Tok}
    {e₂ : Expr} (h₂ : Parses Lvl.O s₂ e₂) :
    ∀ s₁ e₁, Parses Lvl.O s₁ e₁ → ∃ e, Parses Lvl.O (s₁ ++ tk :: s₂) e := by
  generalize hL : Lvl.O = L at h₂
  induction h₂ with
  | term _ _ => cases hL
  | paren _ _ _ _ _ _ => cases hL
  | ofP _ _ => cases hL
  | not _ _ _ _ => cases hL
  | ofN _ _ => cases hL
  | and _ _ _ _ _ _ => cases hL
  | ofA hs _ =>
    intro s₁ e₁ h₁
    exact ⟨_, Parses.or tk h h₁ hs⟩
  | or t ht _ hr ih₁ _ =>
    intro s₁ e₁ h₁
    obtain ⟨e, he⟩ := ih₁ rfl s₁ e₁ h₁
    have := Parses.or t ht he hr
    rw [List.append_assoc, List.cons_append] at this
    exact ⟨_, this⟩

/-- Every sequence of the grammar `E` has a reading at the OR level. -/
theorem gen_parses {s : List Tok} (h : Gen s) : ∃ e, Parses Lvl.O s e := by
  induction h with
  | term tk h => exact ⟨_, Parses.ofA (Parses.ofN (Parses.ofP (Parses.term tk h)))⟩
  | not tk h _ ih =>
    obtain ⟨e, he⟩ := ih
    exact parses_not tk h he
  | and tk h _ _ ih₁ ih₂ =>
    obtain ⟨e₁, he₁⟩ := ih₁
    obtain ⟨e₂, he₂⟩ := ih₂
    exact parses_and_aux tk h he₂ _ _ he₁
  | or tk h _ _ ih₁ ih₂ =>
    obtain ⟨e₁, he₁⟩ := ih₁
    obtain ⟨e₂, he₂⟩ := ih₂
    exact parses_or_aux tk h he₂ _ _ he₁
  | paren l r hl hr _ ih =>
    obtain ⟨e, he⟩ := ih
    exact ⟨_, Parses.ofA (Parses.ofN (Parses.ofP (Parses.paren l r hl hr he)))⟩

/-- Claim C2: on every token sequence generated by
`E ::= TERM | NOT E | E AND E | E OR E | ( E )` the postfix conversion followed
by the evaluator computes the denotation of the reading with precedence
NOT > AND > OR (AND, OR to the left, NOT to the right): such a reading exists,
and every such reading has the value that `evalRpn (toRpn tokens)` returns.
In particular `a OR b AND c` is `a OR (b AND c)` and `NOT a AND b` is
`(NOT a) AND b`. -/
theorem C2_toRpn_evalRpn_precedence (idx : BooleanIndex) :
    (∀ s : List Tok, Gen s →
      (∃ e, Parses Lvl.O s e) ∧
      ∀ e, Parses Lvl.O s e → evalRpn idx (toRpn s) = denote idx e) ∧
    (∀ a b c : Str,
      evalRpn idx (toRpn [⟨TokType.TERM, a⟩, ⟨TokType.OR, []⟩, ⟨TokType.TERM, b⟩,
        ⟨TokType.AND, []⟩, ⟨TokType.TERM, c⟩])
        = opOr (idx.postings a) (opAnd (idx.postings b) (idx.postings c))) ∧
    (∀ a b : Str,
      evalRpn idx (toRpn [⟨TokType.NOT, []⟩, ⟨TokType.TERM, a⟩, ⟨TokType.AND, []⟩,
        ⟨TokType.TERM, b⟩])
        = opAnd (opNot idx.allDocs (idx.postings a)) (idx.postings b)) := by
  refine ⟨fun s hs => ⟨gen_parses hs, fun e he => evalRpn_toRpn_of_parses idx he⟩, ?_, ?_⟩
  · intro a b c
    simp [toRpn, toRpnStep, popOps, isOp, prec, evalRpn, evalStep]
  · intro a b
    simp [toRpn, toRpnStep, popOps, isOp, prec, evalRpn, evalStep]

/-- Claim C2 at a concrete query: the five tokens of `a OR b AND c` are
generated by the grammar, read as `a OR (b AND c)`, and evaluated so. -/
theorem C2_toRpn_evalRpn_precedence_witness :
    Gen [⟨TokType.TERM, bytes "a"⟩, ⟨TokType.OR, []⟩, ⟨TokType.TERM, bytes "b"⟩,
      ⟨TokType.AND, []⟩, ⟨TokType.TERM, bytes "c"⟩] ∧
    Parses Lvl.O [⟨TokType.TERM, bytes "a"⟩, ⟨TokType.OR, []⟩, ⟨TokType.TERM, bytes "b"⟩,
      ⟨TokType.AND, []⟩, ⟨TokType.TERM, bytes "c"⟩]
      (Expr.or (Expr.term (bytes "a")) (Expr.and (Expr.term (bytes "b")) (Expr.term (bytes "c")))) ∧
    evalRpn BooleanIndex.new (toRpn [⟨TokType.TERM, bytes "a"⟩, ⟨TokType.OR, []⟩,
      ⟨TokType.TERM, bytes "b"⟩, ⟨TokType.AND, []⟩, ⟨TokType.TERM, bytes "c"⟩])
      = denote BooleanIndex.new
        (Expr.or (Expr.term (bytes "a")) (Expr.and (Expr.term (bytes "b")) (Expr.term (bytes "c")))) :=
  have hg : Gen [⟨TokType.TERM, bytes "a"⟩, ⟨TokType.OR, []⟩, ⟨TokType.TERM, bytes "b"⟩,
      ⟨TokType.AND, []⟩, ⟨TokType.TERM, bytes "c"⟩] :=
    Gen.or (s := [⟨TokType.TERM, bytes "a"⟩]) ⟨TokType.OR, []⟩ rfl
      (Gen.term ⟨TokType.TERM, bytes "a"⟩ rfl)
      (Gen.and (s := [⟨TokType.TERM, bytes "b"⟩]) ⟨TokType.AND, []⟩ rfl
        (Gen.term ⟨TokType.TERM, bytes "b"⟩ rfl) (Gen.term ⟨TokType.TERM, bytes "c"⟩ rfl))
  have hp : Parses Lvl.O [⟨TokType.TERM, bytes "a"⟩, ⟨TokType.OR, []⟩, ⟨TokType.TERM, bytes "b"⟩,
      ⟨TokType.AND, []⟩, ⟨TokType.TERM, bytes "c"⟩]
      (Expr.or (Expr.term (bytes "a"))
        (Expr.and (Expr.term (bytes "b")) (Expr.term (bytes "c")))) :=
    Parses.or (s := [⟨TokType.TERM, bytes "a"⟩]) ⟨TokType.OR, []⟩ rfl
      (Parses.ofA (Parses.ofN (Parses.ofP (Parses.term ⟨TokType.TERM, bytes "a"⟩ rfl))))
      (Parses.and (s := [⟨TokType.TERM, bytes "b"⟩]) ⟨TokType.AND, []⟩ rfl
        (Parses.ofN (Parses.ofP (Parses.term ⟨TokType.TERM, bytes "b"⟩ rfl)))
        (Parses.ofP (Parses.term ⟨TokType.TERM, bytes "c"⟩ rfl)))
  ⟨hg, hp, ((C2_toRpn_evalRpn_precedence BooleanIndex.new).1 _ hg).2 _ hp⟩

end BooleanSearch

end InfSearch

namespace InfSearch

namespace HashTable

/-! ### Counting filled slots -/

theorem filledCount_le (entries : Nat → Entry) (n : Nat) : filledCount entries n ≤ n := by
  induction n with
  | zero => simp [filledCount]
  | succ n ih =>
    simp only [filledCount]
    split_ifs <;> omega

theorem filledCount_mono (entries : Nat → Entry) {m n : Nat} (h : m ≤ n) :
    filledCount entries m ≤ filledCount entries n := by
  induction n with
  | zero =>
    have : m = 0 := by omega
    subst this; exact le_refl _
  | succ n ih =>
    rcases Nat.lt_or_ge m (n + 1) with h1 | h1
    · have := ih (by omega)
      simp only [filledCount]
      omega
    · have : m = n + 1 := by omega
      subst this; exact le_refl _

theorem exists_empty_of_filledCount_lt (entries : Nat → Entry) (n : Nat)
    (h : filledCount entries n < n) : ∃ i, i < n ∧ (entries i).state = State.EMPTY := by
  induction n with
  | zero => omega
  | succ n ih =>
    simp only [filledCount] at h
    by_cases hf : (entries n).state = State.FILLED
    · rw [if_pos hf] at h
      obtain ⟨i, hi, he⟩ := ih (by omega)
      exact ⟨i, by omega, he⟩
    · refine ⟨n, by omega, ?_⟩
      cases hs : (entries n).state with
      | EMPTY => rfl
      | FILLED => exact absurd hs hf

theorem filledCount_congr (e₁ e₂ : Nat → Entry) (n : Nat)
    (h : ∀ i, i < n → (e₁ i).state = (e₂ i).state) : filledCount e₁ n = filledCount e₂ n := by
  induction n with
  | zero => rfl
  | succ n ih =>
    simp only [filledCount]
    rw [ih (fun i hi => h i (by omega)), h n (by omega)]

theorem filledCount_setEntry_ge (entries : Nat → Entry) (idx : Nat) (e : Entry) (n : Nat)
    (h : n ≤ idx) : filledCount (setEntry entries idx e) n = filledCount entries n := by
  apply filledCount_congr
  intro i hi
  simp only [setEntry]
  rw [if_neg (by omega)]

theorem filledCount_setEntry_fill (entries : Nat → Entry) (idx : Nat) (e : Entry) (n : Nat)
    (h : idx < n) (hold : (entries idx).state = State.EMPTY) (hnew : e.state = State.FILLED) :
    filledCount (setEntry entries idx e) n = filledCount entries n + 1 := by
  induction n with
  | zero => omega
  | succ n ih =>
    simp only [filledCount]
    rcases Nat.lt_or_ge idx n with h1 | h1
    · rw [ih h1]
      have : (setEntry entries idx e n).state = (entries n).state := by
        simp only [setEntry]; rw [if_neg (by omega)]
      rw [this]; omega
    · have hn : idx = n := by omega
      subst hn
      rw [filledCount_setEntry_ge entries idx e idx (le_refl _)]
      have h1 : (setEntry entries idx e idx).state = State.FILLED := by
        simp [setEntry, hnew]
      rw [if_pos h1, if_neg (by rw [hold]; simp)]

/-! ### Probing -/

theorem land_mask (t : HashTable) (h : Shape t) (x : Nat) : x &&& t.mask_ = x % t.cap := by
  obtain ⟨k, _, hk⟩ := h.cap_pow
  rw [h.mask_eq, hk]
  exact Nat.and_pow_two_sub_one_eq_mod x k

theorem cap_pos (t : HashTable) (h : Shape t) : 2 ≤ t.cap := by
  obtain ⟨k, hk1, hk⟩ := h.cap_pow
  rw [hk]
  calc 2 = 2 ^ 1 := rfl
    _ ≤ 2 ^ k := Nat.pow_le_pow_right (by omega) hk1

theorem mask_succ (t : HashTable) (h : Shape t) : t.mask_ + 1 = t.cap := by
  have := cap_pos t h
  rw [h.mask_eq]; omega

theorem probeLoop_succ (t : HashTable) (key : Str) (f h : Nat) :
    probeLoop t key (f + 1) h =
      if Stops t key h then some h else probeLoop t key f ((h + 1) &&& t.mask_) := by
  simp only [probeLoop, Stops]
  by_cases h1 : (t.entries_ h).state = State.EMPTY
  · simp [h1]
  · by_cases h2 : (t.entries_ h).key = key
    · simp [h1, h2]
    · simp [h1, h2]

theorem succ_mod_add (h j cap : Nat) : ((h + 1) % cap + j) % cap = (h + (j + 1)) % cap := by
  rw [Nat.add_mod, Nat.mod_mod, ← Nat.add_mod]
  congr 1; omega

/-- The probe returns the first slot, in cyclic order from its start, at which
it stops. -/
theorem probeLoop_eq_some_iff (t : HashTable) (hI : Shape t) (key : Str) (f : Nat) :
    ∀ h i, h < t.cap → (probeLoop t key f h = some i ↔
      ∃ d, d < f ∧ i = (h + d) % t.cap ∧ Stops t key i ∧
        ∀ j, j < d → ¬ Stops t key ((h + j) % t.cap)) := by
  have hc := cap_pos t hI
  induction f with
  | zero =>
    intro h i _
    simp [probeLoop]
  | succ f ih =>
    intro h i hh
    rw [probeLoop_succ]
    by_cases hs : Stops t key h
    · rw [if_pos hs]
      constructor
      · intro e
        have e' : h = i := Option.some.inj e
        subst e'
        exact ⟨0, by omega, by simp [Nat.mod_eq_of_lt hh], hs, fun j hj => by omega⟩
      · rintro ⟨d, _, hi, _, hmin⟩
        rcases Nat.eq_zero_or_pos d with hd | hd
        · subst hd
          simp [Nat.mod_eq_of_lt hh] at hi
          rw [hi]
        · exact absurd (by simpa [Nat.mod_eq_of_lt hh] using hs) (hmin 0 hd)
    · rw [if_neg hs, land_mask t hI]
      rw [ih ((h + 1) % t.cap) i (Nat.mod_lt _ (by omega))]
      constructor
      · rintro ⟨d, hd, hi, hst, hmin⟩
        refine ⟨d + 1, by omega, ?_, hst, ?_⟩
        · rw [hi, succ_mod_add]
        · intro j hj
          rcases Nat.eq_zero_or_pos j with hj0 | hj0
          · subst hj0
            simpa [Nat.mod_eq_of_lt hh] using hs
          · obtain ⟨j', rfl⟩ : ∃ j', j = j' + 1 := ⟨j - 1, by omega⟩
            rw [← succ_mod_add]
            exact hmin j' (by omega)
      · rintro ⟨d, hd, hi, hst, hmin⟩
        rcases Nat.eq_zero_or_pos d with hd0 | hd0
        · subst hd0
          simp [Nat.mod_eq_of_lt hh] at hi
          subst hi
          exact absurd hst hs
        · obtain ⟨d', rfl⟩ : ∃ d', d = d' + 1 := ⟨d - 1, by omega⟩
          refine ⟨d', by omega, ?_, hst, ?_⟩
          · rw [hi, succ_mod_add]
          · intro j hj
            rw [succ_mod_add]
            exact hmin (j + 1) (by omega)

theorem probeLoop_none (t : HashTable) (hI : Shape t) (key : Str) (f : Nat) :
    ∀ h, h < t.cap → probeLoop t key f h = none →
      ∀ j, j < f → ¬ Stops t key ((h + j) % t.cap) := by
  have hc := cap_pos t hI
  induction f with
  | zero => intro h _ _ j hj; omega
  | succ f ih =>
    intro h hh hnone j hj
    rw [probeLoop_succ] at hnone
    by_cases hs : Stops t key h
    · rw [if_pos hs] at hnone; cases hnone
    · rw [if_neg hs, land_mask t hI] at hnone
      rcases Nat.eq_zero_or_pos j with hj0 | hj0
      · subst hj0
        simpa [Nat.mod_eq_of_lt hh] using hs
      · obtain ⟨j', rfl⟩ : ∃ j', j = j' + 1 := ⟨j - 1, by omega⟩
        rw [← succ_mod_add]
        exact ih _ (Nat.mod_lt _ (by omega)) hnone j' (by omega)

theorem cyclic_reach (h i cap : Nat) (hh : h < cap) (hi : i < cap) :
    ∃ j, j < cap ∧ (h + j) % cap = i := by
  rcases Nat.lt_or_ge i h with h1 | h1
  · refine ⟨i + cap - h, by omega, ?_⟩
    have : h + (i + cap - h) = i + cap := by omega
    rw [this, Nat.add_mod_right, Nat.mod_eq_of_lt hi]
  · refine ⟨i - h, by omega, ?_⟩
    have : h + (i - h) = i := by omega
    rw [this, Nat.mod_eq_of_lt hi]

theorem home_lt (t : HashTable) (hI : Shape t) (key : Str) : hash64 key &&& t.mask_ < t.cap := by
  rw [land_mask t hI]
  exact Nat.mod_lt _ (by have := cap_pos t hI; omega)

/-- With an empty slot in the table every probe ends. -/
theorem probeIndex_isSome (t : HashTable) (hI : Shape t) (key : Str)
    (hroom : ∃ i, i < t.cap ∧ (t.entries_ i).state = State.EMPTY) :
    ∃ i, probeIndex t key = some i := by
  cases hp : probeIndex t key with
  | some i => exact ⟨i, rfl⟩
  | none =>
    exfalso
    obtain ⟨i, hi, he⟩ := hroom
    unfold probeIndex at hp
    rw [mask_succ t hI] at hp
    obtain ⟨j, hj, hji⟩ := cyclic_reach _ i t.cap (home_lt t hI key) hi
    have := probeLoop_none t hI key t.cap _ (home_lt t hI key) hp j hj
    rw [hji] at this
    exact this (Or.inl he)

theorem probeIndex_eq_some_iff (t : HashTable) (hI : Shape t) (key : Str) (i : Nat) :
    probeIndex t key = some i ↔
      ∃ d, d < t.cap ∧ i = ((hash64 key &&& t.mask_) + d) % t.cap ∧ Stops t key i ∧
        ∀ j, j < d → ¬ Stops t key (((hash64 key &&& t.mask_) + j) % t.cap) := by
  unfold probeIndex
  rw [mask_succ t hI]
  exact probeLoop_eq_some_iff t hI key t.cap _ i (home_lt t hI key)

theorem probeIndex_lt (t : HashTable) (hI : Shape t) (key : Str) (i : Nat)
    (h : probeIndex t key = some i) : i < t.cap ∧ Stops t key i := by
  obtain ⟨d, _, hi, hs, _⟩ := (probeIndex_eq_some_iff t hI key i).mp h
  exact ⟨by rw [hi]; exact Nat.mod_lt _ (by have := cap_pos t hI; omega), hs⟩

end HashTable

end InfSearch

namespace InfSearch

namespace HashTable

/-! ### The table as a map -/

theorem state_cases (e : Entry) : e.state = State.EMPTY ∨ e.state = State.FILLED := by
  cases e.state
  · exact Or.inl rfl
  · exact Or.inr rfl

theorem entry_eta (e : Entry) (k : Str) (hs : e.state = State.FILLED) (hk : e.key = k) :
    e = ⟨State.FILLED, k, e.value⟩ := by
  cases e
  simp only at hs hk
  subst hs; subst hk; rfl

theorem findLoop_eq (t : HashTable) (key : Str) (f : Nat) :
    ∀ h, findLoop t key f h = (probeLoop t key f h).map fun i =>
      if (t.entries_ i).state = State.EMPTY then none else some (t.entries_ i).value := by
  induction f with
  | zero => intro h; rfl
  | succ f ih =>
    intro h
    simp only [findLoop, probeLoop]
    by_cases h1 : (t.entries_ h).state = State.EMPTY
    · simp [h1]
    · by_cases h2 : (t.entries_ h).key = key
      · simp [h1, h2]
      · simp only [h1, h2, if_false]
        exact ih _

theorem find_eq (t : HashTable) (key : Str) :
    find t key = (probeIndex t key).map fun i =>
      if (t.entries_ i).state = State.EMPTY then none else some (t.entries_ i).value :=
  findLoop_eq t key _ _

theorem room_of_size_lt (t : HashTable) (hI : Inv t) (h : t.size_ < t.cap) :
    ∃ i, i < t.cap ∧ (t.entries_ i).state = State.EMPTY :=
  exists_empty_of_filledCount_lt _ _ (by rw [← hI.size_eq]; exact h)

theorem size_lt_of_WF (t : HashTable) (h : WF t) : t.size_ < t.cap := by
  have := cap_pos t h.1.shape
  have := h.2
  omega

/-- A key is held by at most one slot. -/
theorem has_unique (t : HashTable) (hI : Inv t) (key : Str) (v w : List Int)
    (hv : Has t key v) (hw : Has t key w) : v = w := by
  obtain ⟨i, hi, ei⟩ := hv
  obtain ⟨j, hj, ej⟩ := hw
  have pi := hI.probe_self i hi (by rw [ei])
  have pj := hI.probe_self j hj (by rw [ej])
  rw [ei] at pi; rw [ej] at pj
  simp only at pi pj
  have : i = j := Option.some.inj (pi.symm.trans pj)
  subst this
  rw [ei] at ej
  exact (Entry.mk.inj ej).2.2

theorem find_of_has (t : HashTable) (hI : Inv t) (key : Str) (v : List Int)
    (hv : Has t key v) : find t key = some (some v) := by
  obtain ⟨i, hi, ei⟩ := hv
  have pi := hI.probe_self i hi (by rw [ei])
  rw [ei] at pi
  simp only at pi
  rw [find_eq, pi]
  simp [ei]

theorem find_of_not_has (t : HashTable) (hI : Inv t) (key : Str)
    (hroom : t.size_ < t.cap) (hv : ∀ v, ¬ Has t key v) : find t key = some none := by
  obtain ⟨i, hp⟩ := probeIndex_isSome t hI.shape key (room_of_size_lt t hI hroom)
  obtain ⟨hi, hs⟩ := probeIndex_lt t hI.shape key i hp
  rw [find_eq, hp]
  rcases state_cases (t.entries_ i) with he | hf
  · simp [he]
  · exfalso
    rcases hs with hs | hs
    · rw [hf] at hs; cases hs
    · exact hv _ ⟨i, hi, entry_eta _ key hf hs⟩

/-- On a table with the invariant and a free slot `find` returns. -/
theorem find_isSome (t : HashTable) (hI : Inv t) (hroom : t.size_ < t.cap) (key : Str) :
    (find t key).isSome = true := by
  by_cases h : ∃ v, Has t key v
  · obtain ⟨v, hv⟩ := h
    rw [find_of_has t hI key v hv]; rfl
  · rw [find_of_not_has t hI key hroom (fun v hv => h ⟨v, hv⟩)]; rfl

theorem lookup_eq_some_iff (t : HashTable) (hI : Inv t) (hroom : t.size_ < t.cap)
    (key : Str) (v : List Int) : lookup t key = some v ↔ Has t key v := by
  constructor
  · intro h
    by_cases hh : ∃ w, Has t key w
    · obtain ⟨w, hw⟩ := hh
      have := find_of_has t hI key w hw
      simp only [lookup, this] at h
      rw [← Option.some.inj h]; exact hw
    · have := find_of_not_has t hI key hroom (fun w hw => hh ⟨w, hw⟩)
      simp [lookup, this] at h
  · intro h
    simp [lookup, find_of_has t hI key v h]

theorem lookup_eq_none_iff (t : HashTable) (hI : Inv t) (hroom : t.size_ < t.cap)
    (key : Str) : lookup t key = none ↔ ∀ v, ¬ Has t key v := by
  constructor
  · intro h v hv
    rw [(lookup_eq_some_iff t hI hroom key v).mpr hv] at h
    cases h
  · intro h
    simp [lookup, find_of_not_has t hI key hroom h]

/-- Tables that hold the same pairs are the same map. -/
theorem lookup_congr (t t' : HashTable) (hI : Inv t) (hroom : t.size_ < t.cap)
    (hI' : Inv t') (hroom' : t'.size_ < t'.cap) (key : Str)
    (h : ∀ v, Has t' key v ↔ Has t key v) : lookup t' key = lookup t key := by
  cases hl : lookup t key with
  | none =>
    rw [lookup_eq_none_iff t hI hroom] at hl
    rw [lookup_eq_none_iff t' hI' hroom']
    exact fun v hv => hl v ((h v).mp hv)
  | some v =>
    rw [lookup_eq_some_iff t hI hroom] at hl
    rw [lookup_eq_some_iff t' hI' hroom']
    exact (h v).mpr hl

/-! ### Updates that keep the probe sequences -/

theorem probeLoop_congr (t t' : HashTable) (hm : t'.mask_ = t.mask_)
    (hs : ∀ i, (t'.entries_ i).state = (t.entries_ i).state)
    (hk : ∀ i, (t'.entries_ i).key = (t.entries_ i).key) (key : Str) (f : Nat) :
    ∀ h, probeLoop t' key f h = probeLoop t key f h := by
  induction f with
  | zero => intro h; rfl
  | succ f ih =>
    intro h
    simp only [probeLoop, hs, hk, hm, ih]

theorem probeIndex_congr (t t' : HashTable) (hm : t'.mask_ = t.mask_)
    (hs : ∀ i, (t'.entries_ i).state = (t.entries_ i).state)
    (hk : ∀ i, (t'.entries_ i).key = (t.entries_ i).key) (key : Str) :
    probeIndex t' key = probeIndex t key := by
  unfold probeIndex
  rw [hm]
  exact probeLoop_congr t t' hm hs hk key _ _

/-- An update of the values alone keeps the invariant. -/
theorem inv_of_same_keys (t t' : HashTable) (hI : Inv t) (hc : t'.cap = t.cap)
    (hm : t'.mask_ = t.mask_) (hz : t'.size_ = t.size_)
    (hs : ∀ i, (t'.entries_ i).state = (t.entries_ i).state)
    (hk : ∀ i, (t'.entries_ i).key = (t.entries_ i).key) : Inv t' where
  shape := ⟨by rw [hc]; exact hI.shape.cap_pow, by rw [hm, hc]; exact hI.shape.mask_eq⟩
  probe_self := by
    intro i hi hf
    rw [probeIndex_congr t t' hm hs hk, hk]
    exact hI.probe_self i (by rw [← hc]; exact hi) (by rw [← hs]; exact hf)
  size_eq := by
    rw [hz, hc, hI.size_eq]
    exact (filledCount_congr _ _ _ (fun i _ => hs i)).symm

/-- Filling an empty slot does not move the end of a probe that still stops
where it did. -/
theorem probeIndex_fill (t t' : HashTable) (hI : Shape t) (hI' : Shape t') (hc : t'.cap = t.cap)
    (hm : t'.mask_ = t.mask_) (idx : Nat) (e : Entry)
    (he : t'.entries_ = setEntry t.entries_ idx e)
    (hempty : (t.entries_ idx).state = State.EMPTY) (q : Str) (i : Nat)
    (hp : probeIndex t q = some i) (hs : Stops t' q i) : probeIndex t' q = some i := by
  rw [probeIndex_eq_some_iff t hI] at hp
  rw [probeIndex_eq_some_iff t' hI', hm, hc]
  obtain ⟨d, hd, hi, _, hmin⟩ := hp
  refine ⟨d, hd, hi, hs, ?_⟩
  intro j hj hst
  apply hmin j hj
  have hne : ((hash64 q &&& t.mask_) + j) % t.cap ≠ idx := by
    intro heq
    apply hmin j hj
    rw [heq]
    exact Or.inl hempty
  unfold Stops at hst ⊢
  rw [he] at hst
  simp only [setEntry, if_neg hne] at hst
  exact hst

end HashTable

end InfSearch

namespace InfSearch

namespace HashTable

/-! ### Filling a free slot -/

/-- A key that the table does not hold is put into the empty slot at which its
probe ends; the invariant is kept and the table holds one more pair. -/
theorem insert_fresh (t : HashTable) (hI : Inv t) (hroom : t.size_ < t.cap) (key : Str)
    (v : List Int) (hnew : ∀ w, ¬ Has t key w) :
    ∃ idx, probeIndex t key = some idx ∧ idx < t.cap ∧
      (t.entries_ idx).state = State.EMPTY ∧
      Inv (fillSlot t idx ⟨State.FILLED, key, v⟩) ∧
      ∀ k w, Has (fillSlot t idx ⟨State.FILLED, key, v⟩) k w ↔ Has t k w ∨ (k = key ∧ w = v) := by
  obtain ⟨idx, hp⟩ := probeIndex_isSome t hI.shape key (room_of_size_lt t hI hroom)
  obtain ⟨hlt, hs⟩ := probeIndex_lt t hI.shape key idx hp
  have hempty : (t.entries_ idx).state = State.EMPTY := by
    rcases state_cases (t.entries_ idx) with he | hf
    · exact he
    · rcases hs with hs | hs
      · exact hs
      · exact absurd ⟨idx, hlt, entry_eta _ key hf hs⟩ (hnew _)
  have hshape : Shape (fillSlot t idx ⟨State.FILLED, key, v⟩) :=
    ⟨hI.shape.cap_pow, hI.shape.mask_eq⟩
  refine ⟨idx, hp, hlt, hempty, ⟨hshape, ?_, ?_⟩, ?_⟩
  · intro i hi hf
    by_cases hii : i = idx
    · subst hii
      have hk : ((fillSlot t i ⟨State.FILLED, key, v⟩).entries_ i).key = key := by
        simp [fillSlot, setEntry]
      rw [hk]
      exact probeIndex_fill t _ hI.shape hshape rfl rfl i _ rfl hempty key i hp (Or.inr hk)
    · have hent : (fillSlot t idx ⟨State.FILLED, key, v⟩).entries_ i = t.entries_ i := by
        simp [fillSlot, setEntry, hii]
      rw [hent] at hf ⊢
      exact probeIndex_fill t _ hI.shape hshape rfl rfl idx _ rfl hempty _ i
        (hI.probe_self i hi hf) (Or.inr (by rw [hent]))
  · show t.size_ + 1 = filledCount (setEntry t.entries_ idx ⟨State.FILLED, key, v⟩) t.cap
    rw [filledCount_setEntry_fill _ _ _ _ hlt hempty rfl, hI.size_eq]
  · intro k w
    constructor
    · rintro ⟨i, hi, ei⟩
      by_cases hii : i = idx
      · subst hii
        have : (⟨State.FILLED, key, v⟩ : Entry) = ⟨State.FILLED, k, w⟩ := by
          simpa [fillSlot, setEntry] using ei
        have h2 := Entry.mk.inj this
        exact Or.inr ⟨h2.2.1.symm, h2.2.2.symm⟩
      · have hent : (fillSlot t idx ⟨State.FILLED, key, v⟩).entries_ i = t.entries_ i := by
          simp [fillSlot, setEntry, hii]
        rw [hent] at ei
        exact Or.inl ⟨i, hi, ei⟩
    · rintro (⟨i, hi, ei⟩ | ⟨hk, hw⟩)
      · have hii : i ≠ idx := by
          intro h; subst h; rw [ei] at hempty; cases hempty
        refine ⟨i, hi, ?_⟩
        show setEntry t.entries_ idx ⟨State.FILLED, key, v⟩ i = _
        simp only [setEntry, if_neg hii]
        exact ei
      · subst hk; subst hw
        refine ⟨idx, hlt, ?_⟩
        show setEntry t.entries_ idx ⟨State.FILLED, k, w⟩ idx = _
        simp [setEntry]

/-! ### rehash -/

/-- Loop invariant of `rehash`: after the old slots below `i` the new table
holds exactly their pairs. -/
theorem rehashLoop_spec (old : Nat → Entry) (oldCap : Nat)
    (hdist : ∀ j j', j < oldCap → j' < oldCap → (old j).state = State.FILLED →
      (old j').state = State.FILLED → (old j').key = (old j).key → j' = j)
    (n : Nat) : ∀ (i : Nat) (t : HashTable), i + n = oldCap → Inv t →
      t.size_ = filledCount old i → filledCount old oldCap < t.cap →
      (∀ k v, Has t k v ↔ ∃ j, j < i ∧ old j = ⟨State.FILLED, k, v⟩) →
      ∃ t', rehashLoop old n i t = some t' ∧ Inv t' ∧ t'.cap = t.cap ∧
        t'.size_ = filledCount old oldCap ∧
        ∀ k v, Has t' k v ↔ ∃ j, j < oldCap ∧ old j = ⟨State.FILLED, k, v⟩ := by
  induction n with
  | zero =>
    intro i t hi hI hsz _ hhas
    have : i = oldCap := by omega
    subst this
    exact ⟨t, rfl, hI, rfl, hsz, hhas⟩
  | succ n ih =>
    intro i t hi hI hsz hroom hhas
    have hilt : i < oldCap := by omega
    simp only [rehashLoop, rehashStep]
    rcases state_cases (old i) with he | hf
    · have hne : ¬ (old i).state ≠ State.FILLED → False := by
        intro h; apply h; rw [he]; simp
      rw [if_pos (by rw [he]; simp)]
      apply ih (i + 1) t (by omega) hI _ hroom
      · intro k v
        rw [hhas k v]
        constructor
        · rintro ⟨j, hj, ej⟩
          exact ⟨j, by omega, ej⟩
        · rintro ⟨j, hj, ej⟩
          by_cases hji : j = i
          · subst hji; rw [ej] at he; cases he
          · exact ⟨j, by omega, ej⟩
      · rw [hsz]; simp only [filledCount]; rw [if_neg (by rw [he]; simp)]; rfl
    · rw [if_neg (by rw [hf]; simp)]
      have hnew : ∀ w, ¬ Has t (old i).key w := by
        intro w hw
        obtain ⟨j, hj, ej⟩ := (hhas _ _).mp hw
        have := hdist i j hilt (by omega) hf (by rw [ej]) (by rw [ej])
        omega
      have hlt : t.size_ < t.cap := by
        have := filledCount_mono old (Nat.le_of_lt hilt)
        omega
      obtain ⟨idx, hp, _, _, hI', hhas'⟩ := insert_fresh t hI hlt (old i).key (old i).value hnew
      rw [hp]
      simp only
      have := ih (i + 1) (fillSlot t idx ⟨State.FILLED, (old i).key, (old i).value⟩) (by omega)
        hI' (by
          show t.size_ + 1 = _
          rw [hsz]; simp only [filledCount]; rw [if_pos hf]) hroom (by
          intro k v
          rw [hhas' k v, hhas k v]
          constructor
          · rintro (⟨j, hj, ej⟩ | ⟨hk, hv⟩)
            · exact ⟨j, by omega, ej⟩
            · exact ⟨i, by omega, by rw [hk, hv]; exact entry_eta _ _ hf rfl⟩
          · rintro ⟨j, hj, ej⟩
            by_cases hji : j = i
            · subst hji
              right
              rw [ej]
              exact ⟨rfl, rfl⟩
            · exact Or.inl ⟨j, by omega, ej⟩)
      exact this

theorem inv_distinct (t : HashTable) (hI : Inv t) (j j' : Nat) (hj : j < t.cap)
    (hj' : j' < t.cap) (hf : (t.entries_ j).state = State.FILLED)
    (hf' : (t.entries_ j').state = State.FILLED)
    (hk : (t.entries_ j').key = (t.entries_ j).key) : j' = j := by
  have p := hI.probe_self j hj hf
  have p' := hI.probe_self j' hj' hf'
  rw [hk] at p'
  exact Option.some.inj (p'.symm.trans p)

/-- Effect of `rehash` to twice the capacity: it returns, keeps the invariant
and `size_`, and the new table holds the same pairs. -/
theorem rehash_spec (t : HashTable) (hI : Inv t) :
    ∃ t', rehash t (t.cap * 2) = some t' ∧ Inv t' ∧ t'.cap = t.cap * 2 ∧
      t'.size_ = t.size_ ∧ ∀ k v, Has t' k v ↔ Has t k v := by
  have hc := cap_pos t hI.shape
  obtain ⟨k, hk1, hk⟩ := hI.shape.cap_pow
  have h0 : ∀ n, filledCount (fun _ => Entry.empty) n = 0 := by
    intro n
    induction n with
    | zero => rfl
    | succ n ih =>
      simp only [filledCount, ih]
      simp [Entry.empty]
  obtain ⟨t', h1, h2, h3, h4, h5⟩ := rehashLoop_spec t.entries_ t.cap
    (fun j j' hj hj' hf hf' hkk => inv_distinct t hI j j' hj hj' hf hf' hkk) t.cap 0
    { entries_ := fun _ => Entry.empty, cap := t.cap * 2, size_ := 0, mask_ := t.cap * 2 - 1 }
    (by omega)
    { shape := ⟨⟨k + 1, by omega, by simp only []; rw [hk, pow_succ]⟩, rfl⟩
      probe_self := by
        intro i _ hf
        simp [Entry.empty] at hf
      size_eq := by simp only []; rw [h0] }
    rfl
    (by
      have := filledCount_le t.entries_ t.cap
      simp only []
      omega)
    (by
      intro k v
      constructor
      · rintro ⟨i, _, ei⟩
        simp [Entry.empty] at ei
      · rintro ⟨j, hj, _⟩
        omega)
  refine ⟨t', h1, h2, h3, ?_, ?_⟩
  · rw [h4, hI.size_eq]
  · intro k v
    rw [h5 k v]
    rfl

end HashTable

end InfSearch

namespace InfSearch

namespace HashTable

/-! ### getOrInsert, push_back, forEach -/

/-- Effect of `getOrInsert`: it returns a slot that holds the key, with the
value the key had before or the empty list for a new key; the other keys keep
their values and the invariant is kept. -/
theorem getOrInsert_spec (t : HashTable) (hW : WF t) (key : Str) :
    ∃ t' idx, getOrInsert t key = some (t', idx) ∧ WF t' ∧ idx < t'.cap ∧
      t'.entries_ idx = ⟨State.FILLED, key, (lookup t key).getD []⟩ ∧
      (∀ k, k ≠ key → lookup t' k = lookup t k) ∧
      t'.size_ = (if lookup t key = none then t.size_ + 1 else t.size_) := by
  have hc := cap_pos t hW.1.shape
  have hlt := size_lt_of_WF t hW
  -- the table after the optional rehash
  have h1 : ∃ t₁, (if 10 * (t.size_ + 1) > 7 * t.cap then rehash t (t.cap * 2) else some t)
      = some t₁ ∧ Inv t₁ ∧ 10 * (t₁.size_ + 1) ≤ 7 * t₁.cap ∧ t₁.size_ = t.size_ ∧
      ∀ k v, Has t₁ k v ↔ Has t k v := by
    by_cases hload : 10 * (t.size_ + 1) > 7 * t.cap
    · rw [if_pos hload]
      obtain ⟨t₁, e1, e2, e3, e4, e5⟩ := rehash_spec t hW.1
      refine ⟨t₁, e1, e2, ?_, e4, e5⟩
      have := hW.2
      rw [e3, e4]; omega
    · rw [if_neg hload]
      exact ⟨t, rfl, hW.1, by omega, rfl, fun _ _ => Iff.rfl⟩
  obtain ⟨t₁, e1, hI₁, hload₁, hsz₁, hhas₁⟩ := h1
  have hc₁ := cap_pos t₁ hI₁.shape
  have hlt₁ : t₁.size_ < t₁.cap := by omega
  have hlk : ∀ k, lookup t₁ k = lookup t k := fun k =>
    lookup_congr t t₁ hW.1 hlt hI₁ hlt₁ k (hhas₁ k)
  simp only [getOrInsert, e1]
  by_cases hh : ∃ w, Has t₁ key w
  · -- the key is in the table
    obtain ⟨w, hw⟩ := hh
    obtain ⟨i, hi, ei⟩ := hw
    have hp := hI₁.probe_self i hi (by rw [ei])
    rw [ei] at hp
    simp only at hp
    rw [hp]
    simp only
    rw [if_neg (by rw [ei]; simp)]
    have hl : lookup t key = some w := by
      rw [← hlk]; exact (lookup_eq_some_iff t₁ hI₁ hlt₁ key w).mpr ⟨i, hi, ei⟩
    refine ⟨t₁, i, rfl, ⟨hI₁, by omega⟩, hi, ?_, fun k _ => hlk k, ?_⟩
    · rw [hl]; exact ei
    · rw [hl]; simp [hsz₁]
  · -- a new key
    have hnew : ∀ w, ¬ Has t₁ key w := fun w hw => hh ⟨w, hw⟩
    obtain ⟨idx, hp, hidx, hempty, hI', hhas'⟩ := insert_fresh t₁ hI₁ hlt₁ key [] hnew
    rw [hp]
    simp only
    rw [if_pos hempty]
    have hl : lookup t key = none := by
      rw [← hlk]; exact (lookup_eq_none_iff t₁ hI₁ hlt₁ key).mpr hnew
    have hlt' : (fillSlot t₁ idx ⟨State.FILLED, key, []⟩).size_
        < (fillSlot t₁ idx ⟨State.FILLED, key, []⟩).cap := by
      show t₁.size_ + 1 < t₁.cap
      omega
    refine ⟨fillSlot t₁ idx ⟨State.FILLED, key, []⟩, idx, rfl, ⟨hI', ?_⟩, hidx, ?_, ?_, ?_⟩
    · show 10 * (t₁.size_ + 1) ≤ 7 * t₁.cap
      exact hload₁
    · rw [hl]
      show setEntry t₁.entries_ idx ⟨State.FILLED, key, []⟩ idx = _
      simp [setEntry]
    · intro k hk
      rw [← hlk k]
      apply lookup_congr t₁ _ hI₁ hlt₁ hI' hlt' k
      intro v
      rw [hhas' k v]
      constructor
      · rintro (h | ⟨h, _⟩)
        · exact h
        · exact absurd h hk
      · exact Or.inl
    · rw [hl]
      show t₁.size_ + 1 = _
      simp [hsz₁]

/-- Effect of `push_back` on the value in a filled slot. -/
theorem pushBack_spec (t : HashTable) (hW : WF t) (idx : Nat) (key : Str) (v : List Int)
    (x : Int) (hidx : idx < t.cap) (he : t.entries_ idx = ⟨State.FILLED, key, v⟩) :
    WF (pushBack t idx x) ∧ lookup (pushBack t idx x) key = some (v ++ [x]) ∧
      (∀ k, k ≠ key → lookup (pushBack t idx x) k = lookup t k) ∧
      (pushBack t idx x).size_ = t.size_ := by
  have hst : ∀ i, ((pushBack t idx x).entries_ i).state = (t.entries_ i).state := by
    intro i
    simp only [pushBack, setEntry]
    split_ifs with h
    · rw [h]
    · rfl
  have hky : ∀ i, ((pushBack t idx x).entries_ i).key = (t.entries_ i).key := by
    intro i
    simp only [pushBack, setEntry]
    split_ifs with h
    · rw [h]
    · rfl
  have hI' : Inv (pushBack t idx x) := inv_of_same_keys t _ hW.1 rfl rfl rfl hst hky
  have hlt := size_lt_of_WF t hW
  have hlt' : (pushBack t idx x).size_ < (pushBack t idx x).cap := hlt
  have hent : (pushBack t idx x).entries_ idx = ⟨State.FILLED, key, v ++ [x]⟩ := by
    simp [pushBack, setEntry, he]
  refine ⟨⟨hI', hW.2⟩, ?_, ?_, rfl⟩
  · exact (lookup_eq_some_iff _ hI' hlt' key _).mpr ⟨idx, hidx, hent⟩
  · intro k hk
    apply lookup_congr t _ hW.1 hlt hI' hlt' k
    intro w
    constructor
    · rintro ⟨i, hi, ei⟩
      have hii : i ≠ idx := by
        intro h; subst h; rw [hent] at ei
        exact hk (Entry.mk.inj ei).2.1.symm
      refine ⟨i, hi, ?_⟩
      simpa [pushBack, setEntry, hii] using ei
    · rintro ⟨i, hi, ei⟩
      have hii : i ≠ idx := by
        intro h; subst h; rw [he] at ei
        exact hk (Entry.mk.inj ei).2.1.symm
      refine ⟨i, hi, ?_⟩
      simpa [pushBack, setEntry, hii] using ei

/-- Effect of `forEach`: every value `v` under a key `k` becomes `f k v`. -/
theorem forEach_spec (t : HashTable) (hW : WF t) (f : Str → List Int → List Int) :
    WF (forEach t f) ∧ (∀ k, lookup (forEach t f) k = (lookup t k).map (f k)) ∧
      (forEach t f).size_ = t.size_ := by
  have hst : ∀ i, ((forEach t f).entries_ i).state = (t.entries_ i).state := by
    intro i
    simp only [forEach]
    split_ifs <;> rfl
  have hky : ∀ i, ((forEach t f).entries_ i).key = (t.entries_ i).key := by
    intro i
    simp only [forEach]
    split_ifs <;> rfl
  have hI' : Inv (forEach t f) := inv_of_same_keys t _ hW.1 rfl rfl rfl hst hky
  have hlt := size_lt_of_WF t hW
  have hlt' : (forEach t f).size_ < (forEach t f).cap := hlt
  refine ⟨⟨hI', hW.2⟩, ?_, rfl⟩
  intro k
  cases hl : lookup t k with
  | none =>
    rw [lookup_eq_none_iff t hW.1 hlt] at hl
    rw [Option.map_none', lookup_eq_none_iff _ hI' hlt']
    rintro v ⟨i, hi, ei⟩
    have hi' : i < t.cap := hi
    have hs := hst i
    have hk := hky i
    rw [ei] at hs hk
    exact hl _ ⟨i, hi', entry_eta _ k hs.symm hk.symm⟩
  | some v =>
    rw [lookup_eq_some_iff t hW.1 hlt] at hl
    rw [Option.map_some', lookup_eq_some_iff _ hI' hlt']
    obtain ⟨i, hi, ei⟩ := hl
    refine ⟨i, hi, ?_⟩
    simp [forEach, ei, hi]

end HashTable

end InfSearch

namespace InfSearch

/-! ### std::sort and std::unique -/

theorem mem_sortInsert {α : Type} (lt : α → α → Bool) (x z : α) (l : List α) :
    z ∈ sortInsert lt x l ↔ z = x ∨ z ∈ l := by
  induction l with
  | nil => simp [sortInsert]
  | cons y l ih =>
    simp only [sortInsert]
    split_ifs
    · simp only [List.mem_cons, ih]; tauto
    · simp only [List.mem_cons]

theorem mem_stdSort {α : Type} (lt : α → α → Bool) (z : α) (l : List α) :
    z ∈ stdSort lt l ↔ z ∈ l := by
  induction l with
  | nil => simp [stdSort]
  | cons x l ih =>
    have : stdSort lt (x :: l) = sortInsert lt x (stdSort lt l) := rfl
    rw [this, mem_sortInsert, ih, List.mem_cons]

theorem mem_stdUnique {α : Type} [DecidableEq α] (z : α) (l : List α) :
    z ∈ stdUnique l ↔ z ∈ l := by
  induction l with
  | nil => simp [stdUnique]
  | cons x l ih =>
    cases l with
    | nil => simp [stdUnique]
    | cons y l =>
      simp only [stdUnique]
      split_ifs with h
      · rw [ih]; subst h; simp
      · rw [List.mem_cons, ih]
        exact List.mem_cons.symm

theorem sorted_sortInsert_int (x : Int) (l : List Int) (h : l.Sorted (· ≤ ·)) :
    (sortInsert intLt x l).Sorted (· ≤ ·) := by
  induction l with
  | nil => simp [sortInsert]
  | cons y l ih =>
    have hy := List.sorted_cons.mp h
    simp only [sortInsert, intLt]
    split_ifs with hlt
    · have hlt' : y < x := by simpa using hlt
      refine List.sorted_cons.mpr ⟨?_, ih hy.2⟩
      intro z hz
      rcases (mem_sortInsert _ _ _ _).mp hz with hz | hz
      · omega
      · exact hy.1 z hz
    · have hge : x ≤ y := by
        have : ¬ y < x := by simpa using hlt
        omega
      refine List.sorted_cons.mpr ⟨?_, h⟩
      intro z hz
      rcases List.mem_cons.mp hz with hz | hz
      · omega
      · have := hy.1 z hz; omega

theorem sorted_stdSort_int (l : List Int) : (stdSort intLt l).Sorted (· ≤ ·) := by
  induction l with
  | nil => simp [stdSort]
  | cons x l ih => exact sorted_sortInsert_int x _ ih

theorem asc_stdUnique (l : List Int) (h : l.Sorted (· ≤ ·)) : Asc (stdUnique l) := by
  induction l with
  | nil => simp [stdUnique, Asc]
  | cons x l ih =>
    have hx := List.sorted_cons.mp h
    cases l with
    | nil => simp [stdUnique, Asc]
    | cons y l =>
      simp only [stdUnique]
      split_ifs with hxy
      · exact ih hx.2
      · refine List.sorted_cons.mpr ⟨?_, ih hx.2⟩
        intro z hz
        rw [mem_stdUnique] at hz
        have h1 := hx.1 y (List.mem_cons_self _ _)
        have hy := List.sorted_cons.mp hx.2
        rcases List.mem_cons.mp hz with hz | hz
        · omega
        · have := hy.1 z hz; omega

/-- The composition `sort; unique` of `finalize` gives a strictly ascending
list with the same elements. -/
theorem asc_sortUnique (l : List Int) : Asc (stdUnique (stdSort intLt l)) :=
  asc_stdUnique _ (sorted_stdSort_int l)

theorem mem_sortUnique (l : List Int) (z : Int) : z ∈ stdUnique (stdSort intLt l) ↔ z ∈ l := by
  rw [mem_stdUnique, mem_stdSort]

namespace BooleanIndex

/-! ### The index -/

theorem mem_docTerms (text k : Str) :
    k ∈ docTerms text ↔
      ∃ x, x ∈ Tokenizer.tokenize text ∧ Stemmer.stem x = k ∧ 2 ≤ k.length := by
  unfold docTerms docTermsRaw
  rw [mem_stdUnique, mem_stdSort, List.mem_filterMap]
  constructor
  · rintro ⟨x, hx, h⟩
    by_cases hl : (Stemmer.stem x).length < 2
    · simp [hl] at h
    · simp only [hl, if_false, Option.some.injEq] at h
      exact ⟨x, hx, h, by rw [← h]; omega⟩
  · rintro ⟨x, hx, h, hl⟩
    refine ⟨x, hx, ?_⟩
    have : ¬ k.length < 2 := by omega
    simp only [h, this, if_false]

theorem addTerms_spec (id : Int) (terms : List Str) :
    ∀ t : HashTable, HashTable.WF t →
      ∃ t', addTerms id terms t = some t' ∧ HashTable.WF t' ∧
        ∀ k d, Mem t' k d ↔ Mem t k d ∨ (k ∈ terms ∧ d = id) := by
  induction terms with
  | nil =>
    intro t hW
    exact ⟨t, rfl, hW, fun k d => by simp⟩
  | cons term terms ih =>
    intro t hW
    obtain ⟨t₁, idx, e1, hW₁, hidx, hent, hother, _⟩ := HashTable.getOrInsert_spec t hW term
    obtain ⟨hW₂, hl₂, hother₂, _⟩ :=
      HashTable.pushBack_spec t₁ hW₁ idx term _ id hidx hent
    obtain ⟨t', e3, hW', hmem⟩ := ih (HashTable.pushBack t₁ idx id) hW₂
    refine ⟨t', ?_, hW', ?_⟩
    · simp only [addTerms, e1]
      exact e3
    · intro k d
      rw [hmem k d]
      have step : Mem (HashTable.pushBack t₁ idx id) k d ↔ Mem t k d ∨ (k = term ∧ d = id) := by
        by_cases hk : k = term
        · subst hk
          constructor
          · rintro ⟨v, hv, hd⟩
            rw [hl₂] at hv
            have hv' := Option.some.inj hv
            subst hv'
            rcases List.mem_append.mp hd with hd | hd
            · left
              cases hl : HashTable.lookup t k with
              | none => rw [hl] at hd; simp at hd
              | some w => rw [hl] at hd; exact ⟨w, hl, by simpa using hd⟩
            · right
              exact ⟨rfl, by simpa using hd⟩
          · rintro (⟨v, hv, hd⟩ | ⟨_, hd⟩)
            · refine ⟨_, hl₂, ?_⟩
              rw [hv]
              exact List.mem_append_left _ (by simpa using hd)
            · exact ⟨_, hl₂, List.mem_append_right _ (by simp [hd])⟩
        · unfold Mem
          rw [hother₂ k hk, hother k hk]
          simp [hk]
      rw [step, List.mem_cons]
      tauto

theorem addDocument_spec (idx : BooleanIndex) (hW : HashTable.WF idx.table_) (doc : Document) :
    ∃ idx', addDocument idx doc = some idx' ∧ HashTable.WF idx'.table_ ∧
      idx'.all_docs_ = idx.all_docs_ ++ [doc.id] ∧
      ∀ k d, Mem idx'.table_ k d ↔ Mem idx.table_ k d ∨ (k ∈ docTerms doc.text ∧ d = doc.id) := by
  obtain ⟨t', e, hW', hmem⟩ := addTerms_spec doc.id (docTerms doc.text) idx.table_ hW
  refine ⟨{ docs_count_ := max idx.docs_count_ (((doc.id + 1) % 2 ^ 64).toNat)
            all_docs_ := idx.all_docs_ ++ [doc.id]
            table_ := t' }, ?_, hW', rfl, hmem⟩
  simp only [addDocument, e]

theorem addAll_spec (docs : List Document) :
    ∀ idx : BooleanIndex, HashTable.WF idx.table_ →
      ∃ idx', addAll docs idx = some idx' ∧ HashTable.WF idx'.table_ ∧
        idx'.all_docs_ = idx.all_docs_ ++ docs.map Document.id ∧
        ∀ k d, Mem idx'.table_ k d ↔
          Mem idx.table_ k d ∨ ∃ doc, doc ∈ docs ∧ doc.id = d ∧ k ∈ docTerms doc.text := by
  induction docs with
  | nil =>
    intro idx hW
    exact ⟨idx, rfl, hW, by simp, fun k d => by simp⟩
  | cons doc docs ih =>
    intro idx hW
    obtain ⟨idx₁, e1, hW₁, hall₁, hmem₁⟩ := addDocument_spec idx hW doc
    obtain ⟨idx', e2, hW', hall', hmem'⟩ := ih idx₁ hW₁
    refine ⟨idx', ?_, hW', ?_, ?_⟩
    · simp only [addAll, e1]
      exact e2
    · rw [hall', hall₁]; simp
    · intro k d
      rw [hmem' k d, hmem₁ k d]
      constructor
      · rintro ((h | ⟨h1, h2⟩) | ⟨doc', h1, h2, h3⟩)
        · exact Or.inl h
        · exact Or.inr ⟨doc, List.mem_cons_self _ _, h2.symm, h1⟩
        · exact Or.inr ⟨doc', List.mem_cons_of_mem _ h1, h2, h3⟩
      · rintro (h | ⟨doc', h1, h2, h3⟩)
        · exact Or.inl (Or.inl h)
        · rcases List.mem_cons.mp h1 with h1 | h1
          · subst h1
            exact Or.inl (Or.inr ⟨h3, h2.symm⟩)
          · exact Or.inr ⟨doc', h1, h2, h3⟩

theorem new_table_cap : (HashTable.new (1 <<< 20)).cap = 2 ^ 20 := by decide

theorem new_WF : HashTable.WF BooleanIndex.new.table_ := by
  have hcap : BooleanIndex.new.table_.cap = 2 ^ 20 := new_table_cap
  have h0 : ∀ n, HashTable.filledCount (fun _ => Entry.empty) n = 0 := by
    intro n
    induction n with
    | zero => rfl
    | succ n ih =>
      simp only [HashTable.filledCount, ih]
      simp [Entry.empty]
  refine ⟨⟨⟨⟨20, by omega, hcap⟩, rfl⟩, ?_, ?_⟩, ?_⟩
  · intro i _ hf
    simp [BooleanIndex.new, HashTable.new, Entry.empty] at hf
  · show 0 = HashTable.filledCount (fun _ => Entry.empty) _
    rw [h0]
  · show 10 * 0 ≤ _
    omega

theorem new_not_mem (k : Str) (d : Int) : ¬ Mem BooleanIndex.new.table_ k d := by
  rintro ⟨v, hv, _⟩
  rw [HashTable.lookup_eq_some_iff _ new_WF.1 (HashTable.size_lt_of_WF _ new_WF)] at hv
  obtain ⟨i, _, ei⟩ := hv
  simp [BooleanIndex.new, HashTable.new, Entry.empty] at ei

/-- What `build` makes of a list of documents: it returns; the table keeps its
invariant, so that every `find` returns; the universe is the sorted list of
the ids; the posting list of a term is strictly ascending and holds the ids of
the documents that have the term. -/
theorem build_spec (docs : List Document) :
    ∃ idx, build docs = some idx ∧ HashTable.WF idx.table_ ∧
      idx.allDocs = stdUnique (stdSort intLt (docs.map Document.id)) ∧
      (∀ k, Asc (idx.postings k)) ∧
      ∀ k d, d ∈ idx.postings k ↔ ∃ doc, doc ∈ docs ∧ doc.id = d ∧ k ∈ docTerms doc.text := by
  obtain ⟨idx₀, e, hW, hall, hmem⟩ := addAll_spec docs BooleanIndex.new new_WF
  obtain ⟨hWf, hlk, _⟩ := HashTable.forEach_spec idx₀.table_ hW
    (fun _ lst => stdUnique (stdSort intLt lst))
  have hpost : ∀ k, (finalize idx₀).postings k =
      ((HashTable.lookup idx₀.table_ k).map fun lst => stdUnique (stdSort intLt lst)).getD [] := by
    intro k
    rw [← hlk k]
    simp only [postings, finalize, HashTable.lookup]
    cases HashTable.find (HashTable.forEach idx₀.table_
        fun _ lst => stdUnique (stdSort intLt lst)) k with
    | none => rfl
    | some r => cases r <;> rfl
  refine ⟨finalize idx₀, by simp [build, e], hWf, ?_, ?_, ?_⟩
  · show stdUnique (stdSort intLt idx₀.all_docs_) = _
    rw [hall]; rfl
  · intro k
    rw [hpost]
    cases HashTable.lookup idx₀.table_ k with
    | none => simp [Asc]
    | some v => exact asc_sortUnique v
  · intro k d
    rw [hpost]
    have := hmem k d
    simp only [new_not_mem, false_or] at this
    rw [← this]
    unfold Mem
    cases HashTable.lookup idx₀.table_ k with
    | none => simp
    | some v => simp [mem_sortUnique]

end BooleanIndex

end InfSearch

namespace InfSearch

open BooleanSearch BooleanIndex

/-! ### The evaluator keeps results ascending and inside the universe -/

theorem evalStep_good (idx : BooleanIndex) (hu : Asc idx.allDocs)
    (hp : ∀ k, GoodList idx (idx.postings k)) (st : List (List Int)) (tk : Tok)
    (hst : ∀ l, l ∈ st → GoodList idx l) : ∀ l, l ∈ evalStep idx st tk → GoodList idx l := by
  have hnil : GoodList idx [] := ⟨by simp [Asc], by simp⟩
  have hnot : ∀ a, GoodList idx a → GoodList idx (opNot idx.allDocs a) := fun a ha =>
    ⟨opNot_asc _ _ hu, fun d hd => ((opNot_mem _ _ hu ha.1 d).mp hd).1⟩
  unfold evalStep
  split_ifs
  · intro l hl
    rcases List.mem_cons.mp hl with h | h
    · rw [h]; exact hp _
    · exact hst l h
  · cases st with
    | nil =>
      intro l hl
      rw [List.mem_singleton.mp hl]
      exact hnot [] hnil
    | cons a rest =>
      intro l hl
      rcases List.mem_cons.mp hl with h | h
      · rw [h]; exact hnot a (hst a (List.mem_cons_self _ _))
      · exact hst l (List.mem_cons_of_mem _ h)
  · match st, hst with
    | [], _ =>
      intro l hl
      rw [List.mem_singleton.mp hl]; exact hnil
    | [b], hst =>
      intro l hl
      rcases List.mem_cons.mp hl with h | h
      · rw [h]; exact hnil
      · exact hst l h
    | b :: a :: rest, hst =>
      intro l hl
      have ha := hst a (by simp)
      have hb := hst b (by simp)
      rcases List.mem_cons.mp hl with h | h
      · rw [h]
        exact ⟨opAnd_asc _ _ ha.1, fun d hd => ha.2 d ((opAnd_mem _ _ ha.1 hb.1 d).mp hd).1⟩
      · exact hst l (by simp [h])
  · match st, hst with
    | [], _ =>
      intro l hl
      rw [List.mem_singleton.mp hl]; exact hnil
    | [b], hst =>
      intro l hl
      rcases List.mem_cons.mp hl with h | h
      · rw [h]; exact hnil
      · exact hst l h
    | b :: a :: rest, hst =>
      intro l hl
      have ha := hst a (by simp)
      have hb := hst b (by simp)
      rcases List.mem_cons.mp hl with h | h
      · rw [h]
        refine ⟨opOr_asc _ _ ha.1 hb.1, fun d hd => ?_⟩
        rcases (opOr_mem _ _ d).mp hd with h' | h'
        · exact ha.2 d h'
        · exact hb.2 d h'
      · exact hst l (by simp [h])
  · exact hst

theorem evalRpn_good (idx : BooleanIndex) (hu : Asc idx.allDocs)
    (hp : ∀ k, GoodList idx (idx.postings k)) (rpn : List Tok) :
    GoodList idx (evalRpn idx rpn) := by
  have key : ∀ (rpn : List Tok) (st : List (List Int)), (∀ l, l ∈ st → GoodList idx l) →
      ∀ l, l ∈ rpn.foldl (evalStep idx) st → GoodList idx l := by
    intro rpn
    induction rpn with
    | nil => intro st hst; exact hst
    | cons tk rpn ih =>
      intro st hst
      exact ih _ (evalStep_good idx hu hp st tk hst)
  unfold evalRpn
  have := key rpn [] (by simp)
  cases h : rpn.foldl (evalStep idx) [] with
  | nil => exact ⟨by simp [Asc], by simp⟩
  | cons top rest =>
    rw [h] at this
    exact this top (List.mem_cons_self _ _)

theorem build_good (docs : List Document) :
    ∃ idx, build docs = some idx ∧ HashTable.WF idx.table_ ∧ Asc idx.allDocs ∧
      (∀ k, GoodList idx (idx.postings k)) ∧
      (∀ d, d ∈ idx.allDocs ↔ ∃ doc, doc ∈ docs ∧ doc.id = d) ∧
      ∀ k d, d ∈ idx.postings k ↔ ∃ doc, doc ∈ docs ∧ doc.id = d ∧ k ∈ docTerms doc.text := by
  obtain ⟨idx, e, hW, hall, hasc, hmem⟩ := build_spec docs
  have hallmem : ∀ d, d ∈ idx.allDocs ↔ ∃ doc, doc ∈ docs ∧ doc.id = d := by
    intro d
    rw [hall, mem_sortUnique, List.mem_map]
  refine ⟨idx, e, hW, by rw [hall]; exact asc_sortUnique _, ?_, hallmem, hmem⟩
  intro k
  refine ⟨hasc k, fun d hd => ?_⟩
  obtain ⟨doc, h1, h2, _⟩ := (hmem k d).mp hd
  exact (hallmem d).mpr ⟨doc, h1, h2⟩

/-- Claim C1: for every list of documents added and then finalized, and every
query string, every table lookup returns and `search` gives a strictly
ascending list of ids, each of them in `allDocs()`. -/
theorem C1_search_ascending_in_universe (docs : List Document) (q : Str) :
    ∃ idx, build docs = some idx ∧
      (∀ k, (HashTable.find idx.table_ k).isSome = true) ∧
      (search idx q).Sorted (· < ·) ∧ ∀ d, d ∈ search idx q → d ∈ idx.allDocs := by
  obtain ⟨idx, e, hW, hu, hp, _, _⟩ := build_good docs
  have := evalRpn_good idx hu hp (toRpn (lex q))
  exact ⟨idx, e, fun k => HashTable.find_isSome _ hW.1 (HashTable.size_lt_of_WF _ hW) k,
    this.1, this.2⟩

/-- Claim C5: on strictly ascending lists `opAnd`, `opOr` and `opNot` give
strictly ascending lists that are the intersection, the union and the
difference. -/
theorem C5_set_operations (a b u : List Int) (ha : a.Sorted (· < ·)) (hb : b.Sorted (· < ·))
    (hu : u.Sorted (· < ·)) :
    (opAnd a b).Sorted (· < ·) ∧ (opOr a b).Sorted (· < ·) ∧ (opNot u b).Sorted (· < ·) ∧
    ∀ x : Int, (x ∈ opAnd a b ↔ x ∈ a ∧ x ∈ b) ∧ (x ∈ opOr a b ↔ x ∈ a ∨ x ∈ b) ∧
      (x ∈ opNot u b ↔ x ∈ u ∧ x ∉ b) :=
  ⟨opAnd_asc a b ha, opOr_asc a b ha hb, opNot_asc u b hu,
    fun x => ⟨opAnd_mem a b ha hb x, opOr_mem a b x, opNot_mem u b hu hb x⟩⟩

/-- Claim C5 at concrete lists. -/
theorem C5_set_operations_witness :
    ([1, 3, 5, 7] : List Int).Sorted (· < ·) ∧ ([3, 4, 7, 9] : List Int).Sorted (· < ·) ∧
    ([0, 1, 2, 3, 4] : List Int).Sorted (· < ·) ∧
    (opAnd [1, 3, 5, 7] [3, 4, 7, 9]).Sorted (· < ·) ∧
    opAnd [1, 3, 5, 7] [3, 4, 7, 9] = [3, 7] ∧
    opOr [1, 3, 5, 7] [3, 4, 7, 9] = [1, 3, 4, 5, 7, 9] ∧
    opNot [0, 1, 2, 3, 4] [3, 4, 7, 9] = [0, 1, 2] :=
  ⟨by decide, by decide, by decide,
    (C5_set_operations [1, 3, 5, 7] [3, 4, 7, 9] [0, 1, 2, 3, 4]
      (by decide) (by decide) (by decide)).1,
    by decide, by decide, by decide⟩

/-- Claim C6: on strictly ascending lists `opAnd` and `opOr` are commutative,
as lists. -/
theorem C6_and_or_commute (a b : List Int) (ha : a.Sorted (· < ·)) (hb : b.Sorted (· < ·)) :
    opAnd a b = opAnd b a ∧ opOr a b = opOr b a := by
  constructor
  · apply asc_ext (opAnd_asc a b ha) (opAnd_asc b a hb)
    intro z
    rw [opAnd_mem a b ha hb, opAnd_mem b a hb ha]
    exact And.comm
  · apply asc_ext (opOr_asc a b ha hb) (opOr_asc b a hb ha)
    intro z
    rw [opOr_mem, opOr_mem]
    exact Or.comm

/-- Claim C6 at concrete lists. -/
theorem C6_and_or_commute_witness :
    ([1, 3, 5, 7] : List Int).Sorted (· < ·) ∧ ([3, 4, 7, 9] : List Int).Sorted (· < ·) ∧
    opAnd [1, 3, 5, 7] [3, 4, 7, 9] = opAnd [3, 4, 7, 9] [1, 3, 5, 7] ∧
    opOr [1, 3, 5, 7] [3, 4, 7, 9] = opOr [3, 4, 7, 9] [1, 3, 5, 7] :=
  ⟨by decide, by decide, C6_and_or_commute [1, 3, 5, 7] [3, 4, 7, 9] (by decide) (by decide)⟩

/-- Claim C7: on strictly ascending lists the intersection with `b` and the
difference by `b` partition `a`: `opOr (opAnd a b) (opNot a b) = a`, no id is
in both `opAnd a b` and `opNot a b`, `opAnd a b` holds the ids of `a` that are
in `b` and `opNot a b` the ids of `a` that are not in `b`. -/
theorem C7_and_not_partition (a b : List Int) (ha : a.Sorted (· < ·)) (hb : b.Sorted (· < ·)) :
    opOr (opAnd a b) (opNot a b) = a ∧
    (∀ x, x ∈ opAnd a b → x ∉ opNot a b) ∧
    (∀ x, x ∈ opAnd a b ↔ x ∈ a ∧ x ∈ b) ∧
    (∀ x, x ∈ opNot a b ↔ x ∈ a ∧ x ∉ b) := by
  refine ⟨?_, fun x h1 h2 => ?_, fun x => opAnd_mem a b ha hb x, fun x => opNot_mem a b ha hb x⟩
  · apply asc_ext (opOr_asc _ _ (opAnd_asc a b ha) (opNot_asc a b ha)) ha
    intro z
    rw [opOr_mem, opAnd_mem a b ha hb, opNot_mem a b ha hb]
    by_cases h : z ∈ b <;> simp [h]
  · exact ((opNot_mem a b ha hb x).mp h2).2 ((opAnd_mem a b ha hb x).mp h1).2

/-- Claim C7 at concrete lists: `[1, 3, 5, 7]` is split into `[3, 7]` and
`[1, 5]`. -/
theorem C7_and_not_partition_witness :
    ([1, 3, 5, 7] : List Int).Sorted (· < ·) ∧ ([3, 4, 7, 9] : List Int).Sorted (· < ·) ∧
    opOr (opAnd [1, 3, 5, 7] [3, 4, 7, 9]) (opNot [1, 3, 5, 7] [3, 4, 7, 9]) = [1, 3, 5, 7] ∧
    (∀ x, x ∈ opAnd [1, 3, 5, 7] [3, 4, 7, 9] → x ∉ opNot [1, 3, 5, 7] [3, 4, 7, 9]) ∧
    opAnd [1, 3, 5, 7] [3, 4, 7, 9] = [3, 7] ∧ opNot [1, 3, 5, 7] [3, 4, 7, 9] = [1, 5] :=
  ⟨by decide, by decide,
    (C7_and_not_partition [1, 3, 5, 7] [3, 4, 7, 9] (by decide) (by decide)).1,
    (C7_and_not_partition [1, 3, 5, 7] [3, 4, 7, 9] (by decide) (by decide)).2.1,
    by decide, by decide⟩

/-- Claim C8: after `finalize`, whatever documents were added (ids in any
order, repeated or not), every `find` returns, `postings(t)` is strictly
ascending with each id in `allDocs()`, and `allDocs()` is strictly ascending. -/
theorem C8_postings_ascending_in_universe (docs : List Document) :
    ∃ idx, build docs = some idx ∧
      (∀ t, (HashTable.find idx.table_ t).isSome = true) ∧
      (∀ t, (idx.postings t).Sorted (· < ·) ∧ ∀ d, d ∈ idx.postings t → d ∈ idx.allDocs) ∧
      idx.allDocs.Sorted (· < ·) := by
  obtain ⟨idx, e, hW, hu, hp, _, _⟩ := build_good docs
  exact ⟨idx, e, fun k => HashTable.find_isSome _ hW.1 (HashTable.size_lt_of_WF _ hW) k,
    fun t => hp t, hu⟩

end InfSearch

namespace InfSearch

open BooleanSearch BooleanIndex

/-- Claim C3: on the finalized index of the four test documents the four
queries of the scenario give `[1]`, `[0, 2]`, `[0, 1]` and `[]`. -/
theorem C3_small_corpus_queries :
    ∃ idx, build smallCorpus = some idx ∧
      search idx (bytes "(нефть OR газ) AND NOT европа") = [1] ∧
      search idx (bytes "нефть европа") = [0, 2] ∧
      search idx (bytes "NOT NOT газ") = [0, 1] ∧
      search idx (bytes "квазар") = [] := by
  have h : (build smallCorpus).map (fun idx =>
      [search idx (bytes "(нефть OR газ) AND NOT европа"), search idx (bytes "нефть европа"),
       search idx (bytes "NOT NOT газ"), search idx (bytes "квазар")])
      = some [[1], [0, 2], [0, 1], []] := by decide!
  obtain ⟨idx, e, _⟩ := build_good smallCorpus
  rw [e] at h
  simp only [Option.map_some', Option.some.injEq, List.cons.injEq, and_true] at h
  exact ⟨idx, e, h.1, h.2.1, h.2.2.1, h.2.2.2⟩

end InfSearch

namespace InfSearch

open BooleanSearch BooleanIndex

namespace BooleanSearch

/-! ### The implicit-AND pass -/

theorem lexNorm_loop (pre : List Tok) : ∀ (suf norm : List Tok) (p : Nat), p = pre.length →
    (List.range' p suf.length).foldl (lexNormStep (pre ++ suf)) norm
      = norm ++ insertImplicitAnd suf
  | [], norm, p, _ => by simp [insertImplicitAnd]
  | [x], norm, p, hp => by
    subst hp
    simp [List.range', lexNormStep, insertImplicitAnd, List.getD_eq_getElem?_getD]
  | x :: y :: rest, norm, p, hp => by
    subst hp
    have ih := lexNorm_loop (pre ++ [x]) (y :: rest)
    have e : pre ++ x :: y :: rest = (pre ++ [x]) ++ (y :: rest) := by simp
    have hx : (pre ++ x :: y :: rest).getD pre.length ⟨TokType.TERM, []⟩ = x := by
      simp only [List.getD_eq_getElem?_getD]
      rw [List.getElem?_append_right (le_refl _)]
      simp
    have hy : (pre ++ x :: y :: rest).getD (pre.length + 1) ⟨TokType.TERM, []⟩ = y := by
      rw [e]
      simp only [List.getD_eq_getElem?_getD]
      rw [List.getElem?_append_right (by simp)]
      simp
    have hlen : pre.length + 1 < (pre ++ x :: y :: rest).length := by simp
    have hstep : lexNormStep (pre ++ x :: y :: rest) norm pre.length
        = norm ++ (if needsAnd x y then [x, ⟨TokType.AND, []⟩] else [x]) := by
      simp only [lexNormStep, hx, hy, if_pos hlen, needsAnd]
      split_ifs <;> simp
    have hr : List.range' pre.length (x :: y :: rest).length
        = pre.length :: List.range' (pre.length + 1) (y :: rest).length := rfl
    rw [hr, List.foldl_cons, hstep]
    have := ih (norm ++ (if needsAnd x y then [x, ⟨TokType.AND, []⟩] else [x]))
      (pre.length + 1) (by simp)
    rw [← e] at this
    rw [this]
    simp only [insertImplicitAnd]
    split_ifs <;> simp

/-- The second loop of `lex` inserts the implicit ANDs of the specification. -/
theorem lexNorm_eq (raw : List Tok) : lexNorm raw = insertImplicitAnd raw := by
  have := lexNorm_loop [] raw [] 0 rfl
  simp only [List.nil_append] at this
  rw [lexNorm, List.range_eq_range']
  exact this

/-! ### Two words of a query -/

theorem lexFlush_append (raw : List Tok) (buf : Str) :
    lexFlush raw buf = raw ++ lexFlush [] buf := by
  unfold lexFlush
  split_ifs <;> simp

theorem lexRaw_space (q : Str) (raw : List Tok) (buf : Str) :
    lexRaw (32 :: q) raw buf = lexRaw q (lexFlush raw buf) [] := by
  have hs : isspace 32 = true := by decide
  simp only [lexRaw, hs, if_true, show (32 : Nat) ≠ 40 by decide,
    show (32 : Nat) ≠ 41 by decide, if_false]

theorem lexRaw_char (c : Nat) (hc : c ≠ 40 ∧ c ≠ 41 ∧ isspace c = false) (q : Str)
    (raw : List Tok) (buf : Str) : lexRaw (c :: q) raw buf = lexRaw q raw (buf ++ [c]) := by
  simp only [lexRaw, hc.1, hc.2.1, hc.2.2, if_false, Bool.false_eq_true]

theorem lexRaw_nil (raw : List Tok) (buf : Str) : lexRaw [] raw buf = lexFlush raw buf := rfl

theorem lexRaw_word (w : Str) (hw : ∀ c, c ∈ w → c ≠ 40 ∧ c ≠ 41 ∧ isspace c = false) :
    ∀ (q : Str) (raw : List Tok) (buf : Str),
      lexRaw (w ++ q) raw buf = lexRaw q raw (buf ++ w) := by
  induction w with
  | nil => intro q raw buf; simp
  | cons c w ih =>
    intro q raw buf
    rw [List.cons_append, lexRaw_char c (hw c (List.mem_cons_self _ _)),
      ih (fun c hc => hw c (List.mem_cons_of_mem _ hc))]
    simp

theorem lexRaw_two_words (t₁ t₂ : Str)
    (h₁ : ∀ c, c ∈ t₁ → c ≠ 40 ∧ c ≠ 41 ∧ isspace c = false)
    (h₂ : ∀ c, c ∈ t₂ → c ≠ 40 ∧ c ≠ 41 ∧ isspace c = false) :
    lexRaw (t₁ ++ bytes " " ++ t₂) [] [] = lexFlush [] t₁ ++ lexFlush [] t₂ := by
  have hsp : bytes " " = [32] := by decide
  have h := lexRaw_word t₂ h₂ [] (lexFlush [] t₁) []
  rw [List.append_nil] at h
  rw [hsp, List.append_assoc, lexRaw_word t₁ h₁, List.nil_append, List.singleton_append,
    lexRaw_space, h, List.nil_append, lexRaw_nil]
  exact lexFlush_append _ _

theorem lexRaw_two_words_and (t₁ t₂ : Str)
    (h₁ : ∀ c, c ∈ t₁ → c ≠ 40 ∧ c ≠ 41 ∧ isspace c = false)
    (h₂ : ∀ c, c ∈ t₂ → c ≠ 40 ∧ c ≠ 41 ∧ isspace c = false) :
    lexRaw (t₁ ++ bytes " AND " ++ t₂) [] []
      = lexFlush [] t₁ ++ ⟨TokType.AND, []⟩ :: lexFlush [] t₂ := by
  have hsp : bytes " AND " = 32 :: ([65, 78, 68] ++ 32 :: []) := by decide
  have hw : ∀ c, c ∈ [65, 78, 68] → c ≠ 40 ∧ c ≠ 41 ∧ isspace c = false := by decide
  have hfl : lexFlush [] [65, 78, 68] = [⟨TokType.AND, []⟩] := by decide
  have h := lexRaw_word t₂ h₂ [] (lexFlush [] t₁ ++ [⟨TokType.AND, []⟩]) []
  rw [List.append_nil] at h
  rw [hsp, List.append_assoc, lexRaw_word t₁ h₁, List.nil_append, List.cons_append,
    lexRaw_space, List.append_assoc, lexRaw_word _ hw, List.nil_append, List.cons_append,
    lexRaw_space, lexFlush_append (lexFlush [] t₁), hfl, List.nil_append, h, List.nil_append,
    lexRaw_nil, lexFlush_append, List.append_assoc]
  rfl

theorem insertImplicitAnd_terms (W₁ W₂ : List Tok) (h₁ : W₁ ≠ [])
    (h₁t : ∀ tk, tk ∈ W₁ → tk.type = TokType.TERM) (h₂ : W₂ ≠ [])
    (h₂t : ∀ tk, tk ∈ W₂ → tk.type = TokType.TERM) :
    insertImplicitAnd (W₁ ++ W₂) = insertImplicitAnd (W₁ ++ ⟨TokType.AND, []⟩ :: W₂) := by
  induction W₁ with
  | nil => exact absurd rfl h₁
  | cons x W₁ ih =>
    have hx := h₁t x (List.mem_cons_self _ _)
    cases W₁ with
    | nil =>
      cases W₂ with
      | nil => exact absurd rfl h₂
      | cons y W₂ =>
        have hy := h₂t y (List.mem_cons_self _ _)
        simp [insertImplicitAnd, needsAnd, hx, hy]
    | cons x' W₁ =>
      have hx' := h₁t x' (by simp)
      have := ih (by simp) (fun tk htk => h₁t tk (List.mem_cons_of_mem _ htk))
      simp only [List.cons_append] at this ⊢
      simp only [insertImplicitAnd]
      rw [this]

end BooleanSearch

/-- Claim C4: the second loop of `lex` returns the raw tokens in their order
with one AND between two neighbours exactly when the left one is TERM or
RPAREN and the right one TERM, LPAREN or NOT; so for two words that the lexer
reads as terms the queries `t1 t2` and `t1 AND t2` give the same result. -/
theorem C4_implicit_and (idx : BooleanIndex) :
    (∀ raw : List Tok, lexNorm raw = insertImplicitAnd raw) ∧
    (∀ q : Str, lex q = insertImplicitAnd (lexRaw q [] [])) ∧
    ∀ t₁ t₂ : Str, IsQueryTerm t₁ → IsQueryTerm t₂ →
      search idx (t₁ ++ bytes " " ++ t₂) = search idx (t₁ ++ bytes " AND " ++ t₂) := by
  refine ⟨lexNorm_eq, fun q => lexNorm_eq _, ?_⟩
  rintro t₁ t₂ ⟨h₁, n₁, a₁⟩ ⟨h₂, n₂, a₂⟩
  unfold search lex
  rw [lexRaw_two_words t₁ t₂ h₁ h₂, lexRaw_two_words_and t₁ t₂ h₁ h₂, lexNorm_eq, lexNorm_eq,
    insertImplicitAnd_terms _ _ n₁ a₁ n₂ a₂]

/-- Claim C4 at the two words of the implicit-AND test. -/
theorem C4_implicit_and_witness :
    IsQueryTerm (bytes "нефть") ∧ IsQueryTerm (bytes "европа") ∧
    search BooleanIndex.new (bytes "нефть" ++ bytes " " ++ bytes "европа")
      = search BooleanIndex.new (bytes "нефть" ++ bytes " AND " ++ bytes "европа") :=
  have h₁ : IsQueryTerm (bytes "нефть") := by
    refine ⟨by decide, by decide, by decide⟩
  have h₂ : IsQueryTerm (bytes "европа") := by
    refine ⟨by decide, by decide, by decide⟩
  ⟨h₁, h₂, (C4_implicit_and BooleanIndex.new).2.2 _ _ h₁ h₂⟩

/-- The hypothesis of C4 on the two words is needed: a word that yields no
token (`a`) or that is an operator (`or`) is not a term, and with it the two
queries differ on the index of the test corpus. -/
theorem implicit_and_needs_terms :
    ∃ idx, build smallCorpus = some idx ∧
      search idx (bytes "a нефть") = [0, 2] ∧ search idx (bytes "a AND нефть") = [] ∧
      search idx (bytes "or нефть") = [] ∧ search idx (bytes "or AND нефть") = [0, 2] := by
  have h : (build smallCorpus).map (fun idx =>
      [search idx (bytes "a нефть"), search idx (bytes "a AND нефть"),
       search idx (bytes "or нефть"), search idx (bytes "or AND нефть")])
      = some [[0, 2], [], [], [0, 2]] := by decide!
  obtain ⟨idx, e, _⟩ := build_good smallCorpus
  rw [e] at h
  simp only [Option.map_some', Option.some.injEq, List.cons.injEq, and_true] at h
  exact ⟨idx, e, h.1, h.2.1, h.2.2.1, h.2.2.2⟩

end InfSearch

namespace InfSearch

namespace Stemmer

/-! ### A stem is never shorter than two bytes -/

theorem good_take (rv : Nat) (w : List Nat) (n : Nat) (h : Good rv w) (hn : rv ≤ n) :
    Good rv (w.take n) := by
  obtain ⟨h1, h2, v, hv, hvow⟩ := h
  refine ⟨h1, by rw [List.length_take]; omega, v, ?_, hvow⟩
  rw [List.getElem?_take_of_lt (by omega)]
  exact hv

theorem removeSuffixInRegion_good (rv region : Nat) (w suf w' : List Nat) (h : Good rv w)
    (hr : rv ≤ region) (he : removeSuffixInRegion w region suf = some w') : Good rv w' := by
  unfold removeSuffixInRegion at he
  split_ifs at he with h1 h2 h3
  rw [← Option.some.inj he]
  exact good_take rv w _ h (by omega)

theorem removeAnySuffixInRegion_good (rv region : Nat) (w : List Nat) (h : Good rv w)
    (hr : rv ≤ region) (sufs : List (List Nat)) :
    ∀ w', removeAnySuffixInRegion w region sufs = some w' → Good rv w' := by
  induction sufs with
  | nil => intro w' he; cases he
  | cons suf sufs ih =>
    intro w' he
    simp only [removeAnySuffixInRegion] at he
    cases h1 : removeSuffixInRegion w region suf with
    | some w1 =>
      rw [h1] at he
      rw [← Option.some.inj he]
      exact removeSuffixInRegion_good rv region w suf w1 h hr h1
    | none =>
      rw [h1] at he
      exact ih w' he

theorem removeIfPrecededByAY_good (rv region : Nat) (w suf w' : List Nat) (h : Good rv w)
    (hr : rv ≤ region) (he : removeIfPrecededByAY w region suf = some w') : Good rv w' := by
  simp only [removeIfPrecededByAY] at he
  split_ifs at he with h1 h2 h3 h4
  rw [← Option.some.inj he]
  exact good_take rv w _ h (by omega)

theorem removeAnyIfPrecededByAY_good (rv region : Nat) (w : List Nat) (h : Good rv w)
    (hr : rv ≤ region) (sufs : List (List Nat)) :
    ∀ w', removeAnyIfPrecededByAY w region sufs = some w' → Good rv w' := by
  induction sufs with
  | nil => intro w' he; cases he
  | cons suf sufs ih =>
    intro w' he
    simp only [removeAnyIfPrecededByAY] at he
    cases h1 : removeIfPrecededByAY w region suf with
    | some w1 =>
      rw [h1] at he
      rw [← Option.some.inj he]
      exact removeIfPrecededByAY_good rv region w suf w1 h hr h1
    | none =>
      rw [h1] at he
      exact ih w' he

theorem getD_good (rv : Nat) (w : List Nat) (o : Option (List Nat)) (h : Good rv w)
    (ho : ∀ w', o = some w' → Good rv w') : Good rv (o.getD w) := by
  cases o with
  | none => exact h
  | some w' => exact ho w' rfl

theorem stepGerund_good (rv : Nat) (w w' : List Nat) (h : Good rv w)
    (he : stepGerund w rv = some w') : Good rv w' := by
  unfold stepGerund at he
  cases h1 : removeAnySuffixInRegion w rv PG1 with
  | some w1 =>
    rw [h1] at he
    rw [← Option.some.inj he]
    exact removeAnySuffixInRegion_good rv rv w h (le_refl _) _ _ h1
  | none =>
    rw [h1] at he
    exact removeAnyIfPrecededByAY_good rv rv w h (le_refl _) _ _ he

theorem stepAdjVerbNoun_good (rv : Nat) (w : List Nat) (h : Good rv w) :
    Good rv (stepAdjVerbNoun w rv) := by
  unfold stepAdjVerbNoun
  cases h1 : removeAnySuffixInRegion w rv ADJ with
  | some w1 =>
    have g1 := removeAnySuffixInRegion_good rv rv w h (le_refl _) _ _ h1
    simp only
    cases h2 : removeAnySuffixInRegion w1 rv PART2 with
    | some w2 => exact removeAnySuffixInRegion_good rv rv w1 g1 (le_refl _) _ _ h2
    | none =>
      exact getD_good rv w1 _ g1 (removeAnyIfPrecededByAY_good rv rv w1 g1 (le_refl _) _)
  | none =>
    simp only
    cases h2 : removeAnySuffixInRegion w rv VERB2 with
    | some w1 => exact removeAnySuffixInRegion_good rv rv w h (le_refl _) _ _ h2
    | none =>
      simp only
      cases h3 : removeAnyIfPrecededByAY w rv VERB1 with
      | some w1 => exact removeAnyIfPrecededByAY_good rv rv w h (le_refl _) _ _ h3
      | none =>
        exact getD_good rv w _ h (removeAnySuffixInRegion_good rv rv w h (le_refl _) _)

theorem stepMain_good (rv : Nat) (w : List Nat) (h : Good rv w) : Good rv (stepMain w rv) := by
  unfold stepMain
  cases h1 : stepGerund w rv with
  | some w1 => exact stepGerund_good rv w w1 h h1
  | none =>
    exact stepAdjVerbNoun_good rv _
      (getD_good rv w _ h (removeAnySuffixInRegion_good rv rv w h (le_refl _) _))

theorem endsWith_drop (w suf : List Nat) (h : endsWith w suf = true) :
    suf.length ≤ w.length ∧ w.drop (w.length - suf.length) = suf := by
  unfold endsWith at h
  split_ifs at h with h1
  exact ⟨by omega, by simpa using h⟩

theorem dropDoubleN_good (rv : Nat) (w : List Nat) (h : Good rv w) :
    Good rv (dropDoubleN w) := by
  unfold dropDoubleN
  split_ifs with he
  · apply good_take rv w _ h
    obtain ⟨h1, h2, v, hv, hvow⟩ := h
    obtain ⟨hl, hd⟩ := endsWith_drop w _ he
    have hlen : (u16 "нн").length = 2 := by decide
    rw [hlen] at hl hd
    by_contra hlt
    have hrv : rv = w.length := by omega
    -- the last code unit is both a vowel and `н`
    have hlast : w[w.length - 1]? = some 0x43D := by
      have : (w.drop (w.length - 2))[1]? = some 0x43D := by rw [hd]; decide
      rw [List.getElem?_drop] at this
      rw [← this]; congr 1; omega
    rw [hrv, hlast] at hv
    rw [← Option.some.inj hv] at hvow
    exact absurd hvow (by decide)
  · exact h

theorem superStep_good (rv : Nat) (w : List Nat) (h : Good rv w) :
    Good rv (match removeAnySuffixInRegion w rv SUPER with
      | some w3 => dropDoubleN w3
      | none => w) := by
  cases h3 : removeAnySuffixInRegion w rv SUPER with
  | some w3 =>
    exact dropDoubleN_good rv w3 (removeAnySuffixInRegion_good rv rv w h (le_refl _) _ _ h3)
  | none => exact h

theorem softSignStep_good (rv : Nat) (w : List Nat) (h : Good rv w) :
    Good rv (match removeSuffixInRegion w rv (u16 "ь") with
      | some w4 => w4
      | none => dropDoubleN w) := by
  cases h4 : removeSuffixInRegion w rv (u16 "ь") with
  | some w4 => exact removeSuffixInRegion_good rv rv w _ w4 h (le_refl _) h4
  | none => exact dropDoubleN_good rv w h

theorem stepTail_good (rv r2 : Nat) (w : List Nat) (h : Good rv w) (hr : rv ≤ r2) :
    Good rv (stepTail w rv r2) := by
  have g1 := getD_good rv w (removeSuffixInRegion w rv (u16 "и")) h
    (fun w' => removeSuffixInRegion_good rv rv w _ w' h (le_refl _))
  have g2 := getD_good rv _ (removeSuffixInRegion ((removeSuffixInRegion w rv (u16 "и")).getD w)
    r2 (u16 "ость")) g1 (fun w' => removeSuffixInRegion_good rv r2 _ _ w' g1 hr)
  exact softSignStep_good rv _ (superStep_good rv _ g2)

/-! Region boundaries -/

theorem findRVLoop_spec (l : List Nat) : ∀ (i r : Nat), findRVLoop l i = some r →
    i + 1 ≤ r ∧ r ≤ i + l.length ∧ ∃ v, l[r - 1 - i]? = some v ∧ isVowel v = true := by
  induction l with
  | nil => intro i r h; cases h
  | cons ch l ih =>
    intro i r h
    simp only [findRVLoop] at h
    split_ifs at h with hv
    · have : i + 1 = r := Option.some.inj h
      subst this
      exact ⟨le_refl _, by simp, ch, by simp, hv⟩
    · obtain ⟨h1, h2, v, h3, h4⟩ := ih (i + 1) r h
      refine ⟨by omega, by simp only [List.length_cons]; omega, v, ?_, h4⟩
      have : r - 1 - i = (r - 1 - (i + 1)) + 1 := by omega
      rw [this, List.getElem?_cons_succ]
      exact h3

theorem findRV_le (w : List Nat) : findRV w ≤ w.length := by
  unfold findRV
  cases h : findRVLoop w 0 with
  | none => simp
  | some r =>
    have := (findRVLoop_spec w 0 r h).2.1
    simp only [Option.getD_some]
    omega

theorem good_of_findRV (w : List Nat) (h : findRV w < w.length) : Good (findRV w) w := by
  unfold findRV at h ⊢
  cases hl : findRVLoop w 0 with
  | none => rw [hl] at h; simp at h
  | some r =>
    obtain ⟨h1, h2, v, h3, h4⟩ := findRVLoop_spec w 0 r hl
    simp only [Option.getD_some]
    exact ⟨by omega, by omega, v, by simpa using h3, h4⟩

theorem findR1Loop_ge (l : List Nat) : ∀ (i : Nat) (seen : Bool) (r : Nat),
    findR1Loop l i seen = some r → i + 1 ≤ r := by
  induction l with
  | nil => intro i seen r h; cases h
  | cons ch l ih =>
    intro i seen r h
    simp only [findR1Loop] at h
    split_ifs at h with hv hs
    · have := ih (i + 1) true r h; omega
    · have : i + 1 = r := Option.some.inj h
      omega
    · have := ih (i + 1) seen r h; omega

theorem findR1Loop_ge_rv (l : List Nat) : ∀ (i r : Nat), findR1Loop l i false = some r →
    ∃ rv, findRVLoop l i = some rv ∧ rv ≤ r := by
  induction l with
  | nil => intro i r h; cases h
  | cons ch l ih =>
    intro i r h
    simp only [findR1Loop] at h
    simp only [findRVLoop]
    by_cases hv : isVowel ch = true
    · rw [if_pos hv] at h
      rw [if_pos hv]
      exact ⟨i + 1, rfl, by have := findR1Loop_ge l (i + 1) true r h; omega⟩
    · rw [if_neg hv, if_neg (by simp)] at h
      rw [if_neg hv]
      exact ih (i + 1) r h

theorem findR1_zero_ge (w : List Nat) : findRV w ≤ findR1 w 0 := by
  unfold findR1
  simp only [List.drop_zero]
  cases h : findR1Loop w 0 false with
  | none => simpa using findRV_le w
  | some r =>
    obtain ⟨rv, h1, h2⟩ := findR1Loop_ge_rv w 0 r h
    simp [findRV, h1, h2]

theorem findR1_ge (w : List Nat) (start : Nat) :
    start ≤ findR1 w start ∨ findR1 w start = w.length := by
  unfold findR1
  cases h : findR1Loop (w.drop start) start false with
  | none => right; rfl
  | some r =>
    left
    have := findR1Loop_ge _ start false r h
    simp only [Option.getD_some]
    omega

theorem findR2_ge (w : List Nat) : findRV w ≤ findR2 w := by
  unfold findR2
  rcases findR1_ge w (findR1 w 0) with h | h
  · exact le_trans (findR1_zero_ge w) h
  · rw [h]; exact findRV_le w

/-! Encoding back -/

theorem fromU16_length (w : List Nat) (v : Nat) (hv : v ∈ w) (h : 0x80 ≤ v) :
    2 ≤ (fromU16 w).length := by
  induction w with
  | nil => cases hv
  | cons cp w ih =>
    simp only [fromU16]
    rcases List.mem_cons.mp hv with h1 | h1
    · subst h1
      rw [if_neg (by omega)]
      simp
    · have := ih h1
      split_ifs <;> simp only [List.length_cons] <;> omega

theorem isVowel_ge (v : Nat) (h : isVowel v = true) : 0x80 ≤ v := by
  unfold isVowel at h
  simp only [Bool.or_eq_true, beq_iff_eq] at h
  omega

/-- The Russian procedure returns the token itself or at least two bytes. -/
theorem stemRu_cases (token : Str) : stemRu token = token ∨ 2 ≤ (stemRu token).length := by
  simp only [stemRu]
  split_ifs with h1 h2 h3
  · exact Or.inl rfl
  · exact Or.inl rfl
  · exact Or.inl rfl
  · right
    have hrv : findRV (toU16 token) < (toU16 token).length := by omega
    have g := stepTail_good _ (findR2 (toU16 token)) _
      (stepMain_good _ _ (good_of_findRV _ hrv)) (findR2_ge _)
    obtain ⟨_, _, v, hv, hvow⟩ := g
    exact fromU16_length _ v (List.getElem?_mem hv) (isVowel_ge v hvow)

theorem stemRu_ne_nil (token : Str) (h : token ≠ []) : stemRu token ≠ [] := by
  rcases stemRu_cases token with h1 | h1
  · rw [h1]; exact h
  · intro h2; rw [h2] at h1; simp at h1

theorem stemParts_length (token : Str) : ∀ (out part : Str),
    out.length + token.countP isJoinerByte
      + (if part ≠ [] ∨ 0 < token.countP (fun c => !isJoinerByte c) then 1 else 0)
      ≤ (stemParts token out part).length := by
  induction token with
  | nil =>
    intro out part
    simp only [stemParts, List.countP_nil, Nat.lt_irrefl, or_false, Nat.add_zero]
    split_ifs with hp
    · have := List.length_pos.mpr (stemRu_ne_nil part hp)
      rw [List.length_append]; omega
    · omega
  | cons c token ih =>
    intro out part
    by_cases hj : c = 45 ∨ c = 39
    · have hjb : isJoinerByte c = true := by
        rcases hj with h | h <;> subst h <;> decide
      simp only [stemParts, if_pos hj]
      have := ih ((if part ≠ [] then out ++ stemRu part else out) ++ [c]) []
      simp only [List.countP_cons, hjb, if_true, Bool.not_true, Bool.false_eq_true, if_false,
        Nat.add_zero, ne_eq, not_true_eq_false, false_or, List.length_append,
        List.length_singleton] at this ⊢
      by_cases hp : part = []
      · simp only [hp, not_true_eq_false, if_false, false_or] at this ⊢
        omega
      · simp only [hp, not_false_eq_true, if_true, true_or, List.length_append] at this ⊢
        have := List.length_pos.mpr (stemRu_ne_nil part hp)
        split_ifs at * <;> omega
    · have hjb : isJoinerByte c = false := by
        simp only [isJoinerByte, Bool.or_eq_false_iff, beq_eq_false_iff_ne]
        exact ⟨fun h => hj (Or.inl h), fun h => hj (Or.inr h)⟩
      simp only [stemParts, if_neg hj]
      have := ih out (part ++ [c])
      simp only [List.countP_cons, hjb, Bool.false_eq_true, if_false, Nat.add_zero,
        Bool.not_false, if_true] at this ⊢
      have hne : part ++ [c] ≠ [] := by simp
      simp only [hne, ne_eq, not_false_eq_true, true_or, if_true] at this
      split_ifs <;> omega

/-- A token of at least two bytes has a stem of at least two bytes. -/
theorem stem_length (token : Str) (h : 2 ≤ token.length) : 2 ≤ (stem token).length := by
  unfold stem stemHyphenAposAware
  split_ifs with hj
  · rcases stemRu_cases token with h1 | h1
    · rw [h1]; exact h
    · exact h1
  · have hany : token.any isJoinerByte = true := by
      have : (fun c => c == 45 || c == 39) = isJoinerByte := rfl
      rw [this] at hj
      simpa using hj
    have hpos : 0 < token.countP isJoinerByte := by
      rw [List.countP_pos_iff]
      simpa [List.any_eq_true] using hany
    have hlen := List.length_eq_countP_add_countP isJoinerByte token
    have := stemParts_length token [] []
    simp only [List.length_nil, Nat.zero_add, ne_eq, not_true_eq_false, false_or] at this
    have e : (fun c => !isJoinerByte c) = (fun a => ¬ isJoinerByte a = true) := by
      funext c; simp
    split_ifs at this with hn
    · omega
    · have h0 : token.countP (fun c => !isJoinerByte c) = 0 := by omega
      have h0' : List.countP (fun a => decide (¬ isJoinerByte a = true)) token = 0 := by
        rw [← h0]; congr 1; funext c; simp
      omega

end Stemmer

end InfSearch

namespace InfSearch

open BooleanSearch BooleanIndex

namespace Tokenizer

theorem mem_dedupPass (x : Str) : ∀ (out uniq : List Str), x ∈ dedupPass out uniq →
    x ∈ uniq ∨ (x ∈ out ∧ 2 ≤ x.length ∧ x.length ≤ 200) := by
  intro out
  induction out with
  | nil => intro uniq h; exact Or.inl h
  | cons t out ih =>
    intro uniq h
    simp only [dedupPass] at h
    split_ifs at h with h1 h2 h3
    · rcases ih uniq h with h' | ⟨h', hl⟩
      · exact Or.inl h'
      · exact Or.inr ⟨List.mem_cons_of_mem _ h', hl⟩
    · rcases ih uniq h with h' | ⟨h', hl⟩
      · exact Or.inl h'
      · exact Or.inr ⟨List.mem_cons_of_mem _ h', hl⟩
    · rcases ih uniq h with h' | ⟨h', hl⟩
      · exact Or.inl h'
      · exact Or.inr ⟨List.mem_cons_of_mem _ h', hl⟩
    · rcases ih _ h with h' | ⟨h', hl⟩
      · rcases List.mem_append.mp h' with h'' | h''
        · exact Or.inl h''
        · rw [List.mem_singleton.mp h'']
          exact Or.inr ⟨List.mem_cons_self _ _, by omega, by omega⟩
      · exact Or.inr ⟨List.mem_cons_of_mem _ h', hl⟩

/-- Every token has between 2 and 200 bytes. -/
theorem tokenize_length (utf8 x : Str) (h : x ∈ tokenize utf8) :
    2 ≤ x.length ∧ x.length ≤ 200 := by
  unfold tokenize at h
  rcases mem_dedupPass x _ _ h with h' | ⟨_, hl⟩
  · cases h'
  · exact hl

end Tokenizer

/-- Claim C10: after `finalize`, an id `d` is in `postings(t)` exactly when
some added document with the id `d` has a token whose stem is `t`. -/
theorem C10_postings_exact (docs : List Document) :
    ∃ idx, build docs = some idx ∧
      ∀ (t : Str) (d : Int), d ∈ idx.postings t ↔
        ∃ doc, doc ∈ docs ∧ doc.id = d ∧
          ∃ x, x ∈ Tokenizer.tokenize doc.text ∧ Stemmer.stem x = t := by
  obtain ⟨idx, e, _, _, _, _, hmem⟩ := build_good docs
  refine ⟨idx, e, fun t d => ?_⟩
  rw [hmem t d]
  constructor
  · rintro ⟨doc, h1, h2, h3⟩
    obtain ⟨x, hx, hs, _⟩ := (mem_docTerms doc.text t).mp h3
    exact ⟨doc, h1, h2, x, hx, hs⟩
  · rintro ⟨doc, h1, h2, x, hx, hs⟩
    refine ⟨doc, h1, h2, (mem_docTerms doc.text t).mpr ⟨x, hx, hs, ?_⟩⟩
    rw [← hs]
    exact Stemmer.stem_length x (Tokenizer.tokenize_length doc.text x hx).1

end InfSearch

namespace InfSearch

open BooleanSearch BooleanIndex

namespace Tokenizer

/-! ### The main loop of the tokenizer ends within the length of the input -/

theorem skipUntilWhitespace_length (s : Str) : (skipUntilWhitespace s).length ≤ s.length := by
  induction s with
  | nil => simp [skipUntilWhitespace]
  | cons c s ih =>
    simp only [skipUntilWhitespace]
    split_ifs
    · exact le_refl _
    · simp only [List.length_cons]; omega

theorem skipUntilWhitespace_lt (c : Nat) (s : Str) (h : isspace c = false) :
    (skipUntilWhitespace (c :: s)).length ≤ s.length := by
  simp only [skipUntilWhitespace, h, Bool.false_eq_true, if_false]
  exact skipUntilWhitespace_length s

theorem startsWith_head (c l : Nat) (s lit : Str) (h : startsWith (c :: s) (l :: lit) = true) :
    c = l := by
  simp only [startsWith] at h
  by_contra hne
  rw [if_pos hne] at h
  cases h

theorem isUrlStart_not_space (c : Nat) (s : Str) (h : isUrlStart (c :: s) = true) :
    isspace c = false := by
  have e1 : bytes "http://" = 104 :: bytes "ttp://" := by decide
  have e2 : bytes "https://" = 104 :: bytes "ttps://" := by decide
  have e3 : bytes "www." = 119 :: bytes "ww." := by decide
  simp only [isUrlStart, Bool.or_eq_true, e1, e2, e3] at h
  rcases h with (h | h) | h
  · rw [startsWith_head _ _ _ _ h]; decide
  · rw [startsWith_head _ _ _ _ h]; decide
  · rw [startsWith_head _ _ _ _ h]; decide

theorem isEmail_not_space (c : Nat) (s : Str) (h : isEmailStartOrInside (c :: s) = true) :
    isspace c = false := by
  simp only [isEmailStartOrInside, beq_iff_eq] at h
  subst h; decide

theorem readCp_bytes_pos (s : Str) : 1 ≤ (readCp s).bytes := by
  cases s with
  | nil => simp [readCp]
  | cons c rest =>
    simp only [readCp]
    split_ifs
    · simp
    · simp
    · simp
    · simp
    · cases h1 : readCpE2 c rest with
      | some cp =>
        simp only
        unfold readCpE2 at h1
        split at h1
        · split_ifs at h1 <;> (rw [← Option.some.inj h1])
          · simp
          · simp
        · cases h1
      | none =>
        simp only
        cases h2 : readCpCyr c rest with
        | some cp =>
          simp only
          unfold readCpCyr at h2
          split at h2
          · split_ifs at h2
            split at h2 <;> (rw [← Option.some.inj h2])
            · simp
            · simp
          · cases h2
        | none => simp

/-- More fuel than the length of the input does not change the result of the
main loop: the loop of the source ends, and `tokenize` gives it enough fuel. -/
theorem tokenizeLoop_fuel (n : Nat) : ∀ (m : Nat) (s : Str) (st : TState),
    s.length ≤ n → s.length ≤ m → tokenizeLoop n s st = tokenizeLoop m s st := by
  induction n with
  | zero =>
    intro m s st hn _
    have : s = [] := List.length_eq_zero.mp (by omega)
    subst this
    cases m <;> simp [tokenizeLoop]
  | succ n ih =>
    intro m s st hn hm
    cases s with
    | nil => cases m <;> simp [tokenizeLoop]
    | cons c rest =>
      simp only [List.length_cons] at hn hm
      obtain ⟨m', rfl⟩ : ∃ m', m = m' + 1 := ⟨m - 1, by omega⟩
      simp only [tokenizeLoop]
      have hdrop : ((c :: rest).drop (readCp (c :: rest)).bytes).length ≤ rest.length := by
        have := readCp_bytes_pos (c :: rest)
        rw [List.length_drop]
        simp only [List.length_cons]
        omega
      split_ifs with h1 h2 h3 h4
      · have := skipUntilWhitespace_lt c rest (isUrlStart_not_space c rest h1)
        exact ih _ _ _ (by omega) (by omega)
      · have := skipUntilWhitespace_lt c rest (isEmail_not_space c rest h2)
        exact ih _ _ _ (by omega) (by omega)
      · exact ih _ _ _ (by omega) (by omega)
      · exact ih _ _ _ (by omega) (by omega)
      · exact ih _ _ _ (by omega) (by omega)

end Tokenizer

namespace BooleanIndex

theorem docTerms_ne_nil_iff (text : Str) :
    docTerms text ≠ [] ↔ Tokenizer.tokenize text ≠ [] := by
  constructor
  · intro h
    obtain ⟨k, hk⟩ := List.exists_mem_of_ne_nil _ h
    obtain ⟨x, hx, _⟩ := (mem_docTerms text k).mp hk
    exact List.ne_nil_of_mem hx
  · intro h
    obtain ⟨x, hx⟩ := List.exists_mem_of_ne_nil _ h
    exact List.ne_nil_of_mem ((mem_docTerms text (Stemmer.stem x)).mpr
      ⟨x, hx, rfl, Stemmer.stem_length x (Tokenizer.tokenize_length text x hx).1⟩)

end BooleanIndex

/-- Claim C9, as stated, fails: after one document with the id 0 and the text
`?`, which has no token, 0 is in `allDocs()` and in no posting list. -/
theorem C9_universe_not_union_counterexample :
    ∃ idx, build [⟨0, bytes "u0", bytes "?"⟩] = some idx ∧
      ¬ ∀ d : Int, d ∈ idx.allDocs ↔ ∃ t, d ∈ idx.postings t := by
  obtain ⟨idx, e, _, _, _, hall, hmem⟩ := build_good [⟨0, bytes "u0", bytes "?"⟩]
  refine ⟨idx, e, fun h => ?_⟩
  have h0 : (0 : Int) ∈ idx.allDocs := (hall 0).mpr ⟨⟨0, bytes "u0", bytes "?"⟩, by simp, rfl⟩
  obtain ⟨t, ht⟩ := (h 0).mp h0
  obtain ⟨doc, hd, _, hk⟩ := (hmem t 0).mp ht
  rw [List.mem_singleton.mp hd] at hk
  have : docTerms (bytes "?") = [] := by decide
  rw [this] at hk
  cases hk

/-- Claim C9, amended: after `finalize`, `allDocs()` holds exactly the ids of
the added documents; every id of a posting list is in `allDocs()`; and an id
occurs in some posting list exactly when an added document with that id has at
least one token. -/
theorem C9_universe_and_postings (docs : List Document) :
    ∃ idx, build docs = some idx ∧
      (∀ d, d ∈ idx.allDocs ↔ ∃ doc, doc ∈ docs ∧ doc.id = d) ∧
      (∀ t d, d ∈ idx.postings t → d ∈ idx.allDocs) ∧
      ∀ d, (∃ t, d ∈ idx.postings t) ↔
        ∃ doc, doc ∈ docs ∧ doc.id = d ∧ Tokenizer.tokenize doc.text ≠ [] := by
  obtain ⟨idx, e, _, _, hp, hall, hmem⟩ := build_good docs
  refine ⟨idx, e, hall, fun t d hd => (hp t).2 d hd, fun d => ?_⟩
  constructor
  · rintro ⟨t, ht⟩
    obtain ⟨doc, h1, h2, h3⟩ := (hmem t d).mp ht
    exact ⟨doc, h1, h2, (docTerms_ne_nil_iff doc.text).mp (List.ne_nil_of_mem h3)⟩
  · rintro ⟨doc, h1, h2, h3⟩
    obtain ⟨t, ht⟩ := List.exists_mem_of_ne_nil _ ((docTerms_ne_nil_iff doc.text).mpr h3)
    exact ⟨t, (hmem t d).mpr ⟨doc, h1, h2, ht⟩⟩

end InfSearch

namespace InfSearch

open BooleanSearch BooleanIndex

/-! ### finalize twice -/

theorem sortUnique_idem (l : List Int) :
    stdUnique (stdSort intLt (stdUnique (stdSort intLt l))) = stdUnique (stdSort intLt l) := by
  apply asc_ext (asc_sortUnique _) (asc_sortUnique l)
  intro z
  rw [mem_sortUnique]

theorem HashTable.forEach_idem (t : HashTable) (f : Str → List Int → List Int)
    (hf : ∀ k v, f k (f k v) = f k v) :
    HashTable.forEach (HashTable.forEach t f) f = HashTable.forEach t f := by
  unfold HashTable.forEach
  simp only
  congr 1
  funext i
  by_cases h : i < t.cap ∧ (t.entries_ i).state = State.FILLED
  · simp [h, hf]
  · simp [h]

theorem BooleanIndex.finalize_idem (idx : BooleanIndex) :
    finalize (finalize idx) = finalize idx := by
  unfold finalize
  simp only
  rw [sortUnique_idem, HashTable.forEach_idem _ _ (fun _ v => sortUnique_idem v)]

/-- Claim C11: `finalize` is idempotent: on every index state a second
`finalize` leaves `allDocs()`, every `postings(t)`, `docsCount()` and
`termsCount()` as the first one made them (the whole state is the same). -/
theorem C11_finalize_idempotent (idx : BooleanIndex) :
    finalize (finalize idx) = finalize idx ∧
    (finalize (finalize idx)).allDocs = (finalize idx).allDocs ∧
    (∀ t, (finalize (finalize idx)).postings t = (finalize idx).postings t) ∧
    (finalize (finalize idx)).docsCount = (finalize idx).docsCount ∧
    (finalize (finalize idx)).termsCount = (finalize idx).termsCount := by
  rw [BooleanIndex.finalize_idem]
  exact ⟨rfl, rfl, fun _ => rfl, rfl, rfl⟩

/-! ### docsCount -/

theorem BooleanIndex.addDocument_docs_count (idx idx' : BooleanIndex) (doc : Document)
    (h : addDocument idx doc = some idx') :
    idx'.docs_count_ = max idx.docs_count_ (((doc.id + 1) % 2 ^ 64).toNat) := by
  unfold addDocument at h
  cases ht : addTerms doc.id (docTerms doc.text) idx.table_ with
  | none => rw [ht] at h; cases h
  | some t =>
    rw [ht] at h
    rw [← Option.some.inj h]

theorem BooleanIndex.addAll_docs_count (docs : List Document) :
    ∀ idx idx' : BooleanIndex, addAll docs idx = some idx' →
      (∀ doc, doc ∈ docs → 0 ≤ doc.id ∧ doc.id < 2 ^ 31 - 1) →
      (∀ doc, doc ∈ docs → doc.id + 1 ≤ (idx'.docs_count_ : Int)) ∧
      idx.docs_count_ ≤ idx'.docs_count_ ∧
      (idx'.docs_count_ = idx.docs_count_ ∨
        ∃ doc, doc ∈ docs ∧ (idx'.docs_count_ : Int) = doc.id + 1) := by
  induction docs with
  | nil =>
    intro idx idx' h _
    have : idx = idx' := Option.some.inj h
    subst this
    exact ⟨fun doc hd => (by cases hd), le_refl _, Or.inl rfl⟩
  | cons doc docs ih =>
    intro idx idx' h hr
    simp only [addAll] at h
    cases h1 : addDocument idx doc with
    | none => rw [h1] at h; cases h
    | some idx₁ =>
      rw [h1] at h
      simp only at h
      have hc := addDocument_docs_count idx idx₁ doc h1
      obtain ⟨hd0, hd1⟩ := hr doc (List.mem_cons_self _ _)
      have hmod : ((doc.id + 1) % 2 ^ 64).toNat = (doc.id + 1).toNat := by
        rw [Int.emod_eq_of_lt (by omega) (by omega)]
      rw [hmod] at hc
      have hnat : ((doc.id + 1).toNat : Int) = doc.id + 1 := Int.toNat_of_nonneg (by omega)
      obtain ⟨a, b, c⟩ := ih idx₁ idx' h (fun d hd => hr d (List.mem_cons_of_mem _ hd))
      refine ⟨?_, ?_, ?_⟩
      · intro d hd
        rcases List.mem_cons.mp hd with hd | hd
        · rw [hd]
          have : (doc.id + 1).toNat ≤ idx₁.docs_count_ := by rw [hc]; exact le_max_right _ _
          omega
        · exact a d hd
      · have : idx.docs_count_ ≤ idx₁.docs_count_ := by rw [hc]; exact le_max_left _ _
        omega
      · rcases c with c | ⟨d, hd, c⟩
        · rcases max_cases idx.docs_count_ (doc.id + 1).toNat with ⟨hm, _⟩ | ⟨hm, _⟩
          · left; rw [c, hc, hm]
          · right
            refine ⟨doc, List.mem_cons_self _ _, ?_⟩
            rw [c, hc, hm, hnat]
        · exact Or.inr ⟨d, List.mem_cons_of_mem _ hd, c⟩

/-- Claim C12: an empty index has `docsCount()` 0; after a non-empty sequence
of documents with ids from 0 to below `INT_MAX`, added in any order,
`docsCount()` is 1 + the greatest id added, before `finalize` and after it. -/
theorem C12_docsCount (docs : List Document) (hne : docs ≠ [])
    (hr : ∀ doc, doc ∈ docs → 0 ≤ doc.id ∧ doc.id < 2 ^ 31 - 1) :
    BooleanIndex.new.docsCount = 0 ∧
    ∃ idx, addAll docs BooleanIndex.new = some idx ∧
      (finalize idx).docsCount = idx.docsCount ∧
      ∃ m, (∃ doc, doc ∈ docs ∧ doc.id = m) ∧ (∀ doc, doc ∈ docs → doc.id ≤ m) ∧
        (idx.docsCount : Int) = 1 + m := by
  refine ⟨rfl, ?_⟩
  obtain ⟨idx, e, _⟩ := addAll_spec docs BooleanIndex.new new_WF
  obtain ⟨a, _, c⟩ := addAll_docs_count docs BooleanIndex.new idx e hr
  refine ⟨idx, e, rfl, ?_⟩
  rcases c with c | ⟨d, hd, c⟩
  · exfalso
    obtain ⟨d, hd⟩ := List.exists_mem_of_ne_nil _ hne
    have h1 := a d hd
    have h2 := (hr d hd).1
    have h3 : idx.docs_count_ = 0 := c
    rw [h3] at h1
    omega
  · refine ⟨d.id, ⟨d, hd, rfl⟩, fun doc hdoc => ?_, ?_⟩
    · have := a doc hdoc
      omega
    · unfold docsCount
      omega

/-- Claim C12 at the ids 2, 0, 1 in this order: `docsCount()` is 3. -/
theorem C12_docsCount_witness :
    ∃ idx, addAll [⟨2, [], bytes "газ"⟩, ⟨0, [], bytes "нефть"⟩, ⟨1, [], bytes "газ"⟩]
        BooleanIndex.new = some idx ∧ (idx.docsCount : Int) = 1 + 2 := by
  obtain ⟨_, idx, e, _, m, ⟨d, hd, hm⟩, hmax, hc⟩ :=
    C12_docsCount [⟨2, [], bytes "газ"⟩, ⟨0, [], bytes "нефть"⟩, ⟨1, [], bytes "газ"⟩]
      (by simp) (by
        intro doc hdoc
        simp only [List.mem_cons, List.mem_singleton, List.not_mem_nil, or_false] at hdoc
        rcases hdoc with h | h | h <;> subst h <;> constructor <;> norm_num)
  refine ⟨idx, e, ?_⟩
  have h2 := hmax ⟨2, [], bytes "газ"⟩ (by simp)
  have hle : m ≤ 2 := by
    simp only [List.mem_cons, List.mem_singleton, List.not_mem_nil, or_false] at hd
    rcases hd with h | h | h <;> subst h <;> simp at hm <;> omega
  simp only at h2
  omega

end InfSearch

namespace InfSearch

open BooleanSearch BooleanIndex

namespace HashTable

/-! ### A new table of any capacity -/

theorem nextPow2Loop_spec (x : Nat) (hx : x ≤ 2 ^ 63) (n : Nat) :
    ∀ j, j ≤ 63 → 64 ≤ n + j →
      ∃ k, j ≤ k ∧ k ≤ 63 ∧ nextPow2Loop n (2 ^ j) x = 2 ^ k ∧ x ≤ 2 ^ k := by
  induction n with
  | zero => intro j h1 h2; omega
  | succ n ih =>
    intro j h1 h2
    simp only [nextPow2Loop]
    by_cases hlt : 2 ^ j < x
    · rw [if_pos hlt]
      have hj : j < 63 := by
        by_contra hge
        have : j = 63 := by omega
        subst this
        omega
      have hsh : (2 ^ j <<< 1) % 2 ^ 64 = 2 ^ (j + 1) := by
        rw [Nat.shiftLeft_eq, pow_one, ← pow_succ]
        apply Nat.mod_eq_of_lt
        exact Nat.pow_lt_pow_right (by omega) (by omega)
      rw [hsh]
      obtain ⟨k, k1, k2, k3, k4⟩ := ih (j + 1) (by omega) (by omega)
      exact ⟨k, by omega, k2, k3, k4⟩
    · rw [if_neg hlt]
      exact ⟨j, le_refl _, h1, rfl, by omega⟩

theorem nextPow2_spec (x : Nat) (hx : x ≤ 2 ^ 63) :
    ∃ k, nextPow2 x = 2 ^ k ∧ x ≤ 2 ^ k := by
  obtain ⟨k, _, _, h3, h4⟩ := nextPow2Loop_spec x hx 64 0 (by omega) (by omega)
  exact ⟨k, h3, h4⟩

theorem filledCount_empty (n : Nat) : filledCount (fun _ => Entry.empty) n = 0 := by
  induction n with
  | zero => rfl
  | succ n ih =>
    simp only [filledCount, ih]
    simp [Entry.empty]

/-- The constructor gives a well-formed empty table for every initial
capacity up to `2 ^ 63`. -/
theorem newTable_WF (c : Nat) (hc : c ≤ 2 ^ 63) : WF (HashTable.new c) := by
  obtain ⟨k, hk, hle⟩ := nextPow2_spec (max 8 c) (by
    rcases max_cases 8 c with ⟨h, _⟩ | ⟨h, _⟩ <;> rw [h]
    · norm_num
    · exact hc)
  have h8 : 8 ≤ 2 ^ k := le_trans (le_max_left 8 c) hle
  have hk1 : 1 ≤ k := by
    by_contra h
    have : k = 0 := by omega
    subst this
    norm_num at h8
  refine ⟨⟨⟨⟨k, hk1, hk⟩, rfl⟩, ?_, ?_⟩, ?_⟩
  · intro i _ hf
    simp [HashTable.new, Entry.empty] at hf
  · show 0 = filledCount (fun _ => Entry.empty) _
    rw [filledCount_empty]
  · show 10 * 0 ≤ _
    omega

theorem newTable_lookup (c : Nat) (hc : c ≤ 2 ^ 63) (k : Str) : lookup (HashTable.new c) k = none := by
  have hW := newTable_WF c hc
  rw [lookup_eq_none_iff _ hW.1 (size_lt_of_WF _ hW)]
  rintro v ⟨i, _, ei⟩
  simp [HashTable.new, Entry.empty] at ei

theorem find_eq_lookup (t : HashTable) (hW : WF t) (k : Str) :
    find t k = some (lookup t k) := by
  have hs := find_isSome t hW.1 (size_lt_of_WF t hW) k
  unfold lookup
  cases hf : find t k with
  | none => rw [hf] at hs; cases hs
  | some r => cases r <;> rfl

/-! ### Sequences of insertions -/

/-- One statement `getOrInsert(k).push_back(v)`. -/
theorem getOrInsert_pushBack_spec (t : HashTable) (hW : WF t) (k : Str) (v : Int) :
    ∃ t₁ idx, getOrInsert t k = some (t₁, idx) ∧ WF (pushBack t₁ idx v) ∧
      lookup (pushBack t₁ idx v) k = some ((lookup t k).getD [] ++ [v]) ∧
      (∀ k', k' ≠ k → lookup (pushBack t₁ idx v) k' = lookup t k') ∧
      (pushBack t₁ idx v).size_ = (if lookup t k = none then t.size_ + 1 else t.size_) := by
  obtain ⟨t₁, idx, e1, hW₁, hidx, hent, hother, hsz⟩ := getOrInsert_spec t hW k
  obtain ⟨hW₂, hl₂, hother₂, hsz₂⟩ := pushBack_spec t₁ hW₁ idx k _ v hidx hent
  exact ⟨t₁, idx, e1, hW₂, hl₂, fun k' hk' => by rw [hother₂ k' hk', hother k' hk'],
    by rw [hsz₂, hsz]⟩

/-- After a sequence of statements `getOrInsert(k).push_back(v)` every key of
the sequence has its old value followed by the values pushed under it, in the
order of the pushes, and every other key is as before. -/
theorem pushAll_spec (ops : List (Str × Int)) :
    ∀ t : HashTable, WF t →
      ∃ t', pushAll ops t = some t' ∧ WF t' ∧
        ∀ k, lookup t' k =
          if k ∈ ops.map Prod.fst then
            some ((lookup t k).getD [] ++ (ops.filter fun op => op.1 = k).map Prod.snd)
          else lookup t k := by
  induction ops with
  | nil =>
    intro t hW
    exact ⟨t, rfl, hW, fun k => by simp⟩
  | cons op ops ih =>
    intro t hW
    obtain ⟨t₁, idx, e1, hW₂, hl, hother, _⟩ := getOrInsert_pushBack_spec t hW op.1 op.2
    obtain ⟨t', e2, hW', hlk⟩ := ih (pushBack t₁ idx op.2) hW₂
    refine ⟨t', ?_, hW', ?_⟩
    · simp only [pushAll, e1]
      exact e2
    · intro k
      rw [hlk k]
      by_cases hk : k = op.1
      · subst hk
        rw [hl]
        have hin : op.1 ∈ (op :: ops).map Prod.fst := by simp
        rw [if_pos hin]
        have hf : ((op :: ops).filter fun o => o.1 = op.1)
            = op :: ops.filter fun o => o.1 = op.1 := by
          simp [List.filter_cons]
        rw [hf]
        split_ifs with h
        · simp
        · have : (ops.filter fun o => o.1 = op.1) = [] := by
            rw [List.filter_eq_nil_iff]
            intro o ho heq
            apply h
            exact List.mem_map.mpr ⟨o, ho, by simpa using heq⟩
          simp [this]
      · have hne : ¬ op.1 = k := fun h => hk h.symm
        rw [hother k hk]
        have hf : ((op :: ops).filter fun o => o.1 = k) = ops.filter fun o => o.1 = k := by
          simp [List.filter_cons, hne]
        have hin : k ∈ (op :: ops).map Prod.fst ↔ k ∈ ops.map Prod.fst := by
          simp only [List.map_cons, List.mem_cons]
          constructor
          · rintro (h | h)
            · exact absurd h hk
            · exact h
          · exact Or.inr
        rw [hf]
        by_cases h : k ∈ ops.map Prod.fst
        · rw [if_pos h, if_pos (hin.mpr h)]
        · rw [if_neg h, if_neg (fun h' => h (hin.mp h'))]

theorem holdsKeys_new (c : Nat) (hc : c ≤ 2 ^ 63) : HoldsKeys (HashTable.new c) ∅ := by
  refine ⟨newTable_WF c hc, fun k => ?_, rfl⟩
  rw [newTable_lookup c hc]
  simp

theorem holdsKeys_getOrInsert (t : HashTable) (S : Finset Str) (h : HoldsKeys t S) (k : Str) :
    ∃ t₁ idx, getOrInsert t k = some (t₁, idx) ∧ HoldsKeys t₁ (insert k S) := by
  obtain ⟨hW, hkeys, hsz⟩ := h
  obtain ⟨t₁, idx, e1, hW₁, hidx, hent, hother, hsz₁⟩ := getOrInsert_spec t hW k
  have hl : lookup t₁ k = some ((lookup t k).getD []) :=
    (lookup_eq_some_iff t₁ hW₁.1 (size_lt_of_WF _ hW₁) k _).mpr ⟨idx, hidx, hent⟩
  refine ⟨t₁, idx, e1, hW₁, fun k' => ?_, ?_⟩
  · by_cases hk : k' = k
    · subst hk
      rw [hl]
      simp
    · rw [hother k' hk, hkeys k']
      simp [hk]
  · rw [hsz₁]
    by_cases hin : k ∈ S
    · have : (lookup t k).isSome = true := (hkeys k).mpr hin
      have hne : lookup t k ≠ none := by
        intro h; rw [h] at this; cases this
      rw [if_neg hne, Finset.insert_eq_of_mem hin, hsz]
    · have hnone : lookup t k = none := by
        cases h : lookup t k with
        | none => rfl
        | some v => exact absurd ((hkeys k).mp (by rw [h]; rfl)) hin
      rw [if_pos hnone, Finset.card_insert_of_not_mem hin, hsz]

theorem holdsKeys_pushBack (t : HashTable) (S : Finset Str) (h : HoldsKeys t S) (idx : Nat)
    (v : Int) : HoldsKeys (pushBack t idx v) S := by
  obtain ⟨hW, hkeys, hsz⟩ := h
  have hst : ∀ i, ((pushBack t idx v).entries_ i).state = (t.entries_ i).state := by
    intro i
    simp only [pushBack, setEntry]
    split_ifs with h
    · rw [h]
    · rfl
  have hky : ∀ i, ((pushBack t idx v).entries_ i).key = (t.entries_ i).key := by
    intro i
    simp only [pushBack, setEntry]
    split_ifs with h
    · rw [h]
    · rfl
  have hI' : Inv (pushBack t idx v) := inv_of_same_keys t _ hW.1 rfl rfl rfl hst hky
  have hlt := size_lt_of_WF t hW
  have hlt' : (pushBack t idx v).size_ < (pushBack t idx v).cap := hlt
  refine ⟨⟨hI', hW.2⟩, fun k => ?_, hsz⟩
  rw [← hkeys k]
  -- a key is held by the new table exactly when the old one holds it
  have key : (∃ w, Has (pushBack t idx v) k w) ↔ ∃ w, Has t k w := by
    constructor
    · rintro ⟨w, i, hi, ei⟩
      have hs := hst i
      have hk := hky i
      rw [ei] at hs hk
      exact ⟨_, i, hi, entry_eta _ k hs.symm hk.symm⟩
    · rintro ⟨w, i, hi, ei⟩
      have hs := hst i
      have hk := hky i
      rw [ei] at hs hk
      exact ⟨_, i, hi, entry_eta _ k hs hk⟩
  have iso : ∀ (u : HashTable) (hu : Inv u) (hr : u.size_ < u.cap),
      (lookup u k).isSome = true ↔ ∃ w, Has u k w := by
    intro u hu hr
    constructor
    · intro h
      cases hl : lookup u k with
      | none => rw [hl] at h; cases h
      | some w => exact ⟨w, (lookup_eq_some_iff u hu hr k w).mp hl⟩
    · rintro ⟨w, hw⟩
      rw [(lookup_eq_some_iff u hu hr k w).mpr hw]
      rfl
  rw [iso _ hI' hlt', iso _ hW.1 hlt, key]

theorem holdsKeys_insertAll (keys : List Str) :
    ∀ (t : HashTable) (S : Finset Str), HoldsKeys t S →
      ∃ t', insertAll keys t = some t' ∧ HoldsKeys t' (S ∪ keys.toFinset) := by
  induction keys with
  | nil =>
    intro t S h
    exact ⟨t, rfl, by simpa using h⟩
  | cons k keys ih =>
    intro t S h
    obtain ⟨t₁, idx, e1, h₁⟩ := holdsKeys_getOrInsert t S h k
    obtain ⟨t', e2, h'⟩ := ih t₁ _ h₁
    refine ⟨t', ?_, ?_⟩
    · simp only [insertAll, e1]
      exact e2
    · have : S ∪ (k :: keys).toFinset = insert k S ∪ keys.toFinset := by
        ext x
        simp only [List.toFinset_cons, Finset.mem_union, Finset.mem_insert]
        tauto
      rw [this]
      exact h'

end HashTable

namespace BooleanIndex

theorem holdsKeys_addTerms (id : Int) (terms : List Str) :
    ∀ (t : HashTable) (S : Finset Str), HashTable.HoldsKeys t S →
      ∃ t', addTerms id terms t = some t' ∧ HashTable.HoldsKeys t' (S ∪ terms.toFinset) := by
  induction terms with
  | nil =>
    intro t S h
    exact ⟨t, rfl, by simpa using h⟩
  | cons k terms ih =>
    intro t S h
    obtain ⟨t₁, idx, e1, h₁⟩ := HashTable.holdsKeys_getOrInsert t S h k
    obtain ⟨t', e2, h'⟩ := ih _ _ (HashTable.holdsKeys_pushBack t₁ _ h₁ idx id)
    refine ⟨t', ?_, ?_⟩
    · simp only [addTerms, e1]
      exact e2
    · have : S ∪ (k :: terms).toFinset = insert k S ∪ terms.toFinset := by
        ext x
        simp only [List.toFinset_cons, Finset.mem_union, Finset.mem_insert]
        tauto
      rw [this]
      exact h'

theorem holdsKeys_addAll (docs : List Document) :
    ∀ (idx : BooleanIndex) (S : Finset Str), HashTable.HoldsKeys idx.table_ S →
      ∃ idx', addAll docs idx = some idx' ∧
        HashTable.HoldsKeys idx'.table_
          (S ∪ (docs.flatMap fun d => docTerms d.text).toFinset) := by
  induction docs with
  | nil =>
    intro idx S h
    exact ⟨idx, rfl, by simpa using h⟩
  | cons doc docs ih =>
    intro idx S h
    obtain ⟨t', e1, h₁⟩ := holdsKeys_addTerms doc.id (docTerms doc.text) idx.table_ S h
    have e1' : addDocument idx doc = some
        { docs_count_ := max idx.docs_count_ (((doc.id + 1) % 2 ^ 64).toNat)
          all_docs_ := idx.all_docs_ ++ [doc.id]
          table_ := t' } := by
      simp only [addDocument, e1]
    obtain ⟨idx', e2, h'⟩ := ih
      { docs_count_ := max idx.docs_count_ (((doc.id + 1) % 2 ^ 64).toNat)
        all_docs_ := idx.all_docs_ ++ [doc.id]
        table_ := t' } _ h₁
    refine ⟨idx', ?_, ?_⟩
    · simp only [addAll, e1']
      exact e2
    · have : S ∪ ((doc :: docs).flatMap fun d => docTerms d.text).toFinset
          = S ∪ (docTerms doc.text).toFinset
            ∪ (docs.flatMap fun d => docTerms d.text).toFinset := by
        ext x
        simp only [List.flatMap_cons, List.toFinset_append, Finset.mem_union]
        tauto
      rw [this]
      exact h'

theorem stems_toFinset (docs : List Document) :
    (docs.flatMap fun d => docTerms d.text).toFinset
      = (docs.flatMap fun d => (Tokenizer.tokenize d.text).map Stemmer.stem).toFinset := by
  ext k
  simp only [List.mem_toFinset, List.mem_flatMap, List.mem_map]
  constructor
  · rintro ⟨d, hd, hk⟩
    obtain ⟨x, hx, hs, _⟩ := (mem_docTerms d.text k).mp hk
    exact ⟨d, hd, x, hx, hs⟩
  · rintro ⟨d, hd, x, hx, hs⟩
    refine ⟨d, hd, (mem_docTerms d.text k).mpr ⟨x, hx, hs, ?_⟩⟩
    rw [← hs]
    exact Stemmer.stem_length x (Tokenizer.tokenize_length d.text x hx).1

end BooleanIndex

end InfSearch

namespace InfSearch

open BooleanSearch BooleanIndex HashTable

/-- Claim C13: the table is a map, across rehashes.  From an empty table of
any initial capacity (up to `2 ^ 63`, beyond which the constructor of the
source does not return) every sequence of statements
`getOrInsert(k).push_back(v)` runs to its end, and then `find(k)` points to
the list of the values pushed under `k`, in the order of the pushes, for a key
of the sequence, and is null for every other key.  In the stress test of 200
keys `k0..k199` on a table of capacity 8, `find(ki)` has the first element `i`. -/
theorem C13_hashtable_map :
    (∀ (c : Nat) (ops : List (Str × Int)), c ≤ 2 ^ 63 →
      ∃ t, pushAll ops (HashTable.new c) = some t ∧
        ∀ k, find t k =
          if k ∈ ops.map Prod.fst then
            some (some ((ops.filter fun op => op.1 = k).map Prod.snd))
          else some none) ∧
    ∃ t, pushAll (stressOps 200) (HashTable.new 8) = some t ∧
      ∀ i, i < 200 → ∃ l, find t (bytes "k" ++ to_string i) = some (some ((i : Int) :: l)) := by
  have gen : ∀ (c : Nat) (ops : List (Str × Int)), c ≤ 2 ^ 63 →
      ∃ t, pushAll ops (HashTable.new c) = some t ∧
        ∀ k, find t k =
          if k ∈ ops.map Prod.fst then
            some (some ((ops.filter fun op => op.1 = k).map Prod.snd))
          else some none := by
    intro c ops hc
    obtain ⟨t, e, hW, hl⟩ := pushAll_spec ops (HashTable.new c) (newTable_WF c hc)
    refine ⟨t, e, fun k => ?_⟩
    rw [find_eq_lookup t hW, hl k, newTable_lookup c hc]
    split_ifs <;> simp
  refine ⟨gen, ?_⟩
  have h : (pushAll (stressOps 200) (HashTable.new 8)).map (fun t =>
      (List.range 200).all fun i =>
        match find t (bytes "k" ++ to_string i) with
        | some (some (x :: _)) => x == (i : Int)
        | _ => false) = some true := by decide!
  obtain ⟨t, e, _⟩ := gen 8 (stressOps 200) (by norm_num)
  rw [e] at h
  simp only [Option.map_some', Option.some.injEq, List.all_eq_true, List.mem_range] at h
  refine ⟨t, e, fun i hi => ?_⟩
  have hi' := h i hi
  cases hf : find t (bytes "k" ++ to_string i) with
  | none => rw [hf] at hi'; cases hi'
  | some r =>
    cases r with
    | none => rw [hf] at hi'; cases hi'
    | some l =>
      cases l with
      | nil => rw [hf] at hi'; cases hi'
      | cons x l =>
        rw [hf] at hi'
        simp only [beq_iff_eq] at hi'
        exact ⟨l, by rw [hi']⟩

/-- Claim C13 at the statements of `test_hashtable_insert_find`: after
`a ← 1`, `a ← 2`, `b ← 7` on a table of capacity 8, `find("a")` is `[1, 2]`,
`find("b")` is `[7]` and `find("c")` is null. -/
theorem C13_hashtable_map_witness :
    (8 : Nat) ≤ 2 ^ 63 ∧
    ∃ t, pushAll [(bytes "a", 1), (bytes "a", 2), (bytes "b", 7)] (HashTable.new 8) = some t ∧
      find t (bytes "a") = some (some [1, 2]) ∧ find t (bytes "b") = some (some [7]) ∧
      find t (bytes "c") = some none := by
  refine ⟨by norm_num, ?_⟩
  obtain ⟨t, e, h⟩ := C13_hashtable_map.1 8 [(bytes "a", 1), (bytes "a", 2), (bytes "b", 7)]
    (by norm_num)
  refine ⟨t, e, ?_, ?_, ?_⟩
  · rw [h]; decide
  · rw [h]; decide
  · rw [h]; decide

/-- Claim C14: after a sequence of `getOrInsert` calls on a new table,
`size()` is the number of distinct keys of the sequence (also when a value is
pushed after every call); and `termsCount()` of an index is the number of
distinct stems of the tokens of the documents added. -/
theorem C14_size_counts_distinct_keys :
    (∀ (c : Nat) (keys : List Str), c ≤ 2 ^ 63 →
      ∃ t, insertAll keys (HashTable.new c) = some t ∧ t.size = keys.toFinset.card) ∧
    (∀ (c : Nat) (ops : List (Str × Int)), c ≤ 2 ^ 63 →
      ∃ t, pushAll ops (HashTable.new c) = some t ∧
        t.size = (ops.map Prod.fst).toFinset.card) ∧
    ∀ docs : List Document,
      ∃ idx, build docs = some idx ∧
        idx.termsCount =
          (docs.flatMap fun d => (Tokenizer.tokenize d.text).map Stemmer.stem).toFinset.card := by
  refine ⟨?_, ?_, ?_⟩
  · intro c keys hc
    obtain ⟨t, e, _, _, hsz⟩ := holdsKeys_insertAll keys _ _ (holdsKeys_new c hc)
    exact ⟨t, e, by rw [HashTable.size, hsz, Finset.empty_union]⟩
  · intro c ops hc
    have key : ∀ (ops : List (Str × Int)) (t : HashTable) (S : Finset Str), HoldsKeys t S →
        ∃ t', pushAll ops t = some t' ∧ HoldsKeys t' (S ∪ (ops.map Prod.fst).toFinset) := by
      intro ops
      induction ops with
      | nil =>
        intro t S h
        exact ⟨t, rfl, by simpa using h⟩
      | cons op ops ih =>
        intro t S h
        obtain ⟨t₁, idx, e1, h₁⟩ := holdsKeys_getOrInsert t S h op.1
        obtain ⟨t', e2, h'⟩ := ih _ _ (holdsKeys_pushBack t₁ _ h₁ idx op.2)
        refine ⟨t', ?_, ?_⟩
        · simp only [pushAll, e1]
          exact e2
        · have : S ∪ ((op :: ops).map Prod.fst).toFinset
              = insert op.1 S ∪ (ops.map Prod.fst).toFinset := by
            ext x
            simp only [List.map_cons, List.toFinset_cons, Finset.mem_union, Finset.mem_insert]
            tauto
          rw [this]
          exact h'
    obtain ⟨t, e, _, _, hsz⟩ := key ops _ _ (holdsKeys_new c hc)
    exact ⟨t, e, by rw [HashTable.size, hsz, Finset.empty_union]⟩
  · intro docs
    have h0 : HoldsKeys BooleanIndex.new.table_ ∅ := holdsKeys_new (1 <<< 20) (by decide)
    obtain ⟨idx, e, _, _, hsz⟩ := holdsKeys_addAll docs BooleanIndex.new ∅ h0
    refine ⟨finalize idx, by simp [build, e], ?_⟩
    show idx.table_.size_ = _
    rw [hsz, Finset.empty_union, stems_toFinset]

/-- Claim C14 at the keys `a`, `b`, `a` on a table of capacity 8: `size()` is 2. -/
theorem C14_size_counts_distinct_keys_witness :
    (8 : Nat) ≤ 2 ^ 63 ∧
    ∃ t, insertAll [bytes "a", bytes "b", bytes "a"] (HashTable.new 8) = some t ∧ t.size = 2 := by
  refine ⟨by norm_num, ?_⟩
  obtain ⟨t, e, h⟩ := C14_size_counts_distinct_keys.1 8 [bytes "a", bytes "b", bytes "a"]
    (by norm_num)
  refine ⟨t, e, ?_⟩
  rw [h]
  decide

end InfSearch

namespace InfSearch

namespace Tokenizer

/-! ### The final pass of the tokenizer -/

theorem mem_keepFirst (x : Str) (l : List Str) : x ∈ keepFirst l ↔ x ∈ l := by
  induction l with
  | nil => simp [keepFirst]
  | cons a l ih =>
    simp only [keepFirst, List.mem_cons, List.mem_filter, ih, decide_eq_true_eq]
    constructor
    · rintro (h | ⟨h, _⟩)
      · exact Or.inl h
      · exact Or.inr h
    · rintro (h | h)
      · exact Or.inl h
      · by_cases hx : x = a
        · exact Or.inl hx
        · exact Or.inr ⟨h, hx⟩

theorem nodup_keepFirst (l : List Str) : (keepFirst l).Nodup := by
  induction l with
  | nil => simp [keepFirst]
  | cons a l ih =>
    simp only [keepFirst]
    refine List.nodup_cons.mpr ⟨?_, ih.filter _⟩
    simp [List.mem_filter]

theorem indexOf_head (a : Str) (l : List Str) : (a :: l).indexOf a = 0 := by
  simp [List.indexOf_cons]

theorem indexOf_tail (a x : Str) (l : List Str) (h : x ≠ a) :
    (a :: l).indexOf x = l.indexOf x + 1 := by
  have h2 : (a == x) = false := by simpa using Ne.symm h
  rw [List.indexOf_cons, h2]; rfl

/-- The elements of `keepFirst` stand in the order of their first occurrences
in the list, also when the list has been filtered before. -/
theorem keepFirst_filter_pairwise (P : Str → Bool) (l : List Str) :
    (keepFirst (l.filter P)).Pairwise fun x y => l.indexOf x < l.indexOf y := by
  induction l with
  | nil => simp [keepFirst]
  | cons a l ih =>
    by_cases hP : P a = true
    · rw [List.filter_cons_of_pos hP]
      simp only [keepFirst]
      refine List.pairwise_cons.mpr ⟨?_, ?_⟩
      · intro y hy
        have hya : y ≠ a := by simpa using (List.mem_filter.mp hy).2
        rw [indexOf_head, indexOf_tail _ _ _ hya]
        exact Nat.succ_pos _
      · have hsub : ((keepFirst (l.filter P)).filter fun y => decide (y ≠ a)).Pairwise
            fun x y => l.indexOf x < l.indexOf y := ih.sublist (List.filter_sublist _)
        refine List.Pairwise.imp_of_mem ?_ hsub
        intro x y hx hy hxy
        have hxa : x ≠ a := by simpa using (List.mem_filter.mp hx).2
        have hya : y ≠ a := by simpa using (List.mem_filter.mp hy).2
        rw [indexOf_tail _ _ _ hxa, indexOf_tail _ _ _ hya]
        exact Nat.succ_lt_succ hxy
    · rw [List.filter_cons_of_neg hP]
      refine List.Pairwise.imp_of_mem ?_ ih
      intro x y hx hy hxy
      have hxP := (List.mem_filter.mp ((mem_keepFirst x _).mp hx)).2
      have hyP := (List.mem_filter.mp ((mem_keepFirst y _).mp hy)).2
      have hxa : x ≠ a := fun h => hP (h ▸ hxP)
      have hya : y ≠ a := fun h => hP (h ▸ hyP)
      rw [indexOf_tail _ _ _ hxa, indexOf_tail _ _ _ hya]
      exact Nat.succ_lt_succ hxy

theorem dedupPass_eq (out : List Str) : ∀ uniq : List Str,
    dedupPass out uniq
      = uniq ++ (keepFirst (out.filter lenOK)).filter fun y => decide (y ∉ uniq) := by
  induction out with
  | nil => intro uniq; simp [dedupPass, keepFirst]
  | cons t out ih =>
    intro uniq
    simp only [dedupPass]
    by_cases h1 : t.length < 2
    · have hl : lenOK t = false := by simp [lenOK]; omega
      rw [if_pos h1, ih, List.filter_cons_of_neg (by simp [hl])]
    · rw [if_neg h1]
      by_cases h2 : t.length > 200
      · have hl : lenOK t = false := by simp [lenOK]; omega
        rw [if_pos h2, ih, List.filter_cons_of_neg (by simp [hl])]
      · have hl : lenOK t = true := by simp [lenOK]; omega
        rw [if_neg h2, List.filter_cons_of_pos hl]
        simp only [keepFirst]
        by_cases h3 : t ∈ uniq
        · rw [if_pos h3, ih, List.filter_cons_of_neg (by simp [h3]), List.filter_filter]
          congr 1
          apply List.filter_congr
          intro y _
          by_cases hy : y ∈ uniq
          · simp [hy]
          · have : y ≠ t := fun h => hy (h ▸ h3)
            simp [hy, this]
        · rw [if_neg h3, ih, List.filter_cons_of_pos (by simp [h3]), List.filter_filter,
            List.append_assoc, List.singleton_append]
          congr 2
          apply List.filter_congr
          intro y _
          simp only [List.mem_append, List.mem_singleton, not_or, Bool.decide_and,
            Bool.and_comm]

/-- The final pass keeps the strings of 2 to 200 bytes, each on its first
occurrence. -/
theorem tokenize_eq_keepFirst (utf8 : Str) :
    tokenize utf8 = keepFirst ((rawTokens utf8).filter lenOK) := by
  have := dedupPass_eq (rawTokens utf8) []
  simp only [List.nil_append, List.not_mem_nil, not_false_eq_true, decide_True,
    List.filter_true] at this
  exact this

end Tokenizer

/-- Claim C15: for every input, `tokenize` has no duplicates, every element
has 2 to 200 bytes, and the elements are the strings of those lengths that the
main loop emitted, in the order of their first occurrences. -/
theorem C15_tokenize_dedup (s : Str) :
    (Tokenizer.tokenize s).Nodup ∧
    (∀ x, x ∈ Tokenizer.tokenize s → 2 ≤ x.length ∧ x.length ≤ 200) ∧
    (∀ x, x ∈ Tokenizer.tokenize s ↔
      x ∈ Tokenizer.rawTokens s ∧ 2 ≤ x.length ∧ x.length ≤ 200) ∧
    (Tokenizer.tokenize s).Pairwise
      (fun x y => (Tokenizer.rawTokens s).indexOf x < (Tokenizer.rawTokens s).indexOf y) ∧
    Tokenizer.tokenize s
      = Tokenizer.keepFirst ((Tokenizer.rawTokens s).filter Tokenizer.lenOK) := by
  have hmem : ∀ x, x ∈ Tokenizer.tokenize s ↔
      x ∈ Tokenizer.rawTokens s ∧ 2 ≤ x.length ∧ x.length ≤ 200 := by
    intro x
    rw [Tokenizer.tokenize_eq_keepFirst, Tokenizer.mem_keepFirst, List.mem_filter]
    simp [Tokenizer.lenOK]
  refine ⟨?_, fun x hx => ((hmem x).mp hx).2, hmem, ?_, Tokenizer.tokenize_eq_keepFirst s⟩
  · rw [Tokenizer.tokenize_eq_keepFirst]
    exact Tokenizer.nodup_keepFirst _
  · rw [Tokenizer.tokenize_eq_keepFirst]
    exact Tokenizer.keepFirst_filter_pairwise _ _

end InfSearch

namespace InfSearch

/-! ### URL and e-mail elision, Cyrillic case folding: the code at the inputs of the tests -/

/-- Claim C17, the code at the input of `test_skip_url_and_email`: the result
is `см`, `test`, `ok`.  At the `@` the main loop calls `flushToken()` before it
skips to the next whitespace, which emits the local part `test` that the loop
had read as an ordinary word. -/
theorem C17_email_local_part_emitted :
    Tokenizer.tokenize
        (bytes "см https://example.com/x?a=1 и test@mail.com и www.site.ru ok")
      = [bytes "см", bytes "test", bytes "ok"] ∧
    bytes "test" ∈ Tokenizer.tokenize (bytes "test@mail.com") := by
  decide

/-- Claim C18, the code at `Санкт-Петербург`: of the four strings only
`петербург` is in the result.  The letter `С` (bytes `D0 A1`) is emitted as the
bytes `D0 C1`, not as `с` (bytes `D1 81`), so the other three begin with
`D0 C1`. -/
theorem C18_sankt_peterburg_tokens :
    Tokenizer.tokenize (bytes "Санкт-Петербург")
      = [[0xD0, 0xC1] ++ bytes "анкт-петербург", [0xD0, 0xC1] ++ bytes "анктпетербург",
         [0xD0, 0xC1] ++ bytes "анкт", bytes "петербург"] ∧
    bytes "санкт-петербург" ∉ Tokenizer.tokenize (bytes "Санкт-Петербург") ∧
    bytes "санктпетербург" ∉ Tokenizer.tokenize (bytes "Санкт-Петербург") ∧
    bytes "санкт" ∉ Tokenizer.tokenize (bytes "Санкт-Петербург") ∧
    bytes "петербург" ∈ Tokenizer.tokenize (bytes "Санкт-Петербург") := by
  decide

/-- Claim C19, the code on the Cyrillic letters: `Ё` and `ё` become `е`, the
lowercase letters `а`..`я` stay, the capitals `А`..`П` (trail bytes `90`..`9F`
after `D0`) become `а`..`п`, and `ЁЛКА ёлка ЕЛКА` gives `елка` alone; but a
capital `Р`..`Я` (trail byte `A0`..`AF` after `D0`) becomes the two bytes `D0`,
trail + `20`, where the lowercase letter is `D1`, trail - `20`.  So `РЯ` gives
the bytes `D0 C0 D0 CF` and `ря` gives `ря`. -/
theorem C19_capitals_R_to_Ya_misfolded :
    Tokenizer.normalizeCyr2 0xD0 0x81 = some (0xD0, 0xB5) ∧
    Tokenizer.normalizeCyr2 0xD1 0x91 = some (0xD0, 0xB5) ∧
    (∀ t, 0xB0 ≤ t → t ≤ 0xBF → Tokenizer.normalizeCyr2 0xD0 t = some (0xD0, t)) ∧
    (∀ t, 0x80 ≤ t → t ≤ 0x8F → Tokenizer.normalizeCyr2 0xD1 t = some (0xD1, t)) ∧
    (∀ t, 0x90 ≤ t → t ≤ 0x9F → Tokenizer.normalizeCyr2 0xD0 t = some (0xD0, t + 0x20)) ∧
    (∀ t, 0xA0 ≤ t → t ≤ 0xAF →
      Tokenizer.normalizeCyr2 0xD0 t = some (0xD0, t + 0x20) ∧
      Tokenizer.normalizeCyr2 0xD0 t ≠ some (0xD1, t - 0x20)) ∧
    Tokenizer.tokenize (bytes "ЁЛКА ёлка ЕЛКА") = [bytes "елка"] ∧
    Tokenizer.tokenize (bytes "РЯ") = [[0xD0, 0xC0, 0xD0, 0xCF]] ∧
    Tokenizer.tokenize (bytes "ря") = [bytes "ря"] ∧
    Tokenizer.tokenize (bytes "РЯ") ≠ Tokenizer.tokenize (bytes "ря") := by
  refine ⟨by decide, by decide, ?_, ?_, ?_, ?_, by decide, by decide, by decide, by decide⟩
  · intro t h1 h2
    have h3 : ¬ t = 0x81 := by omega
    have h4 : ¬ (t ≥ 0x90 ∧ t ≤ 0xAF) := by omega
    simp [Tokenizer.normalizeCyr2, h3, h4, h1, h2]
  · intro t h1 h2
    have h3 : ¬ t = 0x91 := by omega
    simp [Tokenizer.normalizeCyr2, h3, h1, h2]
  · intro t h1 h2
    have h3 : ¬ t = 0x81 := by omega
    have h4 : t ≥ 0x90 ∧ t ≤ 0xAF := by omega
    have h5 : (t + 0x20) % 256 = t + 0x20 := by omega
    simp [Tokenizer.normalizeCyr2, h3, h4, h5]
  · intro t h1 h2
    have h3 : ¬ t = 0x81 := by omega
    have h4 : t ≥ 0x90 ∧ t ≤ 0xAF := by omega
    have h5 : (t + 0x20) % 256 = t + 0x20 := by omega
    simp [Tokenizer.normalizeCyr2, h3, h4, h5]

end InfSearch

namespace InfSearch

namespace Tokenizer

/-! ### Character lengths of the tokens -/

theorem chars_count {s : Str} {n : Nat} (h : Chars s n) : charCount s = n := by
  induction h with
  | nil => rfl
  | one b s n h1 h2 _ ih =>
    cases s with
    | nil =>
      simp only [charCount] at ih ⊢
      omega
    | cons d rest =>
      have hb : ¬ (b = 0xD0 ∨ b = 0xD1) := by
        rintro (h | h)
        · exact h1 h
        · exact h2 h
      simp only [charCount, if_neg hb, ih]
      omega
  | two b b2 s n hb _ ih =>
    simp only [charCount, if_pos hb, ih]
    omega

theorem chars_append {s t : Str} {n m : Nat} (hs : Chars s n) (ht : Chars t m) :
    Chars (s ++ t) (n + m) := by
  induction hs with
  | nil => simpa using ht
  | one b s n h1 h2 _ ih =>
    have := Chars.one b _ _ h1 h2 ih
    rw [Nat.add_right_comm]
    exact this
  | two b b2 s n hb _ ih =>
    have := Chars.two b b2 _ _ hb ih
    rw [Nat.add_right_comm]
    exact this

theorem chars_single (b : Nat) (h1 : b ≠ 0xD0) (h2 : b ≠ 0xD1) : Chars [b] 1 :=
  Chars.one b [] 0 h1 h2 Chars.nil

theorem chars_pair (b b2 : Nat) (h : b = 0xD0 ∨ b = 0xD1) : Chars [b, b2] 1 :=
  Chars.two b b2 [] 0 h Chars.nil

theorem normalizeCyr2_lead (lead trail n1 n2 : Nat)
    (h : normalizeCyr2 lead trail = some (n1, n2)) : n1 = 0xD0 ∨ n1 = 0xD1 := by
  unfold normalizeCyr2 at h
  split_ifs at h with h1 h2 h3 h4 h5 <;> simp only [Option.some.injEq, Prod.mk.injEq] at h
  · exact Or.inl h.1.symm
  · exact Or.inl h.1.symm
  · exact Or.inl h.1.symm
  · exact Or.inl (h.1 ▸ h4.1)
  · exact Or.inr (h.1 ▸ h5.1)

/-- A Word code point appends one character. -/
theorem readCp_word_chars (s : Str) (h : (readCp s).type = CpType.Word) :
    Chars (cpBytes (readCp s)) 1 := by
  cases s with
  | nil => simp [readCp] at h
  | cons c rest =>
    simp only [readCp] at h ⊢
    split_ifs at h ⊢ with h1 h2 h3 h4
    · simp only [cpBytes]
      refine chars_single _ ?_ ?_ <;>
        (simp only [asciiLower, tolower]; split_ifs <;> omega)
    · cases h1 : readCpE2 c rest with
      | some cp =>
        rw [h1] at h
        simp only at h ⊢
        unfold readCpE2 at h1
        split at h1
        · split_ifs at h1 <;> (rw [← Option.some.inj h1] at h; cases h)
        · cases h1
      | none =>
        rw [h1] at h
        simp only at h ⊢
        cases h2 : readCpCyr c rest with
        | some cp =>
          rw [h2] at h
          simp only at h ⊢
          unfold readCpCyr at h2
          split at h2
          · split_ifs at h2
            split at h2
            · rename_i n1 n2 hn
              rw [← Option.some.inj h2]
              simp only [cpBytes, if_true]
              exact chars_pair _ _ (normalizeCyr2_lead _ _ _ _ hn)
            · rw [← Option.some.inj h2] at h; cases h
          · cases h2
        | none =>
          rw [h2] at h
          cases h

/-- A Joiner code point carries the hyphen or the apostrophe. -/
theorem readCp_joiner_b1 (s : Str) (h : (readCp s).type = CpType.Joiner) :
    (readCp s).b1 = 45 ∨ (readCp s).b1 = 39 := by
  cases s with
  | nil => simp [readCp] at h
  | cons c rest =>
    simp only [readCp] at h ⊢
    split_ifs at h ⊢ with h1 h2 h3 h4
    · exact Or.inl rfl
    · exact Or.inr rfl
    · cases h1 : readCpE2 c rest with
      | some cp =>
        simp only
        unfold readCpE2 at h1
        split at h1
        · split_ifs at h1 <;> (rw [← Option.some.inj h1])
          · exact Or.inl rfl
          · exact Or.inr rfl
        · cases h1
      | none =>
        rw [h1] at h
        simp only at h ⊢
        cases h2 : readCpCyr c rest with
        | some cp =>
          rw [h2] at h
          simp only at h ⊢
          unfold readCpCyr at h2
          split at h2
          · split_ifs at h2
            split at h2 <;> (rw [← Option.some.inj h2] at h; cases h)
          · cases h2
        | none =>
          rw [h2] at h
          cases h

end Tokenizer

end InfSearch

namespace InfSearch

namespace Tokenizer

theorem loopInv_weaken {P : Prop} {st : TState} (h : LoopInv False st) : LoopInv P st := by
  obtain ⟨h1, h2, h3, h4⟩ := h
  refine ⟨h1, h2, h3, fun htl => ?_⟩
  obtain ⟨a, b, m, c, d, e, f⟩ := h4 htl
  refine ⟨a, b, m, c, d, e, fun hne => ?_⟩
  rcases f hne with h | ⟨h, _⟩
  · exact Or.inl h
  · exact h.elim

/-- What `flushToken()` appends to `out`. -/
theorem flushToken_out (st : TState) (h : st.hasAny = true) :
    (flushToken st).out
      = st.out
        ++ (if st.tooLong = false ∧ 2 ≤ st.tokenChars ∧ st.tokenChars ≤ 50 then [st.token]
            else [])
        ++ (if st.tooLong = false ∧ st.tokenFlat ≠ st.token ∧ 2 ≤ st.tokenFlat.length
            then [st.tokenFlat] else [])
        ++ st.parts
        ++ (if 2 ≤ st.partChars ∧ st.partChars ≤ 50 then [st.part] else []) := by
  obtain ⟨out, token, flat, parts, part, tc, pc, tl, ha⟩ := st
  simp only at h
  subst h
  simp only [flushToken, flushPart, Bool.not_true, Bool.false_eq_true, if_false,
    Bool.not_eq_true', ge_iff_le, gt_iff_lt]
  cases tl with
  | true => by_cases a4 : 2 ≤ pc ∧ pc ≤ 50 <;> simp [a4]
  | false =>
    by_cases a1 : 2 ≤ tc ∧ tc ≤ 50 <;> by_cases a2 : flat = token <;>
      by_cases a3 : 2 ≤ flat.length <;> by_cases a4 : 2 ≤ pc ∧ pc ≤ 50 <;>
      first
        | (have a5 : 0 < flat.length := by omega
           simp [a1, a2, a3, a4, a5])
        | simp [a1, a2, a3, a4]

theorem mem_flushToken_out (st : TState) (x : Str) (hx : x ∈ (flushToken st).out) :
    x ∈ st.out ∨
    (x = st.token ∧ st.tooLong = false ∧ 2 ≤ st.tokenChars ∧ st.tokenChars ≤ 50) ∨
    (x = st.tokenFlat ∧ st.tooLong = false ∧ st.tokenFlat ≠ st.token) ∨
    x ∈ st.parts ∨
    (x = st.part ∧ 2 ≤ st.partChars ∧ st.partChars ≤ 50) := by
  cases h : st.hasAny with
  | false =>
    have : flushToken st = st := by simp [flushToken, h]
    rw [this] at hx
    exact Or.inl hx
  | true =>
    rw [flushToken_out st h] at hx
    simp only [List.mem_append] at hx
    rcases hx with (((hx | hx) | hx) | hx) | hx
    · exact Or.inl hx
    · split_ifs at hx with c
      · exact Or.inr (Or.inl ⟨List.mem_singleton.mp hx, c⟩)
      · cases hx
    · split_ifs at hx with c
      · exact Or.inr (Or.inr (Or.inl ⟨List.mem_singleton.mp hx, c.1, c.2.1⟩))
      · cases hx
    · exact Or.inr (Or.inr (Or.inr (Or.inl hx)))
    · split_ifs at hx with c
      · exact Or.inr (Or.inr (Or.inr (Or.inr ⟨List.mem_singleton.mp hx, c⟩)))
      · cases hx

theorem flushToken_fields (st : TState) :
    (flushToken st = st ∧ st.hasAny = false) ∨
    ((flushToken st).token = [] ∧ (flushToken st).tokenFlat = [] ∧ (flushToken st).parts = [] ∧
      (flushToken st).part = [] ∧ (flushToken st).tokenChars = 0 ∧
      (flushToken st).partChars = 0 ∧ (flushToken st).tooLong = false ∧
      (flushToken st).hasAny = false) := by
  obtain ⟨out, token, flat, parts, part, tc, pc, tl, ha⟩ := st
  cases ha with
  | false => exact Or.inl ⟨by simp [flushToken], rfl⟩
  | true => exact Or.inr (by simp [flushToken, flushPart])

theorem loopInv_flushToken {st : TState} (h : LoopInv False st) :
    LoopInv False (flushToken st) := by
  rcases flushToken_fields st with ⟨e, _⟩ | ⟨e1, e2, e3, e4, e5, e6, e7, _⟩
  · rw [e]; exact h
  · obtain ⟨h1, h2, h3, h4⟩ := h
    refine ⟨?_, ?_, ?_, fun _ => ?_⟩
    · intro x hx
      rcases mem_flushToken_out st x hx with hx | ⟨rfl, htl, ha, hb⟩ | ⟨rfl, htl, hne⟩ | hx |
          ⟨rfl, ha, hb⟩
      · exact h1 x hx
      · exact ⟨_, (h4 htl).1, ha, hb⟩
      · obtain ⟨_, hc, m, hm, hle, _, hp⟩ := h4 htl
        rcases hp hne with hp | ⟨hp, _⟩
        · exact ⟨m, hm, hp, by omega⟩
        · exact hp.elim
      · exact h2 x hx
      · exact ⟨_, h3, ha, hb⟩
    · rw [e3]; intro x hx; cases hx
    · rw [e4, e6]; exact Chars.nil
    · rw [e1, e2, e5, e6]
      exact ⟨Chars.nil, Nat.zero_le _, 0, Chars.nil, le_refl _, le_refl _,
        fun hne => (hne rfl).elim⟩

theorem loopInv_stepWord {P : Prop} {st : TState} (cp : Cp) (hcp : Chars (cpBytes cp) 1)
    (h : LoopInv P st) : LoopInv False (stepWord cp st) := by
  obtain ⟨out, token, flat, parts, part, tc, pc, tl, ha⟩ := st
  obtain ⟨h1, h2, h3, h4⟩ := h
  simp only at h1 h2 h3 h4
  refine ⟨h1, h2, chars_append h3 hcp, ?_⟩
  simp only [stepWord]
  intro htl
  have htl0 : tl = false := by
    by_cases hc : tc + 1 > 50
    · rw [if_pos hc] at htl; cases htl
    · rw [if_neg hc] at htl; exact htl
  have htc : ¬ tc + 1 > 50 := by
    intro hc
    rw [if_pos hc] at htl; cases htl
  obtain ⟨a, _, m, c, d, e, f⟩ := h4 htl0
  subst htl0
  simp only [Bool.not_false, if_true]
  refine ⟨chars_append a hcp, by omega, m + 1, chars_append c hcp, by omega, by omega, ?_⟩
  intro hne
  have hne2 : flat ≠ token := fun e => hne (by rw [e])
  rcases f hne2 with h | ⟨_, h⟩
  · exact Or.inl (by omega)
  · exact Or.inl (by omega)

/-- The two ways of the Joiner branch: the token is flushed, or the joiner is
taken into the token, which needs a Word code point right after it. -/
theorem stepJoiner_cases (cp : Cp) (after : Str) (st : TState) :
    stepJoiner cp after st = flushToken st ∨
    (st.hasAny = true ∧ 0 < st.partChars ∧ NextWord after ∧ after ≠ [] ∧
      stepJoiner cp after st =
        { out := st.out
          token := if st.tooLong = false then st.token ++ [cp.b1] else st.token
          tokenFlat := st.tokenFlat
          parts := if 2 ≤ st.partChars ∧ st.partChars ≤ 50 then st.parts ++ [st.part]
                   else st.parts
          part := []
          tokenChars := st.tokenChars + 1
          partChars := 0
          tooLong := if st.tokenChars + 1 > 50 then true else st.tooLong
          hasAny := st.hasAny }) := by
  cases after with
  | nil => exact Or.inl (by simp [stepJoiner])
  | cons a as =>
    by_cases hu : isUrlStart (a :: as) = true
    · exact Or.inl (by simp [stepJoiner, hu])
    · by_cases he : isEmailStartOrInside (a :: as) = true
      · exact Or.inl (by simp [stepJoiner, he])
      · by_cases hw : (readCp (a :: as)).type = CpType.Word
        · by_cases hc : st.hasAny = true ∧ 0 < st.partChars
          · refine Or.inr ⟨hc.1, hc.2, ⟨by simpa using hu, by simpa using he, hw⟩, by simp, ?_⟩
            simp [stepJoiner, hu, he, hw, hc.1, hc.2, flushPart]
          · refine Or.inl ?_
            have hc2 : ¬ (st.hasAny = true ∧ st.partChars > 0 ∧ True) := by
              intro h; exact hc ⟨h.1, h.2.1⟩
            simp only [stepJoiner, hu, he, hw, Bool.not_false, Bool.and_self, if_true,
              beq_self_eq_true, Bool.not_eq_true] 
            simp only [Bool.not_eq_true, Bool.not_false, Bool.and_self, if_true] at hc2 ⊢
            rw [if_neg hc2]
        · exact Or.inl (by simp [stepJoiner, hu, he, hw])

theorem loopInv_joiner {P : Prop} {st : TState} (cp : Cp) (after : Str)
    (hb : cp.b1 = 45 ∨ cp.b1 = 39) (h : LoopInv P st) (hP : ¬ P) :
    LoopInv (NextWord after) (stepJoiner cp after st) := by
  have hF : LoopInv False st := by
    obtain ⟨h1, h2, h3, h4⟩ := h
    refine ⟨h1, h2, h3, fun htl => ?_⟩
    obtain ⟨a, b, m, c, d, e, f⟩ := h4 htl
    refine ⟨a, b, m, c, d, e, fun hne => ?_⟩
    rcases f hne with h | ⟨h, _⟩
    · exact Or.inl h
    · exact (hP h).elim
  rcases stepJoiner_cases cp after st with e | ⟨hha, hpc, hnext, _, e⟩
  · rw [e]; exact loopInv_weaken (loopInv_flushToken hF)
  · rw [e]
    obtain ⟨out, token, flat, parts, part, tc, pc, tl, ha⟩ := st
    obtain ⟨h1, h2, h3, h4⟩ := hF
    simp only at h1 h2 h3 h4 hpc
    refine ⟨h1, ?_, Chars.nil, ?_⟩
    · intro x hx
      simp only at hx
      split_ifs at hx with c1
      · rcases List.mem_append.mp hx with hx | hx
        · exact h2 x hx
        · rw [List.mem_singleton.mp hx]
          exact ⟨pc, h3, c1.1, c1.2⟩
      · exact h2 x hx
    · intro htl
      simp only at htl ⊢
      have htl0 : tl = false := by
        by_cases hc : tc + 1 > 50
        · rw [if_pos hc] at htl; cases htl
        · rw [if_neg hc] at htl; exact htl
      have htc : ¬ tc + 1 > 50 := by
        intro hc
        rw [if_pos hc] at htl; cases htl
      obtain ⟨a, _, m, c, d, e, f⟩ := h4 htl0
      subst htl0
      simp only [if_true]
      have hj : Chars [cp.b1] 1 := by
        rcases hb with hb | hb <;> (rw [hb]; exact chars_single _ (by decide) (by decide))
      refine ⟨chars_append a hj, by omega, m, c, by omega, Nat.zero_le _, fun _ => ?_⟩
      exact Or.inr ⟨hnext, by omega⟩

end Tokenizer

end InfSearch

namespace InfSearch

namespace Tokenizer

theorem loopInv_strengthen {P : Prop} {st : TState} (h : LoopInv P st) (hP : ¬ P) :
    LoopInv False st := by
  obtain ⟨h1, h2, h3, h4⟩ := h
  refine ⟨h1, h2, h3, fun htl => ?_⟩
  obtain ⟨a, b, m, c, d, e, f⟩ := h4 htl
  refine ⟨a, b, m, c, d, e, fun hne => ?_⟩
  rcases f hne with h | ⟨h, _⟩
  · exact Or.inl h
  · exact (hP h).elim

theorem not_nextWord_nil : ¬ NextWord [] := by
  rintro ⟨_, _, h⟩
  simp [readCp] at h

/-- The main loop keeps its invariant, whatever the input. -/
theorem loopInv_tokenizeLoop (n : Nat) : ∀ (s : Str) (st : TState),
    s.length ≤ n → LoopInv (NextWord s) st → LoopInv False (tokenizeLoop n s st) := by
  induction n with
  | zero =>
    intro s st hn h
    have : s = [] := List.length_eq_zero.mp (by omega)
    subst this
    simp only [tokenizeLoop]
    exact loopInv_strengthen h not_nextWord_nil
  | succ n ih =>
    intro s st hn h
    cases s with
    | nil =>
      simp only [tokenizeLoop]
      exact loopInv_strengthen h not_nextWord_nil
    | cons c rest =>
      simp only [List.length_cons] at hn
      simp only [tokenizeLoop]
      have hdrop : ((c :: rest).drop (readCp (c :: rest)).bytes).length ≤ rest.length := by
        have := readCp_bytes_pos (c :: rest)
        rw [List.length_drop]
        simp only [List.length_cons]
        omega
      split_ifs with h1 h2 h3 h4
      · have := skipUntilWhitespace_lt c rest (isUrlStart_not_space c rest h1)
        have hP : ¬ NextWord (c :: rest) := fun hw => by rw [hw.1] at h1; cases h1
        exact ih _ _ (by omega)
          (loopInv_weaken (loopInv_flushToken (loopInv_strengthen h hP)))
      · have := skipUntilWhitespace_lt c rest (isEmail_not_space c rest h2)
        have hP : ¬ NextWord (c :: rest) := fun hw => by rw [hw.2.1] at h2; cases h2
        exact ih _ _ (by omega)
          (loopInv_weaken (loopInv_flushToken (loopInv_strengthen h hP)))
      · exact ih _ _ (by omega)
          (loopInv_weaken (loopInv_stepWord _ (readCp_word_chars _ h3) h))
      · have hP : ¬ NextWord (c :: rest) := fun hw => h3 hw.2.2
        exact ih _ _ (by omega) (loopInv_joiner _ _ (readCp_joiner_b1 _ h4) h hP)
      · have hP : ¬ NextWord (c :: rest) := fun hw => h3 hw.2.2
        exact ih _ _ (by omega)
          (loopInv_weaken (loopInv_flushToken (loopInv_strengthen h hP)))

/-- Every string that the main loop emits is a sequence of 2 to 50
characters. -/
theorem rawTokens_chars (s x : Str) (hx : x ∈ rawTokens s) :
    ∃ n, Chars x n ∧ 2 ≤ n ∧ n ≤ 50 := by
  have h0 : LoopInv (NextWord s) ⟨[], [], [], [], [], 0, 0, false, false⟩ :=
    ⟨fun x hx => (by cases hx), fun x hx => (by cases hx), Chars.nil,
      fun _ => ⟨Chars.nil, Nat.zero_le _, 0, Chars.nil, le_refl _, le_refl _,
        fun hne => (hne rfl).elim⟩⟩
  exact (loopInv_flushToken (loopInv_tokenizeLoop s.length s _ (le_refl _) h0)).1 x hx

theorem mem_tokenize_raw (s x : Str) (hx : x ∈ tokenize s) : x ∈ rawTokens s := by
  rw [tokenize_eq_keepFirst, mem_keepFirst] at hx
  exact (List.mem_filter.mp hx).1

end Tokenizer

/-- Claim C16: for every input, every string of `tokenize` has 2 to 50
characters, where a two-byte Cyrillic letter is one character.  A word of 30
Cyrillic letters (60 bytes) is emitted; for the input of the test, `a аб ` and
60 times the letter `a`, the result is `аб` alone, so `a` and the word of 60
letters are not emitted. -/
theorem C16_token_char_length :
    (∀ s x, x ∈ Tokenizer.tokenize s →
      2 ≤ Tokenizer.charCount x ∧ Tokenizer.charCount x ≤ 50) ∧
    Tokenizer.charCount (bytes "аб") = 2 ∧ (bytes "аб").length = 4 ∧
    Tokenizer.tokenize ((List.replicate 30 (bytes "я")).flatten)
      = [(List.replicate 30 (bytes "я")).flatten] ∧
    Tokenizer.tokenize (bytes "a аб " ++ List.replicate 60 97) = [bytes "аб"] ∧
    bytes "a" ∉ Tokenizer.tokenize (bytes "a аб " ++ List.replicate 60 97) ∧
    List.replicate 60 97 ∉ Tokenizer.tokenize (bytes "a аб " ++ List.replicate 60 97) ∧
    Tokenizer.tokenize (bytes "a аб " ++ List.replicate 60 97 ++ bytes " ok")
      = [bytes "аб", bytes "ok"] := by
  refine ⟨?_, by decide, by decide, by decide, by decide, by decide, by decide, by decide⟩
  intro s x hx
  obtain ⟨n, hn, h2, h50⟩ := Tokenizer.rawTokens_chars s x (Tokenizer.mem_tokenize_raw s x hx)
  rw [Tokenizer.chars_count hn]
  exact ⟨h2, h50⟩

end InfSearch

namespace InfSearch

namespace Tokenizer

/-! ### Compounds -/

theorem startsWith_mem : ∀ (s lit : Str), startsWith s lit = true → ∀ b, b ∈ lit → b ∈ s := by
  intro s lit
  induction lit generalizing s with
  | nil => intro _ b hb; cases hb
  | cons l lit ih =>
    intro h b hb
    cases s with
    | nil => simp [startsWith] at h
    | cons c s =>
      simp only [startsWith] at h
      split_ifs at h with hne
      have hcl : c = l := by simpa using hne
      rcases List.mem_cons.mp hb with rfl | hb
      · rw [hcl]; exact List.mem_cons_self _ _
      · exact List.mem_cons_of_mem _ (ih s h b hb)

theorem isUrlStart_plain (s : Str) (h : Plain s) : isUrlStart s = false := by
  cases hu : isUrlStart s with
  | false => rfl
  | true =>
    exfalso
    simp only [isUrlStart, Bool.or_eq_true] at hu
    rcases hu with (hu | hu) | hu
    · exact (h 58 (startsWith_mem _ _ hu 58 (by decide))).2.1 rfl
    · exact (h 58 (startsWith_mem _ _ hu 58 (by decide))).2.1 rfl
    · exact (h 46 (startsWith_mem _ _ hu 46 (by decide))).1 rfl

theorem isEmail_plain (s : Str) (h : Plain s) : isEmailStartOrInside s = false := by
  cases s with
  | nil => rfl
  | cons c s =>
    simp only [isEmailStartOrInside, beq_eq_false_iff_ne]
    exact (h c (List.mem_cons_self _ _)).2.2

theorem plain_append {s t : Str} : Plain (s ++ t) ↔ Plain s ∧ Plain t := by
  simp only [Plain, List.mem_append]
  constructor
  · intro h
    exact ⟨fun b hb => h b (Or.inl hb), fun b hb => h b (Or.inr hb)⟩
  · rintro ⟨h1, h2⟩ b (hb | hb)
    · exact h1 b hb
    · exact h2 b hb

/-- The shapes of a lowercase Word character. -/
theorem isLowerWordChar_cases (u : Str) (h : isLowerWordChar u = true) :
    (∃ c, u = [c] ∧ ((97 ≤ c ∧ c ≤ 122) ∨ (48 ≤ c ∧ c ≤ 57))) ∨
    (∃ t, u = [0xD0, t] ∧ 0xB0 ≤ t ∧ t ≤ 0xBF) ∨
    (∃ t, u = [0xD1, t] ∧ 0x80 ≤ t ∧ t ≤ 0x8F) ∨
    u = [0xD1, 0x91] := by
  match u, h with
  | [c], h =>
    simp only [isLowerWordChar, Bool.or_eq_true, Bool.and_eq_true, decide_eq_true_eq] at h
    exact Or.inl ⟨c, rfl, h⟩
  | [l, t], h =>
    simp only [isLowerWordChar, Bool.or_eq_true, Bool.and_eq_true, decide_eq_true_eq] at h
    rcases h with ⟨⟨h1, h2⟩, h3⟩ | ⟨h1, ⟨h2, h3⟩ | h2⟩
    · exact Or.inr (Or.inl ⟨t, by rw [h1], h2, h3⟩)
    · exact Or.inr (Or.inr (Or.inl ⟨t, by rw [h1], h2, h3⟩))
    · exact Or.inr (Or.inr (Or.inr (by rw [h1, h2])))
  | [], h => simp [isLowerWordChar] at h
  | _ :: _ :: _ :: _, h => simp [isLowerWordChar] at h

theorem plain_lowerWordChar (u : Str) (h : isLowerWordChar u = true) : Plain u := by
  rcases isLowerWordChar_cases u h with ⟨c, rfl, hc⟩ | ⟨t, rfl, h1, h2⟩ | ⟨t, rfl, h1, h2⟩ | rfl
  · intro b hb
    rw [List.mem_singleton.mp hb]
    omega
  · intro b hb
    simp only [List.mem_cons, List.mem_singleton, List.not_mem_nil, or_false] at hb
    rcases hb with rfl | rfl <;> omega
  · intro b hb
    simp only [List.mem_cons, List.mem_singleton, List.not_mem_nil, or_false] at hb
    rcases hb with rfl | rfl <;> omega
  · intro b hb
    simp only [List.mem_cons, List.mem_singleton, List.not_mem_nil, or_false] at hb
    rcases hb with rfl | rfl <;> omega

theorem readCpE2_ne (c : Nat) (rest : Str) (h : c ≠ 0xE2) : readCpE2 c rest = none := by
  unfold readCpE2
  split
  · rw [if_neg h]
  · rfl

/-- The code point that `readCp` reads at a lowercase Word character: a Word
whose bytes are the character with `ё` written as `е`. -/
theorem readCp_lowerWordChar (u tail : Str) (h : isLowerWordChar u = true) :
    (readCp (u ++ tail)).type = CpType.Word ∧ cpBytes (readCp (u ++ tail)) = yoToE u ∧
    (u ++ tail).drop (readCp (u ++ tail)).bytes = tail ∧ u ≠ [] := by
  rcases isLowerWordChar_cases u h with ⟨c, rfl, hc⟩ | ⟨t, rfl, h1, h2⟩ | ⟨t, rfl, h1, h2⟩ | rfl
  · have h128 : c < 128 := by omega
    have h45 : ¬ c = 45 := by omega
    have h39 : ¬ c = 39 := by omega
    have hw : isAsciiWord c = true := by
      simp only [isAsciiWord, isalnum, isalpha, isdigit, Bool.or_eq_true, Bool.and_eq_true,
        decide_eq_true_eq]
      omega
    have hl : asciiLower c = c := by
      simp only [asciiLower, tolower]
      rw [if_neg (by omega)]
    have hy : yoToE [c] = [c] := by simp [yoToE]
    simp [readCp, h128, h45, h39, hw, hl, hy, cpBytes]
  · have hn : normalizeCyr2 0xD0 t = some (0xD0, t) := by
      have h3 : ¬ t = 0x81 := by omega
      have h4 : ¬ (t ≥ 0x90 ∧ t ≤ 0xAF) := by omega
      simp [normalizeCyr2, h3, h4, h1, h2]
    have hy : yoToE [0xD0, t] = [0xD0, t] := by simp [yoToE]
    have he := readCpE2_ne 0xD0 (t :: tail) (by decide)
    simp [readCp, he, readCpCyr, hn, hy, cpBytes]
  · have hn : normalizeCyr2 0xD1 t = some (0xD1, t) := by
      have h3 : ¬ t = 0x91 := by omega
      simp [normalizeCyr2, h3, h1, h2]
    have hy : yoToE [0xD1, t] = [0xD1, t] := by
      have h3 : ¬ t = 0x91 := by omega
      simp [yoToE, h3]
    have he := readCpE2_ne 0xD1 (t :: tail) (by decide)
    simp [readCp, he, readCpCyr, hn, hy, cpBytes]
  · have hn : normalizeCyr2 0xD1 0x91 = some (0xD0, 0xB5) := by decide
    have hy : yoToE [0xD1, 0x91] = [0xD0, 0xB5] := by decide
    have he := readCpE2_ne 0xD1 (0x91 :: tail) (by decide)
    simp [readCp, he, readCpCyr, hn, hy, cpBytes]

end Tokenizer

end InfSearch

namespace InfSearch

namespace Tokenizer

theorem chars_length {s : Str} {n : Nat} (h : Chars s n) : n ≤ s.length ∧ s.length ≤ 2 * n := by
  induction h with
  | nil => simp
  | one b s n _ _ _ ih => simp only [List.length_cons]; omega
  | two b b2 s n _ _ ih => simp only [List.length_cons]; omega

/-- The length test of the final pass drops nothing: the strings that the main
loop emits have 2 to 50 characters of one or two bytes. -/
theorem tokenize_eq_keepFirst_raw (s : Str) : tokenize s = keepFirst (rawTokens s) := by
  rw [tokenize_eq_keepFirst]
  congr 1
  apply List.filter_eq_self.mpr
  intro x hx
  obtain ⟨n, hn, h2, h50⟩ := rawTokens_chars s x hx
  have := chars_length hn
  simp only [lenOK, Bool.and_eq_true, decide_eq_true_eq]
  omega

/-- One iteration of the main loop at a lowercase Word character. -/
theorem tokenizeLoop_wordChar (n : Nat) (u tail : Str) (out : List Str) (tok flat : Str)
    (parts : List Str) (part : Str) (tc pc : Nat) (ha : Bool)
    (hu : isLowerWordChar u = true) (hp : Plain (u ++ tail)) (htc : tc + 1 ≤ 50) :
    tokenizeLoop (n + 1) (u ++ tail) ⟨out, tok, flat, parts, part, tc, pc, false, ha⟩
      = tokenizeLoop n tail
          ⟨out, tok ++ yoToE u, flat ++ yoToE u, parts, part ++ yoToE u, tc + 1, pc + 1,
            false, true⟩ := by
  obtain ⟨hw, hb, hd, hne⟩ := readCp_lowerWordChar u tail hu
  have h1 := isUrlStart_plain _ hp
  have h2 := isEmail_plain _ hp
  cases hs : u ++ tail with
  | nil =>
    exfalso
    cases u with
    | nil => exact hne rfl
    | cons a u => cases hs
  | cons c rest =>
    rw [hs] at hw hb hd h1 h2
    simp only [tokenizeLoop, h1, h2, Bool.false_eq_true, if_false, hw, if_true, hd]
    have htc2 : ¬ tc + 1 > 50 := by omega
    simp only [stepWord, hb, Bool.not_false, if_true, if_neg htc2]

theorem plain_flatten (p : List Str) (h : ∀ u, u ∈ p → isLowerWordChar u = true) :
    Plain p.flatten := by
  intro b hb
  obtain ⟨u, hu, hbu⟩ := List.mem_flatten.mp hb
  exact plain_lowerWordChar u (h u hu) b hbu

theorem lowerWordChar_length (u : Str) (h : isLowerWordChar u = true) : 1 ≤ u.length := by
  rcases isLowerWordChar_cases u h with ⟨c, rfl, _⟩ | ⟨t, rfl, _⟩ | ⟨t, rfl, _⟩ | rfl <;> simp

/-- The main loop over a run of lowercase Word characters, from a state with a
Word character before it. -/
theorem tokenizeLoop_run : ∀ (p : List Str) (tail : Str) (n : Nat) (out : List Str)
    (tok flat : Str) (parts : List Str) (part : Str) (tc pc : Nat),
    (∀ u, u ∈ p → isLowerWordChar u = true) → Plain tail → tc + p.length ≤ 50 →
    (p.flatten ++ tail).length ≤ n →
    ∃ n', tail.length ≤ n' ∧
      tokenizeLoop n (p.flatten ++ tail) ⟨out, tok, flat, parts, part, tc, pc, false, true⟩
        = tokenizeLoop n' tail
            ⟨out, tok ++ (p.map yoToE).flatten, flat ++ (p.map yoToE).flatten, parts,
              part ++ (p.map yoToE).flatten, tc + p.length, pc + p.length, false, true⟩ := by
  intro p
  induction p with
  | nil =>
    intro tail n out tok flat parts part tc pc _ _ _ hn
    exact ⟨n, by simpa using hn, by simp⟩
  | cons u p ih =>
    intro tail n out tok flat parts part tc pc hu hp htc hn
    have hu1 := hu u (List.mem_cons_self _ _)
    have hlen := lowerWordChar_length u hu1
    simp only [List.flatten_cons, List.append_assoc, List.length_append, List.length_cons] at hn htc ⊢
    obtain ⟨m, rfl⟩ : ∃ m, n = m + 1 := ⟨n - 1, by omega⟩
    have hpl : Plain (u ++ (p.flatten ++ tail)) :=
      plain_append.mpr ⟨plain_lowerWordChar u hu1,
        plain_append.mpr ⟨plain_flatten p (fun v hv => hu v (List.mem_cons_of_mem _ hv)), hp⟩⟩
    rw [tokenizeLoop_wordChar m u _ out tok flat parts part tc pc true hu1 hpl (by omega)]
    obtain ⟨n', hn', e⟩ := ih tail m out (tok ++ yoToE u) (flat ++ yoToE u) parts
      (part ++ yoToE u) (tc + 1) (pc + 1) (fun v hv => hu v (List.mem_cons_of_mem _ hv)) hp
      (by omega) (by simp only [List.length_append]; omega)
    refine ⟨n', hn', ?_⟩
    rw [e]
    simp only [List.map_cons, List.flatten_cons, List.append_assoc]
    have e1 : tc + 1 + p.length = tc + (p.length + 1) := by omega
    have e2 : pc + 1 + p.length = pc + (p.length + 1) := by omega
    rw [e1, e2]

/-- The main loop over a part that begins a token. -/
theorem tokenizeLoop_first (p : List Str) (tail : Str) (n : Nat)
    (hu : ∀ u, u ∈ p → isLowerWordChar u = true) (hp : Plain tail) (hne : p ≠ [])
    (htc : p.length ≤ 50) (hn : (p.flatten ++ tail).length ≤ n) :
    ∃ n', tail.length ≤ n' ∧
      tokenizeLoop n (p.flatten ++ tail) ⟨[], [], [], [], [], 0, 0, false, false⟩
        = tokenizeLoop n' tail
            ⟨[], (p.map yoToE).flatten, (p.map yoToE).flatten, [], (p.map yoToE).flatten,
              p.length, p.length, false, true⟩ := by
  cases p with
  | nil => exact (hne rfl).elim
  | cons u p =>
    have hu1 := hu u (List.mem_cons_self _ _)
    have hlen := lowerWordChar_length u hu1
    simp only [List.flatten_cons, List.append_assoc, List.length_append, List.length_cons] at hn htc ⊢
    obtain ⟨m, rfl⟩ : ∃ m, n = m + 1 := ⟨n - 1, by omega⟩
    have hpl : Plain (u ++ (p.flatten ++ tail)) :=
      plain_append.mpr ⟨plain_lowerWordChar u hu1,
        plain_append.mpr ⟨plain_flatten p (fun v hv => hu v (List.mem_cons_of_mem _ hv)), hp⟩⟩
    rw [tokenizeLoop_wordChar m u _ [] [] [] [] [] 0 0 false hu1 hpl (by omega)]
    obtain ⟨n', hn', e⟩ := tokenizeLoop_run p tail m [] ([] ++ yoToE u) ([] ++ yoToE u) []
      ([] ++ yoToE u) (0 + 1) (0 + 1) (fun v hv => hu v (List.mem_cons_of_mem _ hv)) hp
      (by omega) (by simp only [List.length_append]; omega)
    refine ⟨n', hn', ?_⟩
    rw [e]
    simp only [List.map_cons, List.flatten_cons, List.nil_append]
    have e1 : 0 + 1 + p.length = p.length + 1 := by omega
    rw [e1]

/-- The Joiner branch when the joiner is taken into the token. -/
theorem stepJoiner_accept (cp : Cp) (after : Str) (out : List Str) (tok flat : Str)
    (parts : List Str) (part : Str) (tc pc : Nat)
    (hnw : NextWord after) (hne : after ≠ []) (h2 : 2 ≤ pc) (h50 : pc ≤ 50)
    (htc : tc + 1 ≤ 50) :
    stepJoiner cp after ⟨out, tok, flat, parts, part, tc, pc, false, true⟩
      = ⟨out, tok ++ [cp.b1], flat, parts ++ [part], [], tc + 1, 0, false, true⟩ := by
  cases after with
  | nil => exact (hne rfl).elim
  | cons a as =>
    have hpc : pc > 0 := by omega
    have htc2 : ¬ tc + 1 > 50 := by omega
    have hr : 2 ≤ pc ∧ pc ≤ 50 := ⟨h2, h50⟩
    simp [stepJoiner, hnw.1, hnw.2.1, hnw.2.2, hpc, flushPart, htc2, hr]

/-- One iteration of the main loop at a joiner between two parts. -/
theorem tokenizeLoop_joiner (n j : Nat) (tail : Str) (out : List Str) (tok flat : Str)
    (parts : List Str) (part : Str) (tc pc : Nat)
    (hj : j = 45 ∨ j = 39) (hnw : NextWord tail) (hne : tail ≠ []) (hp : Plain tail)
    (hpc : 2 ≤ pc) (h50 : pc ≤ 50) (htc : tc + 1 ≤ 50) :
    tokenizeLoop (n + 1) (j :: tail) ⟨out, tok, flat, parts, part, tc, pc, false, true⟩
      = tokenizeLoop n tail ⟨out, tok ++ [j], flat, parts ++ [part], [], tc + 1, 0, false, true⟩ := by
  have hpl : Plain (j :: tail) := by
    intro b hb
    rcases List.mem_cons.mp hb with rfl | hb
    · rcases hj with rfl | rfl <;> decide
    · exact hp b hb
  have h1 := isUrlStart_plain _ hpl
  have h2 := isEmail_plain _ hpl
  have hcp : readCp (j :: tail) = ⟨CpType.Joiner, j, 0, 1, 1⟩ := by
    rcases hj with rfl | rfl <;> simp [readCp]
  simp only [tokenizeLoop, h1, h2, Bool.false_eq_true, if_false, hcp, List.drop_one, List.tail_cons]
  rw [if_pos trivial]
  rw [stepJoiner_accept _ tail out tok flat parts part tc pc hnw hne hpc h50 htc]
  rw [if_neg (by decide)]

end Tokenizer

end InfSearch

namespace InfSearch

namespace Tokenizer

theorem isPart_iff (p : List Str) :
    isPart p = true ↔ 2 ≤ p.length ∧ p.length ≤ 50 ∧ ∀ u, u ∈ p → isLowerWordChar u = true := by
  simp only [isPart, Bool.and_eq_true, decide_eq_true_eq, List.all_eq_true, and_assoc]

theorem plain_rest (rest : List (Nat × List Str))
    (h : ∀ jp, jp ∈ rest → (jp.1 = 45 ∨ jp.1 = 39) ∧ isPart jp.2 = true) :
    Plain (rest.flatMap fun jp => jp.1 :: jp.2.flatten) := by
  intro b hb
  obtain ⟨jp, hjp, hb⟩ := List.mem_flatMap.mp hb
  obtain ⟨hj, hp⟩ := h jp hjp
  rcases List.mem_cons.mp hb with rfl | hb
  · rcases hj with hj | hj <;> (rw [hj]; decide)
  · exact plain_flatten jp.2 ((isPart_iff _).mp hp).2.2 b hb

/-- The main loop and the last `flushToken()` from the end of a part on: every
further joiner is taken into the token and closes a part, and the flush emits
the joined form, the flat form and the parts. -/
theorem tokenizeLoop_rest : ∀ (rest : List (Nat × List Str)) (n : Nat) (out : List Str)
    (tok flat : Str) (parts : List Str) (part : Str) (tc pc : Nat),
    (∀ jp, jp ∈ rest → (jp.1 = 45 ∨ jp.1 = 39) ∧ isPart jp.2 = true) →
    2 ≤ pc → pc ≤ 50 → 2 ≤ tc → tc + (rest.map fun jp => 1 + jp.2.length).sum ≤ 50 →
    (rest.flatMap fun jp => jp.1 :: jp.2.flatten).length ≤ n →
    2 ≤ flat.length → flat.length ≤ tok.length → (rest = [] → flat.length < tok.length) →
    (flushToken (tokenizeLoop n (rest.flatMap fun jp => jp.1 :: jp.2.flatten)
        ⟨out, tok, flat, parts, part, tc, pc, false, true⟩)).out
      = out ++ [tok ++ (yoToERest rest).flatMap (fun jp => jp.1 :: jp.2.flatten),
                flat ++ (yoToERest rest).flatMap (fun jp => jp.2.flatten)]
          ++ parts ++ part :: (yoToERest rest).map (fun jp => jp.2.flatten) := by
  intro rest
  induction rest with
  | nil =>
    intro n out tok flat parts part tc pc _ h2 h50 htc2 htc _ hf2 _ hlt
    have hloop : tokenizeLoop n [] ⟨out, tok, flat, parts, part, tc, pc, false, true⟩
        = ⟨out, tok, flat, parts, part, tc, pc, false, true⟩ := by
      cases n <;> simp [tokenizeLoop]
    simp only [List.map_nil, List.sum_nil, Nat.add_zero] at htc
    have hne : flat ≠ tok := fun e => by
      have := hlt rfl
      rw [e] at this
      exact Nat.lt_irrefl _ this
    simp only [List.flatMap_nil, hloop, yoToERest, List.map_nil, List.append_nil]
    rw [flushToken_out _ rfl]
    simp only
    rw [if_pos ⟨trivial, htc2, htc⟩, if_pos ⟨trivial, hne, hf2⟩, if_pos ⟨h2, h50⟩]
    simp
  | cons jp rest ih =>
    intro n out tok flat parts part tc pc hr h2 h50 htc2 htc hn hf2 hle _
    obtain ⟨j, p⟩ := jp
    obtain ⟨hj, hp⟩ := hr (j, p) (List.mem_cons_self _ _)
    obtain ⟨hp2, hp50, hpu⟩ := (isPart_iff p).mp hp
    simp only at hj hp2 hp50 hpu
    have hr' : ∀ jp, jp ∈ rest → (jp.1 = 45 ∨ jp.1 = 39) ∧ isPart jp.2 = true :=
      fun jp hjp => hr jp (List.mem_cons_of_mem _ hjp)
    have hplr := plain_rest rest hr'
    simp only [List.map_cons, List.sum_cons] at htc
    simp only [List.flatMap_cons, List.cons_append, List.length_cons] at hn ⊢
    obtain ⟨m, rfl⟩ : ∃ m, n = m + 1 := ⟨n - 1, by omega⟩
    have hplt : Plain (p.flatten ++ rest.flatMap fun jp => jp.1 :: jp.2.flatten) :=
      plain_append.mpr ⟨plain_flatten p hpu, hplr⟩
    have hnw : NextWord (p.flatten ++ rest.flatMap fun jp => jp.1 :: jp.2.flatten) ∧
        (p.flatten ++ rest.flatMap fun jp => jp.1 :: jp.2.flatten) ≠ [] := by
      cases p with
      | nil => simp at hp2
      | cons u p' =>
        have hu1 := hpu u (List.mem_cons_self _ _)
        obtain ⟨hw, _, _, hne⟩ := readCp_lowerWordChar u
          (p'.flatten ++ rest.flatMap fun jp => jp.1 :: jp.2.flatten) hu1
        simp only [List.flatten_cons, List.append_assoc] at hplt ⊢
        refine ⟨⟨isUrlStart_plain _ hplt, isEmail_plain _ hplt, hw⟩, ?_⟩
        intro e
        exact hne (List.append_eq_nil.mp e).1
    rw [tokenizeLoop_joiner m j _ out tok flat parts part tc pc hj hnw.1 hnw.2 hplt h2 h50
      (by omega)]
    obtain ⟨n', hn', e⟩ := tokenizeLoop_run p (rest.flatMap fun jp => jp.1 :: jp.2.flatten) m out
      (tok ++ [j]) flat (parts ++ [part]) [] (tc + 1) 0 hpu hplr (by omega) (by omega)
    rw [e, ih n' out _ _ _ _ _ _ hr' (by omega) (by omega) (by omega) (by omega) hn'
      (by simp only [List.length_append]; omega)
      (by simp only [List.length_append, List.length_cons, List.length_nil]; omega)
      (fun _ => by simp only [List.length_append, List.length_cons, List.length_nil]; omega)]
    simp [yoToERest]

end Tokenizer

end InfSearch

namespace InfSearch

namespace Tokenizer

theorem yoToE_length (u : Str) : (yoToE u).length = u.length := by
  unfold yoToE
  split_ifs with h
  · rw [h]; rfl
  · rfl

theorem yoToE_flatten_length (p : List Str) (h : ∀ u, u ∈ p → isLowerWordChar u = true) :
    p.length ≤ ((p.map yoToE).flatten).length := by
  induction p with
  | nil => simp
  | cons u p ih =>
    have h1 := lowerWordChar_length u (h u (List.mem_cons_self _ _))
    have h2 := ih (fun v hv => h v (List.mem_cons_of_mem _ hv))
    simp only [List.map_cons, List.flatten_cons, List.length_append, List.length_cons,
      yoToE_length]
    omega

theorem yoToE_map_id (p : List Str) (h : ∀ u, u ∈ p → u ≠ [0xD1, 0x91]) : p.map yoToE = p := by
  induction p with
  | nil => rfl
  | cons u p ih =>
    have h1 : yoToE u = u := by
      unfold yoToE
      rw [if_neg (h u (List.mem_cons_self _ _))]
    rw [List.map_cons, h1, ih (fun v hv => h v (List.mem_cons_of_mem _ hv))]

theorem yoToERest_id (rest : List (Nat × List Str))
    (h : ∀ jp, jp ∈ rest → ∀ u, u ∈ jp.2 → u ≠ [0xD1, 0x91]) : yoToERest rest = rest := by
  induction rest with
  | nil => rfl
  | cons jp rest ih =>
    have h1 := yoToE_map_id jp.2 (h jp (List.mem_cons_self _ _))
    have h2 := ih (fun jq hjq => h jq (List.mem_cons_of_mem _ hjq))
    unfold yoToERest at h2 ⊢
    rw [List.map_cons, h1, h2]

/-- The strings that the main loop emits for a compound: the joined form, the
flat form and the parts, with `ё` written as `е`. -/
theorem rawTokens_compound (p1 : List Str) (rest : List (Nat × List Str))
    (h : isCompound p1 rest = true) :
    rawTokens (compoundBytes p1 rest) = compoundForms (p1.map yoToE) (yoToERest rest) := by
  simp only [isCompound, Bool.and_eq_true, Bool.not_eq_true', List.all_eq_true, Bool.or_eq_true,
    decide_eq_true_eq, compoundChars] at h
  obtain ⟨⟨⟨hne, hp1⟩, hr⟩, hc⟩ := h
  obtain ⟨h2, h50, hu⟩ := (isPart_iff p1).mp hp1
  have hne' : rest ≠ [] := by
    intro e
    rw [e] at hne
    cases hne
  have hp1ne : p1 ≠ [] := by
    intro e
    rw [e] at h2
    simp at h2
  unfold rawTokens compoundBytes
  obtain ⟨n', hn', e⟩ := tokenizeLoop_first p1 (rest.flatMap fun jp => jp.1 :: jp.2.flatten)
    (p1.flatten ++ rest.flatMap fun jp => jp.1 :: jp.2.flatten).length hu (plain_rest rest hr)
    hp1ne h50 (le_refl _)
  have hfl := yoToE_flatten_length p1 hu
  rw [e, tokenizeLoop_rest rest n' [] _ _ [] _ _ _ hr h2 h50 h2 hc hn' (by omega) (le_refl _)
    (fun e => (hne' e).elim)]
  simp [compoundForms, compoundBytes, flatBytes]

end Tokenizer

/-- Claim C20, as stated, fails: `чёрно-белый` is a compound of two parts of
lowercase Word characters, and the result holds `черно-белый`, `чернобелый`,
`черно`, `белый`, not the joined form, flat form and first part of the
input. -/
theorem C20_yo_compound_counterexample :
    Tokenizer.isCompound (chars "чёрно") [(45, chars "белый")] = true ∧
    Tokenizer.compoundBytes (chars "чёрно") [(45, chars "белый")] = bytes "чёрно-белый" ∧
    Tokenizer.compoundForms (chars "чёрно") [(45, chars "белый")]
      = [bytes "чёрно-белый", bytes "чёрнобелый", bytes "чёрно", bytes "белый"] ∧
    Tokenizer.tokenize (bytes "чёрно-белый")
      = [bytes "черно-белый", bytes "чернобелый", bytes "черно", bytes "белый"] ∧
    Tokenizer.tokenize (Tokenizer.compoundBytes (chars "чёрно") [(45, chars "белый")])
      ≠ Tokenizer.keepFirst (Tokenizer.compoundForms (chars "чёрно") [(45, chars "белый")]) := by
  decide

/-- Claim C20, amended: for every compound `p1 j1 p2 ... pn` (at least two
parts of 2 to 50 lowercase Word characters, single joiners `-` or `'`, at most
50 characters in all), `tokenize` returns the joined form, the flat form and
the parts `p1`, ..., `pn`, each with `ё` written as `е`, in this order and with
later duplicates removed; for a compound without `ё` these are the forms of
the input itself. -/
theorem C20_compound_emission (p1 : List Str) (rest : List (Nat × List Str))
    (h : Tokenizer.isCompound p1 rest = true) :
    Tokenizer.tokenize (Tokenizer.compoundBytes p1 rest)
      = Tokenizer.keepFirst
          (Tokenizer.compoundForms (p1.map Tokenizer.yoToE) (Tokenizer.yoToERest rest)) ∧
    ((∀ u, u ∈ p1 → u ≠ [0xD1, 0x91]) → (∀ jp, jp ∈ rest → ∀ u, u ∈ jp.2 → u ≠ [0xD1, 0x91]) →
      Tokenizer.tokenize (Tokenizer.compoundBytes p1 rest)
        = Tokenizer.keepFirst (Tokenizer.compoundForms p1 rest)) := by
  have key : Tokenizer.tokenize (Tokenizer.compoundBytes p1 rest)
      = Tokenizer.keepFirst
          (Tokenizer.compoundForms (p1.map Tokenizer.yoToE) (Tokenizer.yoToERest rest)) := by
    rw [Tokenizer.tokenize_eq_keepFirst_raw, Tokenizer.rawTokens_compound p1 rest h]
  refine ⟨key, fun h1 h2 => ?_⟩
  rw [key, Tokenizer.yoToE_map_id p1 h1, Tokenizer.yoToERest_id rest h2]

/-- The compound `санкт-петербург` gives `санкт-петербург`, `санктпетербург`,
`санкт`, `петербург`. -/
theorem C20_compound_emission_witness :
    Tokenizer.isCompound (chars "санкт") [(45, chars "петербург")] = true ∧
    Tokenizer.tokenize (bytes "санкт-петербург")
      = [bytes "санкт-петербург", bytes "санктпетербург", bytes "санкт", bytes "петербург"] := by
  have h := (C20_compound_emission (chars "санкт") [(45, chars "петербург")] (by decide)).2
    (by decide) (by decide)
  have e1 : Tokenizer.compoundBytes (chars "санкт") [(45, chars "петербург")]
      = bytes "санкт-петербург" := by decide
  have e2 : Tokenizer.keepFirst
      (Tokenizer.compoundForms (chars "санкт") [(45, chars "петербург")])
      = [bytes "санкт-петербург", bytes "санктпетербург", bytes "санкт", bytes "петербург"] := by
    decide
  rw [e1, e2] at h
  exact ⟨by decide, h⟩

end InfSearch

namespace InfSearch

namespace Stemmer

/-! ### Tokens that the stemmer returns unchanged -/

theorem hasCyrillic_false (token : Str) (h : ∀ c, c ∈ token → c ≠ 0xD0 ∧ c ≠ 0xD1) :
    hasCyrillic token = false := by
  unfold hasCyrillic
  rw [List.any_eq_false]
  intro c hc
  have := h c hc
  simp only [Bool.or_eq_true, beq_iff_eq, not_or]
  exact this

theorem stemRu_noCyrillic (token : Str) (h : ∀ c, c ∈ token → c ≠ 0xD0 ∧ c ≠ 0xD1) :
    stemRu token = token := by
  simp [stemRu, hasCyrillic_false token h]

theorem stemParts_noCyrillic (token : Str) : ∀ (out part : Str),
    (∀ c, c ∈ token → c ≠ 0xD0 ∧ c ≠ 0xD1) → (∀ c, c ∈ part → c ≠ 0xD0 ∧ c ≠ 0xD1) →
    stemParts token out part = out ++ part ++ token := by
  induction token with
  | nil =>
    intro out part _ hp
    simp only [stemParts, List.append_nil]
    split_ifs with hne
    · rw [stemRu_noCyrillic part hp]
    · have : part = [] := by simpa using hne
      rw [this, List.append_nil]
  | cons c token ih =>
    intro out part ht hp
    have ht' : ∀ c, c ∈ token → c ≠ 0xD0 ∧ c ≠ 0xD1 :=
      fun d hd => ht d (List.mem_cons_of_mem _ hd)
    simp only [stemParts]
    split_ifs with hj hne
    · rw [ih _ _ ht' (fun d hd => by cases hd), stemRu_noCyrillic part hp]
      simp
    · have : part = [] := by simpa using hne
      rw [ih _ _ ht' (fun d hd => by cases hd), this]
      simp
    · rw [ih _ _ ht' (by
        intro d hd
        rcases List.mem_append.mp hd with hd | hd
        · exact hp d hd
        · rw [List.mem_singleton.mp hd]; exact ht c (List.mem_cons_self _ _))]
      simp

/-- A token without a byte `D0` or `D1` is its own stem, with joiners or
without. -/
theorem stem_noCyrillic (token : Str) (h : ∀ c, c ∈ token → c ≠ 0xD0 ∧ c ≠ 0xD1) :
    stem token = token := by
  unfold stem stemHyphenAposAware
  split_ifs
  · exact stemRu_noCyrillic token h
  · rw [stemParts_noCyrillic token [] [] h (fun d hd => by cases hd)]
    simp

theorem findRVLoop_none (w : List Nat) (h : ∀ u, u ∈ w → isVowel u = false) :
    ∀ i, findRVLoop w i = none := by
  induction w with
  | nil => intro i; rfl
  | cons ch w ih =>
    intro i
    simp only [findRVLoop, h ch (List.mem_cons_self _ _), Bool.false_eq_true, if_false]
    exact ih (fun u hu => h u (List.mem_cons_of_mem _ hu)) _

theorem stemRu_noVowel (token : Str) (h : ∀ u, u ∈ toU16 token → isVowel u = false) :
    stemRu token = token := by
  have hrv : findRV (toU16 token) = (toU16 token).length := by
    simp [findRV, findRVLoop_none _ h 0]
  simp only [stemRu]
  split_ifs with h1 h2 h3
  · rfl
  · rfl
  · rfl
  · exact absurd (le_of_eq hrv.symm) h3

theorem stem_noJoiner (token : Str) (h : ∀ c, c ∈ token → c ≠ 45 ∧ c ≠ 39) :
    stem token = stemRu token := by
  unfold stem stemHyphenAposAware
  rw [if_pos]
  rw [Bool.not_eq_true', List.any_eq_false]
  intro c hc
  have := h c hc
  simp only [Bool.or_eq_true, beq_iff_eq, not_or]
  exact this

end Stemmer

/-- Claim C22: a token without a byte `D0` or `D1`, with joiners or without,
is its own stem. -/
theorem C22_stem_noCyrillic_unchanged (token : Str)
    (h : ∀ c, c ∈ token → c ≠ 0xD0 ∧ c ≠ 0xD1) : Stemmer.stem token = token :=
  Stemmer.stem_noCyrillic token h

/-- Claim C22 at the tokens of the test: `2025`, `rbc.ru`, `covid19`, and at
`rock'n'roll`, which has joiners. -/
theorem C22_stem_noCyrillic_unchanged_witness :
    Stemmer.stem (bytes "2025") = bytes "2025" ∧
    Stemmer.stem (bytes "rbc.ru") = bytes "rbc.ru" ∧
    Stemmer.stem (bytes "covid19") = bytes "covid19" ∧
    Stemmer.stem (bytes "rock-n-roll") = bytes "rock-n-roll" :=
  ⟨C22_stem_noCyrillic_unchanged _ (by decide), C22_stem_noCyrillic_unchanged _ (by decide),
    C22_stem_noCyrillic_unchanged _ (by decide), C22_stem_noCyrillic_unchanged _ (by decide)⟩

/-- Claim C23: the stem of the empty token is empty, and a token without a
joiner whose UTF-16 view (`toU16`) has none of the vowels а е и о у ы э ю я is
its own stem. -/
theorem C23_stem_degenerate (token : Str) (hj : ∀ c, c ∈ token → c ≠ 45 ∧ c ≠ 39)
    (hv : ∀ u, u ∈ Stemmer.toU16 token → Stemmer.isVowel u = false) :
    Stemmer.stem [] = [] ∧ Stemmer.stem token = token := by
  refine ⟨by decide, ?_⟩
  rw [Stemmer.stem_noJoiner token hj]
  exact Stemmer.stemRu_noVowel token hv

/-- Claim C23 at `смс` and `п`, Cyrillic tokens without a vowel. -/
theorem C23_stem_degenerate_witness :
    Stemmer.stem (bytes "смс") = bytes "смс" ∧ Stemmer.stem (bytes "п") = bytes "п" :=
  ⟨(C23_stem_degenerate (bytes "смс") (by decide) (by decide)).2,
    (C23_stem_degenerate (bytes "п") (by decide) (by decide)).2⟩

/-- Claim C25: the forms машина, машины, машиной, машину, машине have the stem
`машин`, and the forms документ, документы, документа, документом the stem
`документ`. -/
theorem C25_same_stem_groups :
    (∀ x, x ∈ [bytes "машина", bytes "машины", bytes "машиной", bytes "машину", bytes "машине"] →
      Stemmer.stem x = bytes "машин") ∧
    (∀ x, x ∈ [bytes "документ", bytes "документы", bytes "документа", bytes "документом"] →
      Stemmer.stem x = bytes "документ") ∧
    bytes "машин" ≠ [] ∧ bytes "документ" ≠ [] := by
  decide

/-- Claim C26, the code at the three forms: `возможность` and `возможности`
have the stem `возможност`, but `возможностью` has the stem `возможн`: the
verb ending `ю` is removed first, which leaves `возможность`, and then `ость`
in R2. -/
theorem C26_vozmozhnost_stems_differ :
    Stemmer.stem (bytes "возможность") = bytes "возможност" ∧
    Stemmer.stem (bytes "возможности") = bytes "возможност" ∧
    Stemmer.stem (bytes "возможностью") = bytes "возможн" ∧
    Stemmer.stem (bytes "возможностью") ≠ Stemmer.stem (bytes "возможность") := by
  decide

/-- Claim C27, the code at the words of the tests: every one of them is
returned unchanged, as is every token without a Cyrillic byte. -/
theorem C27_ascii_words_unchanged :
    (∀ x, x ∈ [bytes "caresses", bytes "ponies", bytes "ties", bytes "cats", bytes "agreed",
        bytes "disabled", bytes "matting", bytes "mating", bytes "meetings", bytes "running"] →
      Stemmer.stem x = x) ∧
    Stemmer.stem (bytes "caresses") ≠ bytes "caress" ∧
    Stemmer.stem (bytes "running") ≠ bytes "run" ∧
    Stemmer.stem (bytes "running") ≠ bytes "runn" ∧
    ∀ token : Str, (∀ c, c ∈ token → c < 0x80) → Stemmer.stem token = token := by
  refine ⟨by decide, by decide, by decide, by decide, fun token h => ?_⟩
  refine Stemmer.stem_noCyrillic token (fun c hc => ?_)
  have := h c hc
  omega

end InfSearch

namespace InfSearch

namespace Stemmer

/-! ### Step 4 of the Russian procedure -/

theorem stepTail_eq (w : List Nat) (rv r2 : Nat) :
    stepTail w rv r2 =
      softSignStep
        (match removeAnySuffixInRegion (beforeSuper w rv r2) rv SUPER with
          | some w3 => dropDoubleN w3
          | none => beforeSuper w rv r2) rv := rfl

end Stemmer

/-- Claim C30, as stated, fails: in `аьейш` the superlative suffix `ейш` is
removed, which leaves `аь`, and the code then removes the trailing `ь` as
well, so the stem is `а`; in `анннейш` it drops the final letter of `нн` twice,
so the stem is `ан`.  With the `ь`/`нн` step as an alternative the stems would
be `аь` and `анн`. -/
theorem C30_soft_sign_after_superlative_counterexample :
    Stemmer.removeAnySuffixInRegion (u16 "аьейш") 1 Stemmer.SUPER = some (u16 "аь") ∧
    Stemmer.stem (bytes "аьейш") = bytes "а" ∧
    Stemmer.stemRuSpec (bytes "аьейш") = bytes "аь" ∧
    Stemmer.stem (bytes "анннейш") = bytes "ан" ∧
    Stemmer.stemRuSpec (bytes "анннейш") = bytes "анн" ∧
    Stemmer.stemRu (bytes "аьейш") ≠ Stemmer.stemRuSpec (bytes "аьейш") := by
  decide

/-- Claim C30, amended: in Step 4 the step "remove a trailing `ь` in RV, else
drop the final letter of `нн`" always runs, after the superlative step.  When
no superlative suffix is removed the code does what the specification says;
when one is removed, the code applies the `ь`/`нн` step to the word that the
superlative step (with its own reduction of `нн`) leaves. -/
theorem C30_soft_sign_step_always_runs (w : List Nat) (rv r2 : Nat) :
    (Stemmer.removeAnySuffixInRegion (Stemmer.beforeSuper w rv r2) rv Stemmer.SUPER = none →
      Stemmer.stepTail w rv r2 = Stemmer.softSignStep (Stemmer.beforeSuper w rv r2) rv ∧
      Stemmer.stepTail w rv r2
        = Stemmer.superOrSoftSignSpec (Stemmer.beforeSuper w rv r2) rv) ∧
    (∀ w3, Stemmer.removeAnySuffixInRegion (Stemmer.beforeSuper w rv r2) rv Stemmer.SUPER
        = some w3 →
      Stemmer.superOrSoftSignSpec (Stemmer.beforeSuper w rv r2) rv = Stemmer.dropDoubleN w3 ∧
      Stemmer.stepTail w rv r2 = Stemmer.softSignStep (Stemmer.dropDoubleN w3) rv) ∧
    Stemmer.stepTail w rv r2
      = Stemmer.softSignStep
          (match Stemmer.removeAnySuffixInRegion (Stemmer.beforeSuper w rv r2) rv
              Stemmer.SUPER with
            | some w3 => Stemmer.dropDoubleN w3
            | none => Stemmer.beforeSuper w rv r2) rv := by
  refine ⟨fun h => ?_, fun w3 h => ?_, Stemmer.stepTail_eq w rv r2⟩
  · rw [Stemmer.stepTail_eq, h]
    simp only [Stemmer.superOrSoftSignSpec, h]
    exact ⟨trivial, trivial⟩
  · rw [Stemmer.stepTail_eq, h]
    simp only [Stemmer.superOrSoftSignSpec, h]
    exact ⟨trivial, trivial⟩

namespace Stemmer

/-! ### The stem of a word is a prefix of the word -/

theorem removeSuffixInRegion_pfx (w : List Nat) (region : Nat) (suf w' : List Nat)
    (h : removeSuffixInRegion w region suf = some w') : w' <+: w := by
  unfold removeSuffixInRegion at h
  split_ifs at h
  rw [← Option.some.inj h]
  exact List.take_prefix _ _

theorem removeAnySuffixInRegion_pfx (w : List Nat) (region : Nat) (sufs : List (List Nat))
    (w' : List Nat) (h : removeAnySuffixInRegion w region sufs = some w') : w' <+: w := by
  induction sufs with
  | nil => cases h
  | cons suf sufs ih =>
    simp only [removeAnySuffixInRegion] at h
    cases h1 : removeSuffixInRegion w region suf with
    | some w1 =>
      rw [h1] at h
      rw [← Option.some.inj h]
      exact removeSuffixInRegion_pfx w region suf w1 h1
    | none =>
      rw [h1] at h
      exact ih h

theorem removeIfPrecededByAY_pfx (w : List Nat) (region : Nat) (suf w' : List Nat)
    (h : removeIfPrecededByAY w region suf = some w') : w' <+: w := by
  simp only [removeIfPrecededByAY] at h
  split_ifs at h
  rw [← Option.some.inj h]
  exact List.take_prefix _ _

theorem removeAnyIfPrecededByAY_pfx (w : List Nat) (region : Nat) (sufs : List (List Nat))
    (w' : List Nat) (h : removeAnyIfPrecededByAY w region sufs = some w') : w' <+: w := by
  induction sufs with
  | nil => cases h
  | cons suf sufs ih =>
    simp only [removeAnyIfPrecededByAY] at h
    cases h1 : removeIfPrecededByAY w region suf with
    | some w1 =>
      rw [h1] at h
      rw [← Option.some.inj h]
      exact removeIfPrecededByAY_pfx w region suf w1 h1
    | none =>
      rw [h1] at h
      exact ih h

theorem getD_pfx (w : List Nat) (o : Option (List Nat))
    (h : ∀ w', o = some w' → w' <+: w) : o.getD w <+: w := by
  cases o with
  | none => exact List.prefix_refl _
  | some w' => exact h w' rfl

theorem stepGerund_pfx (w : List Nat) (rv : Nat) (w' : List Nat)
    (h : stepGerund w rv = some w') : w' <+: w := by
  unfold stepGerund at h
  cases h1 : removeAnySuffixInRegion w rv PG1 with
  | some w1 =>
    rw [h1] at h
    rw [← Option.some.inj h]
    exact removeAnySuffixInRegion_pfx _ _ _ _ h1
  | none =>
    rw [h1] at h
    exact removeAnyIfPrecededByAY_pfx _ _ _ _ h

theorem stepAdjVerbNoun_pfx (w : List Nat) (rv : Nat) : stepAdjVerbNoun w rv <+: w := by
  unfold stepAdjVerbNoun
  cases h1 : removeAnySuffixInRegion w rv ADJ with
  | some w1 =>
    have p1 := removeAnySuffixInRegion_pfx _ _ _ _ h1
    simp only
    cases h2 : removeAnySuffixInRegion w1 rv PART2 with
    | some w2 => exact (removeAnySuffixInRegion_pfx _ _ _ _ h2).trans p1
    | none =>
      exact (getD_pfx w1 _ (fun w' => removeAnyIfPrecededByAY_pfx _ _ _ w')).trans p1
  | none =>
    simp only
    cases h2 : removeAnySuffixInRegion w rv VERB2 with
    | some w1 => exact removeAnySuffixInRegion_pfx _ _ _ _ h2
    | none =>
      simp only
      cases h3 : removeAnyIfPrecededByAY w rv VERB1 with
      | some w1 => exact removeAnyIfPrecededByAY_pfx _ _ _ _ h3
      | none => exact getD_pfx w _ (fun w' => removeAnySuffixInRegion_pfx _ _ _ w')

theorem stepMain_pfx (w : List Nat) (rv : Nat) : stepMain w rv <+: w := by
  unfold stepMain
  cases h1 : stepGerund w rv with
  | some w1 => exact stepGerund_pfx _ _ _ h1
  | none =>
    exact (stepAdjVerbNoun_pfx _ rv).trans
      (getD_pfx w _ (fun w' => removeAnySuffixInRegion_pfx _ _ _ w'))

theorem dropDoubleN_pfx (w : List Nat) : dropDoubleN w <+: w := by
  unfold dropDoubleN
  split_ifs
  · exact List.take_prefix _ _
  · exact List.prefix_refl _

theorem softSignStep_pfx (w : List Nat) (rv : Nat) : softSignStep w rv <+: w := by
  unfold softSignStep
  cases h : removeSuffixInRegion w rv (u16 "ь") with
  | some w4 => exact removeSuffixInRegion_pfx _ _ _ _ h
  | none => exact dropDoubleN_pfx w

theorem beforeSuper_pfx (w : List Nat) (rv r2 : Nat) : beforeSuper w rv r2 <+: w := by
  unfold beforeSuper
  exact (getD_pfx _ _ (fun w' => removeSuffixInRegion_pfx _ _ _ w')).trans
    (getD_pfx _ _ (fun w' => removeSuffixInRegion_pfx _ _ _ w'))

theorem stepTail_pfx (w : List Nat) (rv r2 : Nat) : stepTail w rv r2 <+: w := by
  rw [stepTail_eq]
  refine (softSignStep_pfx _ rv).trans ?_
  cases h : removeAnySuffixInRegion (beforeSuper w rv r2) rv SUPER with
  | some w3 =>
    exact ((dropDoubleN_pfx w3).trans (removeAnySuffixInRegion_pfx _ _ _ _ h)).trans
      (beforeSuper_pfx w rv r2)
  | none => exact beforeSuper_pfx w rv r2

/-- The Russian procedure returns the token or the encoding of a prefix of
its UTF-16 view. -/
theorem stemRu_pfx_u16 (token : Str) :
    stemRu token = token ∨ ∃ w', w' <+: toU16 token ∧ stemRu token = fromU16 w' := by
  simp only [stemRu]
  split_ifs
  · exact Or.inl rfl
  · exact Or.inl rfl
  · exact Or.inl rfl
  · exact Or.inr ⟨_, (stepTail_pfx _ _ _).trans (stepMain_pfx _ _), rfl⟩

theorem fromU16_append (a b : List Nat) : fromU16 (a ++ b) = fromU16 a ++ fromU16 b := by
  induction a with
  | nil => rfl
  | cons cp a ih =>
    simp only [List.cons_append, fromU16]
    split_ifs <;> simp [ih]

theorem fromU16_pfx {a b : List Nat} (h : a <+: b) : fromU16 a <+: fromU16 b := by
  obtain ⟨t, rfl⟩ := h
  rw [fromU16_append]
  exact List.prefix_append _ _

/-- For a token that is the encoding of its UTF-16 view the stem is a prefix of
the token. -/
theorem stemRu_pfx (token : Str) (hc : fromU16 (toU16 token) = token) :
    stemRu token <+: token := by
  rcases stemRu_pfx_u16 token with h | ⟨w', hw, h⟩
  · rw [h]
  · rw [h]
    have := fromU16_pfx hw
    rw [hc] at this
    exact this

end Stemmer

end InfSearch

namespace InfSearch

namespace Stemmer

/-! ### Encoding and decoding -/

theorem toU16_cons_ascii (c : Nat) (s : Str) (h : c < 0x80) : toU16 (c :: s) = c :: toU16 s := by
  cases s with
  | nil => simp [toU16, h]
  | cons c2 rest => simp [toU16, h]

theorem toU16_lt (s : Str) : ∀ u, u ∈ toU16 s → u < 2048 := by
  induction s using toU16.induct with
  | case1 => intro u hu; simp [toU16] at hu
  | case2 c h =>
    intro u hu
    simp only [toU16, h, if_true, List.mem_singleton] at hu
    omega
  | case3 c h =>
    intro u hu
    simp [toU16, h] at hu
  | case4 c c2 rest h ih =>
    intro u hu
    simp only [toU16, h, if_true] at hu
    rcases List.mem_cons.mp hu with hu | hu
    · omega
    · exact ih u hu
  | case5 c c2 rest h hd ih =>
    intro u hu
    simp only [toU16, h, if_false, hd, if_true] at hu
    rcases List.mem_cons.mp hu with hu | hu
    · rw [hu]
      have h1 : (c &&& 0x1F) <<< 6 < 2 ^ 11 := by
        have : c &&& 0x1F ≤ 0x1F := Nat.and_le_right
        rw [Nat.shiftLeft_eq]
        omega
      have h2 : c2 &&& 0x3F < 2 ^ 11 := by
        have : c2 &&& 0x3F ≤ 0x3F := Nat.and_le_right
        omega
      have := Nat.or_lt_two_pow h1 h2
      omega
    · exact ih u hu
  | case6 c c2 rest h hd ih =>
    intro u hu
    simp only [toU16, h, if_false, hd] at hu
    exact ih u hu

set_option maxRecDepth 20000 in
theorem encode_decode_pair : ∀ hi, hi < 32 → ∀ lo, lo < 64 → 0x80 ≤ hi * 64 + lo →
    ¬ ((0xC0 ||| ((hi * 64 + lo) >>> 6)) % 256 < 0x80) ∧
    ((0xC0 ||| ((hi * 64 + lo) >>> 6)) % 256) &&& 0xE0 = 0xC0 ∧
    ((0x80 ||| ((hi * 64 + lo) &&& 0x3F)) % 256) &&& 0xC0 = 0x80 ∧
    (((((0xC0 ||| ((hi * 64 + lo) >>> 6)) % 256) &&& 0x1F) <<< 6) |||
      (((0x80 ||| ((hi * 64 + lo) &&& 0x3F)) % 256) &&& 0x3F)) % 65536 = hi * 64 + lo := by
  decide

/-- Decoding the encoding of code units below U+0800 gives them back. -/
theorem toU16_fromU16 (w : List Nat) (h : ∀ u, u ∈ w → u < 2048) : toU16 (fromU16 w) = w := by
  induction w with
  | nil => rfl
  | cons cp w ih =>
    have ih' := ih (fun u hu => h u (List.mem_cons_of_mem _ hu))
    have hcp := h cp (List.mem_cons_self _ _)
    simp only [fromU16]
    split_ifs with h1
    · rw [toU16_cons_ascii cp _ h1, ih']
    · have e : cp = cp / 64 * 64 + cp % 64 := by omega
      obtain ⟨a, b, c, d⟩ := encode_decode_pair (cp / 64) (by omega) (cp % 64) (by omega)
        (by omega)
      rw [← e] at a b c d
      simp only [toU16, a, if_false, b, c, and_self, if_true, d, ih']

/-! ### A second application of the stemmer -/

theorem stem_stem_pfx (x : Str) (hj : ∀ c, c ∈ x → c ≠ 45 ∧ c ≠ 39)
    (hc : fromU16 (toU16 x) = x) : stem (stem x) <+: stem x := by
  rw [stem_noJoiner x hj]
  rcases stemRu_pfx_u16 x with h | ⟨w', hw, h⟩
  · rw [h, stem_noJoiner x hj, h]
  · have hpre : stemRu x <+: x := stemRu_pfx x hc
    have hj' : ∀ c, c ∈ stemRu x → c ≠ 45 ∧ c ≠ 39 := fun c hc' => hj c (hpre.subset hc')
    have hc' : fromU16 (toU16 (stemRu x)) = stemRu x := by
      rw [h, toU16_fromU16 w' (fun u hu => toU16_lt x u (hw.subset hu))]
    rw [stem_noJoiner _ hj']
    exact stemRu_pfx _ hc'

end Stemmer

end InfSearch

namespace InfSearch

namespace Stemmer

/-! ### Tokens with joiners -/

theorem stemParts_part (p : Str) (hp : ∀ c, c ∈ p → c ≠ 45 ∧ c ≠ 39) :
    ∀ (tail out part : Str), stemParts (p ++ tail) out part = stemParts tail out (part ++ p) := by
  induction p with
  | nil => intro tail out part; simp
  | cons c p ih =>
    intro tail out part
    have hc := hp c (List.mem_cons_self _ _)
    have hj : ¬ (c = 45 ∨ c = 39) := by
      rintro (h | h)
      · exact hc.1 h
      · exact hc.2 h
    simp only [List.cons_append, stemParts, if_neg hj, List.append_eq]
    rw [ih (fun d hd => hp d (List.mem_cons_of_mem _ hd))]
    simp

theorem stemPart_eq (out part : Str) :
    (if part ≠ [] then out ++ stemRu part else out) = out ++ stemPart part := by
  unfold stemPart
  by_cases h : part = []
  · simp [h]
  · simp [h]

/-- The loop of `stemHyphenAposAware` stems the parts between the joiners and
puts the joiners back between them. -/
theorem stemParts_rest (rest : List (Nat × Str))
    (hr : ∀ jp, jp ∈ rest → (jp.1 = 45 ∨ jp.1 = 39) ∧ ∀ c, c ∈ jp.2 → c ≠ 45 ∧ c ≠ 39) :
    ∀ (out part : Str),
      stemParts (rest.flatMap fun jp => jp.1 :: jp.2) out part
        = out ++ stemPart part ++ rest.flatMap fun jp => jp.1 :: stemPart jp.2 := by
  induction rest with
  | nil =>
    intro out part
    simp only [List.flatMap_nil, stemParts, List.append_nil]
    exact stemPart_eq out part
  | cons jp rest ih =>
    intro out part
    obtain ⟨hj, hp⟩ := hr jp (List.mem_cons_self _ _)
    have ih' := ih (fun jq hjq => hr jq (List.mem_cons_of_mem _ hjq))
    have e : ((jp :: rest).flatMap fun jp => jp.1 :: jp.2)
        = jp.1 :: (jp.2 ++ rest.flatMap fun jp => jp.1 :: jp.2) := rfl
    have step : ∀ X : Str, stemParts (jp.1 :: X) out part
        = stemParts X ((if part ≠ [] then out ++ stemRu part else out) ++ [jp.1]) [] := by
      intro X
      simp only [stemParts, if_pos hj]
    rw [e, step, stemParts_part jp.2 hp, ih', stemPart_eq]
    simp

theorem stem_joinParts (p0 : Str) (rest : List (Nat × Str)) (hne : rest ≠ [])
    (h0 : ∀ c, c ∈ p0 → c ≠ 45 ∧ c ≠ 39)
    (hr : ∀ jp, jp ∈ rest → (jp.1 = 45 ∨ jp.1 = 39) ∧ ∀ c, c ∈ jp.2 → c ≠ 45 ∧ c ≠ 39) :
    stem (joinParts id p0 rest) = joinParts stemPart p0 rest := by
  have hany : (joinParts id p0 rest).any (fun c => c == 45 || c == 39) = true := by
    cases rest with
    | nil => exact (hne rfl).elim
    | cons jp rest =>
      rw [List.any_eq_true]
      refine ⟨jp.1, ?_, ?_⟩
      · simp [joinParts]
      · rcases (hr jp (List.mem_cons_self _ _)).1 with h | h <;> simp [h]
  unfold stem stemHyphenAposAware
  rw [hany]
  simp only [Bool.not_true, Bool.false_eq_true, if_false]
  unfold joinParts
  simp only [id]
  rw [stemParts_part p0 h0, stemParts_rest rest hr]
  simp

theorem filter_joiner_free (p : Str) (h : ∀ c, c ∈ p → c ≠ 45 ∧ c ≠ 39) :
    p.filter isJoinerByte = [] := by
  rw [List.filter_eq_nil_iff]
  intro c hc
  have := h c hc
  simp only [isJoinerByte, Bool.or_eq_true, beq_iff_eq, not_or]
  exact this

/-- The joiners of a token whose parts have no joiner. -/
theorem filter_joinParts (s : Str → Str) (p0 : Str) (rest : List (Nat × Str))
    (h0 : ∀ c, c ∈ s p0 → c ≠ 45 ∧ c ≠ 39)
    (hr : ∀ jp, jp ∈ rest → (jp.1 = 45 ∨ jp.1 = 39) ∧ ∀ c, c ∈ s jp.2 → c ≠ 45 ∧ c ≠ 39) :
    (joinParts s p0 rest).filter isJoinerByte = rest.map Prod.fst := by
  unfold joinParts
  rw [List.filter_append, filter_joiner_free _ h0, List.nil_append]
  induction rest with
  | nil => rfl
  | cons jp rest ih =>
    obtain ⟨hj, hp⟩ := hr jp (List.mem_cons_self _ _)
    have hjb : isJoinerByte jp.1 = true := by
      rcases hj with h | h <;> simp [isJoinerByte, h]
    simp only [List.flatMap_cons, List.cons_append, List.map_cons]
    rw [List.filter_cons_of_pos hjb, List.filter_append, filter_joiner_free _ hp,
      List.nil_append, ih (fun jq hjq => hr jq (List.mem_cons_of_mem _ hjq))]

theorem stemPart_pfx (p : Str) (hc : fromU16 (toU16 p) = p) : stemPart p <+: p := by
  unfold stemPart
  split_ifs with h
  · rw [h]
  · exact stemRu_pfx p hc

theorem stemPart_eq_stem (p : Str) (h : ∀ c, c ∈ p → c ≠ 45 ∧ c ≠ 39) : stemPart p = stem p := by
  rw [stem_noJoiner p h]
  unfold stemPart
  split_ifs with he
  · rw [he]; decide
  · rfl

end Stemmer

end InfSearch

namespace InfSearch

theorem opNotLoop_nil (u : List Int) : ∀ n, u.length ≤ n → opNotLoop n u [] = u := by
  induction u with
  | nil => intro n _; cases n <;> rfl
  | cons x u ih =>
    intro n hn
    obtain ⟨m, rfl⟩ : ∃ m, n = m + 1 := ⟨n - 1, by simp only [List.length_cons] at hn; omega⟩
    simp only [opNotLoop]
    rw [ih m (by simp only [List.length_cons] at hn; omega)]

theorem opNot_nil (u : List Int) : opNot u [] = u :=
  opNotLoop_nil u _ (by simp)

namespace BooleanSearch

/-! ### Arity underflow in the evaluator -/

/-- The TERM tokens `x`, `W` with an AND between every two neighbours. -/
theorem insertImplicitAnd_chain (W : List Tok) : ∀ (x : Tok), x.type = TokType.TERM →
    (∀ tk, tk ∈ W → tk.type = TokType.TERM) →
    insertImplicitAnd (x :: W) = x :: W.flatMap fun t => [⟨TokType.AND, []⟩, t] := by
  induction W with
  | nil => intro x _ _; rfl
  | cons y W ih =>
    intro x hx hW
    have hy := hW y (List.mem_cons_self _ _)
    have hn : needsAnd x y = true := by simp [needsAnd, hx, hy]
    simp only [insertImplicitAnd, hn, if_true]
    rw [ih y hy (fun tk h => hW tk (List.mem_cons_of_mem _ h))]
    rfl

theorem insertImplicitAnd_chain_and (W : List Tok) : ∀ (x : Tok), x.type = TokType.TERM →
    (∀ tk, tk ∈ W → tk.type = TokType.TERM) →
    insertImplicitAnd (x :: W ++ [⟨TokType.AND, []⟩])
      = (x :: W.flatMap fun t => [⟨TokType.AND, []⟩, t]) ++ [⟨TokType.AND, []⟩] := by
  induction W with
  | nil =>
    intro x hx _
    have hn : needsAnd x ⟨TokType.AND, []⟩ = false := by simp [needsAnd, hx]
    simp [insertImplicitAnd, hn]
  | cons y W ih =>
    intro x hx hW
    have hy := hW y (List.mem_cons_self _ _)
    have hn : needsAnd x y = true := by simp [needsAnd, hx, hy]
    simp only [List.cons_append, insertImplicitAnd, hn, if_true, List.append_eq]
    have := ih y hy (fun tk h => hW tk (List.mem_cons_of_mem _ h))
    simp only [List.cons_append] at this
    rw [this]
    rfl

/-- A chain of TERM tokens joined by AND is a phrase of the AND level. -/
theorem parses_chain (W : List Tok) : ∀ (s : List Tok) (e : Expr), Parses Lvl.A s e →
    (∀ tk, tk ∈ W → tk.type = TokType.TERM) →
    ∃ e', Parses Lvl.A (s ++ W.flatMap fun t => [⟨TokType.AND, []⟩, t]) e' := by
  induction W with
  | nil => intro s e h _; exact ⟨e, by simpa using h⟩
  | cons y W ih =>
    intro s e h hW
    have hy := hW y (List.mem_cons_self _ _)
    have h1 := Parses.and ⟨TokType.AND, []⟩ rfl h (Parses.ofP (Parses.term y hy))
    obtain ⟨e', he'⟩ := ih _ _ h1 (fun tk h => hW tk (List.mem_cons_of_mem _ h))
    refine ⟨e', ?_⟩
    simpa using he'

/-- A phrase of the AND level followed by a dangling AND evaluates to the
empty list. -/
theorem evalRpn_trailing_and (idx : BooleanIndex) (s : List Tok) (e : Expr)
    (h : Parses Lvl.A s e) : evalRpn idx (toRpn (s ++ [⟨TokType.AND, []⟩])) = [] := by
  obtain ⟨X, Y, h1, h2, h3⟩ := toRpn_phrase idx h [] [] trivial
  have hpop := popOps_spec ⟨TokType.AND, []⟩ (by decide) Y [] X
    (fun y hy => ⟨(h2 y hy).1, (h2 y hy).2⟩) trivial
  simp only [List.nil_append, List.append_nil] at h1 hpop
  have hstep : toRpnStep (X, Y) ⟨TokType.AND, []⟩ = (X ++ Y, [⟨TokType.AND, []⟩]) := by
    simp [toRpnStep, isOp, hpop]
  simp only [toRpn, List.foldl_append, h1, List.foldl_cons, List.foldl_nil, hstep]
  simp only [evalRpn, List.foldl_append, h3 [], List.foldl_cons, List.foldl_nil]
  simp [evalStep]

/-- A dangling OR before a phrase of the AND level: the query evaluates to the
empty list. -/
theorem evalRpn_leading_or (idx : BooleanIndex) (s : List Tok) (e : Expr)
    (h : Parses Lvl.A s e) : evalRpn idx (toRpn (⟨TokType.OR, []⟩ :: s)) = [] := by
  have hadm : Admits (ctxBound Lvl.A) [⟨TokType.OR, []⟩] := by
    intro _
    exact ⟨by decide, trivial⟩
  obtain ⟨X, Y, h1, h2, h3⟩ := toRpn_phrase idx h [] [⟨TokType.OR, []⟩] hadm
  have hstep : toRpnStep ([], []) ⟨TokType.OR, []⟩ = ([], [⟨TokType.OR, []⟩]) := by
    simp [toRpnStep, isOp, popOps]
  simp only [List.nil_append] at h1
  simp only [toRpn, List.foldl_cons, hstep, h1]
  rw [← List.append_assoc]
  simp only [evalRpn, List.foldl_append, h3 [], List.foldl_cons, List.foldl_nil]
  simp [evalStep]

theorem lexRaw_word_and (t : Str) (h : ∀ c, c ∈ t → c ≠ 40 ∧ c ≠ 41 ∧ isspace c = false) :
    lexRaw (t ++ bytes " AND") [] [] = lexFlush [] t ++ [⟨TokType.AND, []⟩] := by
  have hsp : bytes " AND" = 32 :: ([65, 78, 68] ++ []) := by decide
  have hw : ∀ c, c ∈ [65, 78, 68] → c ≠ 40 ∧ c ≠ 41 ∧ isspace c = false := by decide
  have hfl : lexFlush [] [65, 78, 68] = [⟨TokType.AND, []⟩] := by decide
  rw [hsp, lexRaw_word t h, List.nil_append, lexRaw_space, lexRaw_word _ hw, List.nil_append,
    lexRaw_nil, lexFlush_append, hfl]

theorem lexRaw_or_word (t : Str) (h : ∀ c, c ∈ t → c ≠ 40 ∧ c ≠ 41 ∧ isspace c = false) :
    lexRaw (bytes "OR " ++ t) [] [] = ⟨TokType.OR, []⟩ :: lexFlush [] t := by
  have hsp : bytes "OR " ++ t = [79, 82] ++ 32 :: (t ++ []) := by
    have : bytes "OR " = [79, 82, 32] := by decide
    rw [this]; simp
  have hw : ∀ c, c ∈ [79, 82] → c ≠ 40 ∧ c ≠ 41 ∧ isspace c = false := by decide
  have hfl : lexFlush [] [79, 82] = [⟨TokType.OR, []⟩] := by decide
  rw [hsp, lexRaw_word _ hw, List.nil_append, lexRaw_space, lexRaw_word t h, List.nil_append,
    lexRaw_nil, lexFlush_append, hfl]
  rfl

end BooleanSearch

/-- Claim C29: `evalRpn` is a total function that returns the top of the final
stack, or `[]` when the stack is empty; an AND or OR met with fewer than two
operands pushes `[]` onto the stack as it is, and a NOT met with the empty
stack pushes the universe.  Hence, for every word `t` that the lexer reads as
terms, the queries `t AND` and `OR t` return `[]`. -/
theorem C29_arity_underflow (idx : BooleanIndex) :
    (∀ rpn, BooleanSearch.evalRpn idx rpn
      = (rpn.foldl (BooleanSearch.evalStep idx) []).headD []) ∧
    (∀ st tk, tk.type = BooleanSearch.TokType.AND → st.length < 2 →
      BooleanSearch.evalStep idx st tk = [] :: st) ∧
    (∀ st tk, tk.type = BooleanSearch.TokType.OR → st.length < 2 →
      BooleanSearch.evalStep idx st tk = [] :: st) ∧
    (∀ tk, tk.type = BooleanSearch.TokType.NOT →
      BooleanSearch.evalStep idx [] tk = [idx.allDocs]) ∧
    BooleanSearch.evalRpn idx [] = [] ∧
    ∀ t, BooleanSearch.IsQueryTerm t →
      BooleanSearch.search idx (t ++ bytes " AND") = [] ∧
      BooleanSearch.search idx (bytes "OR " ++ t) = [] := by
  refine ⟨fun rpn => ?_, fun st tk h hl => ?_, fun st tk h hl => ?_, fun tk h => ?_, rfl, ?_⟩
  · unfold BooleanSearch.evalRpn
    cases rpn.foldl (BooleanSearch.evalStep idx) [] <;> rfl
  · match st, hl with
    | [], _ => simp [BooleanSearch.evalStep, h]
    | [a], _ => simp [BooleanSearch.evalStep, h]
  · match st, hl with
    | [], _ => simp [BooleanSearch.evalStep, h]
    | [a], _ => simp [BooleanSearch.evalStep, h]
  · simp [BooleanSearch.evalStep, h, opNot_nil]
  · rintro t ⟨hw, hne, hterm⟩
    cases hW : BooleanSearch.lexFlush [] t with
    | nil => exact (hne hW).elim
    | cons x W =>
      rw [hW] at hterm
      have hx := hterm x (List.mem_cons_self _ _)
      have hWt : ∀ tk, tk ∈ W → tk.type = BooleanSearch.TokType.TERM :=
        fun tk h => hterm tk (List.mem_cons_of_mem _ h)
      obtain ⟨e, he⟩ := BooleanSearch.parses_chain W [x] _
        (BooleanSearch.Parses.ofN (BooleanSearch.Parses.ofP (BooleanSearch.Parses.term x hx))) hWt
      simp only [List.singleton_append] at he
      constructor
      · unfold BooleanSearch.search BooleanSearch.lex
        rw [BooleanSearch.lexRaw_word_and t hw, BooleanSearch.lexNorm_eq, hW,
          BooleanSearch.insertImplicitAnd_chain_and W x hx hWt]
        exact BooleanSearch.evalRpn_trailing_and idx _ e he
      · unfold BooleanSearch.search BooleanSearch.lex
        rw [BooleanSearch.lexRaw_or_word t hw, BooleanSearch.lexNorm_eq, hW]
        have hn : BooleanSearch.needsAnd ⟨BooleanSearch.TokType.OR, []⟩ x = false := by
          simp [BooleanSearch.needsAnd]
        have e2 : BooleanSearch.insertImplicitAnd (⟨BooleanSearch.TokType.OR, []⟩ :: x :: W)
            = ⟨BooleanSearch.TokType.OR, []⟩ :: BooleanSearch.insertImplicitAnd (x :: W) := by
          simp [BooleanSearch.insertImplicitAnd, hn]
        rw [e2, BooleanSearch.insertImplicitAnd_chain W x hx hWt]
        exact BooleanSearch.evalRpn_leading_or idx _ e he

/-- Claim C29 at the word `нефть` on the index of the test corpus, where
`нефть` alone returns the documents 0 and 2. -/
theorem C29_arity_underflow_witness :
    BooleanSearch.IsQueryTerm (bytes "нефть") ∧
    ∃ idx, BooleanIndex.build smallCorpus = some idx ∧
      BooleanSearch.search idx (bytes "нефть") = [0, 2] ∧
      BooleanSearch.search idx (bytes "нефть" ++ bytes " AND") = [] ∧
      BooleanSearch.search idx (bytes "OR " ++ bytes "нефть") = [] := by
  have ht : BooleanSearch.IsQueryTerm (bytes "нефть") := ⟨by decide, by decide, by decide⟩
  have h : (BooleanIndex.build smallCorpus).map (fun idx =>
      BooleanSearch.search idx (bytes "нефть")) = some [0, 2] := by decide!
  obtain ⟨idx, e, _⟩ := build_good smallCorpus
  rw [e] at h
  simp only [Option.map_some', Option.some.injEq] at h
  exact ⟨ht, idx, e, h, ((C29_arity_underflow idx).2.2.2.2.2 _ ht).1,
    ((C29_arity_underflow idx).2.2.2.2.2 _ ht).2⟩

end InfSearch

namespace InfSearch

/-! ### Unicode joiners -/

/-- The shapes of the UTF-8 encoding of a character, and of the character with
its Unicode joiner replaced. -/
theorem utf8Char_cases (c : Char) :
    (∃ b, b < 0x80 ∧ utf8Char c = [b] ∧ asciiJoiner c = c) ∨
    (∃ l t, 0xC2 ≤ l ∧ l ≤ 0xDF ∧ (0x80 ≤ t ∧ t < 0xC0) ∧ utf8Char c = [l, t] ∧
      asciiJoiner c = c) ∨
    (∃ l t1 t2, 0xE0 ≤ l ∧ l ≤ 0xEF ∧ (0x80 ≤ t1 ∧ t1 < 0xC0) ∧ (0x80 ≤ t2 ∧ t2 < 0xC0) ∧
      utf8Char c = [l, t1, t2] ∧
      ¬ (l = 0xE2 ∧ t1 = 0x80 ∧ (t2 = 0x93 ∨ t2 = 0x94 ∨ t2 = 0x99)) ∧ asciiJoiner c = c) ∨
    (∃ l t1 t2 t3, 0xF0 ≤ l ∧ (0x80 ≤ t1 ∧ t1 < 0xC0) ∧ (0x80 ≤ t2 ∧ t2 < 0xC0) ∧
      (0x80 ≤ t3 ∧ t3 < 0xC0) ∧ utf8Char c = [l, t1, t2, t3] ∧ asciiJoiner c = c) ∨
    (∃ x j, (((x = 0x93 ∨ x = 0x94) ∧ j = 45) ∨ (x = 0x99 ∧ j = 39)) ∧
      utf8Char c = [0xE2, 0x80, x] ∧ utf8Char (asciiJoiner c) = [j]) := by
  by_cases h1 : c.toNat = 0x2013
  · right; right; right; right
    refine ⟨0x93, 45, Or.inl ⟨Or.inl rfl, rfl⟩, ?_, ?_⟩
    · simp [utf8Char, h1]
    · simp only [asciiJoiner, h1, true_or, if_true]; decide
  by_cases h2 : c.toNat = 0x2014
  · right; right; right; right
    refine ⟨0x94, 45, Or.inl ⟨Or.inr rfl, rfl⟩, ?_, ?_⟩
    · simp [utf8Char, h2]
    · simp only [asciiJoiner, h2, or_true, if_true]; decide
  by_cases h3 : c.toNat = 0x2019
  · right; right; right; right
    refine ⟨0x99, 39, Or.inr ⟨rfl, rfl⟩, ?_, ?_⟩
    · simp [utf8Char, h3]
    · have e : asciiJoiner c = Char.ofNat 39 := by
        simp [asciiJoiner, h3]
      rw [e]; decide
  have hid : asciiJoiner c = c := by
    simp [asciiJoiner, h1, h2, h3]
  by_cases ha : c.toNat < 0x80
  · exact Or.inl ⟨c.toNat, ha, by simp [utf8Char, ha], hid⟩
  by_cases hb : c.toNat < 0x800
  · right; left
    refine ⟨0xC0 + c.toNat / 64, 0x80 + c.toNat % 64, by omega, by omega, by omega, ?_, hid⟩
    simp [utf8Char, ha, hb]
  by_cases hc : c.toNat < 0x10000
  · right; right; left
    refine ⟨0xE0 + c.toNat / 4096, 0x80 + c.toNat / 64 % 64, 0x80 + c.toNat % 64, by omega,
      by omega, by omega, by omega, ?_, by omega, hid⟩
    simp [utf8Char, ha, hb, hc]
  · right; right; right; left
    refine ⟨0xF0 + c.toNat / 262144, 0x80 + c.toNat / 4096 % 64, 0x80 + c.toNat / 64 % 64,
      0x80 + c.toNat % 64, by omega, by omega, by omega, by omega, ?_, hid⟩
    simp [utf8Char, ha, hb, hc]

theorem utf8_cons (c : Char) (cs : List Char) : utf8 (c :: cs) = utf8Char c ++ utf8 cs := rfl

namespace Tokenizer

theorem readCpCyr_ne (c : Nat) (rest : Str) (h1 : c ≠ 0xD0) (h2 : c ≠ 0xD1) :
    readCpCyr c rest = none := by
  unfold readCpCyr
  split
  · rw [if_neg (by rintro (h | h); exact h1 h; exact h2 h)]
  · rfl

/-- A byte from `80` on that is not `D0`, `D1` or `E2` is read as an Other
code point of one byte. -/
theorem readCp_other (b : Nat) (rest : Str) (h : 0x80 ≤ b) (h1 : b ≠ 0xD0) (h2 : b ≠ 0xD1)
    (h3 : b ≠ 0xE2) : readCp (b :: rest) = ⟨CpType.Other, 0, 0, 1, 0⟩ := by
  simp only [readCp, if_neg (show ¬ b < 128 by omega), readCpE2_ne b rest h3,
    readCpCyr_ne b rest h1 h2]

theorem isUrlStart_head (b : Nat) (rest : Str) (h1 : b ≠ 104) (h2 : b ≠ 119) :
    isUrlStart (b :: rest) = false := by
  cases h : isUrlStart (b :: rest) with
  | false => rfl
  | true =>
    have e1 : bytes "http://" = 104 :: bytes "ttp://" := by decide
    have e2 : bytes "https://" = 104 :: bytes "ttps://" := by decide
    have e3 : bytes "www." = 119 :: bytes "ww." := by decide
    simp only [isUrlStart, Bool.or_eq_true, e1, e2, e3] at h
    rcases h with (h | h) | h
    · exact (h1 (startsWith_head _ _ _ _ h)).elim
    · exact (h1 (startsWith_head _ _ _ _ h)).elim
    · exact (h2 (startsWith_head _ _ _ _ h)).elim

theorem isEmail_head (b : Nat) (rest : Str) (h : b ≠ 64) :
    isEmailStartOrInside (b :: rest) = false := by
  simp [isEmailStartOrInside, h]

end Tokenizer

end InfSearch

namespace InfSearch

namespace Tokenizer

theorem sameUpToJoiners_cont (b : Nat) (hb : 0x80 ≤ b ∧ b < 0xC0) {r r' : Str}
    (h : SameUpToJoiners r r') : SameUpToJoiners (b :: r) (b :: r') := by
  obtain ⟨pre, cs, hpre, rfl, rfl⟩ := h
  refine ⟨b :: pre, cs, ?_, rfl, rfl⟩
  intro x hx
  rcases List.mem_cons.mp hx with rfl | hx
  · exact hb
  · exact hpre x hx

theorem sameUpToJoiners_utf8 (cs : List Char) :
    SameUpToJoiners (utf8 cs) (utf8 (cs.map asciiJoiner)) :=
  ⟨[], cs, fun b hb => (by cases hb), rfl, rfl⟩

/-- The ways in which two inputs that differ in their joiners only begin. -/
theorem sameUpToJoiners_cases {s t : Str} (h : SameUpToJoiners s t) :
    (s = [] ∧ t = []) ∨
    (∃ b r r', (b < 0x80 ∨ (0x80 ≤ b ∧ b < 0xC0) ∨ 0xF0 ≤ b) ∧ s = b :: r ∧ t = b :: r' ∧
      SameUpToJoiners r r') ∨
    (∃ l t1 r r', 0xC2 ≤ l ∧ l ≤ 0xDF ∧ (0x80 ≤ t1 ∧ t1 < 0xC0) ∧ s = l :: t1 :: r ∧
      t = l :: t1 :: r' ∧ SameUpToJoiners r r') ∨
    (∃ l t1 t2 r r', 0xE0 ≤ l ∧ l ≤ 0xEF ∧ (0x80 ≤ t1 ∧ t1 < 0xC0) ∧ (0x80 ≤ t2 ∧ t2 < 0xC0) ∧
      ¬ (l = 0xE2 ∧ t1 = 0x80 ∧ (t2 = 0x93 ∨ t2 = 0x94 ∨ t2 = 0x99)) ∧
      s = l :: t1 :: t2 :: r ∧ t = l :: t1 :: t2 :: r' ∧ SameUpToJoiners r r') ∨
    (∃ x j r r', (((x = 0x93 ∨ x = 0x94) ∧ j = 45) ∨ (x = 0x99 ∧ j = 39)) ∧
      s = 0xE2 :: 0x80 :: x :: r ∧ t = j :: r' ∧ SameUpToJoiners r r') := by
  obtain ⟨pre, cs, hpre, rfl, rfl⟩ := h
  cases pre with
  | cons b pre =>
    right; left
    exact ⟨b, _, _, Or.inr (Or.inl (hpre b (List.mem_cons_self _ _))), rfl, rfl,
      ⟨pre, cs, fun x hx => hpre x (List.mem_cons_of_mem _ hx), rfl, rfl⟩⟩
  | nil =>
    cases cs with
    | nil => exact Or.inl ⟨rfl, rfl⟩
    | cons c cs =>
      have hR := sameUpToJoiners_utf8 cs
      simp only [List.nil_append, List.map_cons, utf8_cons]
      rcases utf8Char_cases c with ⟨b, hb, e, hid⟩ | ⟨l, t1, h1, h2, h3, e, hid⟩ |
          ⟨l, t1, t2, h1, h2, h3, h4, e, hn, hid⟩ | ⟨l, t1, t2, t3, h1, h2, h3, h4, e, hid⟩ |
          ⟨x, j, hxj, e, e'⟩
      · right; left
        rw [hid, e]
        exact ⟨b, _, _, Or.inl hb, rfl, rfl, hR⟩
      · right; right; left
        rw [hid, e]
        exact ⟨l, t1, _, _, h1, h2, h3, rfl, rfl, hR⟩
      · right; right; right; left
        rw [hid, e]
        exact ⟨l, t1, t2, _, _, h1, h2, h3, h4, hn, rfl, rfl, hR⟩
      · right; left
        rw [hid, e]
        exact ⟨l, _, _, Or.inr (Or.inr h1), rfl, rfl,
          sameUpToJoiners_cont t1 h2 (sameUpToJoiners_cont t2 h3 (sameUpToJoiners_cont t3 h4 hR))⟩
      · right; right; right; right
        rw [e, e']
        exact ⟨x, j, _, _, hxj, rfl, rfl, hR⟩

/-- With the same first byte and tails that differ in their joiners only. -/
theorem sameUpToJoiners_coarse {s t : Str} (h : SameUpToJoiners s t) :
    (s = [] ∧ t = []) ∨
    (∃ b r r', s = b :: r ∧ t = b :: r' ∧ SameUpToJoiners r r') ∨
    (∃ x j r r', (((x = 0x93 ∨ x = 0x94) ∧ j = 45) ∨ (x = 0x99 ∧ j = 39)) ∧
      s = 0xE2 :: 0x80 :: x :: r ∧ t = j :: r' ∧ SameUpToJoiners r r') := by
  rcases sameUpToJoiners_cases h with h | ⟨b, r, r', _, e1, e2, hR⟩ |
      ⟨l, t1, r, r', _, _, h3, e1, e2, hR⟩ | ⟨l, t1, t2, r, r', _, _, h3, h4, _, e1, e2, hR⟩ | h
  · exact Or.inl h
  · exact Or.inr (Or.inl ⟨b, r, r', e1, e2, hR⟩)
  · exact Or.inr (Or.inl ⟨l, _, _, e1, e2, sameUpToJoiners_cont t1 h3 hR⟩)
  · exact Or.inr (Or.inl ⟨l, _, _, e1, e2,
      sameUpToJoiners_cont t1 h3 (sameUpToJoiners_cont t2 h4 hR)⟩)
  · exact Or.inr (Or.inr h)

theorem startsWith_sameUpToJoiners (lit : Str) (hl : ∀ l, l ∈ lit → l < 0x80 ∧ l ≠ 45 ∧ l ≠ 39) :
    ∀ (s t : Str), SameUpToJoiners s t → startsWith s lit = startsWith t lit := by
  induction lit with
  | nil =>
    intro s t _
    cases s <;> cases t <;> rfl
  | cons l lit ih =>
    intro s t h
    have hl0 := hl l (List.mem_cons_self _ _)
    have ih' := ih (fun x hx => hl x (List.mem_cons_of_mem _ hx))
    rcases sameUpToJoiners_coarse h with ⟨rfl, rfl⟩ | ⟨b, r, r', rfl, rfl, hR⟩ |
        ⟨x, j, r, r', hxj, rfl, rfl, hR⟩
    · rfl
    · simp only [startsWith]
      rw [ih' r r' hR]
    · have h1 : (0xE2 : Nat) ≠ l := by omega
      have h2 : j ≠ l := by
        rcases hxj with ⟨_, rfl⟩ | ⟨_, rfl⟩
        · exact fun e => hl0.2.1 e.symm
        · exact fun e => hl0.2.2 e.symm
      simp only [startsWith, h1, h2, ne_eq, not_false_eq_true, if_true]

theorem isUrlStart_sameUpToJoiners {s t : Str} (h : SameUpToJoiners s t) :
    isUrlStart s = isUrlStart t := by
  unfold isUrlStart
  rw [startsWith_sameUpToJoiners _ (by decide) s t h,
    startsWith_sameUpToJoiners _ (by decide) s t h,
    startsWith_sameUpToJoiners _ (by decide) s t h]

theorem isEmail_sameUpToJoiners {s t : Str} (h : SameUpToJoiners s t) :
    isEmailStartOrInside s = isEmailStartOrInside t := by
  rcases sameUpToJoiners_coarse h with ⟨rfl, rfl⟩ | ⟨b, r, r', rfl, rfl, hR⟩ |
      ⟨x, j, r, r', hxj, rfl, rfl, hR⟩
  · rfl
  · rfl
  · have : j ≠ 64 := by
      rcases hxj with ⟨_, rfl⟩ | ⟨_, rfl⟩ <;> decide
    simp [isEmailStartOrInside, this]

theorem readCp_ascii (b : Nat) (r r' : Str) (h : b < 0x80) :
    readCp (b :: r) = readCp (b :: r') ∧ (readCp (b :: r)).bytes = 1 := by
  have h' : b < 128 := h
  simp only [readCp, h', if_true]
  split_ifs <;> simp

theorem readCp_joiner3 (x j : Nat) (r : Str)
    (hxj : ((x = 0x93 ∨ x = 0x94) ∧ j = 45) ∨ (x = 0x99 ∧ j = 39)) :
    readCp (0xE2 :: 0x80 :: x :: r) = ⟨CpType.Joiner, j, 0, 3, 1⟩ := by
  rcases hxj with ⟨hx | hx, rfl⟩ | ⟨hx, rfl⟩ <;> subst hx <;> simp [readCp, readCpE2]

theorem readCp_joiner1 (j : Nat) (r : Str) (hj : j = 45 ∨ j = 39) :
    readCp (j :: r) = ⟨CpType.Joiner, j, 0, 1, 1⟩ := by
  rcases hj with rfl | rfl <;> simp [readCp]

/-- What `readCp` returns at two inputs that differ in their joiners only: the
same type and bytes, and the positions after the code points differ in their
joiners only. -/
theorem readCp_sameUpToJoiners {s t : Str} (h : SameUpToJoiners s t) :
    (readCp s).type = (readCp t).type ∧ cpBytes (readCp s) = cpBytes (readCp t) ∧
    (readCp s).b1 = (readCp t).b1 ∧
    SameUpToJoiners (s.drop (readCp s).bytes) (t.drop (readCp t).bytes) := by
  rcases sameUpToJoiners_cases h with ⟨rfl, rfl⟩ | ⟨b, r, r', hb, rfl, rfl, hR⟩ |
      ⟨l, t1, r, r', h1, h2, h3, rfl, rfl, hR⟩ |
      ⟨l, t1, t2, r, r', h1, h2, h3, h4, hn, rfl, rfl, hR⟩ | ⟨x, j, r, r', hxj, rfl, rfl, hR⟩
  · exact ⟨rfl, rfl, rfl, h⟩
  · rcases hb with hb | hb | hb
    · obtain ⟨e, e1⟩ := readCp_ascii b r r' hb
      have e2 := (readCp_ascii b r' r hb).2
      rw [e1, e2, e]
      exact ⟨rfl, rfl, rfl, hR⟩
    · rw [readCp_other b r (by omega) (by omega) (by omega) (by omega),
        readCp_other b r' (by omega) (by omega) (by omega) (by omega)]
      exact ⟨rfl, rfl, rfl, hR⟩
    · rw [readCp_other b r (by omega) (by omega) (by omega) (by omega),
        readCp_other b r' (by omega) (by omega) (by omega) (by omega)]
      exact ⟨rfl, rfl, rfl, hR⟩
  · by_cases hd : l = 0xD0 ∨ l = 0xD1
    · have hl : ¬ l < 128 := by omega
      have he : ∀ q : Str, readCpE2 l q = none := fun q => readCpE2_ne l q (by omega)
      have e : ∀ q : Str, readCp (l :: t1 :: q)
          = match normalizeCyr2 l t1 with
            | some (n1, n2) => ⟨CpType.Word, n1, n2, 2, 1⟩
            | none => ⟨CpType.Other, 0, 0, 2, 0⟩ := by
        intro q
        simp only [readCp, if_neg hl, he, readCpCyr, if_pos hd]
        cases normalizeCyr2 l t1 with
        | none => rfl
        | some p => rfl
      rw [e r, e r']
      cases normalizeCyr2 l t1 with
      | none => exact ⟨rfl, rfl, rfl, hR⟩
      | some p => exact ⟨rfl, rfl, rfl, hR⟩
    · rw [readCp_other l _ (by omega) (fun e => hd (Or.inl e)) (fun e => hd (Or.inr e))
          (by omega),
        readCp_other l _ (by omega) (fun e => hd (Or.inl e)) (fun e => hd (Or.inr e))
          (by omega)]
      exact ⟨rfl, rfl, rfl, sameUpToJoiners_cont t1 h3 hR⟩
  · have hl : ¬ l < 128 := by omega
    have e : ∀ q : Str, readCp (l :: t1 :: t2 :: q) = ⟨CpType.Other, 0, 0, 1, 0⟩ := by
      intro q
      have he : readCpE2 l (t1 :: t2 :: q) = none := by
        simp only [readCpE2]
        split_ifs with a b c
        · exact (hn ⟨a, b.1, by rcases b.2 with h | h; exact Or.inl h; exact Or.inr (Or.inl h)⟩).elim
        · exact (hn ⟨a, c.1, Or.inr (Or.inr c.2)⟩).elim
        · rfl
        · rfl
      simp only [readCp, if_neg hl, he, readCpCyr_ne l _ (show l ≠ 0xD0 by omega)
        (show l ≠ 0xD1 by omega)]
    rw [e r, e r']
    exact ⟨rfl, rfl, rfl, sameUpToJoiners_cont t1 h3 (sameUpToJoiners_cont t2 h4 hR)⟩
  · have hj : j = 45 ∨ j = 39 := by
      rcases hxj with ⟨_, rfl⟩ | ⟨_, rfl⟩
      · exact Or.inl rfl
      · exact Or.inr rfl
    rw [readCp_joiner3 x j r hxj, readCp_joiner1 j r' hj]
    exact ⟨rfl, rfl, rfl, hR⟩

theorem headEq_sameUpToJoiners {s t : Str} (h : SameUpToJoiners s t) : HeadEq s t := by
  obtain ⟨h1, h2, h3, _⟩ := readCp_sameUpToJoiners h
  refine ⟨?_, isUrlStart_sameUpToJoiners h, isEmail_sameUpToJoiners h, h1, h2, h3⟩
  rcases sameUpToJoiners_coarse h with ⟨rfl, rfl⟩ | ⟨b, r, r', rfl, rfl, _⟩ |
      ⟨x, j, r, r', _, rfl, rfl, _⟩ <;> simp

end Tokenizer

end InfSearch

namespace InfSearch

namespace Tokenizer

theorem skipUntilWhitespace_sameUpToJoiners (n : Nat) : ∀ (s t : Str), s.length ≤ n →
    SameUpToJoiners s t → SameUpToJoiners (skipUntilWhitespace s) (skipUntilWhitespace t) := by
  induction n with
  | zero =>
    intro s t hn h
    have hs : s = [] := List.length_eq_zero.mp (by omega)
    subst hs
    rcases sameUpToJoiners_coarse h with ⟨_, rfl⟩ | ⟨b, r, r', e, _, _⟩ | ⟨x, j, r, r', _, e, _, _⟩
    · exact h
    · cases e
    · cases e
  | succ n ih =>
    intro s t hn h
    rcases sameUpToJoiners_coarse h with ⟨rfl, rfl⟩ | ⟨b, r, r', rfl, rfl, hR⟩ |
        ⟨x, j, r, r', hxj, rfl, rfl, hR⟩
    · exact h
    · simp only [skipUntilWhitespace]
      split_ifs
      · exact h
      · exact ih r r' (by simp only [List.length_cons] at hn; omega) hR
    · have h1 : isspace 0xE2 = false := by decide
      have h2 : isspace 0x80 = false := by decide
      have h3 : isspace x = false := by
        rcases hxj with ⟨hx | hx, _⟩ | ⟨hx, _⟩ <;> (rw [hx]; decide)
      have h4 : isspace j = false := by
        rcases hxj with ⟨_, hj⟩ | ⟨_, hj⟩ <;> (rw [hj]; decide)
      simp only [skipUntilWhitespace, h1, h2, h3, h4, Bool.false_eq_true, if_false]
      exact ih r r' (by simp only [List.length_cons] at hn; omega) hR

theorem stepJoiner_congr (cp cp' : Cp) (after after' : Str) (st : TState)
    (hb : cp.b1 = cp'.b1) (hH : HeadEq after after') :
    stepJoiner cp after st = stepJoiner cp' after' st := by
  obtain ⟨hnil, hu, he, hty, _, _⟩ := hH
  cases after with
  | nil =>
    have : after' = [] := hnil.mp rfl
    subst this
    simp only [stepJoiner, hb]
  | cons a as =>
    cases after' with
    | nil => exact absurd (hnil.mpr rfl) (by simp)
    | cons a' as' => simp only [stepJoiner, hu, he, hty, hb]

theorem stepWord_congr (cp cp' : Cp) (st : TState) (h : cpBytes cp = cpBytes cp') :
    stepWord cp st = stepWord cp' st := by
  simp only [stepWord, h]

/-- One iteration of the main loop changes the variables in the same way at
two inputs that differ in their joiners only, and leads to positions that
differ in their joiners only. -/
theorem next_sameUpToJoiners {s t : Str} (h : SameUpToJoiners s t) (st : TState) :
    nextState s st = nextState t st ∧ SameUpToJoiners (nextPos s) (nextPos t) := by
  obtain ⟨_, hu, he, hty, hcb, hb1⟩ := headEq_sameUpToJoiners h
  obtain ⟨_, _, _, hdrop⟩ := readCp_sameUpToJoiners h
  constructor
  · simp only [nextState, hu, he, hty]
    split_ifs
    · rfl
    · exact stepWord_congr _ _ st hcb
    · exact stepJoiner_congr _ _ _ _ st hb1 (headEq_sameUpToJoiners hdrop)
    · rfl
  · simp only [nextPos, hu, he]
    split_ifs
    · exact skipUntilWhitespace_sameUpToJoiners s.length s t (le_refl _) h
    · exact hdrop

theorem tokenizeLoop_succ (n c : Nat) (rest : Str) (st : TState) :
    tokenizeLoop (n + 1) (c :: rest) st
      = tokenizeLoop n (nextPos (c :: rest)) (nextState (c :: rest) st) := by
  simp only [tokenizeLoop, nextPos, nextState, Bool.or_eq_true]
  by_cases h1 : isUrlStart (c :: rest) = true
  · simp [h1]
  · by_cases h2 : isEmailStartOrInside (c :: rest) = true
    · simp [h1, h2]
    · by_cases h3 : (readCp (c :: rest)).type = CpType.Word
      · simp [h1, h2, h3]
      · by_cases h4 : (readCp (c :: rest)).type = CpType.Joiner
        · simp [h1, h2, h3, h4]
        · simp [h1, h2, h3, h4]

theorem nextPos_length (c : Nat) (rest : Str) : (nextPos (c :: rest)).length ≤ rest.length := by
  unfold nextPos
  split_ifs with h
  · rw [Bool.or_eq_true] at h
    rcases h with h | h
    · exact skipUntilWhitespace_lt c rest (isUrlStart_not_space c rest h)
    · exact skipUntilWhitespace_lt c rest (isEmail_not_space c rest h)
  · have := readCp_bytes_pos (c :: rest)
    rw [List.length_drop]
    simp only [List.length_cons]
    omega

/-- The main loop ends in the same variables at two inputs that differ in
their joiners only. -/
theorem tokenizeLoop_sameUpToJoiners (n : Nat) : ∀ (s t : Str) (st : TState),
    SameUpToJoiners s t → s.length ≤ n → t.length ≤ n →
    tokenizeLoop n s st = tokenizeLoop n t st := by
  induction n with
  | zero => intro s t st _ _ _; simp only [tokenizeLoop]
  | succ n ih =>
    intro s t st h hs ht
    obtain ⟨hnil, _⟩ := headEq_sameUpToJoiners h
    cases s with
    | nil =>
      have : t = [] := hnil.mp rfl
      subst this
      rfl
    | cons c rest =>
      cases t with
      | nil => exact absurd (hnil.mpr rfl) (by simp)
      | cons c' rest' =>
        obtain ⟨e, hR⟩ := next_sameUpToJoiners h st
        have l1 := nextPos_length c rest
        have l2 := nextPos_length c' rest'
        simp only [List.length_cons] at hs ht
        rw [tokenizeLoop_succ, tokenizeLoop_succ, e]
        exact ih _ _ _ hR (by omega) (by omega)

theorem tokenize_sameUpToJoiners (s t : Str) (h : SameUpToJoiners s t) :
    tokenize s = tokenize t := by
  have e1 := tokenizeLoop_fuel s.length (s.length + t.length) s
    ⟨[], [], [], [], [], 0, 0, false, false⟩ (le_refl _) (by omega)
  have e2 := tokenizeLoop_fuel t.length (s.length + t.length) t
    ⟨[], [], [], [], [], 0, 0, false, false⟩ (le_refl _) (by omega)
  have e3 := tokenizeLoop_sameUpToJoiners (s.length + t.length) s t
    ⟨[], [], [], [], [], 0, 0, false, false⟩ h (by omega) (by omega)
  simp only [tokenize]
  rw [e1, e2, e3]

end Tokenizer

/-- Claim C21: for every sequence of characters (a valid UTF-8 input),
replacing every en dash U+2013 and em dash U+2014 by `-` and every right single
quote U+2019 by the apostrophe does not change the result of `tokenize`.  The
input of the test with an em dash and an en dash yields `научно-практический`,
`научнопрактический`, `научно`, `практический`. -/
theorem C21_unicode_joiners (cs : List Char) :
    Tokenizer.tokenize (utf8 cs) = Tokenizer.tokenize (utf8 (cs.map asciiJoiner)) ∧
    utf8 ("научно—практический научно–практический".toList.map asciiJoiner)
      = bytes "научно-практический научно-практический" ∧
    Tokenizer.tokenize (bytes "научно—практический научно–практический")
      = [bytes "научно-практический", bytes "научнопрактический", bytes "научно",
         bytes "практический"] := by
  refine ⟨Tokenizer.tokenize_sameUpToJoiners _ _ (Tokenizer.sameUpToJoiners_utf8 cs), ?_, ?_⟩
  · decide
  · decide

end InfSearch

namespace InfSearch

namespace Stemmer

/-! ### The joiners of a stem -/

set_option maxRecDepth 20000 in
theorem lead_byte_bits : ∀ c, c < 256 → c &&& 0xE0 = 0xC0 →
    0xC0 ≤ c ∧ c < 0xE0 ∧ c &&& 0x1F = c - 0xC0 := by
  decide

set_option maxRecDepth 20000 in
theorem trail_byte_bits : ∀ c, c < 256 → c &&& 0xC0 = 0x80 →
    0x80 ≤ c ∧ c < 0xC0 ∧ c &&& 0x3F = c - 0x80 := by
  decide

set_option maxRecDepth 20000 in
theorem decode_pair : ∀ hi, hi < 32 → ∀ lo, lo < 64 → ((hi <<< 6) ||| lo) % 65536 = hi * 64 + lo := by
  decide

theorem noOverlongJoiner_tail (c : Nat) (rest : Str) (h : noOverlongJoiner (c :: rest) = true) :
    noOverlongJoiner rest = true := by
  simp only [noOverlongJoiner, Bool.and_eq_true] at h
  exact h.2

/-- The UTF-16 view of a part without a joiner has no joiner, unless the part
holds an overlong encoding of one. -/
theorem toU16_no_joiner (p : Str) : (∀ c, c ∈ p → c < 256) → (∀ c, c ∈ p → c ≠ 45 ∧ c ≠ 39) →
    noOverlongJoiner p = true → ∀ u, u ∈ toU16 p → u ≠ 45 ∧ u ≠ 39 := by
  induction p using toU16.induct with
  | case1 => intro _ _ _ u hu; simp [toU16] at hu
  | case2 c h =>
    intro _ hj _ u hu
    simp only [toU16, h, if_true, List.mem_singleton] at hu
    rw [hu]
    exact hj c (List.mem_cons_self _ _)
  | case3 c h =>
    intro _ _ _ u hu
    simp [toU16, h] at hu
  | case4 c c2 rest h ih =>
    intro hb hj hn u hu
    simp only [toU16, h, if_true] at hu
    rcases List.mem_cons.mp hu with hu | hu
    · rw [hu]
      exact hj c (List.mem_cons_self _ _)
    · exact ih (fun x hx => hb x (List.mem_cons_of_mem _ hx))
        (fun x hx => hj x (List.mem_cons_of_mem _ hx)) (noOverlongJoiner_tail _ _ hn) u hu
  | case5 c c2 rest h hd ih =>
    intro hb hj hn u hu
    simp only [toU16, h, if_false, hd, if_true] at hu
    rcases List.mem_cons.mp hu with hu | hu
    · have hc := hb c (List.mem_cons_self _ _)
      have hc2 := hb c2 (List.mem_cons_of_mem _ (List.mem_cons_self _ _))
      obtain ⟨a1, a3, a2⟩ := lead_byte_bits c hc hd.1
      obtain ⟨b1, b2, b3⟩ := trail_byte_bits c2 hc2 hd.2
      have hdec := decode_pair (c - 0xC0) (by omega) (c2 - 0x80) (by omega)
      rw [hu, a2, b3, hdec]
      have hno : ¬ (c = 0xC0 ∧ (c2 = 0xAD ∨ c2 = 0xA7)) := by
        intro hx
        simp only [noOverlongJoiner, Bool.and_eq_true, Bool.not_eq_true', Bool.and_eq_false_imp,
          beq_iff_eq, Bool.or_eq_false_iff, beq_eq_false_iff_ne] at hn
        have := hn.1 hx.1
        rcases hx.2 with h' | h'
        · exact this.1 h'
        · exact this.2 h'
      constructor
      · intro e
        exact hno ⟨by omega, Or.inl (by omega)⟩
      · intro e
        exact hno ⟨by omega, Or.inr (by omega)⟩
    · exact ih (fun x hx => hb x (List.mem_cons_of_mem _ (List.mem_cons_of_mem _ hx)))
        (fun x hx => hj x (List.mem_cons_of_mem _ (List.mem_cons_of_mem _ hx)))
        (noOverlongJoiner_tail _ _ (noOverlongJoiner_tail _ _ hn)) u hu
  | case6 c c2 rest h hd ih =>
    intro hb hj hn u hu
    simp only [toU16, h, if_false, hd] at hu
    exact ih (fun x hx => hb x (List.mem_cons_of_mem _ hx))
      (fun x hx => hj x (List.mem_cons_of_mem _ hx)) (noOverlongJoiner_tail _ _ hn) u hu

/-- The encoding of code units that are not joiners has no joiner byte. -/
theorem fromU16_no_joiner (w : List Nat) (h : ∀ u, u ∈ w → u < 2048 ∧ u ≠ 45 ∧ u ≠ 39) :
    ∀ b, b ∈ fromU16 w → b ≠ 45 ∧ b ≠ 39 := by
  induction w with
  | nil => intro b hb; simp [fromU16] at hb
  | cons cp w ih =>
    have ih' := ih (fun u hu => h u (List.mem_cons_of_mem _ hu))
    obtain ⟨hcp, hj⟩ := h cp (List.mem_cons_self _ _)
    intro b hb
    simp only [fromU16] at hb
    split_ifs at hb with h1
    · rcases List.mem_cons.mp hb with hb | hb
      · rw [hb]; exact hj
      · exact ih' b hb
    · have e : cp = cp / 64 * 64 + cp % 64 := by omega
      obtain ⟨a, _, c, _⟩ := encode_decode_pair (cp / 64) (by omega) (cp % 64) (by omega)
        (by omega)
      rw [← e] at a c
      rcases List.mem_cons.mp hb with hb | hb
      · rw [hb]; omega
      · rcases List.mem_cons.mp hb with hb | hb
        · rw [hb]
          constructor
          · intro e45
            rw [e45] at c
            exact absurd c (by decide)
          · intro e39
            rw [e39] at c
            exact absurd c (by decide)
        · exact ih' b hb

/-- The stem of a part without a joiner has no joiner. -/
theorem stemRu_no_joiner (p : Str) (hb : ∀ c, c ∈ p → c < 256)
    (hj : ∀ c, c ∈ p → c ≠ 45 ∧ c ≠ 39) (hn : noOverlongJoiner p = true) :
    ∀ c, c ∈ stemRu p → c ≠ 45 ∧ c ≠ 39 := by
  rcases stemRu_pfx_u16 p with h | ⟨w', hw, h⟩
  · rw [h]; exact hj
  · rw [h]
    exact fromU16_no_joiner w' (fun u hu =>
      ⟨toU16_lt p u (hw.subset hu), toU16_no_joiner p hb hj hn u (hw.subset hu)⟩)

theorem stemPart_no_joiner (p : Str) (hb : ∀ c, c ∈ p → c < 256)
    (hj : ∀ c, c ∈ p → c ≠ 45 ∧ c ≠ 39) (hn : noOverlongJoiner p = true) :
    ∀ c, c ∈ stemPart p → c ≠ 45 ∧ c ≠ 39 := by
  unfold stemPart
  split_ifs with h
  · intro c hc; cases hc
  · exact stemRu_no_joiner p hb hj hn

end Stemmer

end InfSearch

namespace InfSearch

namespace BooleanSearch

/-! ### Parentheses in the postfix form -/

theorem popOps_types (tk : Tok) : ∀ (st out : List Tok),
    (∀ t, t ∈ out → t.type = TokType.TERM ∨ isOp t.type = true) →
    (∀ t, t ∈ st → isOp t.type = true ∨ t.type = TokType.LPAREN) →
    (∀ t, t ∈ (popOps tk out st).1 → t.type = TokType.TERM ∨ isOp t.type = true) ∧
    (∀ t, t ∈ (popOps tk out st).2 → isOp t.type = true ∨ t.type = TokType.LPAREN) := by
  intro st
  induction st with
  | nil => intro out ho hs; exact ⟨ho, hs⟩
  | cons top st ih =>
    intro out ho hs
    simp only [popOps]
    split_ifs with h
    · refine ih (out ++ [top]) (fun t ht => ?_) (fun t ht => hs t (List.mem_cons_of_mem _ ht))
      rcases List.mem_append.mp ht with ht | ht
      · exact ho t ht
      · rw [List.mem_singleton.mp ht]
        exact Or.inr h.1
    · exact ⟨ho, hs⟩

theorem popToParen_types : ∀ (st out : List Tok),
    (∀ t, t ∈ out → t.type = TokType.TERM ∨ isOp t.type = true) →
    (∀ t, t ∈ st → isOp t.type = true ∨ t.type = TokType.LPAREN) →
    (∀ t, t ∈ (popToParen out st).1 → t.type = TokType.TERM ∨ isOp t.type = true) ∧
    (∀ t, t ∈ (popToParen out st).2 → isOp t.type = true ∨ t.type = TokType.LPAREN) := by
  intro st
  induction st with
  | nil => intro out ho hs; exact ⟨ho, hs⟩
  | cons top st ih =>
    intro out ho hs
    simp only [popToParen]
    split_ifs with h
    · refine ih (out ++ [top]) (fun t ht => ?_) (fun t ht => hs t (List.mem_cons_of_mem _ ht))
      rcases List.mem_append.mp ht with ht | ht
      · exact ho t ht
      · rw [List.mem_singleton.mp ht]
        rcases hs top (List.mem_cons_self _ _) with h' | h'
        · exact Or.inr h'
        · exact (h h').elim
    · exact ⟨ho, hs⟩

/-- One step of `toRpn` keeps the output free of parentheses and the stack
free of everything but operators and opening parentheses. -/
theorem toRpnStep_types (s : List Tok × List Tok) (tk : Tok)
    (ho : ∀ t, t ∈ s.1 → t.type = TokType.TERM ∨ isOp t.type = true)
    (hs : ∀ t, t ∈ s.2 → isOp t.type = true ∨ t.type = TokType.LPAREN) :
    (∀ t, t ∈ (toRpnStep s tk).1 → t.type = TokType.TERM ∨ isOp t.type = true) ∧
    (∀ t, t ∈ (toRpnStep s tk).2 → isOp t.type = true ∨ t.type = TokType.LPAREN) := by
  unfold toRpnStep
  split_ifs with h1 h2 h3 h4
  · refine ⟨fun t ht => ?_, hs⟩
    rcases List.mem_append.mp ht with ht | ht
    · exact ho t ht
    · rw [List.mem_singleton.mp ht]
      exact Or.inl h1
  · obtain ⟨a, b⟩ := popOps_types tk s.2 s.1 ho hs
    refine ⟨a, fun t ht => ?_⟩
    rcases List.mem_cons.mp ht with ht | ht
    · rw [ht]; exact Or.inl h2
    · exact b t ht
  · refine ⟨ho, fun t ht => ?_⟩
    rcases List.mem_cons.mp ht with ht | ht
    · rw [ht]; exact Or.inr h3
    · exact hs t ht
  · obtain ⟨a, b⟩ := popToParen_types s.2 s.1 ho hs
    simp only
    cases hr : (popToParen s.1 s.2).2 with
    | nil =>
      simp only
      exact ⟨a, b⟩
    | cons top st =>
      rw [hr] at b
      simp only
      split_ifs
      · exact ⟨a, fun t ht => b t (List.mem_cons_of_mem _ ht)⟩
      · exact ⟨a, by rw [hr]; exact b⟩
  · exact ⟨ho, hs⟩

theorem toRpn_fold_types (toks : List Tok) : ∀ (s : List Tok × List Tok),
    (∀ t, t ∈ s.1 → t.type = TokType.TERM ∨ isOp t.type = true) →
    (∀ t, t ∈ s.2 → isOp t.type = true ∨ t.type = TokType.LPAREN) →
    (∀ t, t ∈ (toks.foldl toRpnStep s).1 → t.type = TokType.TERM ∨ isOp t.type = true) ∧
    (∀ t, t ∈ (toks.foldl toRpnStep s).2 → isOp t.type = true ∨ t.type = TokType.LPAREN) := by
  induction toks with
  | nil => intro s ho hs; exact ⟨ho, hs⟩
  | cons tk toks ih =>
    intro s ho hs
    obtain ⟨a, b⟩ := toRpnStep_types s tk ho hs
    exact ih _ a b

theorem isOp_cases (t : TokType) (h : isOp t = true) :
    t = TokType.AND ∨ t = TokType.OR ∨ t = TokType.NOT := by
  cases t <;> simp [isOp] at h ⊢

/-- The evaluator passes over a parenthesis in the postfix form. -/
theorem evalRpn_skips_parens (idx : BooleanIndex) (rpn : List Tok) :
    evalRpn idx rpn
      = evalRpn idx (rpn.filter fun t =>
          decide (t.type ≠ TokType.LPAREN ∧ t.type ≠ TokType.RPAREN)) := by
  have key : ∀ (l : List Tok) (S : List (List Int)),
      l.foldl (evalStep idx) S
        = (l.filter fun t =>
            decide (t.type ≠ TokType.LPAREN ∧ t.type ≠ TokType.RPAREN)).foldl (evalStep idx) S := by
    intro l
    induction l with
    | nil => intro S; rfl
    | cons t l ih =>
      intro S
      by_cases hp : t.type ≠ TokType.LPAREN ∧ t.type ≠ TokType.RPAREN
      · rw [List.filter_cons_of_pos (by simpa using hp)]
        simp only [List.foldl_cons]
        exact ih _
      · rw [List.filter_cons_of_neg (by simpa using hp)]
        simp only [List.foldl_cons]
        have hs : evalStep idx S t = S := by
          have : t.type = TokType.LPAREN ∨ t.type = TokType.RPAREN := by
            by_contra hc
            exact hp ⟨fun h => hc (Or.inl h), fun h => hc (Or.inr h)⟩
          rcases this with h | h <;> simp [evalStep, h]
        rw [hs]
        exact ih _
  simp only [evalRpn, key rpn []]

end BooleanSearch

/-- Claim C31, as stated, fails: for the tokens of the query `(нефть` the
postfix form is the term followed by the opening parenthesis, which the last
loop of `toRpn` moves from the stack to the output. -/
theorem C31_unmatched_open_counterexample :
    BooleanSearch.lex (bytes "(нефть")
      = [⟨BooleanSearch.TokType.LPAREN, []⟩, ⟨BooleanSearch.TokType.TERM, bytes "нефт"⟩] ∧
    BooleanSearch.toRpn (BooleanSearch.lex (bytes "(нефть"))
      = [⟨BooleanSearch.TokType.TERM, bytes "нефт"⟩, ⟨BooleanSearch.TokType.LPAREN, []⟩] ∧
    ¬ ∀ tk, tk ∈ BooleanSearch.toRpn (BooleanSearch.lex (bytes "(нефть")) →
      tk.type ≠ BooleanSearch.TokType.LPAREN ∧ tk.type ≠ BooleanSearch.TokType.RPAREN := by
  decide

/-- Claim C31, amended: for every token sequence the postfix form of `toRpn`
holds no RPAREN; the part written during the scan holds TERM, AND, OR and NOT
tokens only, and an LPAREN of the postfix form is an unmatched opening
parenthesis that the last loop has moved from the stack to the output.  The
evaluator passes over such a token, so the result is the one of the postfix
form without it; and when the stack holds no LPAREN at the end of the scan
(all opening parentheses are matched), the postfix form holds TERM, AND, OR
and NOT tokens only. -/
theorem C31_toRpn_parentheses (idx : BooleanIndex) (toks : List BooleanSearch.Tok) :
    (∀ tk, tk ∈ BooleanSearch.toRpn toks → tk.type ≠ BooleanSearch.TokType.RPAREN) ∧
    (∀ tk, tk ∈ (toks.foldl BooleanSearch.toRpnStep ([], [])).1 →
      tk.type = BooleanSearch.TokType.TERM ∨ tk.type = BooleanSearch.TokType.AND ∨
      tk.type = BooleanSearch.TokType.OR ∨ tk.type = BooleanSearch.TokType.NOT) ∧
    (∀ tk, tk ∈ BooleanSearch.toRpn toks → tk.type = BooleanSearch.TokType.LPAREN →
      tk ∈ (toks.foldl BooleanSearch.toRpnStep ([], [])).2) ∧
    ((∀ tk, tk ∈ (toks.foldl BooleanSearch.toRpnStep ([], [])).2 →
        tk.type ≠ BooleanSearch.TokType.LPAREN) →
      ∀ tk, tk ∈ BooleanSearch.toRpn toks →
        tk.type = BooleanSearch.TokType.TERM ∨ tk.type = BooleanSearch.TokType.AND ∨
        tk.type = BooleanSearch.TokType.OR ∨ tk.type = BooleanSearch.TokType.NOT) ∧
    BooleanSearch.evalRpn idx (BooleanSearch.toRpn toks)
      = BooleanSearch.evalRpn idx ((BooleanSearch.toRpn toks).filter fun t =>
          decide (t.type ≠ BooleanSearch.TokType.LPAREN ∧
            t.type ≠ BooleanSearch.TokType.RPAREN)) := by
  obtain ⟨ho, hs⟩ := BooleanSearch.toRpn_fold_types toks ([], [])
    (fun t ht => by cases ht) (fun t ht => by cases ht)
  have hout : ∀ tk, tk ∈ (toks.foldl BooleanSearch.toRpnStep ([], [])).1 →
      tk.type = BooleanSearch.TokType.TERM ∨ tk.type = BooleanSearch.TokType.AND ∨
      tk.type = BooleanSearch.TokType.OR ∨ tk.type = BooleanSearch.TokType.NOT := by
    intro tk htk
    rcases ho tk htk with h | h
    · exact Or.inl h
    · exact Or.inr (BooleanSearch.isOp_cases _ h)
  refine ⟨fun tk htk => ?_, hout, fun tk htk hl => ?_, fun hno tk htk => ?_,
    BooleanSearch.evalRpn_skips_parens idx _⟩
  · simp only [BooleanSearch.toRpn] at htk
    rcases List.mem_append.mp htk with h | h
    · rcases ho tk h with h' | h' <;> (intro e; rw [e] at h'; simp [BooleanSearch.isOp] at h')
    · rcases hs tk h with h' | h' <;> (intro e; rw [e] at h'; simp [BooleanSearch.isOp] at h')
  · simp only [BooleanSearch.toRpn] at htk
    rcases List.mem_append.mp htk with h | h
    · rcases ho tk h with h' | h' <;> (rw [hl] at h'; simp [BooleanSearch.isOp] at h')
    · exact h
  · simp only [BooleanSearch.toRpn] at htk
    rcases List.mem_append.mp htk with h | h
    · exact hout tk h
    · rcases hs tk h with h' | h'
      · exact Or.inr (BooleanSearch.isOp_cases _ h')
      · exact (hno tk h h').elim

end InfSearch

namespace InfSearch

set_option maxRecDepth 20000 in
/-- Claim C32 on the code: for the byte 0xD0 followed by `abc` the reader
`readCp` returns an Other code point of length 2, so the letter `a` is skipped
with the stray lead byte and `tokenize` returns the single token `bc`, not
`abc`; the same holds for the lead byte 0xD1, and for each of the 192 bytes
that are no continuation byte after the lead byte.  Where another branch of
`readCp` meets a byte that starts no code point it knows (0xE2 or 0xC3 before
`abc`, 0xD0 as the last byte), the length is 1 and the token `abc` is kept. -/
theorem C32_stray_lead_byte_skips_two :
    Tokenizer.readCp [0xD0, 97, 98, 99] = ⟨Tokenizer.CpType.Other, 0, 0, 2, 0⟩ ∧
    Tokenizer.tokenize [0xD0, 97, 98, 99] = [[98, 99]] ∧
    Tokenizer.tokenize [0xD1, 97, 98, 99] = [[98, 99]] ∧
    ((List.range 256).all fun c2 =>
      decide (0x80 ≤ c2 ∧ c2 < 0xC0) ||
        decide (Tokenizer.readCp [0xD0, c2, 98, 99] = ⟨Tokenizer.CpType.Other, 0, 0, 2, 0⟩ ∧
          Tokenizer.readCp [0xD1, c2, 98, 99] = ⟨Tokenizer.CpType.Other, 0, 0, 2, 0⟩)) = true ∧
    Tokenizer.readCp [0xE2, 97, 98, 99] = ⟨Tokenizer.CpType.Other, 0, 0, 1, 0⟩ ∧
    Tokenizer.readCp [0xC3, 97, 98, 99] = ⟨Tokenizer.CpType.Other, 0, 0, 1, 0⟩ ∧
    Tokenizer.readCp [0xD0] = ⟨Tokenizer.CpType.Other, 0, 0, 1, 0⟩ ∧
    Tokenizer.tokenize [0xE2, 97, 98, 99] = [[97, 98, 99]] ∧
    Tokenizer.tokenize [0xC3, 97, 98, 99] = [[97, 98, 99]] := by
  decide

end InfSearch

namespace InfSearch

namespace HashTable

/-! ### The capacity along a run of insertions -/

theorem rehashStep_cap (t t' : HashTable) (e : Entry) (h : rehashStep t e = some t') :
    t'.cap = t.cap := by
  unfold rehashStep at h
  split_ifs at h with h1
  · cases h; rfl
  · cases hp : probeIndex t e.key with
    | none => rw [hp] at h; cases h
    | some idx => rw [hp] at h; cases h; rfl

theorem rehashLoop_cap (old : Nat → Entry) (n : Nat) :
    ∀ (i : Nat) (t t' : HashTable), rehashLoop old n i t = some t' → t'.cap = t.cap := by
  induction n with
  | zero => intro i t t' h; simp only [rehashLoop] at h; cases h; rfl
  | succ n ih =>
    intro i t t' h
    simp only [rehashLoop] at h
    cases hs : rehashStep t (old i) with
    | none => rw [hs] at h; cases h
    | some t1 =>
      rw [hs] at h
      rw [ih (i + 1) t1 t' h, rehashStep_cap t t1 (old i) hs]

/-- A call of `getOrInsert` keeps the capacity or doubles it. -/
theorem getOrInsert_cap (t t' : HashTable) (key : Str) (idx : Nat)
    (h : getOrInsert t key = some (t', idx)) : t'.cap = t.cap ∨ t'.cap = t.cap * 2 := by
  unfold getOrInsert at h
  cases h1 : (if 10 * (t.size_ + 1) > 7 * t.cap then rehash t (t.cap * 2) else some t) with
  | none => rw [h1] at h; cases h
  | some t1 =>
    rw [h1] at h
    have hc1 : t1.cap = t.cap ∨ t1.cap = t.cap * 2 := by
      split_ifs at h1 with hl
      · right
        exact rehashLoop_cap _ _ _ _ _ h1
      · cases h1; exact Or.inl rfl
    simp only at h
    cases hp : probeIndex t1 key with
    | none => rw [hp] at h; cases h
    | some j =>
      rw [hp] at h
      simp only at h
      split_ifs at h <;> cases h <;> exact hc1

/-- The table after any run of `getOrInsert` calls, each followed or not by a
`push_back` on the returned reference, is defined, satisfies the invariant and
has a capacity of at least the starting one. -/
theorem insertAll_reach (keys : List Str) :
    ∀ t : HashTable, WF t → ∃ t', insertAll keys t = some t' ∧ WF t' ∧ t.cap ≤ t'.cap := by
  induction keys with
  | nil => intro t h; exact ⟨t, rfl, h, le_rfl⟩
  | cons k keys ih =>
    intro t h
    obtain ⟨t1, idx, e, hW, _⟩ := getOrInsert_spec t h k
    obtain ⟨t', e', hW', hc⟩ := ih t1 hW
    refine ⟨t', ?_, hW', ?_⟩
    · simp only [insertAll, e]
      exact e'
    · rcases getOrInsert_cap t t1 k idx e with h1 | h1 <;> omega

theorem pushAll_reach (ops : List (Str × Int)) :
    ∀ t : HashTable, WF t → ∃ t', pushAll ops t = some t' ∧ WF t' ∧ t.cap ≤ t'.cap := by
  induction ops with
  | nil => intro t h; exact ⟨t, rfl, h, le_rfl⟩
  | cons op ops ih =>
    intro t h
    obtain ⟨t1, idx, e, hW, hidx, hent, _⟩ := getOrInsert_spec t h op.1
    obtain ⟨hW2, _⟩ := pushBack_spec t1 hW idx op.1 _ op.2 hidx hent
    obtain ⟨t', e', hW', hc⟩ := ih (pushBack t1 idx op.2) hW2
    refine ⟨t', ?_, hW', ?_⟩
    · simp only [pushAll, e]
      exact e'
    · have : (pushBack t1 idx op.2).cap = t1.cap := rfl
      rcases getOrInsert_cap t t1 op.1 idx e with h1 | h1 <;> omega

theorem newTable_cap (c : Nat) (hc : c ≤ 2 ^ 63) : 8 ≤ (HashTable.new c).cap := by
  obtain ⟨k, hk, hle⟩ := nextPow2_spec (max 8 c) (by
    rcases max_cases 8 c with ⟨h, _⟩ | ⟨h, _⟩ <;> rw [h]
    · norm_num
    · exact hc)
  have e : (HashTable.new c).cap = nextPow2 (max 8 c) := rfl
  rw [e, hk]
  exact le_trans (le_max_left 8 c) hle

/-- What the invariant and a capacity of at least 8 give: the capacity is a
power of two from 8 on, the mask is the capacity less one, `size_` counts the
filled slots, the load is at most 0.70, a slot is EMPTY, and the probe loops
of `probeIndex` and `find` end for every key. -/
theorem probes_end (t : HashTable) (hW : WF t) (h8 : 8 ≤ t.cap) :
    (∃ k, 3 ≤ k ∧ t.cap = 2 ^ k) ∧ t.mask_ = t.cap - 1 ∧
    t.size_ = filledCount t.entries_ t.cap ∧ 10 * t.size_ ≤ 7 * t.cap ∧
    (∃ i, i < t.cap ∧ (t.entries_ i).state = State.EMPTY) ∧
    ∀ key, (∃ i, probeIndex t key = some i ∧ i < t.cap) ∧ (find t key).isSome = true := by
  have hlt := size_lt_of_WF t hW
  have hroom := room_of_size_lt t hW.1 hlt
  refine ⟨?_, hW.1.shape.mask_eq, hW.1.size_eq, hW.2, hroom, fun key => ⟨?_, ?_⟩⟩
  · obtain ⟨k, _, hk⟩ := hW.1.shape.cap_pow
    refine ⟨k, ?_, hk⟩
    by_contra hk3
    have hk2 : k ≤ 2 := by omega
    have : 2 ^ k ≤ 2 ^ 2 := Nat.pow_le_pow_right (by omega) hk2
    omega
  · obtain ⟨i, hi⟩ := probeIndex_isSome t hW.1.shape key hroom
    exact ⟨i, hi, (probeIndex_lt t hW.1.shape key i hi).1⟩
  · exact find_isSome t hW.1 hlt key

end HashTable

open HashTable in
/-- Claim C33: for a requested capacity `c` up to `2 ^ 63` (above it the
constructor does not return) and every list of keys, the calls of
`getOrInsert` on a new table return, also when each is followed by a
`push_back` on the returned reference, and in the table reached the capacity
is a power of two from 8 on, `mask_` is the capacity less one, `size_` is the
number of FILLED slots, `10 * size_ ≤ 7 * cap`, at least one slot is EMPTY, and
for every key the probe loops of `probeIndex` and of `find` end: with the fuel
of one pass over the slots they return a slot below the capacity and a lookup
result. -/
theorem C33_probe_loops_end (c : Nat) (hc : c ≤ 2 ^ 63) :
    (∀ keys : List Str, ∃ t, insertAll keys (HashTable.new c) = some t ∧
      (∃ k, 3 ≤ k ∧ t.cap = 2 ^ k) ∧ t.mask_ = t.cap - 1 ∧
      t.size_ = filledCount t.entries_ t.cap ∧ 10 * t.size_ ≤ 7 * t.cap ∧
      (∃ i, i < t.cap ∧ (t.entries_ i).state = State.EMPTY) ∧
      ∀ key, (∃ i, probeIndex t key = some i ∧ i < t.cap) ∧ (find t key).isSome = true) ∧
    (∀ ops : List (Str × Int), ∃ t, pushAll ops (HashTable.new c) = some t ∧
      (∃ k, 3 ≤ k ∧ t.cap = 2 ^ k) ∧ t.mask_ = t.cap - 1 ∧
      t.size_ = filledCount t.entries_ t.cap ∧ 10 * t.size_ ≤ 7 * t.cap ∧
      (∃ i, i < t.cap ∧ (t.entries_ i).state = State.EMPTY) ∧
      ∀ key, (∃ i, probeIndex t key = some i ∧ i < t.cap) ∧ (find t key).isSome = true) := by
  have h0 := newTable_WF c hc
  have h8 := newTable_cap c hc
  constructor
  · intro keys
    obtain ⟨t, e, hW, hcap⟩ := insertAll_reach keys _ h0
    exact ⟨t, e, probes_end t hW (le_trans h8 hcap)⟩
  · intro ops
    obtain ⟨t, e, hW, hcap⟩ := pushAll_reach ops _ h0
    exact ⟨t, e, probes_end t hW (le_trans h8 hcap)⟩

open HashTable in
/-- Claim C33 at the capacity 8 and the twelve keys `k0` ... `k11`: the calls
return, the capacity has grown to 32 with 12 filled slots, and the probes for
the key `k5` of the table and for the absent key `zz` end. -/
theorem C33_probe_loops_end_witness :
    (8 : Nat) ≤ 2 ^ 63 ∧
    ∃ t, insertAll ((stressOps 12).map Prod.fst) (HashTable.new 8) = some t ∧
      t.cap = 32 ∧ t.size_ = 12 ∧
      (∃ i, probeIndex t (bytes "k5") = some i ∧ i < t.cap) ∧
      (find t (bytes "k5")).isSome = true ∧
      (∃ i, probeIndex t (bytes "zz") = some i ∧ i < t.cap) ∧
      (find t (bytes "zz")).isSome = true := by
  refine ⟨by norm_num, ?_⟩
  obtain ⟨t, e, _, _, _, _, _, hp⟩ :=
    (C33_probe_loops_end 8 (by norm_num)).1 ((stressOps 12).map Prod.fst)
  have hc : (insertAll ((stressOps 12).map Prod.fst) (HashTable.new 8)).map
      (fun t => (t.cap, t.size_)) = some (32, 12) := by decide
  rw [e] at hc
  simp only [Option.map_some', Option.some.injEq, Prod.mk.injEq] at hc
  exact ⟨t, e, hc.1, hc.2, (hp _).1, (hp _).2, (hp _).1, (hp _).2⟩

end InfSearch

namespace InfSearch

namespace BooleanSearch

/-! ### A word that is a whole query -/

theorem filterMap_eq_map_of_some {α β : Type} (f : α → Option β) (g : α → β) :
    ∀ l : List α, (∀ x, x ∈ l → f x = some (g x)) → l.filterMap f = l.map g := by
  intro l
  induction l with
  | nil => intro _; rfl
  | cons a l ih =>
    intro h
    rw [List.filterMap_cons, h a (List.mem_cons_self _ _), List.map_cons,
      ih (fun x hx => h x (List.mem_cons_of_mem _ hx))]

/-- The tokens that the lexer makes of a word other than an operator word: the
stems of the tokens of the word, none of them dropped. -/
theorem lexFlush_word (w : Str)
    (hop : upperAscii w ≠ bytes "AND" ∧ upperAscii w ≠ bytes "OR" ∧
      upperAscii w ≠ bytes "NOT") :
    lexFlush [] w = (Tokenizer.tokenize w).map fun t => ⟨TokType.TERM, Stemmer.stem t⟩ := by
  by_cases hnil : w = []
  · subst hnil
    decide
  · unfold lexFlush
    rw [if_neg hnil, if_neg (fun h => hop.1 h.2), if_neg (fun h => hop.2.1 h.2),
      if_neg (fun h => hop.2.2 h.2), List.nil_append]
    apply filterMap_eq_map_of_some
    intro x hx
    have h2 := Stemmer.stem_length x (Tokenizer.tokenize_length w x hx).1
    have hne : Stemmer.stem x ≠ [] := by
      intro h
      rw [h] at h2
      simp at h2
    simp only [hne, ne_eq, not_false_eq_true, if_true]

/-- A chain `s AND t₁ AND ... AND tₙ` of terms after a phrase `s` is read as
the conjunction nested to the left. -/
theorem parses_chain_expr (W : List Tok) : ∀ (s : List Tok) (e : Expr), Parses Lvl.A s e →
    (∀ tk, tk ∈ W → tk.type = TokType.TERM) →
    Parses Lvl.A (s ++ W.flatMap fun t => [⟨TokType.AND, []⟩, t])
      (W.foldl (fun e t => Expr.and e (Expr.term t.val)) e) := by
  induction W with
  | nil => intro s e h _; simpa using h
  | cons y W ih =>
    intro s e h hW
    have hy := hW y (List.mem_cons_self _ _)
    have h1 := Parses.and ⟨TokType.AND, []⟩ rfl h (Parses.ofP (Parses.term y hy))
    have h2 := ih _ _ h1 (fun tk h => hW tk (List.mem_cons_of_mem _ h))
    simpa using h2

/-- An id that is in the posting list of every term of a conjunction of terms
is in the result of the conjunction. -/
theorem mem_denote_chain (idx : BooleanIndex) (z : Int) (W : List Tok) :
    ∀ e : Expr, Asc (denote idx e) → z ∈ denote idx e →
      (∀ tk, tk ∈ W → Asc (idx.postings tk.val) ∧ z ∈ idx.postings tk.val) →
      z ∈ denote idx (W.foldl (fun e t => Expr.and e (Expr.term t.val)) e) := by
  induction W with
  | nil => intro e _ h _; exact h
  | cons y W ih =>
    intro e ha h hW
    obtain ⟨hya, hyz⟩ := hW y (List.mem_cons_self _ _)
    rw [List.foldl_cons]
    apply ih
    · exact opAnd_asc _ _ ha
    · exact (opAnd_mem _ _ ha hya z).mpr ⟨h, hyz⟩
    · exact fun tk h => hW tk (List.mem_cons_of_mem _ h)

end BooleanSearch

open BooleanSearch BooleanIndex in
/-- Claim C34: let `d` be a document of an index built by `addDocument` calls
and `finalize`, whose text has no white space and no parenthesis in it, is not
the word AND, OR or NOT in any letter case, and has at least one token.  Then
the index is built, the query `d.text` is lexed into the stems of the tokens
of the text joined by AND, every one of these stems is a term of the document
in the index (the filter on stems shorter than 2 bytes drops none), and
`search` on the query `d.text` returns a list with `d.id` in it. -/
theorem C34_self_retrieval (docs : List Document) (d : Document) (hd : d ∈ docs)
    (hw : ∀ c, c ∈ d.text → c ≠ 40 ∧ c ≠ 41 ∧ isspace c = false)
    (hop : upperAscii d.text ≠ bytes "AND" ∧ upperAscii d.text ≠ bytes "OR" ∧
      upperAscii d.text ≠ bytes "NOT")
    (hne : Tokenizer.tokenize d.text ≠ []) :
    ∃ idx, build docs = some idx ∧
      lex d.text = insertImplicitAnd
        ((Tokenizer.tokenize d.text).map fun t => ⟨TokType.TERM, Stemmer.stem t⟩) ∧
      (∀ t, t ∈ Tokenizer.tokenize d.text →
        Stemmer.stem t ∈ docTerms d.text ∧ d.id ∈ idx.postings (Stemmer.stem t)) ∧
      d.id ∈ search idx d.text := by
  obtain ⟨idx, e, _, _, hgood, _, hpost⟩ := build_good docs
  have hlex : lex d.text = insertImplicitAnd
      ((Tokenizer.tokenize d.text).map fun t => ⟨TokType.TERM, Stemmer.stem t⟩) := by
    have h1 := lexRaw_word d.text hw [] [] []
    rw [List.append_nil, List.nil_append, lexRaw_nil] at h1
    rw [lex, h1, lexNorm_eq, lexFlush_word d.text hop]
  have hterm : ∀ t, t ∈ Tokenizer.tokenize d.text →
      Stemmer.stem t ∈ docTerms d.text ∧ d.id ∈ idx.postings (Stemmer.stem t) := by
    intro t ht
    have h1 : Stemmer.stem t ∈ docTerms d.text :=
      (mem_docTerms d.text _).mpr ⟨t, ht, rfl,
        Stemmer.stem_length t (Tokenizer.tokenize_length d.text t ht).1⟩
    exact ⟨h1, (hpost _ _).mpr ⟨d, hd, rfl, h1⟩⟩
  refine ⟨idx, e, hlex, hterm, ?_⟩
  cases hT : Tokenizer.tokenize d.text with
  | nil => exact absurd hT hne
  | cons x xs =>
    have hall : ∀ tk : Tok, tk ∈ xs.map (fun t => (⟨TokType.TERM, Stemmer.stem t⟩ : Tok)) →
        tk.type = TokType.TERM := by
      intro tk htk
      obtain ⟨t, _, rfl⟩ := List.mem_map.mp htk
      rfl
    have hp := parses_chain_expr (xs.map fun t => (⟨TokType.TERM, Stemmer.stem t⟩ : Tok))
      [⟨TokType.TERM, Stemmer.stem x⟩] _
      (Parses.ofN (Parses.ofP (Parses.term ⟨TokType.TERM, Stemmer.stem x⟩ rfl))) hall
    rw [search, hlex, hT, List.map_cons, insertImplicitAnd_chain _ _ rfl hall,
      ← List.singleton_append, evalRpn_toRpn_of_parses idx (Parses.ofA hp)]
    apply mem_denote_chain
    · exact (hgood _).1
    · exact (hterm x (by rw [hT]; exact List.mem_cons_self _ _)).2
    · intro tk htk
      obtain ⟨t, ht, rfl⟩ := List.mem_map.mp htk
      exact ⟨(hgood _).1, (hterm t (by rw [hT]; exact List.mem_cons_of_mem _ ht)).2⟩

open BooleanSearch BooleanIndex in
/-- Claim C34 at the document 7 with the text `санкт-петербург` in an index
of two documents: the query `санкт-петербург` returns a list with 7 in it. -/
theorem C34_self_retrieval_witness :
    ∃ idx, build [⟨7, bytes "u7", bytes "санкт-петербург"⟩, ⟨8, bytes "u8", bytes "газ"⟩]
        = some idx ∧ (7 : Int) ∈ search idx (bytes "санкт-петербург") := by
  obtain ⟨idx, e, _, _, h⟩ := C34_self_retrieval
    [⟨7, bytes "u7", bytes "санкт-петербург"⟩, ⟨8, bytes "u8", bytes "газ"⟩]
    ⟨7, bytes "u7", bytes "санкт-петербург"⟩ (by simp) (by decide) (by decide) (by decide)
  exact ⟨idx, e, h⟩

end InfSearch

namespace InfSearch

namespace Stemmer

/-! ### A second application of the stemmer, and the joiners of a stem -/

/-- The stem of a token without a joiner whose UTF-16 view has no joiner code
unit has no joiner. -/
theorem stem_no_joiner_of_u16 (x : Str) (hj : ∀ c, c ∈ x → c ≠ 45 ∧ c ≠ 39)
    (hu : ∀ u, u ∈ toU16 x → u ≠ 45 ∧ u ≠ 39) : ∀ c, c ∈ stem x → c ≠ 45 ∧ c ≠ 39 := by
  rw [stem_noJoiner x hj]
  rcases stemRu_pfx_u16 x with h | ⟨w', hw, h⟩
  · rw [h]; exact hj
  · rw [h]
    exact fromU16_no_joiner w' (fun u hu' =>
      ⟨toU16_lt x u (hw.subset hu'), hu u (hw.subset hu')⟩)

/-- The stem of a stem without a joiner is a prefix of it. -/
theorem stem_stem_pfx_of_stem (x : Str) (hj : ∀ c, c ∈ x → c ≠ 45 ∧ c ≠ 39)
    (hs : ∀ c, c ∈ stem x → c ≠ 45 ∧ c ≠ 39) : stem (stem x) <+: stem x := by
  rw [stem_noJoiner _ hs]
  rw [stem_noJoiner x hj] at hs ⊢
  rcases stemRu_pfx_u16 x with h | ⟨w', hw, h⟩
  · rw [h, h]
  · have hc' : fromU16 (toU16 (stemRu x)) = stemRu x := by
      rw [h, toU16_fromU16 w' (fun u hu => toU16_lt x u (hw.subset hu))]
    exact stemRu_pfx _ hc'

theorem filter_joiner_nil_iff (p : Str) :
    p.filter isJoinerByte = [] ↔ ∀ c, c ∈ p → c ≠ 45 ∧ c ≠ 39 := by
  rw [List.filter_eq_nil_iff]
  constructor
  · intro h c hc
    have := h c hc
    simpa only [isJoinerByte, Bool.or_eq_true, beq_iff_eq, not_or] using this
  · intro h c hc
    have := h c hc
    simpa only [isJoinerByte, Bool.or_eq_true, beq_iff_eq, not_or] using this

/-- The number of joiners after the first part of `joinParts s p0 rest` is at
least the number of the pairs, and it is this number only if no `s pi` has a
joiner. -/
theorem joiners_rest (s : Str → Str) (rest : List (Nat × Str))
    (hr : ∀ jp, jp ∈ rest → jp.1 = 45 ∨ jp.1 = 39) :
    rest.length ≤ ((rest.flatMap fun jp => jp.1 :: s jp.2).filter isJoinerByte).length ∧
    (((rest.flatMap fun jp => jp.1 :: s jp.2).filter isJoinerByte).length = rest.length →
      ∀ jp, jp ∈ rest → (s jp.2).filter isJoinerByte = []) := by
  induction rest with
  | nil => exact ⟨le_rfl, fun _ jp hjp => by cases hjp⟩
  | cons jp rest ih =>
    obtain ⟨ih1, ih2⟩ := ih (fun q hq => hr q (List.mem_cons_of_mem _ hq))
    have hj : isJoinerByte jp.1 = true := by
      rcases hr jp (List.mem_cons_self _ _) with h | h <;> rw [h] <;> decide
    have e : ((jp :: rest).flatMap fun jp => jp.1 :: s jp.2).filter isJoinerByte
        = jp.1 :: ((s jp.2).filter isJoinerByte
          ++ (rest.flatMap fun jp => jp.1 :: s jp.2).filter isJoinerByte) := by
      rw [List.flatMap_cons, List.filter_append, List.filter_cons_of_pos hj, List.cons_append]
    rw [e]
    simp only [List.length_cons, List.length_append]
    refine ⟨by omega, fun hlen q hq => ?_⟩
    rcases List.mem_cons.mp hq with hq | hq
    · rw [hq]
      exact List.length_eq_zero.mp (by omega)
    · exact ih2 (by omega) q hq

/-- The joiners of `s(p0) j1 s(p1) ... jn s(pn)` are `j1, ..., jn` exactly when
no `s(pi)` has a joiner. -/
theorem filter_joinParts_iff (s : Str → Str) (p0 : Str) (rest : List (Nat × Str))
    (hr : ∀ jp, jp ∈ rest → jp.1 = 45 ∨ jp.1 = 39) :
    (joinParts s p0 rest).filter isJoinerByte = rest.map Prod.fst ↔
      (∀ c, c ∈ s p0 → c ≠ 45 ∧ c ≠ 39) ∧
        ∀ jp, jp ∈ rest → ∀ c, c ∈ s jp.2 → c ≠ 45 ∧ c ≠ 39 := by
  constructor
  · intro h
    have hlen := congrArg List.length h
    unfold joinParts at hlen
    rw [List.filter_append, List.length_append, List.length_map] at hlen
    obtain ⟨h1, h2⟩ := joiners_rest s rest hr
    refine ⟨(filter_joiner_nil_iff _).mp (List.length_eq_zero.mp (by omega)), fun jp hjp => ?_⟩
    exact (filter_joiner_nil_iff _).mp (h2 (by omega) jp hjp)
  · rintro ⟨h0, h1⟩
    exact filter_joinParts s p0 rest h0 (fun jp hjp => ⟨hr jp hjp, h1 jp hjp⟩)

end Stemmer

/-- Claim C24, as stated, fails: the stem of `красивая` is `красив` (the
adjective ending `ая` is removed), and the stem of `красив` is `крас` (the
gerund ending `ив` is removed).  And for the token `красивая` followed by the
bytes `C0 AD`, which has no joiner, the stem is `красивая-`, with a joiner that
`toU16` has decoded from the two bytes, and the stem of this stem is `красив-`,
which is not a prefix of it. -/
theorem C24_restem_counterexample :
    (∀ c, c ∈ bytes "красивая" → c ≠ 45 ∧ c ≠ 39) ∧
    Stemmer.stem (bytes "красивая") = bytes "красив" ∧
    Stemmer.stem (Stemmer.stem (bytes "красивая")) = bytes "крас" ∧
    Stemmer.stem (Stemmer.stem (bytes "красивая")) ≠ Stemmer.stem (bytes "красивая") ∧
    (∀ c, c ∈ bytes "красивая" ++ [0xC0, 0xAD] → c ≠ 45 ∧ c ≠ 39) ∧
    Stemmer.stem (bytes "красивая" ++ [0xC0, 0xAD]) = bytes "красивая-" ∧
    Stemmer.stem (Stemmer.stem (bytes "красивая" ++ [0xC0, 0xAD])) = bytes "красив-" ∧
    ¬ Stemmer.stem (Stemmer.stem (bytes "красивая" ++ [0xC0, 0xAD]))
        <+: Stemmer.stem (bytes "красивая" ++ [0xC0, 0xAD]) := by
  decide

/-- Claim C24, amended: for a token `x` without a joiner, the stem of the stem
is a prefix of the stem (a second application only removes a further suffix)
whenever the stem has no joiner either; the stem has none when the UTF-16 view
of `x` has no joiner code unit, and this view has none when `x` is a string of
bytes without the sequences `C0 AD` and `C0 A7`, as every UTF-8 text is.  The
stem of the stem is the stem itself when `x` has no byte `D0` or `D1`, when its
UTF-16 view has no vowel, and whenever the first application returns `x`. -/
theorem C24_restem_removes_suffix (x : Str) (hj : ∀ c, c ∈ x → c ≠ 45 ∧ c ≠ 39) :
    ((∀ c, c ∈ Stemmer.stem x → c ≠ 45 ∧ c ≠ 39) →
      Stemmer.stem (Stemmer.stem x) <+: Stemmer.stem x) ∧
    ((∀ u, u ∈ Stemmer.toU16 x → u ≠ 45 ∧ u ≠ 39) →
      (∀ c, c ∈ Stemmer.stem x → c ≠ 45 ∧ c ≠ 39) ∧
        Stemmer.stem (Stemmer.stem x) <+: Stemmer.stem x) ∧
    ((∀ c, c ∈ x → c < 256) → Stemmer.noOverlongJoiner x = true →
      (∀ u, u ∈ Stemmer.toU16 x → u ≠ 45 ∧ u ≠ 39) ∧
        Stemmer.stem (Stemmer.stem x) <+: Stemmer.stem x) ∧
    ((∀ c, c ∈ x → c ≠ 0xD0 ∧ c ≠ 0xD1) → Stemmer.stem (Stemmer.stem x) = Stemmer.stem x) ∧
    ((∀ u, u ∈ Stemmer.toU16 x → Stemmer.isVowel u = false) →
      Stemmer.stem (Stemmer.stem x) = Stemmer.stem x) ∧
    (Stemmer.stem x = x → Stemmer.stem (Stemmer.stem x) = Stemmer.stem x) := by
  have key : (∀ u, u ∈ Stemmer.toU16 x → u ≠ 45 ∧ u ≠ 39) →
      (∀ c, c ∈ Stemmer.stem x → c ≠ 45 ∧ c ≠ 39) ∧
        Stemmer.stem (Stemmer.stem x) <+: Stemmer.stem x := fun hu =>
    ⟨Stemmer.stem_no_joiner_of_u16 x hj hu,
      Stemmer.stem_stem_pfx_of_stem x hj (Stemmer.stem_no_joiner_of_u16 x hj hu)⟩
  refine ⟨Stemmer.stem_stem_pfx_of_stem x hj, key, fun hb hn => ?_, fun h => ?_, fun h => ?_,
    fun h => ?_⟩
  · have hu := Stemmer.toU16_no_joiner x hb hj hn
    exact ⟨hu, (key hu).2⟩
  · rw [Stemmer.stem_noCyrillic x h, Stemmer.stem_noCyrillic x h]
  · have e : Stemmer.stem x = x := by
      rw [Stemmer.stem_noJoiner x hj]
      exact Stemmer.stemRu_noVowel x h
    rw [e, e]
  · rw [h, h]

/-- Claim C24, amended, at `красивая`, and at the stems of the word groups of
the tests, which a second application leaves as they are. -/
theorem C24_restem_removes_suffix_witness :
    (∀ c, c ∈ bytes "красивая" → c ≠ 45 ∧ c ≠ 39) ∧
    (∀ c, c ∈ Stemmer.stem (bytes "красивая") → c ≠ 45 ∧ c ≠ 39) ∧
    Stemmer.stem (Stemmer.stem (bytes "красивая")) <+: Stemmer.stem (bytes "красивая") ∧
    (∀ y, y ∈ [bytes "машин", bytes "документ", bytes "возможност", bytes "возможн",
        bytes "реализац", bytes "поиск", bytes "индексац"] → Stemmer.stem y = y) :=
  ⟨by decide, by decide,
    (C24_restem_removes_suffix (bytes "красивая") (by decide)).1 (by decide), by decide⟩

/-- Claim C28, as stated, fails: the token `я C0 AD к - а` has the parts
`я C0 AD к` and `а`, both without a joiner, and the one joiner `-`; its stem
is `s(я C0 AD к) - s(а)`, but `s(я C0 AD к)` is `я-к`, with a joiner that
`toU16` has decoded from the bytes `C0 AD`, so the stem `я-к-а` has two
joiners. -/
theorem C28_overlong_joiner_counterexample :
    Stemmer.joinParts id (bytes "я" ++ [0xC0, 0xAD] ++ bytes "к") [(45, bytes "а")]
      = bytes "я" ++ [0xC0, 0xAD] ++ bytes "к-а" ∧
    (∀ c, c ∈ bytes "я" ++ [0xC0, 0xAD] ++ bytes "к" → c ≠ 45 ∧ c ≠ 39) ∧
    (∀ c, c ∈ bytes "а" → c ≠ 45 ∧ c ≠ 39) ∧
    Stemmer.stem (bytes "я" ++ [0xC0, 0xAD] ++ bytes "к-а") = bytes "я-к-а" ∧
    Stemmer.stemPart (bytes "я" ++ [0xC0, 0xAD] ++ bytes "к") = bytes "я-к" ∧
    (bytes "я" ++ [0xC0, 0xAD] ++ bytes "к-а").filter Stemmer.isJoinerByte = [45] ∧
    (Stemmer.stem (bytes "я" ++ [0xC0, 0xAD] ++ bytes "к-а")).filter Stemmer.isJoinerByte
      = [45, 45] ∧
    (Stemmer.stem (bytes "я" ++ [0xC0, 0xAD] ++ bytes "к-а")).filter Stemmer.isJoinerByte
      ≠ (bytes "я" ++ [0xC0, 0xAD] ++ bytes "к-а").filter Stemmer.isJoinerByte := by
  decide

/-- Claim C28, amended: for a token `p0 j1 p1 ... jn pn` with at least one
joiner `-` or `'` and parts without a joiner (empty parts allowed), the stem is
`s(p0) j1 s(p1) ... jn s(pn)`, where `s` is the stemmer on a part that is not
empty and gives the empty string on the empty part; `s` is `stem` itself on the
parts.  The joiners of the stem are the joiners of the token, in the same
order, exactly when no `s(pi)` has a joiner; this is so for every token of
bytes whose parts hold no overlong encoding `C0 AD`, `C0 A7` of a joiner
(UTF-8 text has no byte `C0`). -/
theorem C28_stem_joined_parts (p0 : Str) (rest : List (Nat × Str)) (hne : rest ≠ [])
    (h0 : ∀ c, c ∈ p0 → c ≠ 45 ∧ c ≠ 39)
    (hr : ∀ jp, jp ∈ rest → (jp.1 = 45 ∨ jp.1 = 39) ∧ ∀ c, c ∈ jp.2 → c ≠ 45 ∧ c ≠ 39) :
    Stemmer.stem (Stemmer.joinParts id p0 rest) = Stemmer.joinParts Stemmer.stemPart p0 rest ∧
    Stemmer.stem (Stemmer.joinParts id p0 rest) = Stemmer.joinParts Stemmer.stem p0 rest ∧
    Stemmer.stemPart [] = [] ∧
    (Stemmer.joinParts id p0 rest).filter Stemmer.isJoinerByte = rest.map Prod.fst ∧
    ((Stemmer.stem (Stemmer.joinParts id p0 rest)).filter Stemmer.isJoinerByte
        = (Stemmer.joinParts id p0 rest).filter Stemmer.isJoinerByte ↔
      (∀ c, c ∈ Stemmer.stemPart p0 → c ≠ 45 ∧ c ≠ 39) ∧
        ∀ jp, jp ∈ rest → ∀ c, c ∈ Stemmer.stemPart jp.2 → c ≠ 45 ∧ c ≠ 39) ∧
    ((∀ c, c ∈ Stemmer.joinParts id p0 rest → c < 256) →
      Stemmer.noOverlongJoiner p0 = true →
      (∀ jp, jp ∈ rest → Stemmer.noOverlongJoiner jp.2 = true) →
      (Stemmer.stem (Stemmer.joinParts id p0 rest)).filter Stemmer.isJoinerByte
        = rest.map Prod.fst) := by
  have e := Stemmer.stem_joinParts p0 rest hne h0 hr
  have hin := Stemmer.filter_joinParts id p0 rest h0 hr
  refine ⟨e, ?_, rfl, hin, ?_, fun hb n0 nr => ?_⟩
  · rw [e]
    unfold Stemmer.joinParts
    rw [Stemmer.stemPart_eq_stem p0 h0]
    congr 1
    apply List.flatMap_congr
    intro jp hjp
    rw [Stemmer.stemPart_eq_stem jp.2 (hr jp hjp).2]
  · rw [e, hin]
    exact Stemmer.filter_joinParts_iff Stemmer.stemPart p0 rest (fun jp hjp => (hr jp hjp).1)
  · rw [e]
    have hb0 : ∀ c, c ∈ p0 → c < 256 := fun c hc => hb c (by
      unfold Stemmer.joinParts
      exact List.mem_append_left _ hc)
    have hbr : ∀ jp, jp ∈ rest → ∀ c, c ∈ jp.2 → c < 256 := fun jp hjp c hc => hb c (by
      unfold Stemmer.joinParts
      refine List.mem_append_right _ (List.mem_flatMap.mpr ⟨jp, hjp, ?_⟩)
      exact List.mem_cons_of_mem _ hc)
    refine Stemmer.filter_joinParts Stemmer.stemPart p0 rest
      (Stemmer.stemPart_no_joiner p0 hb0 h0 n0) (fun jp hjp => ?_)
    exact ⟨(hr jp hjp).1,
      Stemmer.stemPart_no_joiner jp.2 (hbr jp hjp) (hr jp hjp).2 (nr jp hjp)⟩

/-- Claim C28, amended, at `санкт-петербург`, at `rock'n'roll` and at
`-машины-`, whose first and last parts are empty: the stems are
`санкт-петербург`, `rock'n'roll` and `-машин-`. -/
theorem C28_stem_joined_parts_witness :
    Stemmer.stem (bytes "санкт-петербург") = bytes "санкт-петербург" ∧
    45 ∈ Stemmer.stem (bytes "санкт-петербург") ∧
    Stemmer.stem (bytes "rock" ++ 39 :: bytes "n" ++ 39 :: bytes "roll")
      = bytes "rock" ++ 39 :: bytes "n" ++ 39 :: bytes "roll" ∧
    39 ∈ Stemmer.stem (bytes "rock" ++ 39 :: bytes "n" ++ 39 :: bytes "roll") ∧
    Stemmer.stem (bytes "-машины-") = bytes "-машин-" ∧
    (Stemmer.stem (bytes "-машины-")).filter Stemmer.isJoinerByte = [45, 45] := by
  have h1 := (C28_stem_joined_parts (bytes "санкт") [(45, bytes "петербург")] (by decide)
    (by decide) (by decide)).1
  have h2 := (C28_stem_joined_parts (bytes "rock") [(39, bytes "n"), (39, bytes "roll")]
    (by decide) (by decide) (by decide)).1
  have h3 := (C28_stem_joined_parts [] [(45, bytes "машины"), (45, [])] (by decide)
    (by decide) (by decide)).1
  have h4 := (C28_stem_joined_parts [] [(45, bytes "машины"), (45, [])] (by decide)
    (by decide) (by decide)).2.2.2.2.2 (by decide) (by decide) (by decide)
  have e1 : Stemmer.joinParts id (bytes "санкт") [(45, bytes "петербург")]
      = bytes "санкт-петербург" := by decide
  have e2 : Stemmer.joinParts id (bytes "rock") [(39, bytes "n"), (39, bytes "roll")]
      = bytes "rock" ++ 39 :: bytes "n" ++ 39 :: bytes "roll" := by decide
  have e3 : Stemmer.joinParts id [] [(45, bytes "машины"), (45, [])] = bytes "-машины-" := by
    decide
  rw [e1] at h1
  rw [e2] at h2
  rw [e3] at h3 h4
  refine ⟨?_, ?_, ?_, ?_, ?_, h4⟩
  · rw [h1]; decide
  · rw [h1]; decide
  · rw [h2]; decide
  · rw [h2]; decide
  · rw [h3]; decide

end InfSearch
